import Mathlib

/-!
# genetta: genotype schema compiler, codec and binary crossover

A shallow embedding of the Go sources `genotype/binder.go`, `genotype/genes.go`,
`genotype/genotype.go` and `crossover/binary.go`.

Conventions of the embedding.
* Go `int` values are integers (`Int`); the one place where two caller-chosen integers
  are subtracted to order them (the sort comparator of `Build`) carries the 64-bit
  wrap-around explicitly.  `/` and `%` of Go truncate toward zero (`Int.tdiv`, `Int.tmod`).
* A run-time panic (index out of range, negative shift count, nil dereference) or an error
  return is the value `none`.
* Bytes are natural numbers below 256.  A byte slice whose memory is reached through
  `unsafe.Pointer` is a window (`off`, `len`) into the addressable memory `mem` behind it.
* Platform constants (size and alignment of the scalar kinds) are those of a 64-bit
  target, as the tests of the repository assume.
-/

namespace Genetta

/-! ## Scalar kinds -/

/-- The `reflect.Kind` values of the scalars a gene can be bound to. -/
inductive Kind where
  | bool | int | int8 | int16 | int32 | int64
  | uint | uint8 | uint16 | uint32 | uint64
  | float32 | float64
  deriving DecidableEq, Repr

/-- The result of `reflect.Type.Bits`: the width of an arithmetic type; it panics on `bool`. -/
def Kind.bits : Kind → Option Int
  | .bool => none
  | .int => some 64
  | .int8 => some 8
  | .int16 => some 16
  | .int32 => some 32
  | .int64 => some 64
  | .uint => some 64
  | .uint8 => some 8
  | .uint16 => some 16
  | .uint32 => some 32
  | .uint64 => some 64
  | .float32 => some 32
  | .float64 => some 64

/-- The result of `unsafe.Sizeof` for a scalar of the kind, in bytes. -/
def Kind.size : Kind → Nat
  | .bool => 1
  | .int => 8
  | .int8 => 1
  | .int16 => 2
  | .int32 => 4
  | .int64 => 8
  | .uint => 8
  | .uint8 => 1
  | .uint16 => 2
  | .uint32 => 4
  | .uint64 => 8
  | .float32 => 4
  | .float64 => 8

/-- The result of `reflect.Type.Align`; on a 64-bit target every scalar is aligned to its size. -/
def Kind.align (k : Kind) : Nat := k.size

/-! ## Loci and the best-fit-decreasing allocator (`binder.go`) -/

/-- The struct `locus` of `genes.go`. -/
structure locus where
  byteIndex : Int := 0
  bitOffset : Int := 0
  bitWidth : Int := 0
  deriving DecidableEq, Repr

/-- The struct `bestFitDecreasingAllocator`. -/
structure bestFitDecreasingAllocator where
  cellsFree : List Int := []
  deriving DecidableEq, Repr

def cellSize : Int := 64

def byteSize : Int := 8

def bytesPerCell : Int := cellSize.tdiv byteSize

/-- The method `nBytes`; indexing the last cell of an empty allocator panics. -/
def bestFitDecreasingAllocator.nBytes (bf : bestFitDecreasingAllocator) : Option Int :=
  match bf.cellsFree.getLast? with
  | none => none
  | some last => some ((bf.cellsFree.length : Int) * bytesPerCell - last.tdiv byteSize)

/-- The scanning loop of `offer`: `i` is the index of the head of the remaining cells,
`acc` the pair `(bestFitIdx, minLeftover)`. -/
def bestFitScan (bitWidth : Int) : List Int → Int → Int × Int → Int × Int
  | [], _, acc => acc
  | space :: rest, i, acc =>
    let left := space - bitWidth
    if left ≥ 0 ∧ left < acc.2 then bestFitScan bitWidth rest (i + 1) (i, left)
    else bestFitScan bitWidth rest (i + 1) acc

/-- The method `offer`: the allocator after the call and the locus as the call leaves it. -/
def bestFitDecreasingAllocator.offer (bf : bestFitDecreasingAllocator) (l : locus) :
    bestFitDecreasingAllocator × locus :=
  let bestFitIdx := (bestFitScan l.bitWidth bf.cellsFree 0 (-1, cellSize + 1)).1
  if bestFitIdx > -1 then
    let free := bf.cellsFree.getD bestFitIdx.toNat 0
    let cellOffset := cellSize - free
    ({ cellsFree := bf.cellsFree.set bestFitIdx.toNat (free - l.bitWidth) },
     { l with
       byteIndex := bestFitIdx * bytesPerCell + cellOffset.tdiv byteSize
       bitOffset := cellOffset.tmod byteSize })
  else
    ({ cellsFree := bf.cellsFree ++ [cellSize - l.bitWidth] },
     { l with byteIndex := (bf.cellsFree.length : Int) * bytesPerCell })

/-- Offering fresh loci of the given widths one after the other, as the loops of `Build` do:
the final allocator and the assigned loci in assignment order. -/
def offerFrom (bf : bestFitDecreasingAllocator) :
    List Int → bestFitDecreasingAllocator × List locus
  | [] => (bf, [])
  | w :: ws =>
    let r := bf.offer { bitWidth := w }
    let rest := offerFrom r.1 ws
    (rest.1, r.2 :: rest.2)

/-- The loci a new allocator assigns to a sequence of widths. -/
def offerAll (widths : List Int) : bestFitDecreasingAllocator × List locus :=
  offerFrom {} widths

/-- First bit of the window of a locus inside its chromosome. -/
def locus.start (l : locus) : Int := l.byteIndex * 8 + l.bitOffset

/-- One past the last bit of the window of a locus. -/
def locus.stop (l : locus) : Int := l.start + l.bitWidth

/-- The bit windows of two loci have no bit in common. -/
def locus.disjoint (a b : locus) : Prop := a.stop ≤ b.start ∨ b.stop ≤ a.start

instance (a b : locus) : Decidable (a.disjoint b) := by
  unfold locus.disjoint; infer_instance

/-! ## Operators attached to a chromosome -/

/-- A rational parameter of an operator (a rate, a probability, a mean), the number
`num / den`. -/
structure Fraction where
  num : Int
  den : Nat
  deriving DecidableEq, Repr

/-- The crossover operators of `crossover/binary.go` and `crossover/crossover.go`,
by constructor and parameters. -/
inductive CrossoverOp where
  | kPoints (k : Int)
  | uniform (rate : Fraction)
  | probability (p : Fraction) (inner : CrossoverOp)
  deriving DecidableEq, Repr

/-- The mutation operators of `mutation/binary.go`, by constructor and parameter. -/
inductive MutationOp where
  | bitString (n : Fraction)
  deriving DecidableEq, Repr

/-! ## Gene and chromosome specifications, the binder (`binder.go`) -/

/-- The struct `GeneSpec`; `type_` is `none` for the nil type of `emptyGeneSpec`. -/
structure GeneSpec where
  type_ : Option Kind := none
  isSlice : Bool := false
  cells : Int := 0
  index : Int := 0
  len : Int := 0
  bits : Int := 0
  phOffset : Nat := 0
  deriving DecidableEq, Repr

def emptyGeneSpec : GeneSpec := {}

def GeneSpec.Index (g : GeneSpec) (i : Int) : GeneSpec := { g with index := i }

def GeneSpec.Len (g : GeneSpec) (l : Int) : GeneSpec := { g with len := l }

/-- The method `Bits`: panics when `b` exceeds the width of the type (and when the type
has no width: nil, or `bool`). -/
def GeneSpec.Bits (g : GeneSpec) (b : Int) : Option GeneSpec :=
  match g.type_ with
  | none => none
  | some t =>
    match t.bits with
    | none => none
    | some tb => if b > tb then none else some { g with bits := b }

/-- The types a bound pointer can point to, as `binder.x` distinguishes them. -/
inductive GoType where
  | scalar (k : Kind)
  | complex64
  | complex128
  | array (n : Nat) (elem : GoType)
  | slice (elem : GoType)
  | unsupported
  deriving DecidableEq, Repr

/-- The method `binder.x`, with the pointer range check of `bind` inlined where `x` calls
`bind` for the first element of an array.  `rootSize` is `unsafe.Sizeof` of the root
value and `off` the distance of the pointer from the root. -/
def binderX (rootSize : Nat) : GoType → Nat → Option GeneSpec
  | .array n elem, off =>
    if n = 0 then some emptyGeneSpec
    else if off < rootSize then
      (binderX rootSize elem off).map fun g => { g with len := (n : Int) }
    else none
  | .slice elem, off =>
    (binderX rootSize elem off).map fun g =>
      { g with isSlice := true, cells := g.cells * g.len, len := 0 }
  | .scalar .bool, off =>
    some { type_ := some .bool, bits := 1, cells := 1, len := 1, phOffset := off }
  | .scalar k, off =>
    (k.bits).map fun b => { type_ := some k, bits := b, cells := 1, len := 1, phOffset := off }
  | .complex64, off =>
    some { type_ := some .float32, bits := (64 : Int).tdiv 2, cells := 2, len := 1,
           phOffset := off }
  | .complex128, off =>
    some { type_ := some .float64, bits := (128 : Int).tdiv 2, cells := 2, len := 1,
           phOffset := off }
  | .unsupported, _ => none

/-- The method `binder.bind` on a pointer to a value of type `t` at distance `off` from
the root: it panics when the pointer is outside the root value. -/
def bind (rootSize : Nat) (t : GoType) (off : Nat) : Option GeneSpec :=
  if off < rootSize then binderX rootSize t off else none

/-- The struct `ChromosomeSpec`. -/
structure ChromosomeSpec where
  type_ : Kind
  flags : Nat := 0
  genes : List GeneSpec := []
  crossover : Option CrossoverOp := none
  mutate : Option MutationOp := none
  deriving DecidableEq, Repr

/-- The type `Spec`. -/
abbrev Spec := List ChromosomeSpec

def ChromosomeSpec.Crossover (c : ChromosomeSpec) (op : CrossoverOp) : ChromosomeSpec :=
  { c with crossover := some op }

def ChromosomeSpec.Mutate (c : ChromosomeSpec) (op : MutationOp) : ChromosomeSpec :=
  { c with mutate := some op }

def addChromosome (k : Kind) (genes : List GeneSpec) : ChromosomeSpec :=
  { type_ := k, genes := genes }

/-- The function `crossover.SinglePoint`. -/
def SinglePoint : CrossoverOp := .kPoints 1

/-- The method `Spec.IntChromosome`. -/
def IntChromosome (genes : List GeneSpec) : ChromosomeSpec :=
  (addChromosome .int genes).Crossover (.probability ⟨3, 4⟩ SinglePoint)

/-- The method `Spec.Float32Chromosome`. -/
def Float32Chromosome (genes : List GeneSpec) : ChromosomeSpec :=
  addChromosome .float32 genes

/-- The method `Spec.Float64Chromosome`. -/
def Float64Chromosome (genes : List GeneSpec) : ChromosomeSpec :=
  addChromosome .float64 genes

/-! ## Genes, chromosomes, schema and `Build` -/

/-- The struct `Gene`; `dynamic` tells whether the resolver function is set. -/
structure Gene where
  type_ : Kind
  toLocus : locus := {}
  phenotypeOffset : Nat := 0
  dynamic : Bool := false
  dynamicIndex : Int := 0
  deriving DecidableEq, Repr

/-- The struct `Chromosome`. -/
structure Chromosome where
  type_ : Kind
  flags : Nat := 0
  genes : List Gene := []
  bytesLength : Int := 0
  bytesIndex : Int := 0
  crossover : Option CrossoverOp := none
  mutate : Option MutationOp := none
  deriving DecidableEq, Repr

/-- The struct `Schema`. -/
structure Schema where
  chromosomes : List Chromosome := []
  sizeInBytes : Int := 0
  deriving DecidableEq, Repr

def Schema.Size (s : Schema) : Int := s.sizeInBytes

/-- A signed 64-bit result of an integer operation: the value modulo 2^64 in
`[-2^63, 2^63)`. -/
def wrapInt64 (x : Int) : Int := (x + 2 ^ 63) % 2 ^ 64 - 2 ^ 63

/-- The comparator `Build` hands to `slices.SortStableFunc`. -/
def cmpBits (a b : GeneSpec) : Int := wrapInt64 (b.bits - a.bits)

/-- One step of insertion sort on the reversed sorted part: the new element moves left
past every element it is strictly smaller than under `cmp`. -/
def insertStable {α : Type} (cmp : α → α → Int) (x : α) : List α → List α
  | [] => [x]
  | y :: rest => if cmp x y < 0 then y :: insertStable cmp x rest else x :: y :: rest

/-- The library function `slices.SortStableFunc`, as the left-to-right insertion sort the
library runs (directly on up to 20 elements, and on blocks merged stably beyond). -/
def sortStableFunc {α : Type} (cmp : α → α → Int) (xs : List α) : List α :=
  (xs.foldl (fun acc x => insertStable cmp x acc) []).reverse

/-- State of the gene loops of `Build`: the allocator and the genes emitted so far. -/
abbrev BuildState := bestFitDecreasingAllocator × List Gene

/-- Body of the inner loop over the cells of one element of a dynamic (slice) gene spec. -/
def emitDynamic (g : GeneSpec) (t : Kind) (index : Int) (st : BuildState) (j : Nat) :
    BuildState :=
  let r := st.1.offer { bitWidth := g.bits }
  (r.1, st.2 ++ [{ type_ := t, phenotypeOffset := g.phOffset, dynamic := true,
                   dynamicIndex := index + (j : Int) * (t.align : Int), toLocus := r.2 }])

/-- Body of the loop over the scalars of an inline gene spec. -/
def emitStatic (g : GeneSpec) (t : Kind) (st : BuildState) (i : Nat) : BuildState :=
  let r := st.1.offer { bitWidth := g.bits }
  (r.1, st.2 ++ [{ type_ := t, phenotypeOffset := g.phOffset + i * t.align, toLocus := r.2 }])

/-- Body of the loop of `Build` over the gene specs of a chromosome; the nil type of
`emptyGeneSpec` panics at `g.type_.Align()`. -/
def buildGene (st : BuildState) (g : GeneSpec) : Option BuildState :=
  match g.type_ with
  | none => none
  | some t =>
    if g.isSlice then
      some ((List.range g.len.toNat).foldl
        (fun (s : BuildState) (i : Nat) =>
          (List.range g.cells.toNat).foldl
            (emitDynamic g t ((g.index + (i : Int)) * (t.align : Int) * g.cells)) s)
        st)
    else
      some ((List.range (g.len * g.cells).toNat).foldl (emitStatic g t) st)

/-- The gene loop of `Build` over the sorted gene specs of one chromosome. -/
def buildGenes : BuildState → List GeneSpec → Option BuildState
  | st, [] => some st
  | st, g :: gs =>
    match buildGene st g with
    | none => none
    | some st2 => buildGenes st2 gs

/-- Body of the loop of `Build` over the chromosome specs. -/
def buildChromosome (schema : Schema) (cs : ChromosomeSpec) : Option Schema :=
  match buildGenes ({}, []) (sortStableFunc cmpBits cs.genes) with
  | none => none
  | some (bf, genes) =>
    match bf.nBytes with
    | none => none
    | some n =>
      some { chromosomes := schema.chromosomes ++
               [{ type_ := cs.type_, bytesIndex := schema.sizeInBytes, crossover := cs.crossover,
                  mutate := cs.mutate, genes := genes, bytesLength := n }]
             sizeInBytes := schema.sizeInBytes + n }

/-- The loop of `Build` over the chromosome specs, from a partial schema. -/
def buildFrom : Schema → List ChromosomeSpec → Option Schema
  | schema, [] => some schema
  | schema, cs :: rest =>
    match buildChromosome schema cs with
    | none => none
    | some s2 => buildFrom s2 rest

/-- The function `Build`, applied to the value `s` the user function returned;
`rootChanged` tells whether the user function wrote to the template root, which
`validate` reports as an error. -/
def Build (rootChanged : Bool) (s : Spec) : Option Schema :=
  if rootChanged then none else buildFrom {} s

/-! ## Auxiliary notions for the statements -/

/-- Free space of cell `k`, a cell not opened yet counting as entirely free. -/
def freeAt (bf : bestFitDecreasingAllocator) (k : Nat) : Int := bf.cellsFree.getD k 64

/-- Every width of the list is a legal gene width. -/
def validWidths (ws : List Int) : Prop := ∀ w ∈ ws, 1 ≤ w ∧ w ≤ 64

instance (ws : List Int) : Decidable (validWidths ws) := by
  unfold validWidths; infer_instance

/-- The window of `l` lies in cell `k`, in the part that was free in state `bf0` and is
used in state `bf1`; its offset and width are those of a locus inside one cell. -/
def placedBetween (bf0 bf1 : bestFitDecreasingAllocator) (l : locus) : Prop :=
  ∃ k : Nat, k < bf1.cellsFree.length ∧
    64 * (k : Int) + 64 - freeAt bf0 k ≤ l.start ∧
    l.stop ≤ 64 * (k : Int) + 64 - freeAt bf1 k ∧
    1 ≤ l.bitWidth ∧ 0 ≤ l.bitOffset ∧ l.bitOffset < 8 ∧ l.bitOffset + l.bitWidth ≤ 64

/-- Number of genes `Build` emits for a gene spec. -/
def GeneSpec.count (g : GeneSpec) : Nat :=
  if g.isSlice then g.len.toNat * g.cells.toNat else (g.len * g.cells).toNat

/-- The widths `Build` offers to the allocator for a list of gene specs, in order. -/
def expandWidths (gs : List GeneSpec) : List Int :=
  gs.flatMap fun g => List.replicate g.count g.bits

/-- The genes `Build` emits for a gene spec of scalar kind `t`, before the allocator
assigns their loci (the locus carries the width only). -/
def GeneSpec.templates (g : GeneSpec) (t : Kind) : List Gene :=
  if g.isSlice then
    (List.range g.len.toNat).flatMap fun (i : Nat) =>
      (List.range g.cells.toNat).map fun (j : Nat) =>
        { type_ := t, phenotypeOffset := g.phOffset, dynamic := true,
          dynamicIndex := (g.index + (i : Int)) * (t.align : Int) * g.cells
            + (j : Int) * (t.align : Int),
          toLocus := { bitWidth := g.bits } }
  else
    (List.range (g.len * g.cells).toNat).map fun (i : Nat) =>
      { type_ := t, phenotypeOffset := g.phOffset + i * t.align,
        toLocus := { bitWidth := g.bits } }

/-- The genes emitted for a list of gene specs, before their loci are assigned. -/
def allTemplates (gs : List GeneSpec) : List Gene :=
  gs.flatMap fun g =>
    match g.type_ with
    | none => []
    | some t => g.templates t

/-- Offering the locus of one gene and appending the gene with the assigned locus. -/
def emitGene (st : BuildState) (tm : Gene) : BuildState :=
  let r := st.1.offer tm.toLocus
  (r.1, st.2 ++ [{ tm with toLocus := r.2 }])

/-- The gene `tm` with the locus `l`. -/
def Gene.withLocus (tm : Gene) (l : locus) : Gene := { tm with toLocus := l }

/-- The genes of the chromosome `Build` compiles from a chromosome spec: the emitted
genes of the sorted gene specs, each with the locus the allocator assigned to it. -/
def chromosomeGenes (cs : ChromosomeSpec) : List Gene :=
  List.zipWith Gene.withLocus (allTemplates (sortStableFunc cmpBits cs.genes))
    (offerAll (expandWidths (sortStableFunc cmpBits cs.genes))).2

/-- The chromosome `c` is what `Build` compiles from the chromosome spec `cs`, up to its
position in the genome. -/
def compiledFrom (cs : ChromosomeSpec) (c : Chromosome) : Prop :=
  (∀ g ∈ cs.genes, g.type_ ≠ none) ∧
  c.genes = chromosomeGenes cs ∧
  (offerAll (expandWidths (sortStableFunc cmpBits cs.genes))).1.nBytes = some c.bytesLength ∧
  c.type_ = cs.type_ ∧ c.crossover = cs.crossover ∧ c.mutate = cs.mutate ∧ c.flags = 0

/-- The byte regions of the chromosomes follow one another from byte `start` on. -/
def regionsFrom : Int → List Chromosome → Prop
  | _, [] => True
  | start, c :: cs => c.bytesIndex = start ∧ regionsFrom (start + c.bytesLength) cs

/-- Every gene spec of the spec asks for a legal width, 1 to 64 bits. -/
def Spec.validBits (s : Spec) : Prop := ∀ cs ∈ s, ∀ g ∈ cs.genes, 1 ≤ g.bits ∧ g.bits ≤ 64

instance (s : Spec) : Decidable (Spec.validBits s) := by
  unfold Spec.validBits; infer_instance

/-- The first bits of windows laid one after the other from bit `s` on. -/
def seqStarts : Int → List Int → List Int
  | _, [] => []
  | s, w :: ws => s :: seqStarts (s + w) ws

/-- With `f` bits free in the last cell, each width of the list either fits in what is
left of the last cell or meets a last cell that is exactly full. -/
def fitsSeq : Int → List Int → Prop
  | _, [] => True
  | f, w :: ws =>
    1 ≤ w ∧ w ≤ 64 ∧ ((w ≤ f ∧ fitsSeq (f - w) ws) ∨ (f = 0 ∧ fitsSeq (64 - w) ws))

/-- Every cell but the last is full and the last cell has `f` bits free (`f = 0` for an
allocator without cells). -/
def compactWith (bf : bestFitDecreasingAllocator) (f : Int) : Prop :=
  (∀ k, 0 ≤ freeAt bf k ∧ freeAt bf k ≤ 64) ∧
  (∀ k, k + 1 < bf.cellsFree.length → freeAt bf k = 0) ∧
  (bf.cellsFree.length = 0 → f = 0) ∧
  (1 ≤ bf.cellsFree.length → f = freeAt bf (bf.cellsFree.length - 1))

/-- The natural widths of the scalar kinds. -/
def naturalWidth (w : Int) : Prop := w = 1 ∨ w = 8 ∨ w = 16 ∨ w = 32 ∨ w = 64

instance (w : Int) : Decidable (naturalWidth w) := by
  unfold naturalWidth; infer_instance

/-! ## Schemas of the tests (`binder_test.go`) -/

/-- The gene specs of one chromosome, when every `bind` of the list succeeded. -/
def allBound : List (Option GeneSpec) → Option (List GeneSpec)
  | [] => some []
  | none :: _ => none
  | some g :: rest => (allBound rest).map fun gs => g :: gs

/-- The spec function of `buildSchema` in `binder_test.go`, on the 144-byte `TestStruct`
(field offsets of a 64-bit target). -/
def buildSchemaSpec : Option Spec := do
  let c1 ← allBound
    [bind 144 (.scalar .bool) 0, bind 144 (.scalar .int) 8, bind 144 (.scalar .int64) 16,
     bind 144 (.scalar .int32) 24, bind 144 (.scalar .int16) 28, bind 144 (.scalar .int8) 30,
     bind 144 (.scalar .uint) 32, bind 144 (.scalar .uint64) 40,
     bind 144 (.scalar .uint32) 48, bind 144 (.scalar .uint16) 52,
     bind 144 (.scalar .uint8) 54]
  let c2 ← allBound [bind 144 (.scalar .float32) 56, bind 144 .complex64 72]
  let c3 ← allBound [bind 144 (.scalar .float64) 64, bind 144 .complex128 80]
  let c4 ← allBound
    [bind 144 (.array 3 (.scalar .bool)) 96, bind 144 (.array 3 (.scalar .int16)) 100]
  let c5 ← allBound
    [bind 144 (.array 3 (.scalar .float32)) 108, bind 144 (.array 3 .complex64) 120]
  pure [IntChromosome c1, Float32Chromosome c2, Float64Chromosome c3, IntChromosome c4,
        Float32Chromosome c5]

/-- The spec function of `TestBuildOptions`: a `[10]int` root, elements 0..4 at 12 bits
and elements 5..9 at 4 bits. -/
def buildOptionsSpec : Option Spec := do
  let g1 ← bind 80 (.array 10 (.scalar .int)) 0
  let g1 ← (g1.Len 5).Bits 12
  let g2 ← bind 80 (.scalar .int) 40
  let g2 ← (g2.Len 5).Bits 4
  pure [IntChromosome [g1], IntChromosome [g2]]

/-- The spec function of `TestBuildSlice`: a `[]int` root (a 24-byte slice header) bound
with `bind(ph).Index(i0).Len(n).Bits(b)` in one int chromosome. -/
def buildSliceSpec (i0 n b : Int) : Option Spec := do
  let g ← bind 24 (.slice (.scalar .int)) 0
  let g ← ((g.Index i0).Len n).Bits b
  pure [IntChromosome [g]]

/-- A spec function that binds one `uint8` root and asks for the width `b`. -/
def oneByteSpec (b : Int) : Option Spec := do
  let g ← bind 1 (.scalar .uint8) 0
  let g ← g.Bits b
  pure [IntChromosome [g]]

/-- A spec an `Option` computation returned, the empty spec for a panic. -/
def specOf (s : Option Spec) : Spec := s.getD []

/-- The schema `Build` returns for a spec, the empty schema for a panic or an error. -/
def schemaOf (s : Spec) : Schema := (Build false s).getD {}

/-- The bit width of the locus of a gene. -/
def Gene.bitWidth (g : Gene) : Int := g.toLocus.bitWidth

/-- The chromosome `c` holds the genes of the chromosome spec `cs` widest first: the gene
specs are taken in an order that is a permutation of the declared one, by descending
width, equal widths in declaration order; the genes of `c` have the widths of the specs in
that order, hence non-increasing; and when every width is natural the windows follow one
another from bit 0 without gaps and `c` takes the bits rounded up to whole bytes. -/
def widestFirst (cs : ChromosomeSpec) (c : Chromosome) : Prop :=
  (sortStableFunc cmpBits cs.genes).Perm cs.genes ∧
  (sortStableFunc cmpBits cs.genes).Pairwise (fun a b => b.bits ≤ a.bits) ∧
  (∀ w, (sortStableFunc cmpBits cs.genes).filter (fun g => decide (g.bits = w))
      = cs.genes.filter (fun g => decide (g.bits = w))) ∧
  c.genes.map Gene.bitWidth = expandWidths (sortStableFunc cmpBits cs.genes) ∧
  (c.genes.map Gene.bitWidth).Pairwise (fun a b => b ≤ a) ∧
  ((∀ g ∈ cs.genes, naturalWidth g.bits) →
    c.genes.map (fun g => g.toLocus.start) = seqStarts 0 (c.genes.map Gene.bitWidth) ∧
    c.bytesLength = ((c.genes.map Gene.bitWidth).sum + 7) / 8)

/-! ## The codec (`genes.go`, `genotype.go`) -/

/-- A Go `[]byte` whose bytes are also reached through `unsafe.Pointer`: `len` bytes
starting at `mem[off]`; `mem` is the addressable memory the slice points into, which
goes on behind the slice. -/
structure ByteSlice where
  mem : List Nat
  off : Nat := 0
  len : Nat
  deriving DecidableEq, Repr

/-- The slice expression `data[i:]`; it panics unless `0 ≤ i ≤ len(data)`. -/
def ByteSlice.from (data : ByteSlice) (i : Int) : Option ByteSlice :=
  if 0 ≤ i ∧ i ≤ data.len then
    some { mem := data.mem, off := data.off + i.toNat, len := data.len - i.toNat }
  else none

/-- The number a little-endian byte string denotes. -/
def leValue : List Nat → Nat
  | [] => 0
  | b :: bs => b + 256 * leValue bs

/-- The `n` low bytes of `v`, little-endian. -/
def leBytes : Nat → Nat → List Nat
  | 0, _ => []
  | n + 1, v => v % 256 :: leBytes n (v / 256)

/-- The generic function `read[T]` for a `T` of `size` bytes: the scalar at `pos`,
zero-extended to 64 bits; memory that is not there faults. -/
def read (size : Nat) (mem : List Nat) (pos : Nat) : Option Nat :=
  if pos + size ≤ mem.length then some (leValue ((mem.drop pos).take size)) else none

/-- The generic function `write[T]` for a `T` of `size` bytes: the low `size` bytes of
`value` are stored at `pos`. -/
def write (size : Nat) (mem : List Nat) (pos : Nat) (value : Nat) : Option (List Nat) :=
  if pos + size ≤ mem.length then
    some (mem.take pos ++ leBytes size value ++ mem.drop (pos + size))
  else none

/-- The constant `mask`, all 64 bits set. -/
def mask : Nat := 2 ^ 64 - 1

/-- The 64-bit complement `^x`. -/
def not64 (x : Nat) : Nat := mask ^^^ x

/-- The 64-bit shift `x << n` for a count `n ≥ 0`. -/
def shl64 (x n : Nat) : Nat := (x <<< n) % 2 ^ 64

/-- The method `locus.read`: the index expression `data[l.byteIndex]` is bounds-checked,
the 8-byte load through the pointer is not; a negative shift count panics. -/
def locus.read (l : locus) (data : ByteSlice) : Option Nat :=
  if l.byteIndex < 0 ∨ (data.len : Int) ≤ l.byteIndex then none
  else
    match Genetta.read 8 data.mem (data.off + l.byteIndex.toNat) with
    | none => none
    | some value =>
      if l.bitOffset < 0 then none
      else if l.bitWidth < 0 then none
      else some ((value >>> l.bitOffset.toNat) &&& not64 (shl64 mask l.bitWidth.toNat))

/-- The method `locus.write`. -/
def locus.write (l : locus) (data : ByteSlice) (value : Nat) : Option ByteSlice :=
  if l.bitWidth < 0 then none
  else
    let m := not64 (shl64 mask l.bitWidth.toNat)
    let value := value &&& m
    if l.byteIndex < 0 ∨ (data.len : Int) ≤ l.byteIndex then none
    else
      match Genetta.read 8 data.mem (data.off + l.byteIndex.toNat) with
      | none => none
      | some target =>
        if l.bitOffset < 0 then none
        else
          let target := target &&& not64 (shl64 m l.bitOffset.toNat)
          let target := target ||| shl64 value l.bitOffset.toNat
          match Genetta.write 8 data.mem (data.off + l.byteIndex.toNat) target with
          | none => none
          | some mem2 => some { data with mem := mem2 }

/-- A phenotype value in memory: the bytes of the root value and, when the root is a
sequence, the bytes of the backing array its header points to. -/
structure Phenotype where
  root : List Nat
  elems : List Nat := []
  deriving DecidableEq, Repr

/-- The scalar slot of a gene, read as `Gene.Encode` reads it: at `phenotypeOffset` in the
root, or for a dynamic gene at `dynamicIndex` bytes behind the data pointer of the
sequence. -/
def Gene.load (g : Gene) (ph : Phenotype) : Option Nat :=
  if g.dynamic then
    if g.dynamicIndex < 0 then none
    else Genetta.read g.type_.size ph.elems g.dynamicIndex.toNat
  else Genetta.read g.type_.size ph.root g.phenotypeOffset

/-- The scalar slot of a gene, written as `Gene.Decode` writes it. -/
def Gene.store (g : Gene) (ph : Phenotype) (value : Nat) : Option Phenotype :=
  if g.dynamic then
    if g.dynamicIndex < 0 then none
    else
      (Genetta.write g.type_.size ph.elems g.dynamicIndex.toNat value).map fun e =>
        { ph with elems := e }
  else
    (Genetta.write g.type_.size ph.root g.phenotypeOffset value).map fun r =>
      { ph with root := r }

/-- The method `Gene.Encode`. -/
def Gene.Encode (g : Gene) (ph : Phenotype) (data : ByteSlice) : Option ByteSlice :=
  match g.load ph with
  | none => none
  | some value => g.toLocus.write data value

/-- The method `Gene.Decode`. -/
def Gene.Decode (g : Gene) (ph : Phenotype) (data : ByteSlice) : Option Phenotype :=
  match g.toLocus.read data with
  | none => none
  | some value => g.store ph value

/-- The inner loop of `Schema.Encode` over the genes of the chromosome at `bytesIndex`. -/
def encodeGenes (ph : Phenotype) (bytesIndex : Int) : ByteSlice → List Gene → Option ByteSlice
  | data, [] => some data
  | data, g :: gs =>
    match data.from bytesIndex with
    | none => none
    | some sub =>
      match g.Encode ph sub with
      | none => none
      | some sub2 => encodeGenes ph bytesIndex { data with mem := sub2.mem } gs

/-- The loop of `Schema.Encode` over the chromosomes. -/
def encodeChromosomes (ph : Phenotype) : ByteSlice → List Chromosome → Option ByteSlice
  | data, [] => some data
  | data, c :: cs =>
    match encodeGenes ph c.bytesIndex data c.genes with
    | none => none
    | some data2 => encodeChromosomes ph data2 cs

/-- The method `Schema.Encode`: the genome buffer after the call. -/
def Schema.Encode (s : Schema) (ph : Phenotype) (data : ByteSlice) : Option ByteSlice :=
  encodeChromosomes ph data s.chromosomes

/-- The inner loop of `Schema.Decode` over the genes of the chromosome at `bytesIndex`. -/
def decodeGenes (data : ByteSlice) (bytesIndex : Int) : Phenotype → List Gene → Option Phenotype
  | ph, [] => some ph
  | ph, g :: gs =>
    match data.from bytesIndex with
    | none => none
    | some sub =>
      match g.Decode ph sub with
      | none => none
      | some ph2 => decodeGenes data bytesIndex ph2 gs

/-- The loop of `Schema.Decode` over the chromosomes. -/
def decodeChromosomes (data : ByteSlice) : Phenotype → List Chromosome → Option Phenotype
  | ph, [] => some ph
  | ph, c :: cs =>
    match decodeGenes data c.bytesIndex ph c.genes with
    | none => none
    | some ph2 => decodeChromosomes data ph2 cs

/-- The method `Schema.Decode`: the phenotype after the call. -/
def Schema.Decode (s : Schema) (ph : Phenotype) (data : ByteSlice) : Option Phenotype :=
  decodeChromosomes data ph s.chromosomes

/-- The bytes of a list of 64-bit `int` values in memory. -/
def intsToBytes (xs : List Nat) : List Nat := xs.flatMap (leBytes 8)

/-! ## Binary crossover (`crossover/binary.go`) -/

/-- The builtin `copy(dst, src)` on byte slices: `dst` after the call. -/
def copyBytes (dst src : List Nat) : List Nat := src.take dst.length ++ dst.drop src.length

/-- The statement `copy(dst[lo:hi], src[lo:hi])`: `dst` after it; the slice expressions
panic unless `0 ≤ lo ≤ hi` and `hi` is within both slices. -/
def copyRange (dst src : List Nat) (lo hi : Int) : Option (List Nat) :=
  if 0 ≤ lo ∧ lo ≤ hi ∧ hi ≤ dst.length ∧ hi ≤ src.length then
    some (dst.take lo.toNat ++ (src.drop lo.toNat).take (hi.toNat - lo.toNat)
      ++ dst.drop hi.toNat)
  else none

/-- The statement `copy(dst[lo:], src[lo:])`: `dst` after it. -/
def copyTail (dst src : List Nat) (lo : Int) : Option (List Nat) :=
  if 0 ≤ lo ∧ lo ≤ dst.length ∧ lo ≤ src.length then
    some (dst.take lo.toNat ++ copyBytes (dst.drop lo.toNat) (src.drop lo.toNat))
  else none

/-- The byte complement `^x`. -/
def not8 (x : Nat) : Nat := 255 ^^^ x

/-- The function `flip`: the bits of `mask` are exchanged between `a[i]` and `b[i]`. -/
def flip (a b : List Nat) (i : Nat) (mask : Nat) : Option (List Nat × List Nat) :=
  if i < a.length ∧ i < b.length then
    let av := a.getD i 0
    let bv := b.getD i 0
    some (a.set i ((av &&& not8 mask) ||| (bv &&& mask)),
          b.set i ((bv &&& not8 mask) ||| (av &&& mask)))
  else none

/-- The struct `kPoints`. -/
structure kPoints where
  k : Int
  xps : List Nat
  buffer : List Nat := []
  deriving DecidableEq, Repr

/-- The constructor `KPoints`; it panics for `k ≤ 0`. -/
def KPoints (k : Int) : Option kPoints :=
  if k ≤ 0 then none else some { k := k, xps := List.replicate k.toNat 0 }

/-- The method `swapBuffer` on the buffer. -/
def swapBuffer (buffer : List Nat) (i j : Nat) : List Nat :=
  (buffer.set i (buffer.getD j 0)).set j (buffer.getD i 0)

/-- The loop of the library function `rand.Shuffle(n, swap)`, for `i = m, m-1, ..., 1`:
`swap(i, j)` with a random `j` in `[0, i]`, here `draw i` reduced modulo `i + 1`. -/
def shuffleSteps (draw : Nat → Nat) : Nat → List Nat → List Nat
  | 0, buffer => buffer
  | m + 1, buffer => shuffleSteps draw m (swapBuffer buffer (m + 1) (draw (m + 1) % (m + 2)))

/-- The library function `rand.Shuffle(n, s.swapBuffer)` for `n ≥ 0`: the buffer after
the call, as a function of the random draws. -/
def randShuffle (draw : Nat → Nat) (n : Nat) (buffer : List Nat) : List Nat :=
  shuffleSteps draw (n - 1) buffer

/-- The method `randomXPoints`: the operator after the call (its `xps` are the points
returned).  A negative range panics in the slice expression or in `rand.Shuffle`. -/
def kPoints.randomXPoints (s : kPoints) (draw : Nat → Nat) (totBits : Int) : Option kPoints :=
  let xpRange := totBits - 2
  if xpRange < 0 then none
  else
    let buffer :=
      if (s.buffer.length : Int) = xpRange then s.buffer
      else
        let b := if (s.buffer.length : Int) < xpRange then List.replicate xpRange.toNat 0
                 else s.buffer
        (List.range xpRange.toNat).map (fun i => 1 + i) ++ b.drop xpRange.toNat
    let buffer := randShuffle draw xpRange.toNat buffer
    some { s with buffer := buffer, xps := List.insertionSort (· ≤ ·) (copyBytes s.xps buffer) }

/-- The state of the loop of `Crossover` over the points. -/
structure CrossState where
  child1 : List Nat
  child2 : List Nat
  prevXByte : Int
  deriving DecidableEq, Repr

/-- The body of the loop of `Crossover` for the point `xp` at index `i`. -/
def crossPoint (mom dad : List Nat) (st : CrossState) (i : Nat) (xp : Nat) :
    Option CrossState :=
  let xByte := xp / 8
  let xBits := xp % 8
  let mask := not8 ((255 <<< xBits) % 256)
  if i % 2 = 1 then
    if (xByte : Int) = st.prevXByte then
      (flip st.child1 st.child2 xByte (not8 mask)).map fun r =>
        { child1 := r.1, child2 := r.2, prevXByte := xByte }
    else
      match copyRange st.child1 dad (st.prevXByte + 1) xByte with
      | none => none
      | some c1 =>
        match copyRange st.child2 mom (st.prevXByte + 1) xByte with
        | none => none
        | some c2 =>
          (flip c1 c2 xByte mask).map fun r =>
            { child1 := r.1, child2 := r.2, prevXByte := xByte }
  else
    (flip st.child1 st.child2 xByte (not8 mask)).map fun r =>
      { child1 := r.1, child2 := r.2, prevXByte := xByte }

/-- The loop of `Crossover` over the points, from index `i` on. -/
def crossLoop (mom dad : List Nat) : List Nat → Nat → CrossState → Option CrossState
  | [], _, st => some st
  | xp :: rest, i, st =>
    match crossPoint mom dad st i xp with
    | none => none
    | some st2 => crossLoop mom dad rest (i + 1) st2

/-- What a call of `Crossover` leaves behind. -/
inductive CrossResult where
  | done (op : kPoints) (child1 child2 : List Nat)
  | failed (op : kPoints) (child1 child2 : List Nat)
  | panicked
  deriving DecidableEq, Repr

/-- The method `kPoints.Crossover`; `draw` is the outcome of the random source. -/
def kPoints.Crossover (s : kPoints) (draw : Nat → Nat) (mom dad child1 child2 : List Nat) :
    CrossResult :=
  let totBits : Int := (mom.length : Int) * 8
  if s.k ≥ totBits then .failed s child1 child2
  else
    let child1 := copyBytes child1 mom
    let child2 := copyBytes child2 dad
    match s.randomXPoints draw totBits with
    | none => .panicked
    | some s2 =>
      match crossLoop mom dad s2.xps 0 { child1 := child1, child2 := child2, prevXByte := -1 } with
      | none => .panicked
      | some st =>
        if s.k % 2 = 1 then
          match copyTail st.child1 dad (st.prevXByte + 1) with
          | none => .panicked
          | some c1 =>
            match copyTail st.child2 mom (st.prevXByte + 1) with
            | none => .panicked
            | some c2 => .done s2 c1 c2
        else .done s2 st.child1 st.child2

/-- Bit `b` of a byte string, the low bit of each byte first. -/
def bitAt (mem : List Nat) (b : Nat) : Bool := (mem.getD (b / 8) 0).testBit (b % 8)

/-- Number of crossover points at or below bit `b`. -/
def pointsUpTo (xps : List Nat) (b : Nat) : Nat := (xps.filter fun x => decide (x ≤ b)).length

/-- The positions where a child changes the parent it copies: bit `b` is a transition when
the child agrees with `orig` on exactly one of the bits `b - 1` and `b` (for `b = 0`:
when it differs from `orig` on bit 0). -/
def transitions (orig child : List Nat) : List Nat :=
  (List.range (8 * orig.length)).filter fun b =>
    (bitAt child b != bitAt orig b) != (b != 0 && (bitAt child (b - 1) != bitAt orig (b - 1)))

/-- The children hold the bits of the parents, exchanged exactly where `s` says so. -/
def childrenMatch (mom dad c1 c2 : List Nat) (s : Nat → Bool) : Prop :=
  ∀ b, bitAt c1 b = (if s b = true then bitAt dad b else bitAt mom b) ∧
       bitAt c2 b = (if s b = true then bitAt mom b else bitAt dad b)

/-- Whether bit `b` is exchanged after the loop of `Crossover` has handled the points `P`
and reached byte `prev`: bytes beyond `prev` are untouched, a bit up to there is
exchanged when an odd number of points is at or below it. -/
def swState (P : List Nat) (prev : Int) (b : Nat) : Bool :=
  decide (((b / 8 : Nat) : Int) ≤ prev ∧ pointsUpTo P b % 2 = 1)

/-- The invariant of the loop of `Crossover` after the points `P`. -/
def CrossInv (mom dad : List Nat) (P : List Nat) (st : CrossState) : Prop :=
  st.child1.length = mom.length ∧ st.child2.length = mom.length ∧
  -1 ≤ st.prevXByte ∧ st.prevXByte < mom.length ∧
  (∀ p ∈ P, ((p / 8 : Nat) : Int) ≤ st.prevXByte) ∧
  (st.prevXByte = -1 ∨ ∃ p ∈ P, ((p / 8 : Nat) : Int) = st.prevXByte) ∧
  childrenMatch mom dad st.child1 st.child2 (swState P st.prevXByte)

/-! ## Operators and draws of the crossover tests (`binary_test.go`) -/

/-- An outcome of the random source, by the value drawn at each step. -/
def testDraw : Nat → Nat := fun i => i * i * 7 + 3

/-- The operator `KPoints(k)` as the tests construct it (`k ≥ 1`). -/
def newKPoints (k : Nat) : kPoints := (KPoints (k + 1 : Nat)).getD { k := 1, xps := [0] }

/-- The operator after it drew its points for parents of 4 bytes under `testDraw`. -/
def drawnKPoints (k : Nat) : kPoints :=
  ((newKPoints k).randomXPoints testDraw 32).getD (newKPoints k)

/-- The crossover points a call of `Crossover` used, when it returned without error. -/
def CrossResult.points : CrossResult → Option (List Nat)
  | .done op _ _ => some op.xps
  | _ => none

/-! ## Notions for the statements about the codec -/

/-- Every element of the list is a byte. -/
def bytesOk (mem : List Nat) : Prop := ∀ b ∈ mem, b < 256

instance (mem : List Nat) : Decidable (bytesOk mem) := by
  unfold bytesOk; infer_instance

/-- First bit, in the addressable memory of `data`, of the window of gene locus `l` of
the chromosome that starts at byte `base` of `data`. -/
def absStart (l : locus) (base : Int) (data : ByteSlice) : Nat :=
  8 * (data.off + base.toNat + l.byteIndex.toNat) + l.bitOffset.toNat

/-- The locus `l` of the chromosome at byte `base` can be read and written in `data`:
the index expressions are in range, the 8 bytes of the load are addressable, and the
window is inside the 8 bytes. -/
def locusOk (l : locus) (base : Int) (data : ByteSlice) : Prop :=
  0 ≤ base ∧ base ≤ data.len ∧ 0 ≤ l.byteIndex ∧ base + l.byteIndex < data.len ∧
  data.off + base.toNat + l.byteIndex.toNat + 8 ≤ data.mem.length ∧
  0 ≤ l.bitOffset ∧ 0 ≤ l.bitWidth ∧ l.bitOffset + l.bitWidth ≤ 64

/-- A gene together with the first byte of its chromosome in the genome. -/
abbrev PlacedGene := Int × Gene

/-- The genes of a schema in the order `Encode` and `Decode` visit them, each with the
`bytesIndex` of its chromosome. -/
def Schema.placed (s : Schema) : List PlacedGene :=
  s.chromosomes.flatMap fun c => c.genes.map fun g => (c.bytesIndex, g)

/-- The loops of `Schema.Encode` on the genes in visiting order. -/
def encodePlaced (ph : Phenotype) : ByteSlice → List PlacedGene → Option ByteSlice
  | data, [] => some data
  | data, pg :: rest =>
    match data.from pg.1 with
    | none => none
    | some sub =>
      match pg.2.Encode ph sub with
      | none => none
      | some sub2 => encodePlaced ph { data with mem := sub2.mem } rest

/-- The loops of `Schema.Decode` on the genes in visiting order. -/
def decodePlaced (data : ByteSlice) : Phenotype → List PlacedGene → Option Phenotype
  | ph, [] => some ph
  | ph, pg :: rest =>
    match data.from pg.1 with
    | none => none
    | some sub =>
      match pg.2.Decode ph sub with
      | none => none
      | some ph2 => decodePlaced data ph2 rest

/-- The bit windows of two placed genes, taken in the memory of `data`, are disjoint. -/
def windowsDisjoint (data : ByteSlice) (a b : PlacedGene) : Prop :=
  (absStart a.2.toLocus a.1 data : Int) + a.2.toLocus.bitWidth ≤ absStart b.2.toLocus b.1 data ∨
  (absStart b.2.toLocus b.1 data : Int) + b.2.toLocus.bitWidth ≤ absStart a.2.toLocus a.1 data

/-- The memory a gene addresses in the phenotype: the backing array of the sequence for
a dynamic gene, the root value otherwise. -/
def Phenotype.region (ph : Phenotype) (dynamic : Bool) : List Nat :=
  if dynamic then ph.elems else ph.root

/-- The byte at which the slot of a gene starts in its region. -/
def Gene.slotPos (g : Gene) : Nat :=
  if g.dynamic then g.dynamicIndex.toNat else g.phenotypeOffset

/-- The slot of the gene lies inside the phenotype. -/
def Gene.slotOk (g : Gene) (ph : Phenotype) : Prop :=
  (g.dynamic = true → 0 ≤ g.dynamicIndex) ∧
  g.slotPos + g.type_.size ≤ (ph.region g.dynamic).length

/-- Two genes are bound to slots without a byte in common. -/
def Gene.slotDisjoint (a b : Gene) : Prop :=
  a.dynamic ≠ b.dynamic ∨ a.slotPos + a.type_.size ≤ b.slotPos ∨
  b.slotPos + b.type_.size ≤ a.slotPos

/-- The phenotype is made of bytes. -/
def Phenotype.ok (ph : Phenotype) : Prop := bytesOk ph.root ∧ bytesOk ph.elems

/-- Two phenotypes have the same shape: roots and backing arrays of equal sizes. -/
def Phenotype.sameShape (p q : Phenotype) : Prop :=
  p.root.length = q.root.length ∧ p.elems.length = q.elems.length

/-- All genes of a schema, in the order of `Encode` and `Decode`. -/
def Schema.genes (s : Schema) : List Gene := s.chromosomes.flatMap fun c => c.genes

/-- The width `bind` gives a gene of the kind: one bit for `bool`, the width of the type
otherwise. -/
def Kind.typeWidth : Kind → Int
  | .bool => 1
  | k => 8 * (k.size : Int)

/-- The gene keeps the natural width of its scalar kind. -/
def Gene.keepsTypeWidth (g : Gene) : Prop := g.toLocus.bitWidth = g.type_.typeWidth

instance (g : Gene) (ph : Phenotype) : Decidable (g.slotOk ph) := by
  unfold Gene.slotOk; infer_instance

instance (a b : Gene) : Decidable (a.slotDisjoint b) := by
  unfold Gene.slotDisjoint; infer_instance

instance (ph : Phenotype) : Decidable ph.ok := by
  unfold Phenotype.ok; infer_instance

instance (g : Gene) : Decidable g.keepsTypeWidth := by
  unfold Gene.keepsTypeWidth; infer_instance

/-- A `[10]int` value in memory. -/
def tenInts (xs : List Nat) : Phenotype := { root := intsToBytes xs }

/-- A zeroed genome buffer of `n` bytes in memory that goes on for 7 more bytes. -/
def genomeBuffer (n : Nat) : ByteSlice := { mem := List.replicate (n + 7) 0, len := n }

instance (l : locus) (base : Int) (data : ByteSlice) : Decidable (locusOk l base data) := by
  unfold locusOk; infer_instance

/-- The genome bytes of `TestBuildOptions`. -/
def buildOptionsGenome : List Nat :=
  [0x11, 0x21, 0x22, 0x33, 0x43, 0x44, 0x55, 0x05, 0x21, 0x43, 0x05]

/-- A `[]int` value in memory: the slice header `hdr` and the backing array holding the
elements `xs`, 8 bytes each. -/
def intSlice (hdr : List Nat) (xs : List Nat) : Phenotype :=
  { root := hdr, elems := intsToBytes xs }

/-- Element `i` of the `[]int` value of a phenotype. -/
def Phenotype.intAt (ph : Phenotype) (i : Nat) : Option Nat :=
  Genetta.read 8 ph.elems (8 * i)

/-- The values `Encode` then `Decode` leave in the slice `d`, for the schema of
`buildSliceSpec i0 n b`, the source slice `v` and a zeroed buffer of `Size()` bytes. -/
def sliceRoundtrip (i0 n b : Int) (v d : List Nat) : Option Phenotype :=
  let schema := schemaOf (specOf (buildSliceSpec i0 n b))
  match schema.Encode (intSlice (List.replicate 24 0) v) (genomeBuffer schema.Size.toNat) with
  | none => none
  | some buf => schema.Decode (intSlice (List.replicate 24 0) d) buf

/-- The gene spec that `bind(ph).Index(i0).Len(n).Bits(b)` leaves for a `[]int` root. -/
def sliceGeneSpec (i0 n b : Int) : GeneSpec :=
  { type_ := some .int, isSlice := true, cells := 1, index := i0, len := n, bits := b }

/-- Gene `i` of a `[]int` slice spec as `Build` emits it, before its locus is assigned. -/
def sliceTemplate (i0 b : Int) (i : Nat) : Gene :=
  { type_ := .int, phenotypeOffset := 0, dynamic := true,
    dynamicIndex := (i0 + (i : Int)) * (Kind.int.align : Int) * 1
      + ((0 : Nat) : Int) * (Kind.int.align : Int),
    toLocus := { bitWidth := b } }

/-! ## Parametric half-uniform crossover (`crossover/binary.go`)

A `float64` other than NaN is a value of a linearly ordered field `K`; a draw of
`rand.Float64()` is the next value of the sequence `draw`. -/

/-- The struct `uniform`. -/
structure uniform (K : Type) where
  rate : K

/-- The constructor `ParametricHalfUniform`. -/
def ParametricHalfUniform {K : Type} (rate : K) : uniform K := { rate := rate }

/-- Body of the loop over the bits `j` of one byte in `uniform.Crossover`; the state is
the mask and the number of draws made so far.  The draw is made only when bit `j` of
the mask is set. -/
def uniformBit {K : Type} [LinearOrder K] (rate : K) (draw : Nat → K) (st : Nat × Nat)
    (j : Nat) : Nat × Nat :=
  let m := (1 <<< j) % 256
  if st.1 &&& m ≠ 0 then
    if draw st.2 ≥ rate then (st.1 &&& not8 m, st.2 + 1) else (st.1, st.2 + 1)
  else st

/-- The state of the loop of `uniform.Crossover` over the bytes: the children and the
number of draws made so far. -/
structure UniformState where
  child1 : List Nat
  child2 : List Nat
  draws : Nat
  deriving DecidableEq, Repr

/-- Body of the loop of `uniform.Crossover` for byte `i`. -/
def uniformByte {K : Type} [LinearOrder K] (rate : K) (draw : Nat → K) (st : UniformState)
    (i : Nat) : Option UniformState :=
  if i < st.child1.length ∧ i < st.child2.length then
    let mask := st.child1.getD i 0 ^^^ st.child2.getD i 0
    let r := (List.range 8).foldl (uniformBit rate draw) (mask, st.draws)
    (flip st.child1 st.child2 i r.1).map fun c =>
      { child1 := c.1, child2 := c.2, draws := r.2 }
  else none

/-- The loop of `uniform.Crossover` over the bytes `is`. -/
def uniformLoop {K : Type} [LinearOrder K] (rate : K) (draw : Nat → K) :
    List Nat → UniformState → Option UniformState
  | [], st => some st
  | i :: rest, st =>
    match uniformByte rate draw st i with
    | none => none
    | some st2 => uniformLoop rate draw rest st2

/-- The method `uniform.Crossover`: the children and the number of draws made, `none`
for a panic (the error returned is always nil). -/
def uniform.Crossover {K : Type} [LinearOrder K] (u : uniform K) (draw : Nat → K)
    (mom dad child1 child2 : List Nat) : Option UniformState :=
  uniformLoop u.rate draw (List.range mom.length)
    { child1 := copyBytes child1 mom, child2 := copyBytes child2 dad, draws := 0 }

/-- The children are made of the bits of the parents: both have the length of the
parents and hold bytes, and at every bit position the children hold the two bits of the
parents, either in place or exchanged. -/
def Exchanged (mom dad c1 c2 : List Nat) : Prop :=
  c1.length = mom.length ∧ c2.length = mom.length ∧ bytesOk c1 ∧ bytesOk c2 ∧
  ∃ sw : Nat → Bool, childrenMatch mom dad c1 c2 sw

/-- The relations between children and parents, byte by byte: `c1 ^ c2 == mom ^ dad`,
`c1 ^ mom == c2 ^ dad`, complementary parents give complementary children, and a bit on
which the parents agree is the same in both children. -/
def xorRelations (mom dad c1 c2 : List Nat) : Prop :=
  c1.length = mom.length ∧ c2.length = mom.length ∧
  (∀ i, i < mom.length →
    c1.getD i 0 ^^^ c2.getD i 0 = mom.getD i 0 ^^^ dad.getD i 0 ∧
    c1.getD i 0 ^^^ mom.getD i 0 = c2.getD i 0 ^^^ dad.getD i 0 ∧
    (mom.getD i 0 ^^^ dad.getD i 0 = 255 →
      c1.getD i 0 &&& c2.getD i 0 = 0 ∧ c1.getD i 0 ^^^ c2.getD i 0 = 255)) ∧
  (∀ b, bitAt mom b = bitAt dad b → bitAt c1 b = bitAt mom b ∧ bitAt c2 b = bitAt dad b)

/-- Number of positions below `n` that satisfy `p`. -/
def countBelow (p : Nat → Bool) (n : Nat) : Nat := ((List.range n).filter p).length

/-- Number of bit positions below `t` at which the parents differ. -/
def differBelow (mom dad : List Nat) (t : Nat) : Nat :=
  countBelow (fun b => bitAt mom b != bitAt dad b) t

/-- Whether uniform crossover exchanges bit `t`: the parents differ at `t`, and the draw
made for `t`, which comes after one draw for each differing position below `t`, is below
the rate. -/
def uniformSwap {K : Type} [LinearOrder K] (rate : K) (draw : Nat → K) (mom dad : List Nat)
    (t : Nat) : Bool :=
  (bitAt mom t != bitAt dad t) && decide (draw (differBelow mom dad t) < rate)

/-- The invariant of the loop of `uniform.Crossover` before byte `i`: the bytes from `i` on
are those of the parents, the bits below are exchanged as the draws made so far say. -/
def UniformInv {K : Type} [LinearOrder K] (rate : K) (draw : Nat → K) (mom dad : List Nat)
    (i : Nat) (st : UniformState) : Prop :=
  st.child1.length = mom.length ∧ st.child2.length = mom.length ∧
  bytesOk st.child1 ∧ bytesOk st.child2 ∧
  st.draws = differBelow mom dad (8 * i) ∧
  (∀ m, i ≤ m → st.child1.getD m 0 = mom.getD m 0 ∧ st.child2.getD m 0 = dad.getD m 0) ∧
  childrenMatch mom dad st.child1 st.child2
    (fun t => decide (t / 8 < i) && uniformSwap rate draw mom dad t)

/-- An outcome of the draws of `rand.Float64()`: the values 1/2, 1/3, 1/4, ... -/
def testUniformDraw (n : Nat) : ℚ := 1 / ((n : ℚ) + 2)

/-! ## Bit-string mutation (`mutation/binary.go`)

Arithmetic on `float64` is taken exactly, in a linearly ordered field `K`. -/

/-- The struct `bitString`. -/
structure bitString (K : Type) where
  n : K

/-- The constructor `BitString`. -/
def BitString (K : Type) [LinearOrderedField K] (meanFlips : Int) : bitString K :=
  { n := (meanFlips : K) }

/-- The flip probability `p` that `Mutate` computes for a genome of `len` bytes. -/
def bitString.p {K : Type} [LinearOrderedField K] (b : bitString K) (len : Nat) : K :=
  b.n / ((((len : Int) * 8 : Int)) : K)

/-- Body of the loop over the bits `j` of one byte in `Mutate`; the state is the mask and
the number of draws made so far. -/
def mutateBit {K : Type} [LinearOrder K] (p : K) (draw : Nat → K) (st : Nat × Nat) (j : Nat) :
    Nat × Nat :=
  if draw st.2 < p then (st.1 ||| (1 <<< j) % 256, st.2 + 1) else (st.1, st.2 + 1)

/-- The loop of `Mutate` over the bytes of the genome, from draw number `n` on: the bytes
after the loop and the number of draws made. -/
def mutateLoop {K : Type} [LinearOrder K] (p : K) (draw : Nat → K) :
    List Nat → Nat → List Nat × Nat
  | [], n => ([], n)
  | b :: rest, n =>
    let r := (List.range 8).foldl (mutateBit p draw) (0, n)
    let t := mutateLoop p draw rest r.2
    ((if r.1 = 0 then b else b ^^^ r.1) :: t.1, t.2)

/-- The method `bitString.Mutate`: the genome after the call and the number of draws made
(the error returned is always nil). -/
def bitString.Mutate {K : Type} [LinearOrderedField K] (b : bitString K) (draw : Nat → K)
    (genome : List Nat) : List Nat × Nat :=
  mutateLoop (b.p genome.length) draw genome 0

/-! ## Randomizing a genome (`genotype/chromosomes.go`, `genotype/genotype.go`)

The random source is the sequence `rnd` of 64-bit draws; a loop state carries the memory
and the number of draws made so far. -/

/-- One round of the loops of `Chromosome.Randomize`: the low `size` bytes of the next draw
are stored at byte `i` of the slice, through the pointer `&data[i]`. -/
def randomizeAt (size : Nat) (rnd : Nat → Nat) (data : ByteSlice) (st : List Nat × Nat)
    (i : Nat) : Option (List Nat × Nat) :=
  (write size st.1 (data.off + i) (rnd st.2)).map fun m => (m, st.2 + 1)

/-- The loop `for i := range data` of `Chromosome.Randomize`. -/
def randomizeLoop (size : Nat) (rnd : Nat → Nat) (data : ByteSlice) :
    List Nat → List Nat × Nat → Option (List Nat × Nat)
  | [], st => some st
  | i :: rest, st =>
    match randomizeAt size rnd data st i with
    | none => none
    | some st2 => randomizeLoop size rnd data rest st2

/-- The method `Chromosome.Randomize` from draw number `n` on: one byte for each byte of
`data` for an int chromosome, a `float64` or `float32` stored at each byte of `data` for a
float chromosome, a panic for any other type. -/
def Chromosome.Randomize (c : Chromosome) (rnd : Nat → Nat) (data : ByteSlice) (n : Nat) :
    Option (ByteSlice × Nat) :=
  let size : Option Nat :=
    match c.type_ with
    | .int => some 1
    | .float64 => some 8
    | .float32 => some 4
    | _ => none
  match size with
  | none => none
  | some sz =>
    (randomizeLoop sz rnd data (List.range data.len) (data.mem, n)).map fun r =>
      ({ data with mem := r.1 }, r.2)

/-- The loop of `Schema.Randomize` over the chromosomes. -/
def randomizeChromosomes (rnd : Nat → Nat) : List Chromosome → ByteSlice → Nat →
    Option (ByteSlice × Nat)
  | [], data, n => some (data, n)
  | c :: rest, data, n =>
    match c.Randomize rnd data n with
    | none => none
    | some r => randomizeChromosomes rnd rest r.1 r.2

/-- The method `Schema.Randomize`. -/
def Schema.Randomize (s : Schema) (rnd : Nat → Nat) (data : ByteSlice) (n : Nat) :
    Option (ByteSlice × Nat) :=
  randomizeChromosomes rnd s.chromosomes data n

/-! ## Populations (`model/population.go`)

Fitness values are `float64`; their arithmetic is taken exactly, in a linearly ordered
field `K`. -/

/-- The struct `Genomes`. -/
structure Genomes (K : Type) where
  size : Int
  chromosomeLen : Int
  genotype : List Nat
  fitness : List K
  totalFitness : K
  isSorted : Bool
  fittest : Int
  worst : Int

/-- The index expression `xs[i]` with an `int` index: `none` for the panic of an index out
of range. -/
def indexAt {α : Type} (xs : List α) (i : Int) : Option α :=
  if i < 0 then none else xs[i.toNat]?

/-- The method `NIndividuals`. -/
def Genomes.NIndividuals {K : Type} (g : Genomes K) : Int := g.size

/-- The method `Genotype`: the slice `genotype[o : o+chromosomeLen]`. -/
def Genomes.Genotype {K : Type} (g : Genomes K) (i : Int) : Option ByteSlice :=
  let o := i * g.chromosomeLen
  if 0 ≤ o ∧ o ≤ o + g.chromosomeLen ∧ o + g.chromosomeLen ≤ g.genotype.length then
    some { mem := g.genotype, off := o.toNat, len := g.chromosomeLen.toNat }
  else none

/-- The method `Fitness`. -/
def Genomes.Fitness {K : Type} (g : Genomes K) (i : Int) : Option K := indexAt g.fitness i

/-- The method `SetFitness`. -/
def Genomes.SetFitness {K : Type} [LinearOrderedField K] (g : Genomes K) (i : Int) (f : K) :
    Option (Genomes K) := do
  let old ← indexAt g.fitness i
  let g1 : Genomes K :=
    { g with totalFitness := g.totalFitness + (f - old), fitness := g.fitness.set i.toNat f }
  let worst ←
    if g1.worst < 0 then some i
    else (indexAt g1.fitness g1.worst).map fun w => if f < w then i else g1.worst
  let fittest ←
    if g1.fittest < 0 then some i
    else (indexAt g1.fitness g1.fittest).map fun w => if f > w then i else g1.fittest
  pure { g1 with worst := worst, fittest := fittest }

/-- The method `Fittest`. -/
def Genomes.Fittest {K : Type} (g : Genomes K) : Option (Int × K) :=
  (indexAt g.fitness g.fittest).map fun f => (g.fittest, f)

/-- The method `Worst`. -/
def Genomes.Worst {K : Type} (g : Genomes K) : Option (Int × K) :=
  (indexAt g.fitness g.worst).map fun f => (g.worst, f)

/-- The statement `fitness[i] -= w`. -/
def subtractAt {K : Type} [LinearOrderedField K] (w : K) (fitness : List K) (i : Nat) :
    Option (List K) :=
  (fitness[i]?).map fun x => fitness.set i (x - w)

/-- The loop `for i := range g.size { g.fitness[i] -= worstFitness }` over the indices. -/
def subtractLoop {K : Type} [LinearOrderedField K] (w : K) : List Nat → List K → Option (List K)
  | [], fitness => some fitness
  | i :: rest, fitness =>
    match subtractAt w fitness i with
    | none => none
    | some f2 => subtractLoop w rest f2

/-- The method `MakeFitnessPositive`. -/
def Genomes.MakeFitnessPositive {K : Type} [LinearOrderedField K] (g : Genomes K) :
    Option (Genomes K) :=
  match indexAt g.fitness g.worst with
  | none => none
  | some worstFitness =>
    if worstFitness ≥ 0 then some g
    else
      match subtractLoop worstFitness (List.range g.size.toNat) g.fitness with
      | none => none
      | some fitness =>
        some { g with fitness := fitness,
                      totalFitness := g.totalFitness - worstFitness * (g.size : K) }

/-- The struct `Stats`. -/
structure Stats (K : Type) where
  Fittest : Int
  Worst : Int
  MinFitness : K
  MaxFitness : K
  NValues : K
  TotalFitness : K
  Mean : K
  fitnessValues : List K

/-- The method `Genomes.Stats`. -/
def Genomes.Stats {K : Type} [LinearOrderedField K] (p : Genomes K) : Option (Stats K) :=
  match indexAt p.fitness p.worst, indexAt p.fitness p.fittest with
  | some mn, some mx =>
    some { Fittest := p.fittest, Worst := p.worst, MinFitness := mn, MaxFitness := mx,
           NValues := (p.size : K), TotalFitness := p.totalFitness,
           Mean := p.totalFitness / (p.size : K), fitnessValues := p.fitness }
  | _, _ => none

/-- The struct `Population`: a schema and the embedded `Genomes`. -/
structure Population (K : Type) extends Genomes K where
  schema : Schema

/-- The loop of `Population.Randomize` over the individuals `is`. -/
def randomizeIndividuals {K : Type} (schema : Schema) (rnd : Nat → Nat) :
    List Nat → Genomes K → Nat → Option (Genomes K × Nat)
  | [], g, n => some (g, n)
  | i :: rest, g, n =>
    match g.Genotype i with
    | none => none
    | some data =>
      match schema.Randomize rnd data n with
      | none => none
      | some r => randomizeIndividuals schema rnd rest { g with genotype := r.1.mem } r.2

/-- The function `model.New`: `make` panics on a negative length. -/
def New (K : Type) [LinearOrderedField K] (schema : Schema) (size : Int) (rnd : Nat → Nat) :
    Option (Population K) :=
  if size * schema.sizeInBytes < 0 ∨ size < 0 then none
  else
    let g : Genomes K :=
      { size := size, chromosomeLen := schema.Size,
        genotype := List.replicate (size * schema.sizeInBytes).toNat 0,
        fitness := List.replicate size.toNat 0, totalFitness := 0, isSorted := false,
        fittest := 0, worst := 0 }
    (randomizeIndividuals schema rnd (List.range size.toNat) g 0).map fun r =>
      { toGenomes := r.1, schema := schema }

/-- The method `Population.Reset`. -/
def Population.Reset {K : Type} [LinearOrderedField K] (p : Population K) : Population K :=
  { p with totalFitness := 0, fittest := -1, worst := -1, isSorted := false }

/-- A sequence of calls `SetFitness(i, f)`, in order. -/
def setFitnessAll {K : Type} [LinearOrderedField K] :
    List (Int × K) → Genomes K → Option (Genomes K)
  | [], g => some g
  | c :: rest, g =>
    match g.SetFitness c.1 c.2 with
    | none => none
    | some g2 => setFitnessAll rest g2

/-- A population as the selection tests build it: `New` for a one-byte genome and 3
individuals. -/
def testPopulation : Option (Population ℚ) :=
  New ℚ (schemaOf (specOf (buildSliceSpec 0 1 8))) 3 (fun n => n + 1)

/-- The methods `Worst` and `Fittest` return indices among `S` and fitness values that are
the least and the greatest of the fitness values at the indices `S`. -/
def Genomes.extremesOn {K : Type} [LinearOrderedField K] (g : Genomes K) (S : List Int) : Prop :=
  ∃ fw fm, g.Worst = some (g.worst, fw) ∧ g.Fittest = some (g.fittest, fm) ∧
    g.worst ∈ S ∧ g.fittest ∈ S ∧
    ∀ j ∈ S, ∃ fj, g.Fitness j = some fj ∧ fw ≤ fj ∧ fj ≤ fm

/-- The methods `Worst` and `Fittest` return the minimum and the maximum of the fitness
vector. -/
def Genomes.extremesOk {K : Type} [LinearOrderedField K] (g : Genomes K) : Prop :=
  ∃ fw fm, g.Worst = some (g.worst, fw) ∧ g.Fittest = some (g.fittest, fm) ∧
    ∀ x ∈ g.fitness, fw ≤ x ∧ x ≤ fm

/-- A population of two one-byte individuals with the fitness values -3 and 1, as
`SetFitness(0, -3)` and `SetFitness(1, 1)` leave it after `Reset`. -/
def negativeGenomes : Genomes ℚ :=
  { size := 2, chromosomeLen := 1, genotype := [1, 2], fitness := [-3, 1],
    totalFitness := -2, isSorted := false, fittest := 1, worst := 0 }

/-! ## Selection (`selection/selection.go`)

A draw of `rand.Float64()` for slot `i` of the buffer is `draw i`; a draw of `rand.IntN(n)`
for slot `i` is `pick i` reduced modulo `n`. -/

/-- What a call of `SelectInto` leaves behind: the copy of the population the call worked
on and the buffer, after a nil error (`done`) or an error (`failed`). -/
inductive SelectResult (K : Type) where
  | done (p : Genomes K) (buffer : List ByteSlice)
  | failed (p : Genomes K) (buffer : List ByteSlice)
  | panicked

/-- The loop of `random.SelectInto` over the slots of the buffer; `rand.IntN` panics unless
the number of individuals is positive. -/
def randomLoop {K : Type} (p : Genomes K) (pick : Nat → Nat) :
    List Nat → List ByteSlice → Option (List ByteSlice)
  | [], buffer => some buffer
  | i :: rest, buffer =>
    if p.NIndividuals ≤ 0 then none
    else
      match p.Genotype ((pick i % p.NIndividuals.toNat : Nat) : Int) with
      | none => none
      | some slab => randomLoop p pick rest (buffer.set i slab)

/-- The method `random.SelectInto`. -/
def random.SelectInto {K : Type} (p : Genomes K) (pick : Nat → Nat) (buffer : List ByteSlice) :
    SelectResult K :=
  match randomLoop p pick (List.range buffer.length) buffer with
  | none => .panicked
  | some b => .done p b

/-- What the scan of the roulette wheel ends with. -/
inductive ScanResult (K : Type) where
  | found (idx : Nat)
  | exhausted (selection : K)
  | panicked

/-- The scan `for idx := range nIndividuals` of the roulette wheel over the indices given,
with the running value `selection`. -/
def rouletteScan {K : Type} [LinearOrderedField K] (p : Genomes K) :
    List Nat → K → ScanResult K
  | [], selection => .exhausted selection
  | idx :: rest, selection =>
    match p.Fitness idx with
    | none => .panicked
    | some f => if selection - f ≤ 0 then .found idx else rouletteScan p rest (selection - f)

/-- The loop of `rouletteWheel.SelectInto` over the slots of the buffer. -/
def rouletteLoop {K : Type} [LinearOrderedField K] (p : Genomes K) (totalFitness : K)
    (draw : Nat → K) : List Nat → List ByteSlice → SelectResult K
  | [], buffer => .done p buffer
  | i :: rest, buffer =>
    match rouletteScan p (List.range p.NIndividuals.toNat) (draw i * totalFitness) with
    | .panicked => .panicked
    | .exhausted _ => .failed p buffer
    | .found idx =>
      match p.Genotype idx with
      | none => .panicked
      | some slab => rouletteLoop p totalFitness draw rest (buffer.set i slab)

/-- The method `rouletteWheel.SelectInto`, on the copy `p` of the population it receives. -/
def rouletteWheel.SelectInto {K : Type} [LinearOrderedField K] (p : Genomes K)
    (draw : Nat → K) (pick : Nat → Nat) (buffer : List ByteSlice) : SelectResult K :=
  match p.MakeFitnessPositive with
  | none => .panicked
  | some p1 =>
    match p1.Stats with
    | none => .panicked
    | some stats =>
      if stats.TotalFitness = 0 then random.SelectInto p1 pick buffer
      else rouletteLoop p1 stats.TotalFitness draw (List.range buffer.length) buffer

/-- The population of the caller after a call that received a copy of its `Genomes`: the
scalar fields are the caller's own, the slices share their arrays with the copy. -/
def Genomes.afterCall {K : Type} (caller callee : Genomes K) : Genomes K :=
  { caller with fitness := callee.fitness, genotype := callee.genotype }

/-- The copy of the population a call of `SelectInto` worked on, when it returned. -/
def SelectResult.callee {K : Type} : SelectResult K → Option (Genomes K)
  | .done p _ => some p
  | .failed p _ => some p
  | .panicked => none

/-- The buffer a call of `SelectInto` leaves, when it returned. -/
def SelectResult.buffer {K : Type} : SelectResult K → Option (List ByteSlice)
  | .done _ b => some b
  | .failed _ b => some b
  | .panicked => none

/-- A population of two one-byte individuals with the fitness values 1 and 3. -/
def positiveGenomes : Genomes ℚ :=
  { size := 2, chromosomeLen := 1, genotype := [1, 2], fitness := [1, 3],
    totalFitness := 4, isSorted := false, fittest := 1, worst := 0 }

/-- A nil slice. -/
def nilSlice : ByteSlice := { mem := [], len := 0 }

/-- The copy of `negativeGenomes` after `MakeFitnessPositive`: every fitness and the total
shifted by 3 for each individual. -/
def shiftedGenomes : Genomes ℚ :=
  { size := 2, chromosomeLen := 1, genotype := [1, 2], fitness := [0, 4],
    totalFitness := 4, isSorted := false, fittest := 1, worst := 0 }

/-! ## The evaluation phase of an epoch (`genetta.go`) -/

/-- The loop of `calculateFitnessScores` over the individuals: `score i` is the fitness that
`calculateFitness` returns for the phenotype decoded from genome `i`, `none` when decoding
or the fitness function panics. -/
def scoreLoop {K : Type} [LinearOrderedField K] (score : Nat → Option K) :
    List Nat → Genomes K → Option (Genomes K)
  | [], g => some g
  | i :: rest, g =>
    match score i with
    | none => none
    | some f =>
      match g.SetFitness i f with
      | none => none
      | some g2 => scoreLoop score rest g2

/-- The evaluation phase of an epoch in `calculateFitnessScores`: `Reset`, then the loop
that records the score of every individual with `SetFitness`. -/
def evaluationPhase {K : Type} [LinearOrderedField K] (p : Population K)
    (score : Nat → Option K) : Option (Population K) :=
  (scoreLoop score (List.range p.Reset.NIndividuals.toNat) p.Reset.toGenomes).map fun g =>
    { p.Reset with toGenomes := g }

/-- The scores 5, 3, 4 of three individuals. -/
def testScore (i : Nat) : Option ℚ := some ([5, 3, 4].getD i 0)

/-! ## Compatibility of the binary operators (`crossover/binary.go`, `mutation/binary.go`) -/

/-- The constant `FlagDecimal` of `genotype/chromosomes.go`. -/
def FlagDecimal : Nat := 1 <<< 0

/-- The constant `FlagPermutation` of `genotype/chromosomes.go`. -/
def FlagPermutation : Nat := 1 <<< 1

/-- The method `IsCompatible` of the crossover operators: `kPoints` and `uniform` embed
`binary`, whose method compares the chromosome type with `reflect.Int`; `probability`
embeds the operator it wraps and so answers with the method of that operator. -/
def CrossoverOp.IsCompatible : CrossoverOp → Kind → Nat → Bool
  | .kPoints _, chromosomeType, _ => decide (chromosomeType = .int)
  | .uniform _, chromosomeType, _ => decide (chromosomeType = .int)
  | .probability _ inner, chromosomeType, flags => inner.IsCompatible chromosomeType flags

/-- The method `IsCompatible` of the mutation operators: `bitString` embeds `binary`. -/
def MutationOp.IsCompatible : MutationOp → Kind → Nat → Bool
  | .bitString _, chromosomeType, _ => decide (chromosomeType = .int)

/-! ## The initial phenotype (`genotype/genotype.go`) -/

/-- The type parameter `T` of a schema as `Schema.Init` inspects it: whether `T` is an
interface type, whether its kind is `reflect.Slice`, the size of a `T` in bytes and, for a
slice, the size of an element.  The zero value of an interface type converted to `any` is
the nil interface; the zero value of any other type, converted to `any`, is an interface
that holds a value and differs from nil. -/
structure PhenotypeType where
  isInterface : Bool
  isSlice : Bool
  size : Nat
  elemSize : Nat := 0
  deriving DecidableEq, Repr

/-- The type `[]int`. -/
def intSliceType : PhenotypeType :=
  { isInterface := false, isSlice := true, size := 24, elemSize := 8 }

/-- The number `cells` that `Schema.Init` computes in its slice branch: one more than the
largest `byteIndex` of a gene, 0 without genes. -/
def Schema.initCells (s : Schema) : Int :=
  s.chromosomes.foldl
    (fun cells c => c.genes.foldl
      (fun cells g => if g.toLocus.byteIndex > cells then g.toLocus.byteIndex else cells) cells)
    (-1) + 1

/-- The method `Schema.Init`: the zero value of `T` when `any(t) != nil`; else a slice of
`cells` zeroed elements for a slice kind, and a panic for any other kind. -/
def Schema.Init (s : Schema) (T : PhenotypeType) : Option Phenotype :=
  if !T.isInterface then some { root := List.replicate T.size 0 }
  else if T.isSlice then
    some { root := List.replicate T.size 0,
           elems := List.replicate (s.initCells.toNat * T.elemSize) 0 }
  else none

/-- The length of the slice a phenotype of the slice type `T` holds. -/
def Phenotype.sliceLen (ph : Phenotype) (T : PhenotypeType) : Nat :=
  ph.elems.length / T.elemSize

/-- The spec function that binds a `float64` root in one float chromosome. -/
def float64Spec : Option Spec := do
  let g ← bind 8 (.scalar .float64) 0
  pure [Float64Chromosome [g]]

/-- The bytes of a slice. -/
def ByteSlice.bytes (s : ByteSlice) : List Nat := (s.mem.drop s.off).take s.len

/-! ## Operators on the genotype array (`genotype/genotype.go`, `crossover`, `mutation`)

The slices an epoch hands to the operators all point into the genotype array of the
population and may overlap, so the operators are taken here on the bytes `mem` of that
array: a call returns the array as it leaves it.  The random source of a call is given to
the call: `float n` is draw number `n` of `rand.Float64()` within it, `int` are the draws
that `rand.Shuffle` makes.  A k-point operator draws its points as `KPoints(k)` draws them
at its first call. -/

/-- A `[]byte` into the array given with it: offset, length and capacity.  For a nil slice
all three are zero. -/
structure Slab where
  off : Nat
  len : Nat
  cap : Nat
  deriving DecidableEq, Repr

/-- The slice as a window into its array. -/
def ByteSlice.slab (s : ByteSlice) : Slab :=
  { off := s.off, len := s.len, cap := s.mem.length - s.off }

/-- The slice expression `s[lo:hi]`; it panics unless `0 ≤ lo ≤ hi ≤ cap(s)`. -/
def Slab.slice (s : Slab) (lo hi : Int) : Option Slab :=
  if 0 ≤ lo ∧ lo ≤ hi ∧ hi ≤ s.cap then
    some { off := s.off + lo.toNat, len := hi.toNat - lo.toNat, cap := s.cap - lo.toNat }
  else none

/-- The slice expression `s[lo:]`; it panics unless `0 ≤ lo ≤ len(s)`. -/
def Slab.from (s : Slab) (lo : Int) : Option Slab :=
  if 0 ≤ lo ∧ lo ≤ s.len then
    some { off := s.off + lo.toNat, len := s.len - lo.toNat, cap := s.cap - lo.toNat }
  else none

/-- The bytes of the slice in the array `mem`. -/
def Slab.bytes (s : Slab) (mem : List Nat) : List Nat := (mem.drop s.off).take s.len

/-- The builtin `copy(dst, src)`: the array after the call.  The bytes of `src` are read
before any byte of `dst` is written. -/
def Slab.copy (mem : List Nat) (dst src : Slab) : List Nat :=
  mem.take dst.off ++ ((mem.drop src.off).take (min dst.len src.len)
    ++ mem.drop (dst.off + min dst.len src.len))

/-- The index expression `s[i]`, read. -/
def Slab.get (s : Slab) (mem : List Nat) (i : Int) : Option Nat :=
  if 0 ≤ i ∧ i < s.len then mem[s.off + i.toNat]? else none

/-- The assignment `s[i] = v`: the array after it. -/
def Slab.set (s : Slab) (mem : List Nat) (i : Int) (v : Nat) : Option (List Nat) :=
  if 0 ≤ i ∧ i < s.len ∧ s.off + i.toNat < mem.length then
    some (mem.set (s.off + i.toNat) v)
  else none

/-- The function `flip` on two slices of one array, statement by statement. -/
def flipAt (mem : List Nat) (a b : Slab) (i : Int) (mask : Nat) : Option (List Nat) := do
  let av ← a.get mem i
  let bv ← b.get mem i
  let a1 ← a.get mem i
  let mem ← a.set mem i (a1 &&& not8 mask)
  let a2 ← a.get mem i
  let mem ← a.set mem i (a2 ||| (bv &&& mask))
  let b1 ← b.get mem i
  let mem ← b.set mem i (b1 &&& not8 mask)
  let b2 ← b.get mem i
  b.set mem i (b2 ||| (av &&& mask))

/-- What a call of an operator leaves behind: the array after a nil error (`done`) or an
error (`failed`). -/
inductive OpResult where
  | done (mem : List Nat)
  | failed (mem : List Nat)
  | panicked
  deriving DecidableEq, Repr

/-- The statements `copy(a[lo:hi], b[lo:hi])` on one array. -/
def copyRangeAt (mem : List Nat) (a b : Slab) (lo hi : Int) : Option (List Nat) :=
  match a.slice lo hi, b.slice lo hi with
  | some x, some y => some (Slab.copy mem x y)
  | _, _ => none

/-- The statements `copy(a[lo:], b[lo:])` on one array. -/
def copyTailAt (mem : List Nat) (a b : Slab) (lo : Int) : Option (List Nat) :=
  match a.from lo, b.from lo with
  | some x, some y => some (Slab.copy mem x y)
  | _, _ => none

/-- The body of the loop of `kPoints.Crossover` for the point `xp` at index `i`, on one
array; the state is the array and `prevXByte`. -/
def crossPointAt (mom dad child1 child2 : Slab) (st : List Nat × Int) (i : Nat) (xp : Nat) :
    Option (List Nat × Int) :=
  let xByte : Int := ((xp / 8 : Nat) : Int)
  let xBits := xp % 8
  let mask := not8 ((255 <<< xBits) % 256)
  if i % 2 = 1 then
    if xByte = st.2 then
      (flipAt st.1 child1 child2 xByte (not8 mask)).map fun m => (m, xByte)
    else
      match copyRangeAt st.1 child1 dad (st.2 + 1) xByte with
      | none => none
      | some m1 =>
        match copyRangeAt m1 child2 mom (st.2 + 1) xByte with
        | none => none
        | some m2 => (flipAt m2 child1 child2 xByte mask).map fun m => (m, xByte)
  else
    (flipAt st.1 child1 child2 xByte (not8 mask)).map fun m => (m, xByte)

/-- The loop of `kPoints.Crossover` over the points, from index `i` on, on one array. -/
def crossLoopAt (mom dad child1 child2 : Slab) :
    List Nat → Nat → List Nat × Int → Option (List Nat × Int)
  | [], _, st => some st
  | xp :: rest, i, st =>
    match crossPointAt mom dad child1 child2 st i xp with
    | none => none
    | some st2 => crossLoopAt mom dad child1 child2 rest (i + 1) st2

/-- The method `kPoints.Crossover` on slices of one array. -/
def kPoints.CrossoverAt (s : kPoints) (draw : Nat → Nat) (mem : List Nat)
    (mom dad child1 child2 : Slab) : OpResult :=
  let totBits : Int := (mom.len : Int) * 8
  if s.k ≥ totBits then .failed mem
  else
    let m1 := Slab.copy mem child1 mom
    let m2 := Slab.copy m1 child2 dad
    match s.randomXPoints draw totBits with
    | none => .panicked
    | some s2 =>
      match crossLoopAt mom dad child1 child2 s2.xps 0 (m2, -1) with
      | none => .panicked
      | some st =>
        if s.k % 2 = 1 then
          match copyTailAt st.1 child1 dad (st.2 + 1) with
          | none => .panicked
          | some m3 =>
            match copyTailAt m3 child2 mom (st.2 + 1) with
            | none => .panicked
            | some m4 => .done m4
        else .done st.1

/-- Body of the loop of `uniform.Crossover` for byte `i`, on one array; the state is the
array and the number of draws made so far. -/
def uniformByteAt {K : Type} [LinearOrder K] (rate : K) (draw : Nat → K) (child1 child2 : Slab)
    (st : List Nat × Nat) (i : Nat) : Option (List Nat × Nat) :=
  match child1.get st.1 i, child2.get st.1 i with
  | some a, some b =>
    let r := (List.range 8).foldl (uniformBit rate draw) (a ^^^ b, st.2)
    (flipAt st.1 child1 child2 i r.1).map fun m => (m, r.2)
  | _, _ => none

/-- The loop of `uniform.Crossover` over the bytes `is`, on one array. -/
def uniformLoopAt {K : Type} [LinearOrder K] (rate : K) (draw : Nat → K) (child1 child2 : Slab) :
    List Nat → List Nat × Nat → Option (List Nat × Nat)
  | [], st => some st
  | i :: rest, st =>
    match uniformByteAt rate draw child1 child2 st i with
    | none => none
    | some st2 => uniformLoopAt rate draw child1 child2 rest st2

/-- The method `uniform.Crossover` on slices of one array. -/
def uniform.CrossoverAt {K : Type} [LinearOrder K] (u : uniform K) (draw : Nat → K)
    (mem : List Nat) (mom dad child1 child2 : Slab) : OpResult :=
  let m1 := Slab.copy mem child1 mom
  let m2 := Slab.copy m1 child2 dad
  match uniformLoopAt u.rate draw child1 child2 (List.range mom.len) (m2, 0) with
  | none => .panicked
  | some st => .done st.1

/-- The random source of one call of an operator. -/
structure Draws (K : Type) where
  float : Nat → K
  int : Nat → Nat

/-- The number a fraction denotes. -/
def Fraction.val (K : Type) [LinearOrderedField K] (f : Fraction) : K := (f.num : K) / (f.den : K)

/-- The method `Crossover` of the operator a chromosome carries, on slices of one array.
`probability` draws once and either copies the parents or calls the operator it wraps;
`KPoints` panics for `k ≤ 0`. -/
def CrossoverOp.Crossover {K : Type} [LinearOrderedField K] :
    CrossoverOp → Draws K → List Nat → Slab → Slab → Slab → Slab → OpResult
  | .kPoints k, d, mem, mom, dad, child1, child2 =>
    match KPoints k with
    | none => .panicked
    | some s => s.CrossoverAt d.int mem mom dad child1 child2
  | .uniform rate, d, mem, mom, dad, child1, child2 =>
    (ParametricHalfUniform (rate.val K)).CrossoverAt d.float mem mom dad child1 child2
  | .probability p inner, d, mem, mom, dad, child1, child2 =>
    if d.float 0 ≥ p.val K then .done (Slab.copy (Slab.copy mem child1 mom) child2 dad)
    else inner.Crossover { d with float := fun n => d.float (n + 1) } mem mom dad child1 child2

/-- The method `Mutate` of the operator a chromosome carries, on a slice of an array. -/
def MutationOp.Mutate {K : Type} [LinearOrderedField K] :
    MutationOp → (Nat → K) → List Nat → Slab → OpResult
  | .bitString n, draw, mem, genome =>
    .done (mem.take genome.off
      ++ ((bitString.Mutate { n := n.val K } draw (genome.bytes mem)).1
      ++ mem.drop (genome.off + genome.len)))

/-- The loop of `Schema.Crossover` over the chromosomes, from chromosome number `j` on;
`d j` is the random source of the call for chromosome `j`.  The call of the method of a
nil operator panics. -/
def crossoverChromosomes {K : Type} [LinearOrderedField K] (d : Nat → Draws K)
    (mom dad child1 child2 : Slab) : List Chromosome → Nat → List Nat → OpResult
  | [], _, mem => .done mem
  | c :: rest, j, mem =>
    let i1 := c.bytesIndex
    let i2 := i1 + c.bytesLength
    match mom.slice i1 i2, dad.slice i1 i2, child1.slice i1 i2, child2.slice i1 i2 with
    | some m, some f, some c1, some c2 =>
      match c.crossover with
      | none => .panicked
      | some op =>
        match op.Crossover (d j) mem m f c1 c2 with
        | .done mem2 => crossoverChromosomes d mom dad child1 child2 rest (j + 1) mem2
        | .failed mem2 => .failed mem2
        | .panicked => .panicked
    | _, _, _, _ => .panicked

/-- The method `Schema.Crossover`. -/
def Schema.Crossover {K : Type} [LinearOrderedField K] (s : Schema) (d : Nat → Draws K)
    (mem : List Nat) (mom dad child1 child2 : Slab) : OpResult :=
  crossoverChromosomes d mom dad child1 child2 s.chromosomes 0 mem

/-- The inner loop of `Schema.Mutate` over the chromosomes for the genotype `g`, from
chromosome number `j` on. -/
def mutateChromosomes {K : Type} [LinearOrderedField K] (d : Nat → Nat → K) (g : Slab) :
    List Chromosome → Nat → List Nat → OpResult
  | [], _, mem => .done mem
  | c :: rest, j, mem =>
    match g.slice c.bytesIndex (c.bytesIndex + c.bytesLength) with
    | none => .panicked
    | some w =>
      match c.mutate with
      | none => .panicked
      | some op =>
        match op.Mutate (d j) mem w with
        | .done mem2 => mutateChromosomes d g rest (j + 1) mem2
        | .failed mem2 => .failed mem2
        | .panicked => .panicked

/-- The outer loop of `Schema.Mutate` over the genotypes, from genotype number `i` on. -/
def mutateGenotypes {K : Type} [LinearOrderedField K] (s : Schema) (d : Nat → Nat → Nat → K) :
    List Slab → Nat → List Nat → OpResult
  | [], _, mem => .done mem
  | g :: rest, i, mem =>
    match mutateChromosomes (d i) g s.chromosomes 0 mem with
    | .done mem2 => mutateGenotypes s d rest (i + 1) mem2
    | .failed mem2 => .failed mem2
    | .panicked => .panicked

/-- The method `Schema.Mutate`; `d i j` is the random source of the call for genotype `i`
and chromosome `j`. -/
def Schema.Mutate {K : Type} [LinearOrderedField K] (s : Schema) (d : Nat → Nat → Nat → K)
    (mem : List Nat) (genotypes : List Slab) : OpResult :=
  mutateGenotypes s d genotypes 0 mem

/-! ## Sorting a population (`model/population.go`)

The library function `sort.Stable` is taken as its insertion sort over the whole range,
which is what it runs for up to 20 elements; for more it sorts blocks of 20 this way and
merges them, which ends in the same arrangement, as `Swap` moves a fitness and its genome
together and a stable sort has one result. -/

/-- The method `GenomesSortDesc.Len`. -/
def GenomesSortDesc.Len {K : Type} (g : Genomes K) : Int := g.size

/-- The method `GenomesSortDesc.Less`. -/
def GenomesSortDesc.Less {K : Type} [LinearOrderedField K] (g : Genomes K) (i j : Int) :
    Option Bool :=
  match indexAt g.fitness i, indexAt g.fitness j with
  | some a, some b => some (decide (a > b))
  | _, _ => none

/-- The exchange `xs[i], xs[j] = xs[j], xs[i]`: both operands are read, then `xs[i]` and
`xs[j]` are assigned in this order. -/
def swapAt {α : Type} (xs : List α) (i j : Int) : Option (List α) :=
  match indexAt xs i, indexAt xs j with
  | some a, some b => some ((xs.set i.toNat b).set j.toNat a)
  | _, _ => none

/-- The loop of `Swap` over the bytes `x` of a genome, for the genomes that start at `i0`
and `j0`. -/
def swapBytes (i0 j0 : Int) : List Nat → List Nat → Option (List Nat)
  | [], genotype => some genotype
  | x :: rest, genotype =>
    match swapAt genotype (i0 + x) (j0 + x) with
    | none => none
    | some g2 => swapBytes i0 j0 rest g2

/-- The method `GenomesSortDesc.Swap`. -/
def GenomesSortDesc.Swap {K : Type} (g : Genomes K) (i j : Int) : Option (Genomes K) :=
  match swapAt g.fitness i j with
  | none => none
  | some fitness =>
    match swapBytes (i * g.chromosomeLen) (j * g.chromosomeLen)
        (List.range g.chromosomeLen.toNat) g.genotype with
    | none => none
    | some genotype => some { g with fitness := fitness, genotype := genotype }

/-- The inner loop of the library function `insertionSort(data, 0, n)`:
`for j := i; j > 0 && data.Less(j, j-1); j-- { data.Swap(j, j-1) }`, from `j` on. -/
def insertDown {K : Type} [LinearOrderedField K] : Nat → Genomes K → Option (Genomes K)
  | 0, g => some g
  | j + 1, g =>
    match GenomesSortDesc.Less g ((j + 1 : Nat) : Int) (j : Int) with
    | none => none
    | some false => some g
    | some true =>
      match GenomesSortDesc.Swap g ((j + 1 : Nat) : Int) (j : Int) with
      | none => none
      | some g2 => insertDown j g2

/-- The outer loop of the library function `insertionSort`, over the indices `i` given. -/
def insertionSort {K : Type} [LinearOrderedField K] : List Nat → Genomes K → Option (Genomes K)
  | [], g => some g
  | i :: rest, g =>
    match insertDown i g with
    | none => none
    | some g2 => insertionSort rest g2

/-- The call `sort.Stable(GenomesSortDesc{g})`: the insertion sort for `i = 1, ..., Len()-1`. -/
def sortStable {K : Type} [LinearOrderedField K] (g : Genomes K) : Option (Genomes K) :=
  insertionSort ((List.range ((GenomesSortDesc.Len g).toNat - 1)).map fun i => i + 1) g

/-- The method `SortByFitnessDesc`. -/
def Genomes.SortByFitnessDesc {K : Type} [LinearOrderedField K] (g : Genomes K) :
    Option (Genomes K) :=
  if g.isSorted then some g
  else (sortStable g).map fun g2 => { g2 with isSorted := true }

/-- The population holds `n` individuals of `L` bytes each. -/
def Genomes.shaped {K : Type} (g : Genomes K) (n L : Nat) : Prop :=
  g.size = n ∧ g.chromosomeLen = L ∧ g.fitness.length = n ∧ g.genotype.length = n * L

/-- The bytes of genome `i` of a population of genomes of `L` bytes. -/
def Genomes.genome {K : Type} (g : Genomes K) (i : Nat) : List Nat :=
  (g.genotype.drop (i * g.chromosomeLen.toNat)).take g.chromosomeLen.toNat

/-- The individuals of `g2` are the individuals of `g`, rearranged by `π`: individual `k` of
`g2` has the fitness and the genome bytes of individual `π k` of `g`. -/
def Genomes.rearranged {K : Type} (g g2 : Genomes K) (L : Nat) (π : Equiv.Perm Nat) : Prop :=
  ∀ k, g2.fitness[k]? = g.fitness[π k]? ∧
    ∀ x, x < L → g2.genotype[k * L + x]? = g.genotype[π k * L + x]?

/-- The scalar fields of two populations agree, the flag `isSorted` apart. -/
def Genomes.sameScalars {K : Type} (g g2 : Genomes K) : Prop :=
  g2.size = g.size ∧ g2.chromosomeLen = g.chromosomeLen ∧ g2.totalFitness = g.totalFitness ∧
  g2.fittest = g.fittest ∧ g2.worst = g.worst

/-- The invariant of the inner loop of the insertion sort at `j`, for the element that
started at `i`: the fitness values are non-increasing on `[0, j)` and on `[j, i]`, and
every value before `j` is at least every value after `j` up to `i`. -/
def insertInv {K : Type} [LinearOrderedField K] (g : Genomes K) (i j : Nat) : Prop :=
  (∀ p q, p < q → q < j → g.fitness.getD q 0 ≤ g.fitness.getD p 0) ∧
  (∀ p q, j ≤ p → p < q → q ≤ i → g.fitness.getD q 0 ≤ g.fitness.getD p 0) ∧
  (∀ p q, p < j → j < q → q ≤ i → g.fitness.getD q 0 ≤ g.fitness.getD p 0)

/-- A run of the public operations on a new population of 3 one-byte individuals: the
fitness values 1, 2, 3 are set, the population is sorted, the fitness of individual 0 is
set to 0, and the population is sorted again. -/
def staleSortRun : Option (Genomes ℚ) := do
  let p ← testPopulation
  let g ← setFitnessAll [(0, 1), (1, 2), (2, 3)] p.toGenomes
  let g ← g.SortByFitnessDesc
  let g ← g.SetFitness 0 0
  g.SortByFitnessDesc

/-! ## The solver (`genetta.go`)

The fitness function returns a `float64`, here a value of `K`, or panics (`none`).  The
random source of an epoch is given to the epoch, split by the call that draws from it. -/

/-- The selection operators of `selection/selection.go`, by constructor. -/
inductive SelectionOp where
  | random
  | rouletteWheel
  deriving DecidableEq, Repr

/-- The method `SelectInto` of a selection operator. -/
def SelectionOp.SelectInto {K : Type} [LinearOrderedField K] :
    SelectionOp → Genomes K → (Nat → K) → (Nat → Nat) → List ByteSlice → SelectResult K
  | .random, p, _, pick, buffer => random.SelectInto p pick buffer
  | .rouletteWheel, p, draw, pick, buffer => rouletteWheel.SelectInto p draw pick buffer

/-- The field `elite` of `options`. -/
structure Elite where
  size : Int := 0
  copies : Int := 0
  len : Int := 0
  deriving DecidableEq, Repr

/-- The struct `options`; a nil `targetFitness` or `selectionOp` is `none`. -/
structure options (K : Type) where
  populationSize : Int
  targetFitness : Option K := none
  selectionOp : Option SelectionOp := none
  elite : Elite := {}

/-- The type `Option` of `genetta.go`: a function that changes the options or returns an
error (`none`). -/
abbrev SolverOption (K : Type) := options K → Option (options K)

/-- The function `WithTargetFitness`. -/
def WithTargetFitness {K : Type} (f : K) : SolverOption K :=
  fun o => some { o with targetFitness := some f }

/-- The function `WithSelection`. -/
def WithSelection {K : Type} (op : SelectionOp) : SolverOption K :=
  fun o => some { o with selectionOp := some op }

/-- The function `WithElitism`; the product `size * copies` is an `int`. -/
def WithElitism {K : Type} (size copies : Int) : SolverOption K :=
  fun o =>
    if size ≤ 0 ∨ copies ≤ 0 then none
    else some { o with elite := { size := size, copies := copies,
                                  len := wrapInt64 (size * copies) } }

/-- The struct `gaSolver`; `phenotype` is its type parameter `P`. -/
structure gaSolver (K : Type) where
  schema : Schema
  phenotype : PhenotypeType
  population : Population K
  breedingPool : List ByteSlice
  generation : Int
  fitnessFunc : Phenotype → Option K
  opts : options K

/-- What a call that can return an error leaves. -/
inductive Outcome (α : Type) where
  | ok (a : α)
  | error
  | panicked

/-- The loop of `NewSolver` over the options. -/
def applyOptions {K : Type} : List (SolverOption K) → options K → Option (options K)
  | [], o => some o
  | opt :: rest, o =>
    match opt o with
    | none => none
    | some o2 => applyOptions rest o2

/-- The function `NewSolver`; `rnd` is the random source of `model.New`. -/
def NewSolver (K : Type) [LinearOrderedField K] (genotype : Schema) (P : PhenotypeType)
    (fitnessFunc : Phenotype → Option K) (populationSize : Int)
    (opts : List (SolverOption K)) (rnd : Nat → Nat) : Outcome (gaSolver K) :=
  if populationSize ≤ 0 then .error
  else
    match applyOptions opts { populationSize := populationSize } with
    | none => .error
    | some o =>
      match New K genotype populationSize rnd with
      | none => .panicked
      | some p =>
        .ok { schema := genotype, phenotype := P, fitnessFunc := fitnessFunc, opts := o,
              population := p,
              breedingPool := List.replicate populationSize.toNat nilSlice,
              generation := 1 }

/-- The method `Generation`. -/
def gaSolver.Generation {K : Type} (ga : gaSolver K) : Int := ga.generation

/-- The method `Elitism`. -/
def gaSolver.Elitism {K : Type} (ga : gaSolver K) : Int × Int :=
  (ga.opts.elite.size, ga.opts.elite.copies)

/-- The struct `Result`; the population is recorded as it is when the result is made. -/
structure Result (K : Type) where
  population : Population K
  index : Int

/-- The zero value of `Result`. -/
def Result.zero (K : Type) [LinearOrderedField K] : Result K :=
  { population := { size := 0, chromosomeLen := 0, genotype := [], fitness := [],
                    totalFitness := 0, isSorted := false, fittest := 0, worst := 0,
                    schema := {} },
    index := 0 }

/-- The loop of `calculateFitnessScores` over the individuals: `Population.Decode` decodes
genome `i` into the phenotype, which the loop carries on, and `SetFitness` records what
the fitness function returns for it. -/
def scoresLoop {K : Type} [LinearOrderedField K] (schema : Schema)
    (fitnessFunc : Phenotype → Option K) :
    List Nat → Phenotype → Genomes K → Option (Genomes K)
  | [], _, g => some g
  | i :: rest, phenotype, g =>
    match g.Genotype (i : Int) with
    | none => none
    | some data =>
      match schema.Decode phenotype data with
      | none => none
      | some ph2 =>
        match fitnessFunc ph2 with
        | none => none
        | some f =>
          match g.SetFitness (i : Int) f with
          | none => none
          | some g2 => scoresLoop schema fitnessFunc rest ph2 g2

/-- The method `calculateFitnessScores`: the solver after the call and the two results. -/
def calculateFitnessScores {K : Type} [LinearOrderedField K] (ga : gaSolver K) :
    Option (gaSolver K × Result K × Bool) :=
  let p := ga.population.Reset
  match ga.schema.Init ga.phenotype with
  | none => none
  | some phenotype =>
    match scoresLoop p.schema ga.fitnessFunc (List.range p.NIndividuals.toNat) phenotype
        p.toGenomes with
    | none => none
    | some g =>
      match g.Fittest with
      | none => none
      | some (fittest, maxFitness) =>
        let p2 : Population K := { p with toGenomes := g }
        let found : Bool :=
          match ga.opts.targetFitness with
          | none => false
          | some target => decide (maxFitness = target)
        some ({ ga with population := p2 }, { population := p2, index := fittest }, found)

/-- The random source of one epoch: the draws of the selection operator, of the call of
`Schema.Crossover` for the pair that starts at individual `i` (by chromosome), and of the
call of `Schema.Mutate` for that pair (by child and chromosome). -/
structure EpochDraws (K : Type) where
  selectFloat : Nat → K
  selectInt : Nat → Nat
  crossover : Nat → Nat → Draws K
  mutate : Nat → Nat → Nat → Nat → K

/-- The inner loop of the elite part of `selectBreedingPool` for genome `i`: as many
rounds as given of `breedingPool[pos] = Genotype(i); pos++`. -/
def eliteCopies {K : Type} (p : Genomes K) (i : Nat) :
    Nat → List ByteSlice × Nat → Option (List ByteSlice × Nat)
  | 0, st => some st
  | c + 1, st =>
    match p.Genotype (i : Int) with
    | none => none
    | some slab =>
      if st.2 < st.1.length then eliteCopies p i c (st.1.set st.2 slab, st.2 + 1) else none

/-- The outer loop of the elite part of `selectBreedingPool`, over the genomes `i` given. -/
def eliteLoop {K : Type} (p : Genomes K) (copies : Nat) :
    List Nat → List ByteSlice × Nat → Option (List ByteSlice × Nat)
  | [], st => some st
  | i :: rest, st =>
    match eliteCopies p i copies st with
    | none => none
    | some st2 => eliteLoop p copies rest st2

/-- The elite part of `selectBreedingPool`: the population, the pool and `pos` after it. -/
def elitePart {K : Type} [LinearOrderedField K] (ga : gaSolver K) :
    Option (Population K × List ByteSlice × Nat) :=
  if ga.opts.elite.len > 0 then
    match ga.population.toGenomes.SortByFitnessDesc with
    | none => none
    | some g =>
      (eliteLoop g ga.opts.elite.copies.toNat (List.range ga.opts.elite.size.toNat)
        (ga.breedingPool, 0)).map fun st => ({ ga.population with toGenomes := g }, st.1, st.2)
  else some (ga.population, ga.breedingPool, 0)

/-- The method `selectBreedingPool`.  The selection operator works on a copy of the
`Genomes` and fills `breedingPool[pos:]`; an error it returns is dropped; the call of the
method of a nil operator panics. -/
def selectBreedingPool {K : Type} [LinearOrderedField K] (ga : gaSolver K)
    (d : EpochDraws K) : Option (gaSolver K) :=
  match elitePart ga with
  | none => none
  | some (p, pool, pos) =>
    match ga.opts.selectionOp with
    | none => none
    | some op =>
      if pos ≤ pool.length then
        match op.SelectInto p.toGenomes d.selectFloat d.selectInt (pool.drop pos) with
        | .panicked => none
        | .done q buffer | .failed q buffer =>
          some { ga with population := { p with toGenomes := p.toGenomes.afterCall q },
                         breedingPool := pool.take pos ++ buffer }
      else none

/-- The loop of `nextGeneration` over the pairs that start at the individuals `i` given.
The slices of the pool point into the genotype array, whose bytes are those of the
population as the pairs before left them; an error of `Schema.Crossover` or of
`Schema.Mutate` is dropped. -/
def breedPairs {K : Type} [LinearOrderedField K] (schema : Schema) (pool : List ByteSlice)
    (d : EpochDraws K) : List Nat → Population K → Option (Population K)
  | [], p => some p
  | i :: rest, p =>
    match pool[i]?, pool[i + 1]?, p.Genotype (i : Int), p.Genotype ((i : Int) + 1) with
    | some mom, some dad, some child1, some child2 =>
      match schema.Crossover (d.crossover i) p.genotype mom.slab dad.slab child1.slab
          child2.slab with
      | .panicked => none
      | .done m1 | .failed m1 =>
        match schema.Mutate (d.mutate i) m1 [child1.slab, child2.slab] with
        | .panicked => none
        | .done m2 | .failed m2 => breedPairs schema pool d rest { p with genotype := m2 }
    | _, _, _, _ => none

/-- The method `nextGeneration`. -/
def nextGeneration {K : Type} [LinearOrderedField K] (ga : gaSolver K) (d : EpochDraws K) :
    Option (gaSolver K) :=
  match selectBreedingPool ga d with
  | none => none
  | some ga1 =>
    (breedPairs ga1.schema ga1.breedingPool d
      ((List.range ((ga1.population.NIndividuals.toNat + 1) / 2)).map fun i => 2 * i)
      ga1.population).map fun p => { ga1 with population := p, generation := ga1.generation + 1 }

/-- The loop of `Epochs`, for `n` more rounds from epoch number `e` on, with the value of
the result `fittest` so far; `d e` is the random source of epoch `e`. -/
def epochsLoop {K : Type} [LinearOrderedField K] (d : Nat → EpochDraws K) :
    Nat → Nat → gaSolver K → Result K → Option (gaSolver K × Result K × Bool)
  | 0, _, ga, fittest => some (ga, fittest, false)
  | n + 1, e, ga, _ =>
    match calculateFitnessScores ga with
    | none => none
    | some (ga1, fittest, true) => some (ga1, fittest, true)
    | some (ga1, fittest, false) =>
      match nextGeneration ga1 (d e) with
      | none => none
      | some ga2 => epochsLoop d n (e + 1) ga2 fittest

/-- The method `Epochs`: the solver after the call and the two results. -/
def gaSolver.Epochs {K : Type} [LinearOrderedField K] (ga : gaSolver K) (n : Int)
    (d : Nat → EpochDraws K) : Option (gaSolver K × Result K × Bool) :=
  epochsLoop d n.toNat 0 ga (Result.zero K)

/-- The method `Epoch`. -/
def gaSolver.Epoch {K : Type} [LinearOrderedField K] (ga : gaSolver K) (d : EpochDraws K) :
    Option (gaSolver K × Result K × Bool) :=
  ga.Epochs 1 fun _ => d

/-! ## A solver for one `int` (`genetta.go`) -/

/-- The type `int`. -/
def intType : PhenotypeType := { isInterface := false, isSlice := false, size := 8 }

/-- The spec function that binds an `int` root, at its 64 bits, in one int chromosome with
the crossover operator `cross` and the mutation operator `BitString(flips)`. -/
def oneIntSpec (cross : CrossoverOp) (flips : Int) : Option Spec := do
  let g ← bind 8 (.scalar .int) 0
  pure [((IntChromosome [g]).Crossover cross).Mutate (.bitString ⟨flips, 1⟩)]

/-- The schema of `oneIntSpec`. -/
def oneIntSchema (cross : CrossoverOp) (flips : Int) : Schema :=
  schemaOf (specOf (oneIntSpec cross flips))

/-- A fitness function on an `int`: its low byte. -/
def lowByte (ph : Phenotype) : Option ℚ := some ((ph.root.getD 0 0 : Nat) : ℚ)

/-- The draws of an epoch in which the selection picks the individuals in turn and every
draw of `rand.Float64()` gives `u`. -/
def constDraws (u : ℚ) : EpochDraws ℚ :=
  { selectFloat := fun _ => u, selectInt := fun n => n,
    crossover := fun _ _ => { float := fun _ => u, int := fun _ => 0 },
    mutate := fun _ _ _ _ => u }

/-- The solver `NewSolver` returns for the schema `oneIntSchema cross flips`, the fitness
`lowByte`, 2 individuals and the options given, when the random source of `model.New`
gives 1, 2, 3, ... -/
def oneIntSolver (cross : CrossoverOp) (flips : Int) (opts : List (SolverOption ℚ)) :
    Outcome (gaSolver ℚ) :=
  NewSolver ℚ (oneIntSchema cross flips) intType lowByte 2 opts (fun n => n + 1)

/-- The genotype array `model.New` leaves for two genomes of 8 bytes when the random source
gives 1, 2, 3, ... -/
def sixteenBytes : List Nat := [1, 2, 3, 4, 5, 6, 7, 8, 9, 10, 11, 12, 13, 14, 15, 16]

/-- A solver for the schema `S` and the fitness `lowByte` whose two genomes of 8 bytes are
`sixteenBytes`. -/
def gaSolver.isOneInt (ga : gaSolver ℚ) (S : Schema) : Prop :=
  ga.schema = S ∧ ga.population.schema = S ∧
  ga.phenotype = intType ∧ ga.fitnessFunc = lowByte ∧ ga.population.size = 2 ∧
  ga.population.chromosomeLen = 8 ∧ ga.population.genotype = sixteenBytes ∧
  ga.population.fitness.length = 2 ∧ ga.breedingPool.length = 2

/-- The solver `NewSolver` returns for one `int`, 2 individuals and the options
`WithSelection(Random())`, `WithElitism(1, 1)`. -/
def eliteSolver : gaSolver ℚ :=
  { schema := oneIntSchema (.probability ⟨3, 4⟩ SinglePoint) 0, phenotype := intType,
    fitnessFunc := lowByte,
    opts := { populationSize := 2, selectionOp := some .random,
              elite := { size := 1, copies := 1, len := 1 } },
    population := { size := 2, chromosomeLen := 8, genotype := sixteenBytes,
                    fitness := [0, 0], totalFitness := 0, isSorted := false,
                    fittest := 0, worst := 0,
                    schema := oneIntSchema (.probability ⟨3, 4⟩ SinglePoint) 0 },
    breedingPool := [nilSlice, nilSlice], generation := 1 }

/-! ## One k-point operator used for parents of several lengths (`crossover/binary.go`) -/

/-- The operator a call of `Crossover` leaves behind, when the call returned. -/
def CrossResult.operator : CrossResult → Option kPoints
  | .done op _ _ => some op
  | .failed op _ _ => some op
  | .panicked => none

/-- The operator `KPoints(2)` after a call of `Crossover` on parents of 2 bytes and then a
call on parents of 1 byte, every draw of the random source giving 0. -/
def reusedKPoints : Option kPoints := do
  let s0 ← KPoints 2
  let s1 ← (s0.Crossover (fun _ => 0) [0, 0] [255, 255] [0, 0] [0, 0]).operator
  (s1.Crossover (fun _ => 0) [0] [255] [0] [0]).operator

/-- An outcome of the random source under which `rand.Shuffle` on 14 entries exchanges
entry 13 with entry 1 and entry 5 with entry 0 and leaves the others in place. -/
def pickOnes (i : Nat) : Nat := if i = 13 then 1 else if i = 5 then 0 else i

/-! ## A schema from chromosomes (`genotype/genotype.go`) -/

/-- The loop of `genotype.New` over the chromosomes: the loop variable `c` is a copy of the
element, so the assignment to `c.bytesIndex` stays in the copy. -/
def newLoop : List Chromosome → Schema → Schema
  | [], s => s
  | c :: rest, s =>
    let c : Chromosome := { c with bytesIndex := s.sizeInBytes }
    newLoop rest { s with sizeInBytes := s.sizeInBytes + c.bytesLength }

/-- The function `New` of package `genotype`. -/
def genotype.New (chromosomes : List Chromosome) : Schema :=
  newLoop chromosomes { chromosomes := chromosomes }

/-- The chromosome `Build` compiles for one `int` bound at 64 bits, with the operators
`SinglePoint()` and `BitString(64)`. -/
def builtChromosome : Chromosome :=
  { type_ := .int, bytesIndex := 0, bytesLength := 8, crossover := some SinglePoint,
    mutate := some (.bitString ⟨64, 1⟩),
    genes := [{ type_ := .int, toLocus := { bitWidth := 64 } }] }

/-- The chromosome `builtChromosome` moved to byte 8 of the genome. -/
def builtChromosomeAt8 : Chromosome := { builtChromosome with bytesIndex := 8 }

/-! ## Parents that are stored in the slots of their children (`genetta.go`) -/

/-- The draws of an epoch in which `rand.IntN` gives 1 for slot 0 of the breeding pool and
2 for slot 1, so that the selection picks individual 1 and then individual 0, and every
draw of `rand.Float64()` gives 7/8. -/
def swapDraws : EpochDraws ℚ :=
  { selectFloat := fun _ => 7 / 8, selectInt := fun n => n + 1,
    crossover := fun _ _ => { float := fun _ => 7 / 8, int := fun _ => 0 },
    mutate := fun _ _ _ _ => 7 / 8 }

/-- The genomes of `sixteenBytes` followed by 16 bytes for two children. -/
def parentsAndChildren : List Nat := sixteenBytes ++ List.replicate 16 0

/-! # Theorems -/

/-! ## The allocator -/

theorem bytesPerCell_eq : bytesPerCell = 8 := by decide

theorem bestFitScan_spec (w : Int) : ∀ (cells : List Int) (i : Int) (acc : Int × Int),
    (bestFitScan w cells i acc = acc ∧ ∀ s ∈ cells, ¬ (s - w ≥ 0 ∧ s - w < acc.2)) ∨
      ∃ j : Nat, j < cells.length ∧
        bestFitScan w cells i acc = (i + j, cells.getD j 0 - w) ∧
        0 ≤ cells.getD j 0 - w ∧ cells.getD j 0 - w < acc.2 := by
  intro cells
  induction cells with
  | nil => intro i acc; left; exact ⟨rfl, by simp⟩
  | cons space rest ih =>
    intro i acc
    unfold bestFitScan
    by_cases hc : space - w ≥ 0 ∧ space - w < acc.2
    · simp only [hc, and_self, if_true]
      rcases ih (i + 1) (i, space - w) with ⟨h, _⟩ | ⟨j, hj, h1, h2, h3⟩
      · right
        refine ⟨0, by simp, ?_, ?_, ?_⟩
        · rw [h]; simp
        · simpa using hc.1
        · simpa using hc.2
      · right
        refine ⟨j + 1, by simpa using hj, ?_, ?_, ?_⟩
        · rw [h1]; simp; omega
        · simpa using h2
        · simp at h3 ⊢; omega
    · simp only [hc, if_false]
      rcases ih (i + 1) acc with ⟨h, hno⟩ | ⟨j, hj, h1, h2, h3⟩
      · left
        refine ⟨h, ?_⟩
        intro s hs
        rcases List.mem_cons.1 hs with h0 | h0
        · rw [h0]; exact hc
        · exact hno s h0
      · right
        refine ⟨j + 1, by simpa using hj, ?_, ?_, ?_⟩
        · rw [h1]; simp; omega
        · simpa using h2
        · simpa using h3

theorem freeAt_lt {bf : bestFitDecreasingAllocator} {k : Nat} (h : k < bf.cellsFree.length) :
    freeAt bf k = bf.cellsFree.getD k 0 := by
  unfold freeAt
  simp [List.getD_eq_getElem?_getD, List.getElem?_eq_getElem h]

theorem freeAt_ge {bf : bestFitDecreasingAllocator} {k : Nat} (h : bf.cellsFree.length ≤ k) :
    freeAt bf k = 64 := by
  unfold freeAt
  simp [List.getD_eq_getElem?_getD, List.getElem?_eq_none h]

/-- Bounds on the free space of every cell of an allocator. -/
theorem freeAt_bounds {bf : bestFitDecreasingAllocator}
    (h : ∀ f ∈ bf.cellsFree, 0 ≤ f ∧ f ≤ 64) (k : Nat) : 0 ≤ freeAt bf k ∧ freeAt bf k ≤ 64 := by
  by_cases hk : k < bf.cellsFree.length
  · unfold freeAt
    rw [List.getD_eq_getElem?_getD, List.getElem?_eq_getElem hk]
    exact h _ (List.getElem_mem hk)
  · rw [freeAt_ge (by omega)]; omega

/-- What one call of `offer` does, in terms of the free space per cell: the gene goes to
the first free bit of some cell `k` (an existing one with room, or the next new one). -/
theorem offer_spec (bf : bestFitDecreasingAllocator) (w : Int)
    (hbf : ∀ k, 0 ≤ freeAt bf k ∧ freeAt bf k ≤ 64) (hw : 1 ≤ w ∧ w ≤ 64) :
    ∃ k : Nat, k ≤ bf.cellsFree.length ∧
      (bf.offer { bitWidth := w }).1.cellsFree.length = max bf.cellsFree.length (k + 1) ∧
      w ≤ freeAt bf k ∧
      (k = bf.cellsFree.length → ∀ j, j < bf.cellsFree.length → freeAt bf j < w) ∧
      freeAt (bf.offer { bitWidth := w }).1 k = freeAt bf k - w ∧
      (∀ j, j ≠ k → freeAt (bf.offer { bitWidth := w }).1 j = freeAt bf j) ∧
      (bf.offer { bitWidth := w }).2.start = 64 * k + 64 - freeAt bf k ∧
      (bf.offer { bitWidth := w }).2.bitWidth = w ∧
      0 ≤ (bf.offer { bitWidth := w }).2.bitOffset ∧
      (bf.offer { bitWidth := w }).2.bitOffset < 8 ∧
      (bf.offer { bitWidth := w }).2.bitOffset + w ≤ 64 := by
  unfold bestFitDecreasingAllocator.offer
  simp only [bytesPerCell_eq, cellSize, byteSize]
  rcases bestFitScan_spec w bf.cellsFree 0 (-1, 64 + 1) with ⟨h, hno⟩ | ⟨j, hj, h1, h2, h3⟩
  · rw [h]
    simp only [gt_iff_lt, lt_self_iff_false, if_false]
    refine ⟨bf.cellsFree.length, le_refl _, by simp, ?_, ?_, ?_, ?_, ?_, trivial, ?_, ?_, ?_⟩
    · rw [freeAt_ge (le_refl _)]; exact hw.2
    · intro _ j hj
      have hm : bf.cellsFree.getD j 0 ∈ bf.cellsFree := by
        rw [List.getD_eq_getElem?_getD, List.getElem?_eq_getElem hj]
        exact List.getElem_mem hj
      have h1 := hno _ hm
      have h2 := hbf j
      rw [freeAt_lt hj] at h2 ⊢
      simp only at h1
      omega
    · rw [freeAt_ge (le_refl _)]; unfold freeAt; simp [List.getD_eq_getElem?_getD]
    · intro j hj
      unfold freeAt
      simp only [List.getD_eq_getElem?_getD]
      by_cases hjl : j < bf.cellsFree.length
      · rw [List.getElem?_append_left hjl]
      · have h1 : bf.cellsFree[j]? = none := List.getElem?_eq_none (by omega)
        have h2 : (bf.cellsFree ++ [64 - w])[j]? = none :=
          List.getElem?_eq_none (by
            simp only [List.length_append, List.length_singleton]; omega)
        rw [h1, h2]
    · rw [freeAt_ge (le_refl _)]; simp [locus.start]; ring
    · simp
    · simp
    · simp; omega
  · rw [h1]
    have hjpos : (0 : Int) + (j : Int) > -1 := by omega
    simp only [hjpos, if_true]
    have htn : ((0 : Int) + (j : Int)).toNat = j := by simp
    rw [htn]
    have hfj : freeAt bf j = bf.cellsFree.getD j 0 := freeAt_lt hj
    have hb := hbf j
    rw [hfj] at hb
    have hnn : (0 : Int) ≤ 64 - bf.cellsFree.getD j 0 := by omega
    refine ⟨j, le_of_lt hj, ?_, ?_, ?_, ?_, ?_, ?_, trivial, ?_, ?_, ?_⟩
    · simp; omega
    · rw [hfj]; omega
    · intro hjl; omega
    · rw [hfj]; unfold freeAt
      simp [List.getD_eq_getElem?_getD, List.getElem?_set, hj]
    · intro i hi
      unfold freeAt
      simp only [List.getD_eq_getElem?_getD, List.getElem?_set]
      have : ¬ j = i := fun h => hi h.symm
      simp [this]
    · rw [hfj]
      simp only [locus.start]
      rw [Int.tdiv_eq_ediv hnn (by norm_num), Int.tmod_eq_emod hnn (by norm_num)]
      omega
    · rw [Int.tmod_eq_emod hnn (by norm_num)]; omega
    · rw [Int.tmod_eq_emod hnn (by norm_num)]; omega
    · rw [Int.tmod_eq_emod hnn (by norm_num)]; omega

theorem freeAt_empty (k : Nat) : freeAt {} k = 64 := by
  unfold freeAt; simp

/-- The invariant of a run of offers: free space stays in `0..64`, cells are only added,
free space only shrinks, every locus is placed in the space that was free before the run
and is used after it, and the loci are pairwise disjoint. -/
theorem offerFrom_spec : ∀ (ws : List Int) (bf : bestFitDecreasingAllocator),
    (∀ k, 0 ≤ freeAt bf k ∧ freeAt bf k ≤ 64) → validWidths ws →
    (∀ k, 0 ≤ freeAt (offerFrom bf ws).1 k ∧ freeAt (offerFrom bf ws).1 k ≤ 64) ∧
    bf.cellsFree.length ≤ (offerFrom bf ws).1.cellsFree.length ∧
    (ws ≠ [] → 1 ≤ (offerFrom bf ws).1.cellsFree.length) ∧
    (∀ k, freeAt (offerFrom bf ws).1 k ≤ freeAt bf k) ∧
    (∀ l ∈ (offerFrom bf ws).2, placedBetween bf (offerFrom bf ws).1 l) ∧
    (offerFrom bf ws).2.Pairwise locus.disjoint ∧
    (offerFrom bf ws).2.map locus.bitWidth = ws := by
  intro ws
  induction ws with
  | nil =>
    intro bf hbf _
    simp [offerFrom, hbf]
  | cons w ws ih =>
    intro bf hbf hws
    have hw : 1 ≤ w ∧ w ≤ 64 := hws w (List.mem_cons_self _ _)
    have hws2 : validWidths ws := fun x hx => hws x (List.mem_cons_of_mem _ hx)
    obtain ⟨k, hk, hlen, hfit, _, hfk, hfo, hstart, hwid, ho0, ho8, ho64⟩ :=
      offer_spec bf w hbf hw
    have hbf2 : ∀ j, 0 ≤ freeAt (bf.offer { bitWidth := w }).1 j ∧
        freeAt (bf.offer { bitWidth := w }).1 j ≤ 64 := by
      intro j
      by_cases hj : j = k
      · subst hj; rw [hfk]; have := hbf j; omega
      · rw [hfo j hj]; exact hbf j
    have hle2 : ∀ j, freeAt (bf.offer { bitWidth := w }).1 j ≤ freeAt bf j := by
      intro j
      by_cases hj : j = k
      · subst hj; rw [hfk]; omega
      · rw [hfo j hj]
    obtain ⟨i1, i2, _, i4, i5, i6, i7⟩ := ih (bf.offer { bitWidth := w }).1 hbf2 hws2
    have hplaced : placedBetween bf (offerFrom (bf.offer { bitWidth := w }).1 ws).1
        (bf.offer { bitWidth := w }).2 := by
      refine ⟨k, by omega, by omega, ?_, by omega, ho0, ho8, by omega⟩
      have := i4 k
      simp only [locus.stop]
      omega
    simp only [offerFrom]
    refine ⟨i1, by omega, fun _ => by omega, fun j => le_trans (i4 j) (hle2 j), ?_, ?_, ?_⟩
    · intro l hl
      rcases List.mem_cons.1 hl with h | h
      · rw [h]; exact hplaced
      · obtain ⟨j, hj1, hj2, hj3, hj4⟩ := i5 l h
        exact ⟨j, hj1, by have := hle2 j; omega, hj3, hj4⟩
    · refine List.Pairwise.cons ?_ i6
      intro l hl
      obtain ⟨j, _, hj2, hj3, hj4, _⟩ := i5 l hl
      have hb := hbf k
      have hb2 := hbf2 j
      have h4 := i4 j
      have hbj := (i1 j).1
      unfold locus.disjoint
      simp only [locus.stop] at hj3 ⊢
      by_cases hjk : j = k
      · subst hjk
        left; omega
      · rcases Nat.lt_or_gt_of_ne hjk with hlt | hgt
        · right; omega
        · left; omega
    · simp [i7, hwid]

theorem offerAll_spec (ws : List Int) (hws : validWidths ws) :
    (∀ k, 0 ≤ freeAt (offerAll ws).1 k ∧ freeAt (offerAll ws).1 k ≤ 64) ∧
    (ws ≠ [] → 1 ≤ (offerAll ws).1.cellsFree.length) ∧
    (∀ l ∈ (offerAll ws).2, placedBetween {} (offerAll ws).1 l) ∧
    (offerAll ws).2.Pairwise locus.disjoint ∧
    (offerAll ws).2.map locus.bitWidth = ws := by
  have h := offerFrom_spec ws {} (fun k => by rw [freeAt_empty]; omega) hws
  exact ⟨h.1, h.2.2.1, h.2.2.2.2.1, h.2.2.2.2.2.1, h.2.2.2.2.2.2⟩

/-- The value of `nBytes` on an allocator with at least one cell. -/
theorem nBytes_spec (bf : bestFitDecreasingAllocator)
    (hbf : ∀ k, 0 ≤ freeAt bf k ∧ freeAt bf k ≤ 64) (hne : 1 ≤ bf.cellsFree.length) :
    bf.nBytes = some (8 * (bf.cellsFree.length : Int)
      - freeAt bf (bf.cellsFree.length - 1) / 8) := by
  unfold bestFitDecreasingAllocator.nBytes
  have hlt : bf.cellsFree.length - 1 < bf.cellsFree.length := by omega
  have hlast : bf.cellsFree.getLast? = some (freeAt bf (bf.cellsFree.length - 1)) := by
    rw [List.getLast?_eq_getElem?, freeAt_lt hlt, List.getD_eq_getElem?_getD,
      List.getElem?_eq_getElem hlt]
    simp
  rw [hlast]
  simp only [bytesPerCell_eq, byteSize]
  rw [Int.tdiv_eq_ediv (hbf _).1 (by norm_num)]
  congr 1
  ring

/-- C4: for every sequence of widths, each in 1..64, offered in any order to a new
best-fit-decreasing allocator, one locus is assigned per width and the bit windows
`[byteIndex*8 + bitOffset, byteIndex*8 + bitOffset + bitWidth)` of the assigned loci are
pairwise disjoint. -/
theorem allocator_windows_disjoint (ws : List Int) (hws : validWidths ws) :
    (offerAll ws).2.map locus.bitWidth = ws ∧
    (offerAll ws).2.Pairwise (fun a b =>
      a.byteIndex * 8 + a.bitOffset + a.bitWidth ≤ b.byteIndex * 8 + b.bitOffset ∨
      b.byteIndex * 8 + b.bitOffset + b.bitWidth ≤ a.byteIndex * 8 + a.bitOffset) := by
  obtain ⟨_, _, _, h4, h5⟩ := offerAll_spec ws hws
  exact ⟨h5, h4⟩

theorem allocator_windows_disjoint_witness :
    validWidths [12, 64, 3, 40, 20, 1] ∧
    (offerAll [12, 64, 3, 40, 20, 1]).2.map locus.bitWidth = [12, 64, 3, 40, 20, 1] ∧
    (offerAll [12, 64, 3, 40, 20, 1]).2.Pairwise (fun a b =>
      a.byteIndex * 8 + a.bitOffset + a.bitWidth ≤ b.byteIndex * 8 + b.bitOffset ∨
      b.byteIndex * 8 + b.bitOffset + b.bitWidth ≤ a.byteIndex * 8 + a.bitOffset) :=
  ⟨by decide, allocator_windows_disjoint [12, 64, 3, 40, 20, 1] (by decide)⟩

/-- C5: for every non-empty sequence of widths in 1..64 offered to a new allocator,
`nBytes` returns `8 * (number of cells) - free(last cell) / 8`, and each assigned locus
lies inside a single 64-bit cell (its window is inside `[64*k, 64*(k+1))` for a cell `k`,
and `bitOffset + bitWidth ≤ 64`) and inside the byte region `[0, nBytes)`. -/
theorem allocator_loci_in_cell_and_region (ws : List Int) (hws : validWidths ws)
    (hne : ws ≠ []) :
    ∃ n : Int, (offerAll ws).1.nBytes = some n ∧
      n = 8 * ((offerAll ws).1.cellsFree.length : Int)
            - ((offerAll ws).1.cellsFree.getLastD 0) / 8 ∧
      ∀ l ∈ (offerAll ws).2,
        (∃ k : Nat, k < (offerAll ws).1.cellsFree.length ∧
          64 * (k : Int) ≤ l.byteIndex * 8 + l.bitOffset ∧
          l.byteIndex * 8 + l.bitOffset + l.bitWidth ≤ 64 * ((k : Int) + 1)) ∧
        0 ≤ l.bitOffset ∧ l.bitOffset + l.bitWidth ≤ 64 ∧
        0 ≤ l.byteIndex ∧ l.byteIndex < n ∧
        l.byteIndex * 8 + l.bitOffset + l.bitWidth ≤ 8 * n := by
  obtain ⟨h1, h2, h3, _, _⟩ := offerAll_spec ws hws
  have hlen := h2 hne
  have hnb := nBytes_spec (offerAll ws).1 h1 hlen
  have hlt : (offerAll ws).1.cellsFree.length - 1 < (offerAll ws).1.cellsFree.length := by omega
  have hlastD : (offerAll ws).1.cellsFree.getLastD 0
      = freeAt (offerAll ws).1 ((offerAll ws).1.cellsFree.length - 1) := by
    rw [List.getLastD_eq_getLast?, List.getLast?_eq_getElem?, freeAt_lt hlt,
      List.getD_eq_getElem?_getD]
  refine ⟨_, hnb, by rw [hlastD], ?_⟩
  intro l hl
  obtain ⟨k, hk, hs, he, hw1, ho0, ho8, ho64⟩ := h3 l hl
  rw [freeAt_empty] at hs
  simp only [locus.stop, locus.start] at hs he
  have hfk := h1 k
  have hfl := h1 ((offerAll ws).1.cellsFree.length - 1)
  refine ⟨⟨k, hk, by omega, by omega⟩, ho0, ho64, by omega, ?_, ?_⟩
  · by_cases hkl : k = (offerAll ws).1.cellsFree.length - 1
    · rw [← hkl] at hfl ⊢; omega
    · omega
  · by_cases hkl : k = (offerAll ws).1.cellsFree.length - 1
    · rw [← hkl] at hfl ⊢; omega
    · omega

theorem allocator_loci_in_cell_and_region_witness :
    validWidths [12, 64, 3, 40, 20, 1] ∧ [12, 64, 3, 40, 20, (1 : Int)] ≠ [] ∧
    ∃ n : Int, (offerAll [12, 64, 3, 40, 20, 1]).1.nBytes = some n ∧
      n = 8 * ((offerAll [12, 64, 3, 40, 20, 1]).1.cellsFree.length : Int)
            - ((offerAll [12, 64, 3, 40, 20, 1]).1.cellsFree.getLastD 0) / 8 ∧
      ∀ l ∈ (offerAll [12, 64, 3, 40, 20, 1]).2,
        (∃ k : Nat, k < (offerAll [12, 64, 3, 40, 20, 1]).1.cellsFree.length ∧
          64 * (k : Int) ≤ l.byteIndex * 8 + l.bitOffset ∧
          l.byteIndex * 8 + l.bitOffset + l.bitWidth ≤ 64 * ((k : Int) + 1)) ∧
        0 ≤ l.bitOffset ∧ l.bitOffset + l.bitWidth ≤ 64 ∧
        0 ≤ l.byteIndex ∧ l.byteIndex < n ∧
        l.byteIndex * 8 + l.bitOffset + l.bitWidth ≤ 8 * n :=
  ⟨by decide, by decide,
    allocator_loci_in_cell_and_region [12, 64, 3, 40, 20, 1] (by decide) (by decide)⟩

/-! ## The stable sort of `Build` -/

theorem wrapInt64_eq {x : Int} (h1 : -(2 ^ 63) ≤ x) (h2 : x < 2 ^ 63) : wrapInt64 x = x := by
  unfold wrapInt64
  norm_num at h1 h2 ⊢
  omega

theorem cmpBits_neg_iff {a b : GeneSpec} (ha : -(2 ^ 62) ≤ a.bits ∧ a.bits < 2 ^ 62)
    (hb : -(2 ^ 62) ≤ b.bits ∧ b.bits < 2 ^ 62) : cmpBits a b < 0 ↔ b.bits < a.bits := by
  unfold cmpBits
  rw [wrapInt64_eq (by norm_num at ha hb ⊢; omega) (by norm_num at ha hb ⊢; omega)]
  omega

theorem insertStable_perm {α : Type} (cmp : α → α → Int) (x : α) :
    ∀ acc : List α, (insertStable cmp x acc).Perm (x :: acc) := by
  intro acc
  induction acc with
  | nil => exact List.Perm.refl _
  | cons y rest ih =>
    unfold insertStable
    split
    · exact (List.Perm.cons y ih).trans (List.Perm.swap x y rest)
    · exact List.Perm.refl _

theorem foldl_insertStable_perm {α : Type} (cmp : α → α → Int) :
    ∀ (xs acc : List α),
      (xs.foldl (fun acc x => insertStable cmp x acc) acc).Perm (xs.reverse ++ acc) := by
  intro xs
  induction xs with
  | nil => intro acc; exact List.Perm.refl _
  | cons x xs ih =>
    intro acc
    simp only [List.foldl_cons, List.reverse_cons, List.append_assoc, List.singleton_append]
    exact (ih _).trans (List.Perm.append_left _ (insertStable_perm cmp x acc))

theorem sortStableFunc_perm {α : Type} (cmp : α → α → Int) (xs : List α) :
    (sortStableFunc cmp xs).Perm xs := by
  unfold sortStableFunc
  have h := foldl_insertStable_perm cmp xs []
  simp only [List.append_nil] at h
  exact (List.reverse_perm _).trans (h.trans (List.reverse_perm _))

theorem mem_sortStableFunc {α : Type} (cmp : α → α → Int) (xs : List α) (x : α) :
    x ∈ sortStableFunc cmp xs ↔ x ∈ xs :=
  (sortStableFunc_perm cmp xs).mem_iff

theorem insertStable_filter {α : Type} (cmp : α → α → Int) (key : α → Int) (w : Int) (x : α) :
    ∀ acc : List α, (∀ y ∈ acc, cmp x y < 0 ↔ key y < key x) →
      (insertStable cmp x acc).filter (fun a => decide (key a = w))
        = (x :: acc).filter (fun a => decide (key a = w)) := by
  intro acc
  induction acc with
  | nil => intro _; rfl
  | cons y rest ih =>
    intro h
    unfold insertStable
    by_cases hc : cmp x y < 0
    · have hlt : key y < key x := (h y (List.mem_cons_self _ _)).1 hc
      have ih2 := ih (fun z hz => h z (List.mem_cons_of_mem _ hz))
      simp only [hc, if_true]
      by_cases hxw : key x = w
      · have hyw : ¬ key y = w := by omega
        simp only [List.filter_cons, hyw, hxw, decide_True, decide_False, if_true] at ih2 ⊢
        simpa [hxw] using ih2
      · simp only [List.filter_cons, hxw, decide_False] at ih2 ⊢
        simp [ih2]
    · simp only [hc, if_false]

theorem insertStable_sorted {α : Type} (cmp : α → α → Int) (key : α → Int) (x : α) :
    ∀ acc : List α, (∀ y ∈ acc, cmp x y < 0 ↔ key y < key x) →
      acc.Pairwise (fun a b => key a ≤ key b) →
      (insertStable cmp x acc).Pairwise (fun a b => key a ≤ key b) := by
  intro acc
  induction acc with
  | nil => intro _ _; simp [insertStable]
  | cons y rest ih =>
    intro h hp
    unfold insertStable
    have hp2 := List.pairwise_cons.1 hp
    by_cases hc : cmp x y < 0
    · have hlt : key y < key x := (h y (List.mem_cons_self _ _)).1 hc
      simp only [hc, if_true]
      refine List.pairwise_cons.2 ⟨?_, ih (fun z hz => h z (List.mem_cons_of_mem _ hz)) hp2.2⟩
      intro z hz
      rcases List.mem_cons.1 ((insertStable_perm cmp x rest).mem_iff.1 hz) with hzx | hzr
      · rw [hzx]; omega
      · exact hp2.1 z hzr
    · have hge : ¬ key y < key x := fun hk => hc ((h y (List.mem_cons_self _ _)).2 hk)
      simp only [hc, if_false]
      refine List.pairwise_cons.2 ⟨?_, hp⟩
      intro z hz
      rcases List.mem_cons.1 hz with hzy | hzr
      · rw [hzy]; omega
      · have := hp2.1 z hzr; omega

theorem foldl_insertStable_spec {α : Type} (cmp : α → α → Int) (key : α → Int) (w : Int) :
    ∀ (xs acc : List α),
      (∀ a ∈ xs ++ acc, ∀ b ∈ xs ++ acc, cmp a b < 0 ↔ key b < key a) →
      acc.Pairwise (fun a b => key a ≤ key b) →
      (xs.foldl (fun acc x => insertStable cmp x acc) acc).Pairwise (fun a b => key a ≤ key b) ∧
      (xs.foldl (fun acc x => insertStable cmp x acc) acc).filter (fun a => decide (key a = w))
        = (xs.reverse ++ acc).filter (fun a => decide (key a = w)) := by
  intro xs
  induction xs with
  | nil => intro acc _ hp; exact ⟨hp, rfl⟩
  | cons x xs ih =>
    intro acc h hp
    simp only [List.foldl_cons, List.reverse_cons, List.append_assoc, List.singleton_append]
    have hx : ∀ y ∈ acc, cmp x y < 0 ↔ key y < key x := fun y hy =>
      h x (by simp) y (by simp [hy])
    have h2 : ∀ a ∈ xs ++ insertStable cmp x acc, ∀ b ∈ xs ++ insertStable cmp x acc,
        cmp a b < 0 ↔ key b < key a := by
      intro a ha b hb
      have hm : ∀ c, c ∈ xs ++ insertStable cmp x acc → c ∈ (x :: xs) ++ acc := by
        intro c hc
        rcases List.mem_append.1 hc with h1 | h1
        · simp [h1]
        · rcases List.mem_cons.1 ((insertStable_perm cmp x acc).mem_iff.1 h1) with h3 | h3
          · simp [h3]
          · simp [h3]
      exact h a (hm a ha) b (hm b hb)
    obtain ⟨i1, i2⟩ := ih (insertStable cmp x acc) h2 (insertStable_sorted cmp key x acc hx hp)
    refine ⟨i1, ?_⟩
    rw [i2, List.filter_append, List.filter_append, insertStable_filter cmp key w x acc hx]

/-- The sort of `Build` yields a permutation of its input that is ordered by descending
key and keeps the input order among equal keys, when the comparator orders by the key. -/
theorem sortStableFunc_spec {α : Type} (cmp : α → α → Int) (key : α → Int) (xs : List α)
    (h : ∀ a ∈ xs, ∀ b ∈ xs, cmp a b < 0 ↔ key b < key a) :
    (sortStableFunc cmp xs).Pairwise (fun a b => key b ≤ key a) ∧
    ∀ w, (sortStableFunc cmp xs).filter (fun a => decide (key a = w))
      = xs.filter (fun a => decide (key a = w)) := by
  unfold sortStableFunc
  have hx : ∀ a ∈ xs ++ [], ∀ b ∈ xs ++ [], cmp a b < 0 ↔ key b < key a := by
    simpa using h
  refine ⟨?_, ?_⟩
  · have h1 := (foldl_insertStable_spec cmp key 0 xs [] hx List.Pairwise.nil).1
    exact List.pairwise_reverse.2 h1
  · intro w
    have h2 := (foldl_insertStable_spec cmp key w xs [] hx List.Pairwise.nil).2
    rw [List.filter_reverse, h2]
    simp [List.filter_reverse]

/-! ## The gene loops of `Build` -/

theorem offerFrom_append (bf : bestFitDecreasingAllocator) (a b : List Int) :
    offerFrom bf (a ++ b)
      = ((offerFrom (offerFrom bf a).1 b).1,
         (offerFrom bf a).2 ++ (offerFrom (offerFrom bf a).1 b).2) := by
  induction a generalizing bf with
  | nil => simp [offerFrom]
  | cons w ws ih =>
    rw [List.cons_append]
    simp only [offerFrom]
    rw [ih]
    simp

theorem offerFrom_length (ws : List Int) : ∀ bf : bestFitDecreasingAllocator,
    (offerFrom bf ws).2.length = ws.length := by
  induction ws with
  | nil => intro bf; rfl
  | cons w ws ih => intro bf; simp [offerFrom, ih]

theorem foldl_emitGene (tmpls : List Gene) : ∀ st : BuildState,
    (∀ tm ∈ tmpls, tm.toLocus = { bitWidth := tm.toLocus.bitWidth }) →
    tmpls.foldl emitGene st
      = ((offerFrom st.1 (tmpls.map fun tm => tm.toLocus.bitWidth)).1,
         st.2 ++ List.zipWith Gene.withLocus tmpls
           (offerFrom st.1 (tmpls.map fun tm => tm.toLocus.bitWidth)).2) := by
  induction tmpls with
  | nil => intro st _; simp [offerFrom]
  | cons tm tmpls ih =>
    intro st h
    have htm := h tm (List.mem_cons_self _ _)
    simp only [List.foldl_cons, List.map_cons, offerFrom]
    rw [ih _ (fun x hx => h x (List.mem_cons_of_mem _ hx))]
    simp only [emitGene, ← htm, List.zipWith_cons_cons, List.append_assoc,
      List.singleton_append, Gene.withLocus]

theorem foldl_flatMap_eq {α β γ : Type} (f : α → List β) (g : γ → β → γ) :
    ∀ (l : List α) (a : γ),
      (l.flatMap f).foldl g a = l.foldl (fun acc x => (f x).foldl g acc) a := by
  intro l
  induction l with
  | nil => intro a; rfl
  | cons x xs ih => intro a; simp [List.flatMap_cons, List.foldl_append, ih]

theorem buildGene_eq (st : BuildState) (g : GeneSpec) (t : Kind) (ht : g.type_ = some t) :
    buildGene st g = some ((g.templates t).foldl emitGene st) := by
  unfold buildGene GeneSpec.templates
  rw [ht]
  cases hs : g.isSlice with
  | true =>
    simp only [if_true, foldl_flatMap_eq, List.foldl_map]
    rfl
  | false =>
    simp only [Bool.false_eq_true, if_false, List.foldl_map]
    rfl

theorem buildGenes_eq : ∀ (gs : List GeneSpec) (st st2 : BuildState),
    buildGenes st gs = some st2 →
    (∀ g ∈ gs, g.type_ ≠ none) ∧ st2 = (allTemplates gs).foldl emitGene st := by
  intro gs
  induction gs with
  | nil =>
    intro st st2 h
    simp only [buildGenes, Option.some.injEq] at h
    simp [allTemplates, h]
  | cons g gs ih =>
    intro st st2 h
    unfold buildGenes at h
    cases ht : g.type_ with
    | none => simp [buildGene, ht] at h
    | some t =>
      rw [buildGene_eq st g t ht] at h
      simp only at h
      obtain ⟨h1, h2⟩ := ih _ _ h
      refine ⟨?_, ?_⟩
      · intro x hx
        rcases List.mem_cons.1 hx with hxg | hxr
        · rw [hxg, ht]; simp
        · exact h1 x hxr
      · rw [h2]
        simp [allTemplates, ht, List.foldl_append]

theorem buildGenes_total : ∀ (gs : List GeneSpec) (st : BuildState),
    (∀ g ∈ gs, g.type_ ≠ none) → ∃ st2, buildGenes st gs = some st2 := by
  intro gs
  induction gs with
  | nil => intro st _; exact ⟨st, rfl⟩
  | cons g gs ih =>
    intro st h
    unfold buildGenes
    cases ht : g.type_ with
    | none => exact absurd ht (h g (List.mem_cons_self _ _))
    | some t =>
      rw [buildGene_eq st g t ht]
      exact ih _ (fun x hx => h x (List.mem_cons_of_mem _ hx))

theorem templates_fresh (g : GeneSpec) (t : Kind) :
    ∀ tm ∈ g.templates t, tm.toLocus = { bitWidth := g.bits } := by
  intro tm htm
  unfold GeneSpec.templates at htm
  cases hs : g.isSlice with
  | true =>
    simp only [hs, if_true, List.mem_flatMap, List.mem_map] at htm
    obtain ⟨_, _, _, _, rfl⟩ := htm
    rfl
  | false =>
    simp only [hs, Bool.false_eq_true, if_false, List.mem_map] at htm
    obtain ⟨_, _, rfl⟩ := htm
    rfl

theorem length_flatMap_const {α β : Type} (f : α → List β) (c : Nat) :
    ∀ l : List α, (∀ x ∈ l, (f x).length = c) → (l.flatMap f).length = l.length * c := by
  intro l
  induction l with
  | nil => intro _; simp
  | cons x xs ih =>
    intro h
    rw [List.flatMap_cons, List.length_append, h x (List.mem_cons_self _ _),
      ih (fun y hy => h y (List.mem_cons_of_mem _ hy)), List.length_cons]
    ring

theorem templates_length (g : GeneSpec) (t : Kind) : (g.templates t).length = g.count := by
  unfold GeneSpec.templates GeneSpec.count
  cases hs : g.isSlice with
  | true =>
    simp only [if_true]
    rw [length_flatMap_const _ g.cells.toNat _ (fun x _ => by simp)]
    simp
  | false => simp

theorem templates_widths (g : GeneSpec) (t : Kind) :
    (g.templates t).map (fun tm => tm.toLocus.bitWidth) = List.replicate g.count g.bits := by
  rw [List.eq_replicate_iff]
  refine ⟨by simp [templates_length], ?_⟩
  intro w hw
  obtain ⟨tm, htm, rfl⟩ := List.mem_map.1 hw
  rw [templates_fresh g t tm htm]

theorem allTemplates_fresh (gs : List GeneSpec) :
    ∀ tm ∈ allTemplates gs, tm.toLocus = { bitWidth := tm.toLocus.bitWidth } := by
  intro tm htm
  unfold allTemplates at htm
  obtain ⟨g, _, hg⟩ := List.mem_flatMap.1 htm
  cases ht : g.type_ with
  | none => simp [ht] at hg
  | some t =>
    simp only [ht] at hg
    rw [templates_fresh g t tm hg]

theorem allTemplates_widths : ∀ gs : List GeneSpec, (∀ g ∈ gs, g.type_ ≠ none) →
    (allTemplates gs).map (fun tm => tm.toLocus.bitWidth) = expandWidths gs := by
  intro gs
  induction gs with
  | nil => intro _; rfl
  | cons g gs ih =>
    intro h
    have ih2 := ih (fun x hx => h x (List.mem_cons_of_mem _ hx))
    unfold allTemplates expandWidths at ih2 ⊢
    cases ht : g.type_ with
    | none => exact absurd ht (h g (List.mem_cons_self _ _))
    | some t =>
      simp only [List.flatMap_cons, List.map_append, ht, ih2, templates_widths]

/-! ## `Build` -/

theorem buildChromosome_eq (schema s2 : Schema) (cs : ChromosomeSpec)
    (h : buildChromosome schema cs = some s2) :
    ∃ c : Chromosome, compiledFrom cs c ∧ c.bytesIndex = schema.sizeInBytes ∧
      s2.chromosomes = schema.chromosomes ++ [c] ∧
      s2.sizeInBytes = schema.sizeInBytes + c.bytesLength := by
  unfold buildChromosome at h
  cases hg : buildGenes ({}, []) (sortStableFunc cmpBits cs.genes) with
  | none => simp [hg] at h
  | some st =>
    obtain ⟨bf, genes⟩ := st
    obtain ⟨ht, hst⟩ := buildGenes_eq _ _ _ hg
    rw [foldl_emitGene _ _ (allTemplates_fresh _), allTemplates_widths _ ht] at hst
    simp only [List.nil_append, Prod.mk.injEq] at hst
    obtain ⟨hbf, hgenes⟩ := hst
    simp only [hg] at h
    cases hn : bf.nBytes with
    | none => simp [hn] at h
    | some n =>
      simp only [hn, Option.some.injEq] at h
      refine ⟨{ type_ := cs.type_, bytesIndex := schema.sizeInBytes, crossover := cs.crossover,
                mutate := cs.mutate, genes := genes, bytesLength := n },
        ⟨?_, ?_, ?_, rfl, rfl, rfl, rfl⟩, rfl, by rw [← h], by rw [← h]⟩
      · intro g hg2
        exact ht g ((mem_sortStableFunc _ _ _).2 hg2)
      · exact hgenes
      · show (offerAll _).1.nBytes = some n
        unfold offerAll
        rw [← hbf]; exact hn

theorem buildFrom_spec : ∀ (specs : List ChromosomeSpec) (schema s : Schema),
    buildFrom schema specs = some s →
    ∃ cs : List Chromosome, s.chromosomes = schema.chromosomes ++ cs ∧
      s.sizeInBytes = schema.sizeInBytes + (cs.map Chromosome.bytesLength).sum ∧
      List.Forall₂ compiledFrom specs cs ∧ regionsFrom schema.sizeInBytes cs := by
  intro specs
  induction specs with
  | nil =>
    intro schema s h
    simp only [buildFrom, Option.some.injEq] at h
    exact ⟨[], by simp [h], by simp [h], List.Forall₂.nil, trivial⟩
  | cons spec specs ih =>
    intro schema s h
    unfold buildFrom at h
    cases hc : buildChromosome schema spec with
    | none => simp [hc] at h
    | some s2 =>
      simp only [hc] at h
      obtain ⟨c, hcomp, hidx, hchr, hsize⟩ := buildChromosome_eq _ _ _ hc
      obtain ⟨cs, h1, h2, h3, h4⟩ := ih s2 s h
      refine ⟨c :: cs, ?_, ?_, List.Forall₂.cons hcomp h3, ⟨hidx, ?_⟩⟩
      · rw [h1, hchr]; simp
      · rw [h2, hsize]; simp; ring
      · rw [← hsize]; exact h4

theorem Build_spec (spec : Spec) (schema : Schema) (h : Build false spec = some schema) :
    schema.sizeInBytes = (schema.chromosomes.map Chromosome.bytesLength).sum ∧
    List.Forall₂ compiledFrom spec schema.chromosomes ∧ regionsFrom 0 schema.chromosomes := by
  unfold Build at h
  simp only [Bool.false_eq_true, if_false] at h
  obtain ⟨cs, h1, h2, h3, h4⟩ := buildFrom_spec spec {} schema h
  simp only [List.nil_append] at h1
  rw [h1]
  refine ⟨by simpa using h2, h3, h4⟩

theorem regionsFrom_index : ∀ (cs : List Chromosome) (start : Int), regionsFrom start cs →
    ∀ (j : Nat) (hj : j < cs.length),
      cs[j].bytesIndex = start + ((cs.take j).map Chromosome.bytesLength).sum := by
  intro cs
  induction cs with
  | nil => intro _ _ j hj; simp at hj
  | cons c cs ih =>
    intro start h j hj
    cases j with
    | zero => simp [h.1]
    | succ j =>
      simp only [List.getElem_cons_succ, List.take_succ_cons, List.map_cons, List.sum_cons]
      rw [ih _ h.2 j (by simpa using hj)]
      ring

/-! ## Layouts without gaps -/

theorem offerFrom_widths : ∀ (ws : List Int) (bf : bestFitDecreasingAllocator),
    (offerFrom bf ws).2.map locus.bitWidth = ws := by
  intro ws
  induction ws with
  | nil => intro bf; rfl
  | cons w ws ih =>
    intro bf
    simp only [offerFrom, List.map_cons, ih]
    congr 1
    unfold bestFitDecreasingAllocator.offer
    simp only
    split <;> rfl

/-- Offers that always fit in the last cell, or meet it exactly full, are laid out one
after the other. -/
theorem offerFrom_sequential : ∀ (ws : List Int) (bf : bestFitDecreasingAllocator) (f : Int),
    compactWith bf f → fitsSeq f ws →
    (offerFrom bf ws).2.map locus.start = seqStarts (64 * (bf.cellsFree.length : Int) - f) ws ∧
    ∃ f2, compactWith (offerFrom bf ws).1 f2 ∧
      64 * ((offerFrom bf ws).1.cellsFree.length : Int) - f2
        = 64 * (bf.cellsFree.length : Int) - f + ws.sum := by
  intro ws
  induction ws with
  | nil =>
    intro bf f hc _
    exact ⟨rfl, f, hc, by simp [offerFrom]⟩
  | cons w ws ih =>
    intro bf f hc hfit
    obtain ⟨hb, hfull, hf0, hf1⟩ := hc
    obtain ⟨hw1, hw64, hcase⟩ := hfit
    obtain ⟨k, hk, hlen, hroom, hnew, hfk, hfo, hstart, _, _, _, _⟩ :=
      offer_spec bf w hb ⟨hw1, hw64⟩
    have hbf2 : ∀ j, 0 ≤ freeAt (bf.offer { bitWidth := w }).1 j ∧
        freeAt (bf.offer { bitWidth := w }).1 j ≤ 64 := by
      intro j
      by_cases hj : j = k
      · subst hj; rw [hfk]; have := hb j; omega
      · rw [hfo j hj]; exact hb j
    simp only [offerFrom, List.map_cons, seqStarts, List.sum_cons]
    rcases hcase with ⟨hwf, hrest⟩ | ⟨hfz, hrest⟩
    · -- the gene fits in the last cell
      have hpos : 1 ≤ bf.cellsFree.length := by
        by_contra hcon
        have := hf0 (by omega)
        omega
      have hfl := hf1 hpos
      have hkl : k = bf.cellsFree.length - 1 := by
        by_contra hne
        rcases Nat.lt_or_ge k (bf.cellsFree.length - 1) with hlt | hge
        · have := hfull k (by omega); omega
        · have hkeq : k = bf.cellsFree.length := by omega
          have := hnew hkeq (bf.cellsFree.length - 1) (by omega)
          omega
      have hlen2 : (bf.offer { bitWidth := w }).1.cellsFree.length = bf.cellsFree.length := by
        rw [hlen]; omega
      have hc2 : compactWith (bf.offer { bitWidth := w }).1 (f - w) := by
        refine ⟨hbf2, ?_, ?_, ?_⟩
        · intro j hj
          rw [hlen2] at hj
          rw [hfo j (by omega)]
          exact hfull j hj
        · intro h0; omega
        · intro _
          rw [hlen2, ← hkl, hfk, hkl, ← hfl]
      obtain ⟨i1, f2, i2, i3⟩ := ih _ _ hc2 hrest
      rw [hlen2] at i1 i3
      refine ⟨?_, f2, i2, ?_⟩
      · rw [i1, hstart, hkl, ← hfl]
        have : ((bf.cellsFree.length - 1 : Nat) : Int) = (bf.cellsFree.length : Int) - 1 := by
          omega
        rw [this]
        congr 1
        · ring
        · congr 1; ring
      · rw [i3]; ring
    · -- the last cell is full: a new cell is opened
      have hkl : k = bf.cellsFree.length := by
        by_contra hne
        have hlt : k < bf.cellsFree.length := by omega
        rcases Nat.lt_or_ge (k + 1) bf.cellsFree.length with h1 | h1
        · have := hfull k h1; omega
        · have hke : k = bf.cellsFree.length - 1 := by omega
          have := hf1 (by omega)
          rw [← hke] at this
          omega
      have hlen2 : (bf.offer { bitWidth := w }).1.cellsFree.length
          = bf.cellsFree.length + 1 := by
        rw [hlen]; omega
      have hfk64 : freeAt bf k = 64 := by rw [hkl]; exact freeAt_ge (le_refl _)
      have hzero : ∀ j, j < bf.cellsFree.length → freeAt bf j = 0 := by
        intro j hj
        rcases Nat.lt_or_ge (j + 1) bf.cellsFree.length with h1 | h1
        · exact hfull j h1
        · have hje : j = bf.cellsFree.length - 1 := by omega
          have := hf1 (by omega)
          rw [← hje] at this
          omega
      have hc2 : compactWith (bf.offer { bitWidth := w }).1 (64 - w) := by
        refine ⟨hbf2, ?_, ?_, ?_⟩
        · intro j hj
          rw [hlen2] at hj
          rw [hfo j (by omega)]
          exact hzero j (by omega)
        · intro h0; omega
        · intro _
          rw [hlen2]
          have : bf.cellsFree.length + 1 - 1 = k := by omega
          rw [this, hfk, hfk64]
      obtain ⟨i1, f2, i2, i3⟩ := ih _ _ hc2 hrest
      rw [hlen2] at i1 i3
      refine ⟨?_, f2, i2, ?_⟩
      · rw [i1, hstart, hfk64, hkl, hfz]
        congr 1
        · ring
        · congr 1; push_cast; ring
      · rw [i3, hfz]; push_cast; ring

theorem compactWith_empty : compactWith {} 0 := by
  refine ⟨fun k => by rw [freeAt_empty]; omega, ?_, fun _ => rfl, ?_⟩
  · intro k hk; simp at hk
  · intro h; simp at h

theorem fitsSeq_of_sum_le : ∀ (ws : List Int) (f : Int), (∀ w ∈ ws, 1 ≤ w) → ws.sum ≤ f →
    f ≤ 64 → fitsSeq f ws := by
  intro ws
  induction ws with
  | nil => intro _ _ _ _; trivial
  | cons w ws ih =>
    intro f h1 hsum hf
    have hw := h1 w (List.mem_cons_self _ _)
    have hrest : ∀ x ∈ ws, 1 ≤ x := fun x hx => h1 x (List.mem_cons_of_mem _ hx)
    have hnn : 0 ≤ ws.sum := List.sum_nonneg (fun x hx => by have := hrest x hx; omega)
    simp only [List.sum_cons] at hsum
    exact ⟨hw, by omega, Or.inl ⟨by omega, ih _ hrest (by omega) (by omega)⟩⟩

theorem fitsSeq_of_natural : ∀ (ws : List Int) (f : Int), (∀ w ∈ ws, naturalWidth w) →
    ws.Pairwise (fun a b => b ≤ a) → 0 ≤ f → f ≤ 64 → (∀ w ∈ ws, f % w = 0) →
    fitsSeq f ws := by
  intro ws
  induction ws with
  | nil => intro _ _ _ _ _ _; trivial
  | cons w ws ih =>
    intro f hnat hp hf0 hf64 hdiv
    have hw := hnat w (List.mem_cons_self _ _)
    have hrest : ∀ x ∈ ws, naturalWidth x := fun x hx => hnat x (List.mem_cons_of_mem _ hx)
    have hp2 := List.pairwise_cons.1 hp
    have hfw := hdiv w (List.mem_cons_self _ _)
    have hw164 : 1 ≤ w ∧ w ≤ 64 := by
      rcases hw with h | h | h | h | h <;> omega
    refine ⟨hw164.1, hw164.2, ?_⟩
    by_cases hfz : f = 0
    · right
      refine ⟨hfz, ih _ hrest hp2.2 (by omega) (by omega) ?_⟩
      intro x hx
      have hxw := hp2.1 x hx
      have hxn := hrest x hx
      rcases hw with h | h | h | h | h <;> rcases hxn with g | g | g | g | g <;>
        subst h <;> subst g <;> omega
    · left
      have hwf : w ≤ f := by
        rcases hw with h | h | h | h | h <;> subst h <;> omega
      refine ⟨hwf, ih _ hrest hp2.2 (by omega) (by omega) ?_⟩
      intro x hx
      have hxw := hp2.1 x hx
      have hxn := hrest x hx
      have hfx := hdiv x (List.mem_cons_of_mem _ hx)
      rcases hw with h | h | h | h | h <;> rcases hxn with g | g | g | g | g <;>
        subst h <;> subst g <;> omega

theorem forall₂_mem_right {α β : Type} {R : α → β → Prop} :
    ∀ {l1 : List α} {l2 : List β}, List.Forall₂ R l1 l2 → ∀ b ∈ l2, ∃ a ∈ l1, R a b := by
  intro l1 l2 h
  induction h with
  | nil => intro b hb; simp at hb
  | cons hab _ ih =>
    intro b hb
    rcases List.mem_cons.1 hb with h1 | h1
    · subst h1; exact ⟨_, List.mem_cons_self _ _, hab⟩
    · obtain ⟨a, ha, hr⟩ := ih b h1
      exact ⟨a, List.mem_cons_of_mem _ ha, hr⟩

theorem zipWith_withLocus_loci : ∀ (tms : List Gene) (ls : List locus),
    tms.length = ls.length → (List.zipWith Gene.withLocus tms ls).map Gene.toLocus = ls := by
  intro tms
  induction tms with
  | nil => intro ls h; cases ls with
    | nil => rfl
    | cons _ _ => simp at h
  | cons tm tms ih =>
    intro ls h
    cases ls with
    | nil => simp at h
    | cons l ls =>
      simp only [List.zipWith_cons_cons, List.map_cons, Gene.withLocus]
      rw [ih ls (by simpa using h)]

theorem mem_expandWidths {gs : List GeneSpec} {w : Int} (h : w ∈ expandWidths gs) :
    ∃ g ∈ gs, w = g.bits := by
  unfold expandWidths at h
  obtain ⟨g, hg, hw⟩ := List.mem_flatMap.1 h
  exact ⟨g, hg, (List.mem_replicate.1 hw).2⟩

/-- The loci of a compiled chromosome are those the allocator assigns to the widths of
its genes. -/
theorem compiledFrom_loci {cs : ChromosomeSpec} {c : Chromosome} (h : compiledFrom cs c) :
    c.genes.map Gene.toLocus
      = (offerAll (expandWidths (sortStableFunc cmpBits cs.genes))).2 ∧
    c.genes.map Gene.bitWidth = expandWidths (sortStableFunc cmpBits cs.genes) := by
  obtain ⟨ht, hg, _⟩ := h
  have ht2 : ∀ g ∈ sortStableFunc cmpBits cs.genes, g.type_ ≠ none := fun g hg2 =>
    ht g ((mem_sortStableFunc _ _ _).1 hg2)
  have hlen : (allTemplates (sortStableFunc cmpBits cs.genes)).length
      = (offerAll (expandWidths (sortStableFunc cmpBits cs.genes))).2.length := by
    unfold offerAll
    rw [offerFrom_length, ← allTemplates_widths _ ht2, List.length_map]
  have h1 : c.genes.map Gene.toLocus
      = (offerAll (expandWidths (sortStableFunc cmpBits cs.genes))).2 := by
    rw [hg]; exact zipWith_withLocus_loci _ _ hlen
  refine ⟨h1, ?_⟩
  have h2 : c.genes.map Gene.bitWidth = (c.genes.map Gene.toLocus).map locus.bitWidth := by
    rw [List.map_map]; rfl
  rw [h2, h1]
  exact offerFrom_widths _ _

theorem compiledFrom_validWidths {cs : ChromosomeSpec}
    (hv : ∀ g ∈ cs.genes, 1 ≤ g.bits ∧ g.bits ≤ 64) :
    validWidths (expandWidths (sortStableFunc cmpBits cs.genes)) := by
  intro w hw
  obtain ⟨g, hg, rfl⟩ := mem_expandWidths hw
  exact hv g ((mem_sortStableFunc _ _ _).1 hg)

/-- C6, as amended: when every width the spec function passed to `Bits` is at least 1
(`Bits` itself keeps it at most 64), every gene locus of the schema `Build` returns has
`0 ≤ bitOffset < 8` and `1 ≤ bitWidth ≤ 64`. -/
theorem build_loci_in_range (spec : Spec) (schema : Schema)
    (h : Build false spec = some schema) (hv : Spec.validBits spec) :
    ∀ c ∈ schema.chromosomes, ∀ g ∈ c.genes,
      0 ≤ g.toLocus.bitOffset ∧ g.toLocus.bitOffset < 8 ∧
      1 ≤ g.toLocus.bitWidth ∧ g.toLocus.bitWidth ≤ 64 := by
  intro c hc g hg
  obtain ⟨_, hall, _⟩ := Build_spec spec schema h
  obtain ⟨cs, hcs, hcomp⟩ := forall₂_mem_right hall c hc
  have hvw := compiledFrom_validWidths (hv cs hcs)
  obtain ⟨_, _, h3, _, _⟩ := offerAll_spec _ hvw
  have hl : g.toLocus ∈ (offerAll (expandWidths (sortStableFunc cmpBits cs.genes))).2 := by
    rw [← (compiledFrom_loci hcomp).1]
    exact List.mem_map_of_mem _ hg
  obtain ⟨_, _, _, _, hw1, ho0, ho8, ho64⟩ := h3 _ hl
  exact ⟨ho0, ho8, hw1, by omega⟩

theorem build_loci_in_range_witness :
    Build false (specOf buildOptionsSpec) = some (schemaOf (specOf buildOptionsSpec)) ∧
    Spec.validBits (specOf buildOptionsSpec) ∧
    ∀ c ∈ (schemaOf (specOf buildOptionsSpec)).chromosomes, ∀ g ∈ c.genes,
      0 ≤ g.toLocus.bitOffset ∧ g.toLocus.bitOffset < 8 ∧
      1 ≤ g.toLocus.bitWidth ∧ g.toLocus.bitWidth ≤ 64 :=
  ⟨by decide, by decide,
    build_loci_in_range (specOf buildOptionsSpec) (schemaOf (specOf buildOptionsSpec))
      (by decide) (by decide)⟩

/-- C6, counterexample: `Bits(0)` is accepted, `Build` returns a schema, and its gene has
`bitWidth = 0`, which is not in `1..64`. -/
theorem build_loci_in_range_counterexample :
    oneByteSpec 0 ≠ none ∧
    Build false (specOf (oneByteSpec 0)) = some (schemaOf (specOf (oneByteSpec 0))) ∧
    ¬ (∀ c ∈ (schemaOf (specOf (oneByteSpec 0))).chromosomes, ∀ g ∈ c.genes,
        0 ≤ g.toLocus.bitOffset ∧ g.toLocus.bitOffset < 8 ∧
        1 ≤ g.toLocus.bitWidth ∧ g.toLocus.bitWidth ≤ 64) := by
  decide

theorem forall₂_imp_mem {α β : Type} {R S : α → β → Prop} :
    ∀ {l1 : List α} {l2 : List β}, List.Forall₂ R l1 l2 →
      (∀ a ∈ l1, ∀ b, R a b → S a b) → List.Forall₂ S l1 l2 := by
  intro l1 l2 h
  induction h with
  | nil => intro _; exact List.Forall₂.nil
  | cons hab _ ih =>
    intro himp
    exact List.Forall₂.cons (himp _ (List.mem_cons_self _ _) _ hab)
      (ih fun a ha b hr => himp a (List.mem_cons_of_mem _ ha) b hr)

theorem compiledFrom_bytesLength {cs : ChromosomeSpec} {c : Chromosome}
    (h : compiledFrom cs c) (hv : ∀ g ∈ cs.genes, 1 ≤ g.bits ∧ g.bits ≤ 64) :
    expandWidths (sortStableFunc cmpBits cs.genes) ≠ [] ∧
    1 ≤ (offerAll (expandWidths (sortStableFunc cmpBits cs.genes))).1.cellsFree.length ∧
    c.bytesLength = 8 * ((offerAll (expandWidths
        (sortStableFunc cmpBits cs.genes))).1.cellsFree.length : Int)
      - freeAt (offerAll (expandWidths (sortStableFunc cmpBits cs.genes))).1
          ((offerAll (expandWidths (sortStableFunc cmpBits cs.genes))).1.cellsFree.length - 1)
        / 8 := by
  obtain ⟨_, _, hn, _⟩ := h
  have hvw := compiledFrom_validWidths hv
  obtain ⟨h1, h2, _, _, _⟩ := offerAll_spec _ hvw
  have hne : expandWidths (sortStableFunc cmpBits cs.genes) ≠ [] := by
    intro hnil
    rw [hnil] at hn
    simp [offerAll, offerFrom, bestFitDecreasingAllocator.nBytes] at hn
  have hlen := h2 hne
  have hs := nBytes_spec _ h1 hlen
  rw [hs] at hn
  exact ⟨hne, hlen, (Option.some.inj hn).symm⟩

theorem compiledFrom_bytesLength_nonneg {cs : ChromosomeSpec} {c : Chromosome}
    (h : compiledFrom cs c) (hv : ∀ g ∈ cs.genes, 1 ≤ g.bits ∧ g.bits ≤ 64) :
    0 ≤ c.bytesLength := by
  obtain ⟨_, hlen, hb⟩ := compiledFrom_bytesLength h hv
  obtain ⟨h1, _⟩ := offerAll_spec _ (compiledFrom_validWidths hv)
  have := h1 ((offerAll (expandWidths
    (sortStableFunc cmpBits cs.genes))).1.cellsFree.length - 1)
  omega

theorem regionsFrom_disjoint : ∀ (cs : List Chromosome) (start : Int), regionsFrom start cs →
    (∀ c ∈ cs, 0 ≤ c.bytesLength) →
    (∀ c ∈ cs, start ≤ c.bytesIndex ∧
      c.bytesIndex + c.bytesLength ≤ start + (cs.map Chromosome.bytesLength).sum) ∧
    cs.Pairwise (fun a b => a.bytesIndex + a.bytesLength ≤ b.bytesIndex) := by
  intro cs
  induction cs with
  | nil => intro _ _ _; simp
  | cons c cs ih =>
    intro start h hnn
    obtain ⟨i1, i2⟩ := ih _ h.2 (fun x hx => hnn x (List.mem_cons_of_mem _ hx))
    have hc := hnn c (List.mem_cons_self _ _)
    have hsum : 0 ≤ (cs.map Chromosome.bytesLength).sum := by
      apply List.sum_nonneg
      intro x hx
      obtain ⟨y, hy, rfl⟩ := List.mem_map.1 hx
      exact hnn y (List.mem_cons_of_mem _ hy)
    refine ⟨?_, List.pairwise_cons.2 ⟨?_, i2⟩⟩
    · intro x hx
      simp only [List.map_cons, List.sum_cons]
      rcases List.mem_cons.1 hx with h1 | h1
      · rw [h1, h.1]; omega
      · have := i1 x h1; omega
    · intro x hx
      have := i1 x hx
      rw [h.1]; omega

/-- C7: for every schema returned by `Build`, chromosome `j` starts at the sum of the
byte lengths of chromosomes `0..j-1` and `Size()` is the sum of all byte lengths; with
legal gene widths the lengths are non-negative, so the byte regions lie in
`[0, Size())`, follow one another and are pairwise disjoint. -/
theorem build_regions_cumulative (spec : Spec) (schema : Schema)
    (h : Build false spec = some schema) :
    (∀ (j : Nat) (hj : j < schema.chromosomes.length),
      (schema.chromosomes.get ⟨j, hj⟩).bytesIndex
        = ((schema.chromosomes.take j).map Chromosome.bytesLength).sum) ∧
    schema.Size = (schema.chromosomes.map Chromosome.bytesLength).sum ∧
    (Spec.validBits spec →
      (∀ c ∈ schema.chromosomes,
        0 ≤ c.bytesLength ∧ 0 ≤ c.bytesIndex ∧ c.bytesIndex + c.bytesLength ≤ schema.Size) ∧
      schema.chromosomes.Pairwise (fun a b => a.bytesIndex + a.bytesLength ≤ b.bytesIndex)) := by
  obtain ⟨hsize, hall, hreg⟩ := Build_spec spec schema h
  refine ⟨?_, hsize, ?_⟩
  · intro j hj
    have := regionsFrom_index _ _ hreg j hj
    simpa using this
  · intro hv
    have hnn : ∀ c ∈ schema.chromosomes, 0 ≤ c.bytesLength := by
      intro c hc
      obtain ⟨cs, hcs, hcomp⟩ := forall₂_mem_right hall c hc
      exact compiledFrom_bytesLength_nonneg hcomp (hv cs hcs)
    obtain ⟨h1, h2⟩ := regionsFrom_disjoint _ _ hreg hnn
    refine ⟨?_, h2⟩
    intro c hc
    have := h1 c hc
    unfold Schema.Size
    rw [hsize]
    exact ⟨hnn c hc, by omega, by omega⟩

theorem build_regions_cumulative_witness :
    Build false (specOf buildSchemaSpec) = some (schemaOf (specOf buildSchemaSpec)) ∧
    (∀ (j : Nat) (hj : j < (schemaOf (specOf buildSchemaSpec)).chromosomes.length),
      ((schemaOf (specOf buildSchemaSpec)).chromosomes.get ⟨j, hj⟩).bytesIndex
        = (((schemaOf (specOf buildSchemaSpec)).chromosomes.take j).map
            Chromosome.bytesLength).sum) ∧
    (schemaOf (specOf buildSchemaSpec)).Size
      = ((schemaOf (specOf buildSchemaSpec)).chromosomes.map Chromosome.bytesLength).sum ∧
    (Spec.validBits (specOf buildSchemaSpec) →
      (∀ c ∈ (schemaOf (specOf buildSchemaSpec)).chromosomes,
        0 ≤ c.bytesLength ∧ 0 ≤ c.bytesIndex ∧
        c.bytesIndex + c.bytesLength ≤ (schemaOf (specOf buildSchemaSpec)).Size) ∧
      (schemaOf (specOf buildSchemaSpec)).chromosomes.Pairwise
        (fun a b => a.bytesIndex + a.bytesLength ≤ b.bytesIndex)) :=
  ⟨by decide,
    build_regions_cumulative (specOf buildSchemaSpec) (schemaOf (specOf buildSchemaSpec))
      (by decide)⟩

theorem expandWidths_cons (g : GeneSpec) (gs : List GeneSpec) :
    expandWidths (g :: gs) = List.replicate g.count g.bits ++ expandWidths gs := by
  simp [expandWidths, List.flatMap_cons]

theorem expandWidths_descending : ∀ gs : List GeneSpec,
    gs.Pairwise (fun a b => b.bits ≤ a.bits) →
    (expandWidths gs).Pairwise (fun a b => b ≤ a) := by
  intro gs
  induction gs with
  | nil => intro _; simp [expandWidths]
  | cons g gs ih =>
    intro hp
    have hp2 := List.pairwise_cons.1 hp
    rw [expandWidths_cons, List.pairwise_append]
    refine ⟨?_, ih hp2.2, ?_⟩
    · rw [List.pairwise_replicate]
      right; exact le_refl _
    · intro a ha b hb
      obtain ⟨g2, hg2, rfl⟩ := mem_expandWidths hb
      rw [(List.mem_replicate.1 ha).2]
      exact hp2.1 g2 hg2

theorem seqStarts_length : ∀ (ws : List Int) (s : Int), (seqStarts s ws).length = ws.length := by
  intro ws
  induction ws with
  | nil => intro s; rfl
  | cons w ws ih => intro s; simp [seqStarts, ih]

theorem map_start_eq (genes : List Gene) :
    genes.map (fun g => g.toLocus.start) = (genes.map Gene.toLocus).map locus.start := by
  rw [List.map_map]; rfl

/-- A compiled chromosome whose widths are offered so that each fits in the last cell or
meets it full is laid out without gaps, and its byte length is the number of bytes the
bits take. -/
theorem compiledFrom_sequential {cs : ChromosomeSpec} {c : Chromosome}
    (h : compiledFrom cs c) (hfit : fitsSeq 0 (c.genes.map Gene.bitWidth)) :
    c.genes.map (fun g => g.toLocus.start) = seqStarts 0 (c.genes.map Gene.bitWidth) ∧
    c.bytesLength = ((c.genes.map Gene.bitWidth).sum + 7) / 8 := by
  obtain ⟨hl, hw⟩ := compiledFrom_loci h
  rw [hw] at hfit ⊢
  obtain ⟨h1, f2, hc2, hsum⟩ := offerFrom_sequential _ {} 0 compactWith_empty hfit
  refine ⟨?_, ?_⟩
  · rw [map_start_eq, hl]
    unfold offerAll
    rw [h1]; simp
  · obtain ⟨_, _, hn, _⟩ := h
    unfold offerAll at hn
    obtain ⟨hb, _, hf0, hf1⟩ := hc2
    by_cases hlen : 1 ≤ (offerFrom {} (expandWidths (sortStableFunc cmpBits cs.genes))).1.cellsFree.length
    · rw [nBytes_spec _ hb hlen] at hn
      have hfl := hf1 hlen
      have hb2 := hb ((offerFrom {} (expandWidths
        (sortStableFunc cmpBits cs.genes))).1.cellsFree.length - 1)
      rw [← hfl] at hn hb2
      have hn2 := Option.some.inj hn
      simp only [List.length_nil, Nat.cast_zero, mul_zero, sub_zero, zero_add] at hsum
      omega
    · exfalso
      have h0 : (offerFrom {} (expandWidths
          (sortStableFunc cmpBits cs.genes))).1.cellsFree = [] := by
        apply List.eq_nil_of_length_eq_zero; omega
      simp [bestFitDecreasingAllocator.nBytes, h0] at hn

/-- C8: `Build` orders the gene specs of each chromosome by descending bit width, equal
widths keeping their declaration order (for widths within ±2^62, where the comparator
cannot overflow), so the genes of the compiled chromosome have non-increasing widths in
assignment order; when all widths are natural (1, 8, 16, 32 or 64 bits) the genes are
laid out one after the other without gaps and the chromosome takes the bits rounded up to
whole bytes.  The first chromosome of the test schema packs as int, int64, uint, uint64,
int32, uint32, int16, uint16, int8, uint8, bool in 47 bytes. -/
theorem build_sorts_widest_first (spec : Spec) (schema : Schema)
    (h : Build false spec = some schema)
    (hr : ∀ cs ∈ spec, ∀ g ∈ cs.genes, -(2 ^ 62) ≤ g.bits ∧ g.bits < 2 ^ 62) :
    List.Forall₂ widestFirst spec schema.chromosomes ∧
    ((schemaOf (specOf buildSchemaSpec)).chromosomes.head?.map
        fun c => (c.genes.map Gene.type_, c.genes.map (fun g => g.toLocus.byteIndex),
          c.bytesLength))
      = some ([.int, .int64, .uint, .uint64, .int32, .uint32, .int16, .uint16, .int8,
                .uint8, .bool],
              [0, 8, 16, 24, 32, 36, 40, 42, 44, 45, 46], 47) := by
  obtain ⟨_, hall, _⟩ := Build_spec spec schema h
  refine ⟨forall₂_imp_mem hall ?_, by decide⟩
  intro cs hcs c hcomp
  have hcmp : ∀ a ∈ cs.genes, ∀ b ∈ cs.genes, cmpBits a b < 0 ↔ b.bits < a.bits :=
    fun a ha b hb => cmpBits_neg_iff (hr cs hcs a ha) (hr cs hcs b hb)
  obtain ⟨hsorted, hstable⟩ := sortStableFunc_spec cmpBits GeneSpec.bits cs.genes hcmp
  have hw := (compiledFrom_loci hcomp).2
  have hdesc := expandWidths_descending _ hsorted
  refine ⟨sortStableFunc_perm _ _, hsorted, hstable, hw, by rw [hw]; exact hdesc, ?_⟩
  intro hnat
  apply compiledFrom_sequential hcomp
  rw [hw]
  apply fitsSeq_of_natural _ _ _ hdesc (le_refl _) (by norm_num)
  · intro w _; simp
  · intro w hw2
    obtain ⟨g, hg, rfl⟩ := mem_expandWidths hw2
    exact hnat g ((mem_sortStableFunc _ _ _).1 hg)

theorem build_sorts_widest_first_witness :
    Build false (specOf buildSchemaSpec) = some (schemaOf (specOf buildSchemaSpec)) ∧
    (∀ cs ∈ specOf buildSchemaSpec, ∀ g ∈ cs.genes, -(2 ^ 62) ≤ g.bits ∧ g.bits < 2 ^ 62) ∧
    List.Forall₂ widestFirst (specOf buildSchemaSpec)
      (schemaOf (specOf buildSchemaSpec)).chromosomes :=
  ⟨by decide, by decide,
    (build_sorts_widest_first (specOf buildSchemaSpec) (schemaOf (specOf buildSchemaSpec))
      (by decide) (by decide)).1⟩

/-! ## Crossover points -/

theorem swapBuffer_perm (buffer : List Nat) (i j : Nat) (hi : i < buffer.length)
    (hj : j < buffer.length) : (swapBuffer buffer i j).Perm buffer := by
  rw [List.perm_iff_count]
  intro b
  unfold swapBuffer
  have hj2 : j < (buffer.set i (buffer.getD j 0)).length := by simpa using hj
  rw [List.count_set _ _ _ _ hj2, List.count_set _ _ _ _ hi]
  have hgi : buffer.getD i 0 = buffer[i] := by
    rw [List.getD_eq_getElem?_getD, List.getElem?_eq_getElem hi]; rfl
  have hgj : buffer.getD j 0 = buffer[j] := by
    rw [List.getD_eq_getElem?_getD, List.getElem?_eq_getElem hj]; rfl
  have h1 : (buffer.set i (buffer.getD j 0))[j] = buffer[j] := by
    rw [List.getElem_set]
    split
    · exact hgj
    · rfl
  rw [h1, hgi, hgj]
  have hci : (if (buffer[i] == b) = true then 1 else 0) ≤ buffer.count b := by
    split
    · rename_i hb
      have : buffer[i] = b := by simpa using hb
      exact List.count_pos_iff.2 (this ▸ List.getElem_mem hi)
    · omega
  by_cases hbi : (buffer[i] == b) = true <;> by_cases hbj : (buffer[j] == b) = true <;>
    simp only [hbi, hbj, if_true, if_false] at hci ⊢ <;> omega

theorem shuffleSteps_perm (draw : Nat → Nat) : ∀ (m : Nat) (buffer : List Nat),
    m < buffer.length → (shuffleSteps draw m buffer).Perm buffer := by
  intro m
  induction m with
  | zero => intro buffer _; exact List.Perm.refl _
  | succ m ih =>
    intro buffer hm
    unfold shuffleSteps
    have hj : draw (m + 1) % (m + 2) < buffer.length := by
      have := Nat.mod_lt (draw (m + 1)) (show 0 < m + 2 by omega)
      omega
    have hp := swapBuffer_perm buffer (m + 1) _ hm hj
    exact (ih _ (by rw [hp.length_eq]; omega)).trans hp

theorem randShuffle_perm (draw : Nat → Nat) (n : Nat) (buffer : List Nat)
    (h : n ≤ buffer.length) : (randShuffle draw n buffer).Perm buffer := by
  unfold randShuffle
  cases n with
  | zero => exact List.Perm.refl _
  | succ n => exact shuffleSteps_perm draw _ buffer (by simpa using h)

/-- The points a new operator draws when `k` does not exceed the number of candidate
points: the operator after `randomXPoints` holds `k` points, strictly ascending, all in
`[1, totBits - 2]`. -/
theorem randomXPoints_fresh (k : Int) (draw : Nat → Nat) (totBits : Int) (s : kPoints)
    (hs : KPoints k = some s) (hk2 : k ≤ totBits - 2) :
    ∃ s2, s.randomXPoints draw totBits = some s2 ∧ s2.k = k ∧
      (s2.xps.length : Int) = k ∧ s2.xps.Sorted (· < ·) ∧
      ∀ x ∈ s2.xps, 1 ≤ (x : Int) ∧ (x : Int) ≤ totBits - 2 := by
  unfold KPoints at hs
  by_cases hk : k ≤ 0
  · simp [hk] at hs
  · simp only [hk, if_false, Option.some.injEq] at hs
    subst hs
    have hR : ¬ totBits - 2 < 0 := by omega
    have hne : ¬ (((([] : List Nat).length : Nat) : Int) = totBits - 2) := by
      simp only [List.length_nil, Nat.cast_zero]; omega
    have hlt : ((([] : List Nat).length : Nat) : Int) < totBits - 2 := by
      simp only [List.length_nil, Nat.cast_zero]; omega
    unfold kPoints.randomXPoints
    simp only [hR, hne, hlt, if_true, if_false]
    refine ⟨_, rfl, rfl, ?_⟩
    have hdrop : (List.replicate (totBits - 2).toNat 0).drop (totBits - 2).toNat
        = ([] : List Nat) := by
      apply List.drop_eq_nil_of_le; simp
    rw [hdrop, List.append_nil]
    have hperm := randShuffle_perm draw (totBits - 2).toNat
      ((List.range (totBits - 2).toNat).map (fun i => 1 + i)) (by simp)
    have hlen : (randShuffle draw (totBits - 2).toNat
        ((List.range (totBits - 2).toNat).map (fun i => 1 + i))).length
          = (totBits - 2).toNat := by
      rw [hperm.length_eq]; simp
    have hcopy : copyBytes (List.replicate k.toNat 0)
        (randShuffle draw (totBits - 2).toNat
          ((List.range (totBits - 2).toNat).map (fun i => 1 + i)))
        = (randShuffle draw (totBits - 2).toNat
          ((List.range (totBits - 2).toNat).map (fun i => 1 + i))).take k.toNat := by
      unfold copyBytes
      rw [List.length_replicate, List.drop_eq_nil_of_le (by rw [List.length_replicate, hlen]; omega),
        List.append_nil]
    simp only
    rw [hcopy]
    have hnodup : (List.map (fun i => 1 + i) (List.range (totBits - 2).toNat)).Nodup :=
      List.Nodup.map (fun a b hab => by simpa using hab) (List.nodup_range _)
    have hnd2 := (hperm.nodup_iff.2 hnodup).sublist (List.take_sublist k.toNat _)
    have hps := List.perm_insertionSort (· ≤ ·)
      ((randShuffle draw (totBits - 2).toNat
        ((List.range (totBits - 2).toNat).map (fun i => 1 + i))).take k.toNat)
    refine ⟨?_, ?_, ?_⟩
    · rw [hps.length_eq, List.length_take, hlen]
      omega
    · exact (List.sorted_insertionSort (· ≤ ·) _).lt_of_le (hps.nodup_iff.2 hnd2)
    · intro x hx
      have hx2 := hperm.mem_iff.1 (List.mem_of_mem_take (hps.mem_iff.1 hx))
      obtain ⟨i, hi, rfl⟩ := List.mem_map.1 hx2
      have := List.mem_range.1 hi
      omega

/-! ## Bits of byte strings -/

theorem getD_set_eq (a : List Nat) (i v m : Nat) (hi : i < a.length) :
    (a.set i v).getD m 0 = if m = i then v else a.getD m 0 := by
  simp only [List.getD_eq_getElem?_getD, List.getElem?_set]
  by_cases h : i = m
  · subst h; simp [hi]
  · have h2 : ¬ m = i := fun e => h e.symm
    simp [h, h2]

theorem bitAt_set (a : List Nat) (i v t : Nat) (hi : i < a.length) :
    bitAt (a.set i v) t = if t / 8 = i then v.testBit (t % 8) else bitAt a t := by
  unfold bitAt
  rw [getD_set_eq a i v _ hi]
  split <;> rfl

theorem testBit_not8 (m j : Nat) (hj : j < 8) : (not8 m).testBit j = !m.testBit j := by
  unfold not8
  rw [Nat.testBit_xor]
  have : Nat.testBit 255 j = true := by
    have h := Nat.testBit_two_pow_sub_one 8 j
    simp only [show (2 : Nat) ^ 8 - 1 = 255 by norm_num] at h
    rw [h]; simpa using hj
  rw [this]; simp

theorem testBit_highMask (xBits j : Nat) (hj : j < 8) :
    ((255 <<< xBits) % 256).testBit j = decide (xBits ≤ j) := by
  have h256 : (256 : Nat) = 2 ^ 8 := by norm_num
  rw [h256, Nat.testBit_mod_two_pow, Nat.testBit_shiftLeft]
  have h := Nat.testBit_two_pow_sub_one 8 (j - xBits)
  simp only [show (2 : Nat) ^ 8 - 1 = 255 by norm_num] at h
  rw [h]
  by_cases hx : xBits ≤ j
  · have : j - xBits < 8 := by omega
    simp [hj, hx, this]
  · simp [hx]

/-- What `flip` does to the bits of the two strings. -/
theorem flip_spec (a b : List Nat) (i mask : Nat) (hi : i < a.length) (hj : i < b.length) :
    ∃ a2 b2, flip a b i mask = some (a2, b2) ∧ a2.length = a.length ∧ b2.length = b.length ∧
      ∀ t, bitAt a2 t = (if (decide (t / 8 = i) && mask.testBit (t % 8)) = true then bitAt b t
                          else bitAt a t) ∧
           bitAt b2 t = (if (decide (t / 8 = i) && mask.testBit (t % 8)) = true then bitAt a t
                          else bitAt b t) := by
  unfold flip
  simp only [hi, hj, and_self, if_true]
  refine ⟨_, _, rfl, by simp, by simp, ?_⟩
  intro t
  have h8 : t % 8 < 8 := Nat.mod_lt _ (by norm_num)
  rw [bitAt_set _ _ _ _ hi, bitAt_set _ _ _ _ hj]
  by_cases ht : t / 8 = i
  · subst ht
    simp only [if_true, Nat.testBit_or, Nat.testBit_and, testBit_not8 _ _ h8]
    unfold bitAt
    cases hm : mask.testBit (t % 8) <;> simp
  · simp [ht]

theorem getD_copyRange (dst src : List Nat) (lo hi : Nat) (h1 : lo ≤ hi)
    (h2 : hi ≤ dst.length) (h3 : hi ≤ src.length) (m : Nat) :
    (dst.take lo ++ (src.drop lo).take (hi - lo) ++ dst.drop hi).getD m 0
      = if lo ≤ m ∧ m < hi then src.getD m 0 else dst.getD m 0 := by
  simp only [List.getD_eq_getElem?_getD]
  by_cases hm1 : m < lo
  · have : ¬ (lo ≤ m ∧ m < hi) := by omega
    simp only [this, if_false]
    rw [List.append_assoc, List.getElem?_append_left (by simp; omega), List.getElem?_take]
    simp [hm1]
  · by_cases hm2 : m < hi
    · have : lo ≤ m ∧ m < hi := by omega
      simp only [this, and_self, if_true]
      rw [List.append_assoc, List.getElem?_append_right (by simp; omega)]
      have hl : (dst.take lo).length = lo := by simp; omega
      rw [hl, List.getElem?_append_left (by simp; omega), List.getElem?_take]
      have : m - lo < hi - lo := by omega
      simp only [this, if_true, List.getElem?_drop]
      congr 2; omega
    · have : ¬ (lo ≤ m ∧ m < hi) := by omega
      simp only [this, if_false]
      have hl : (dst.take lo ++ (src.drop lo).take (hi - lo)).length = hi := by
        simp; omega
      rw [List.getElem?_append_right (by rw [hl]; omega), hl, List.getElem?_drop]
      congr 2; omega

theorem copyRange_spec (dst src : List Nat) (lo hi : Int) (h0 : 0 ≤ lo) (h1 : lo ≤ hi)
    (h2 : hi ≤ dst.length) (h3 : hi ≤ src.length) :
    ∃ d2, copyRange dst src lo hi = some d2 ∧ d2.length = dst.length ∧
      ∀ t, bitAt d2 t = if decide (lo ≤ ((t / 8 : Nat) : Int) ∧ ((t / 8 : Nat) : Int) < hi)
        = true then bitAt src t else bitAt dst t := by
  unfold copyRange
  simp only [h0, h1, h2, h3, and_self, if_true]
  refine ⟨_, rfl, ?_, ?_⟩
  · simp; omega
  · intro t
    unfold bitAt
    rw [getD_copyRange dst src lo.toNat hi.toNat (by omega) (by omega) (by omega)]
    have e : (lo.toNat ≤ t / 8 ∧ t / 8 < hi.toNat)
        ↔ (lo ≤ ((t / 8 : Nat) : Int) ∧ ((t / 8 : Nat) : Int) < hi) := by omega
    by_cases hc : lo.toNat ≤ t / 8 ∧ t / 8 < hi.toNat
    · simp only [hc, e.1 hc, and_self, if_true, decide_True]
    · have hc2 : ¬ (lo ≤ ((t / 8 : Nat) : Int) ∧ ((t / 8 : Nat) : Int) < hi) :=
        fun h => hc (e.2 h)
      simp only [hc, hc2, if_false, decide_False, Bool.false_eq_true]

theorem copyTail_spec (dst src : List Nat) (lo : Int) (h0 : 0 ≤ lo) (hlen : src.length = dst.length)
    (h2 : lo ≤ dst.length) :
    ∃ d2, copyTail dst src lo = some d2 ∧ d2.length = dst.length ∧
      ∀ t, bitAt d2 t = if decide (lo ≤ ((t / 8 : Nat) : Int)) = true then bitAt src t
        else bitAt dst t := by
  unfold copyTail
  have h3 : lo ≤ (src.length : Int) := by omega
  simp only [h0, h2, h3, and_self, if_true]
  have hcb : copyBytes (dst.drop lo.toNat) (src.drop lo.toNat) = src.drop lo.toNat := by
    unfold copyBytes
    have hl : (src.drop lo.toNat).length = (dst.drop lo.toNat).length := by
      simp only [List.length_drop]; omega
    have e1 : (dst.drop lo.toNat).drop (src.drop lo.toNat).length = [] :=
      List.drop_eq_nil_of_le (by omega)
    have e2 : (src.drop lo.toNat).take (dst.drop lo.toNat).length = src.drop lo.toNat :=
      List.take_of_length_le (by omega)
    rw [e1, e2, List.append_nil]
  rw [hcb]
  refine ⟨_, rfl, ?_, ?_⟩
  · simp; omega
  · intro t
    unfold bitAt
    simp only [List.getD_eq_getElem?_getD]
    by_cases hm : t / 8 < lo.toNat
    · have : ¬ lo ≤ ((t / 8 : Nat) : Int) := by omega
      simp only [this, if_false, decide_False, Bool.false_eq_true]
      rw [List.getElem?_append_left (by simp; omega), List.getElem?_take]
      simp [hm]
    · have : lo ≤ ((t / 8 : Nat) : Int) := by omega
      simp only [this, if_true, decide_True]
      have hl : (dst.take lo.toNat).length = lo.toNat := by simp; omega
      rw [List.getElem?_append_right (by rw [hl]; omega), hl, List.getElem?_drop]
      congr 3; omega

/-! ## The crossover loop -/

theorem childrenMatch_flip {mom dad c1 c2 a2 b2 : List Nat} {s s2 F : Nat → Bool}
    (hm : childrenMatch mom dad c1 c2 s)
    (hbits : ∀ t, bitAt a2 t = (if F t = true then bitAt c2 t else bitAt c1 t) ∧
                  bitAt b2 t = (if F t = true then bitAt c1 t else bitAt c2 t))
    (hs : ∀ t, s2 t = xor (s t) (F t)) : childrenMatch mom dad a2 b2 s2 := by
  intro t
  obtain ⟨h1, h2⟩ := hm t
  obtain ⟨h3, h4⟩ := hbits t
  rw [h3, h4, h1, h2, hs t]
  cases s t <;> cases F t <;> simp

theorem childrenMatch_copy {mom dad c1 c2 a2 b2 : List Nat} {s s2 R : Nat → Bool}
    (hm : childrenMatch mom dad c1 c2 s)
    (h1 : ∀ t, bitAt a2 t = if R t = true then bitAt dad t else bitAt c1 t)
    (h2 : ∀ t, bitAt b2 t = if R t = true then bitAt mom t else bitAt c2 t)
    (hs : ∀ t, s2 t = (s t || R t)) : childrenMatch mom dad a2 b2 s2 := by
  intro t
  obtain ⟨h3, h4⟩ := hm t
  rw [h1 t, h2 t, h3, h4, hs t]
  cases s t <;> cases R t <;> simp

theorem pointsUpTo_append (P : List Nat) (xp b : Nat) :
    pointsUpTo (P ++ [xp]) b = pointsUpTo P b + (if xp ≤ b then 1 else 0) := by
  unfold pointsUpTo
  rw [List.filter_append, List.length_append]
  by_cases h : xp ≤ b <;> simp [List.filter_cons, h]

theorem pointsUpTo_all (P : List Nat) (b : Nat) (h : ∀ p ∈ P, p ≤ b) :
    pointsUpTo P b = P.length := by
  unfold pointsUpTo
  rw [List.filter_eq_self.2]
  intro p hp
  simpa using h p hp

theorem bool_eq_xor_of_iff {a b c : Bool} (h : a = true ↔ (b = true ↔ ¬ c = true)) :
    a = xor b c := by
  cases a <;> cases b <;> cases c <;> simp_all

theorem swState_flip_high (P : List Nat) (prev : Int) (xp : Nat)
    (hlt : ∀ p ∈ P, p < xp) (hle : ∀ p ∈ P, ((p / 8 : Nat) : Int) ≤ prev)
    (hprev : prev ≤ ((xp / 8 : Nat) : Int))
    (hcase : P.length % 2 = 0 ∨ ((xp / 8 : Nat) : Int) = prev) (t : Nat) :
    swState (P ++ [xp]) ((xp / 8 : Nat) : Int) t
      = xor (swState P prev t)
          (decide (t / 8 = xp / 8) &&
            (not8 (not8 ((255 <<< (xp % 8)) % 256))).testBit (t % 8)) := by
  have h8 : t % 8 < 8 := Nat.mod_lt _ (by norm_num)
  rw [testBit_not8 _ _ h8, testBit_not8 _ _ h8, testBit_highMask _ _ h8]
  unfold swState
  rw [pointsUpTo_append]
  have hall1 : xp ≤ t → pointsUpTo P t = P.length := fun h =>
    pointsUpTo_all P t (fun p hp => by have := hlt p hp; omega)
  have hall2 : prev < ((t / 8 : Nat) : Int) → pointsUpTo P t = P.length := fun h =>
    pointsUpTo_all P t (fun p hp => by have := hle p hp; omega)
  apply bool_eq_xor_of_iff
  simp only [decide_eq_true_eq, Bool.and_eq_true, Bool.not_not]
  by_cases hxt : xp ≤ t
  · simp only [hxt, if_true]; omega
  · simp only [hxt, if_false]; omega

theorem swState_copy_flip_low (P : List Nat) (prev : Int) (xp : Nat)
    (hlt : ∀ p ∈ P, p < xp) (hle : ∀ p ∈ P, ((p / 8 : Nat) : Int) ≤ prev)
    (hprev : prev < ((xp / 8 : Nat) : Int)) (hodd : P.length % 2 = 1) (t : Nat) :
    swState (P ++ [xp]) ((xp / 8 : Nat) : Int) t
      = xor (swState P prev t ||
              decide (prev + 1 ≤ ((t / 8 : Nat) : Int) ∧
                ((t / 8 : Nat) : Int) < ((xp / 8 : Nat) : Int)))
          (decide (t / 8 = xp / 8) && (not8 ((255 <<< (xp % 8)) % 256)).testBit (t % 8)) := by
  have h8 : t % 8 < 8 := Nat.mod_lt _ (by norm_num)
  rw [testBit_not8 _ _ h8, testBit_highMask _ _ h8]
  unfold swState
  rw [pointsUpTo_append]
  have hall1 : xp ≤ t → pointsUpTo P t = P.length := fun h =>
    pointsUpTo_all P t (fun p hp => by have := hlt p hp; omega)
  have hall2 : prev < ((t / 8 : Nat) : Int) → pointsUpTo P t = P.length := fun h =>
    pointsUpTo_all P t (fun p hp => by have := hle p hp; omega)
  apply bool_eq_xor_of_iff
  simp only [decide_eq_true_eq, Bool.and_eq_true, Bool.or_eq_true, Bool.not_eq_true',
    decide_eq_false_iff_not]
  by_cases hxt : xp ≤ t
  · simp only [hxt, if_true]; omega
  · simp only [hxt, if_false]; omega

/-- One round of the loop of `Crossover` keeps the invariant, and does not panic. -/
theorem crossPoint_step (mom dad P : List Nat) (st : CrossState) (xp : Nat)
    (hlen : dad.length = mom.length) (hinv : CrossInv mom dad P st)
    (hlt : ∀ p ∈ P, p < xp) (hxp : xp < 8 * mom.length) :
    ∃ st2, crossPoint mom dad st P.length xp = some st2 ∧ CrossInv mom dad (P ++ [xp]) st2 := by
  obtain ⟨hl1, hl2, hp0, hp1, hle, hex, hm⟩ := hinv
  have hxB : xp / 8 < mom.length := by omega
  have hprev : st.prevXByte ≤ ((xp / 8 : Nat) : Int) := by
    rcases hex with h | ⟨p, hp, hpe⟩
    · omega
    · have := hlt p hp; omega
  have hle2 : ∀ p ∈ P ++ [xp], ((p / 8 : Nat) : Int) ≤ ((xp / 8 : Nat) : Int) := by
    intro p hp
    rcases List.mem_append.1 hp with h | h
    · have := hlt p h; omega
    · rw [List.mem_singleton.1 h]
  have hex2 : ((xp / 8 : Nat) : Int) = -1 ∨
      ∃ p ∈ P ++ [xp], ((p / 8 : Nat) : Int) = ((xp / 8 : Nat) : Int) :=
    Or.inr ⟨xp, by simp, rfl⟩
  unfold crossPoint
  simp only
  by_cases hodd : P.length % 2 = 1
  · simp only [hodd, if_true]
    by_cases heq : ((xp / 8 : Nat) : Int) = st.prevXByte
    · simp only [heq, if_true]
      obtain ⟨a2, b2, hf, hla, hlb, hbits⟩ := flip_spec st.child1 st.child2 (xp / 8)
        (not8 (not8 ((255 <<< (xp % 8)) % 256))) (by omega) (by omega)
      rw [hf]
      refine ⟨_, rfl, by simpa using hla.trans hl1, by simpa using hlb.trans hl2,
        by simp only; omega, by simp only; omega, ?_, ?_, ?_⟩
      · simpa only [heq] using hle2
      · simpa only [heq] using hex2
      · have hs := swState_flip_high P st.prevXByte xp hlt hle hprev (Or.inr heq)
        rw [heq] at hs
        exact childrenMatch_flip hm hbits hs
    · simp only [heq, if_false]
      obtain ⟨c1, hc1, hlc1, hb1⟩ := copyRange_spec st.child1 dad (st.prevXByte + 1)
        ((xp / 8 : Nat) : Int) (by omega) (by omega) (by omega) (by omega)
      obtain ⟨c2, hc2, hlc2, hb2⟩ := copyRange_spec st.child2 mom (st.prevXByte + 1)
        ((xp / 8 : Nat) : Int) (by omega) (by omega) (by omega) (by omega)
      rw [hc1, hc2]
      simp only
      obtain ⟨a2, b2, hf, hla, hlb, hbits⟩ := flip_spec c1 c2 (xp / 8)
        (not8 ((255 <<< (xp % 8)) % 256)) (by omega) (by omega)
      rw [hf]
      refine ⟨_, rfl, by simpa using hla.trans (hlc1.trans hl1),
        by simpa using hlb.trans (hlc2.trans hl2),
        by simp only; omega, by simp only; omega, hle2, hex2, ?_⟩
      have hmid := childrenMatch_copy hm hb1 hb2 (fun _ => rfl)
      exact childrenMatch_flip hmid hbits
        (swState_copy_flip_low P st.prevXByte xp hlt hle (by omega) hodd)
  · simp only [hodd, if_false]
    obtain ⟨a2, b2, hf, hla, hlb, hbits⟩ := flip_spec st.child1 st.child2 (xp / 8)
      (not8 (not8 ((255 <<< (xp % 8)) % 256))) (by omega) (by omega)
    rw [hf]
    refine ⟨_, rfl, by simpa using hla.trans hl1, by simpa using hlb.trans hl2,
      by simp only; omega, by simp only; omega, hle2, hex2, ?_⟩
    exact childrenMatch_flip hm hbits
      (swState_flip_high P st.prevXByte xp hlt hle hprev (Or.inl (by omega)))

/-- The loop of `Crossover` over strictly ascending points keeps the invariant. -/
theorem crossLoop_spec (mom dad : List Nat) (hlen : dad.length = mom.length) :
    ∀ (rest P : List Nat) (st : CrossState), CrossInv mom dad P st →
      (P ++ rest).Sorted (· < ·) → (∀ x ∈ rest, x < 8 * mom.length) →
      ∃ st2, crossLoop mom dad rest P.length st = some st2 ∧ CrossInv mom dad (P ++ rest) st2 := by
  intro rest
  induction rest with
  | nil => intro P st hinv _ _; exact ⟨st, rfl, by simpa using hinv⟩
  | cons xp rest ih =>
    intro P st hinv hs hr
    have hlt : ∀ p ∈ P, p < xp := by
      intro p hp
      have := List.pairwise_append.1 hs
      exact this.2.2 p hp xp (List.mem_cons_self _ _)
    obtain ⟨st1, h1, hinv1⟩ := crossPoint_step mom dad P st xp hlen hinv hlt
      (hr xp (List.mem_cons_self _ _))
    unfold crossLoop
    rw [h1]
    simp only
    have hs2 : ((P ++ [xp]) ++ rest).Sorted (· < ·) := by simpa using hs
    obtain ⟨st2, h2, hinv2⟩ := ih (P ++ [xp]) st1 hinv1 hs2
      (fun x hx => hr x (List.mem_cons_of_mem _ hx))
    refine ⟨st2, ?_, by simpa using hinv2⟩
    simpa using h2

theorem copyBytes_length (dst src : List Nat) : (copyBytes dst src).length = dst.length := by
  unfold copyBytes
  simp only [List.length_append, List.length_take, List.length_drop]
  omega

theorem copyBytes_of_length_eq (dst src : List Nat) (h : dst.length = src.length) :
    copyBytes dst src = src := by
  unfold copyBytes
  rw [List.take_of_length_le (by omega), List.drop_eq_nil_of_le (by omega), List.append_nil]

theorem randomXPoints_length (s s2 : kPoints) (draw : Nat → Nat) (totBits : Int)
    (h : s.randomXPoints draw totBits = some s2) :
    s2.xps.length = s.xps.length ∧ s2.k = s.k := by
  unfold kPoints.randomXPoints at h
  simp only at h
  split at h
  · simp at h
  · simp only [Option.some.injEq] at h
    rw [← h]
    exact ⟨by rw [(List.perm_insertionSort _ _).length_eq, copyBytes_length], rfl⟩

theorem crossInv_init (mom dad child1 child2 : List Nat) (hd : dad.length = mom.length)
    (h1 : child1.length = mom.length) (h2 : child2.length = mom.length) :
    CrossInv mom dad []
      { child1 := copyBytes child1 mom, child2 := copyBytes child2 dad, prevXByte := -1 } := by
  rw [copyBytes_of_length_eq _ _ h1, copyBytes_of_length_eq _ _ (h2.trans hd.symm)]
  refine ⟨rfl, hd, le_refl _, by simp only; omega, by simp, Or.inl rfl, ?_⟩
  intro b
  have : swState [] (-1) b = false := by
    unfold swState
    simp only [decide_eq_false_iff_not]
    omega
  simp [this]

theorem pointsUpTo_cons (x : Nat) (xs : List Nat) (b : Nat) :
    pointsUpTo (x :: xs) b = (if x ≤ b then 1 else 0) + pointsUpTo xs b := by
  unfold pointsUpTo
  by_cases h : x ≤ b
  · simp [List.filter_cons, h]; omega
  · simp [List.filter_cons, h]

theorem pointsUpTo_pred : ∀ (xs : List Nat), xs.Nodup → ∀ b : Nat,
    pointsUpTo xs b = (if b = 0 then 0 else pointsUpTo xs (b - 1))
      + (if b ∈ xs then 1 else 0) := by
  intro xs
  induction xs with
  | nil => intro _ b; simp [pointsUpTo]
  | cons x xs ih =>
    intro hn b
    have hn2 := List.nodup_cons.1 hn
    rw [pointsUpTo_cons, pointsUpTo_cons, ih hn2.2 b]
    by_cases hb0 : b = 0
    · subst hb0
      by_cases hx : x = 0
      · subst hx
        have : (0 : Nat) ∉ xs := hn2.1
        simp [this]
      · have hx2 : ¬ x ≤ 0 := by omega
        have hx3 : ¬ 0 = x := fun h => hx h.symm
        simp [hx2, hx3]
    · simp only [hb0, if_false, List.mem_cons]
      by_cases hxb : x = b
      · subst hxb
        have : x ∉ xs := hn2.1
        have h1 : ¬ x ≤ x - 1 := by omega
        simp [this, h1]
        omega
      · have hbx : ¬ b = x := fun h => hxb h.symm
        by_cases hle : x ≤ b
        · have h1 : x ≤ b - 1 := by omega
          simp only [hle, h1, hbx, if_true, false_or]; omega
        · have h1 : ¬ x ≤ b - 1 := by omega
          simp only [hle, h1, hbx, if_false, false_or]; omega

/-- With complementary parents, a child that takes the other parent exactly where an odd
number of points is at or below the bit has its transitions exactly at the points. -/
theorem transitions_eq_points (orig other child xps : List Nat)
    (hs : xps.Sorted (· < ·)) (hb : ∀ x ∈ xps, x < 8 * orig.length)
    (hcomp : ∀ b, b < 8 * orig.length → bitAt other b = !bitAt orig b)
    (hbits : ∀ b, bitAt child b
      = (if pointsUpTo xps b % 2 = 1 then bitAt other b else bitAt orig b)) :
    transitions orig child = xps := by
  have hnd : xps.Nodup := hs.nodup
  have hpred : ∀ b, b < 8 * orig.length →
      ((bitAt child b != bitAt orig b) = decide (pointsUpTo xps b % 2 = 1)) := by
    intro b hb2
    rw [hbits b]
    by_cases hp : pointsUpTo xps b % 2 = 1
    · simp only [hp, if_true, decide_True, hcomp b hb2]
      cases bitAt orig b <;> rfl
    · simp only [hp, if_false, decide_False]
      cases bitAt orig b <;> rfl
  have hfilter : transitions orig child
      = (List.range (8 * orig.length)).filter (fun b => decide (b ∈ xps)) := by
    unfold transitions
    apply List.filter_congr
    intro b hb2
    have hb3 := List.mem_range.1 hb2
    rw [hpred b hb3]
    have hp := pointsUpTo_pred xps hnd b
    by_cases hb0 : b = 0
    · subst hb0
      simp only [if_true, Nat.zero_add] at hp
      by_cases hm : 0 ∈ xps
      · simp only [hm, if_true] at hp
        simp [hp, hm]
      · simp only [hm, if_false] at hp
        simp [hp, hm]
    · simp only [hb0, if_false] at hp
      rw [hpred (b - 1) (by omega)]
      have hne : (b != 0) = true := by simpa using hb0
      rw [hne, Bool.true_and]
      by_cases hm : b ∈ xps
      · simp only [hm, if_true] at hp
        have : pointsUpTo xps b % 2 = 1 ↔ ¬ pointsUpTo xps (b - 1) % 2 = 1 := by omega
        by_cases hq : pointsUpTo xps (b - 1) % 2 = 1
        · have h2 : ¬ pointsUpTo xps b % 2 = 1 := by omega
          simp [hq, h2, hm]
        · have h2 : pointsUpTo xps b % 2 = 1 := by omega
          simp [hq, h2, hm]
      · simp only [hm, if_false, Nat.add_zero] at hp
        rw [hp]
        simp [hm]
  rw [hfilter]
  apply List.eq_of_perm_of_sorted (r := (· < ·)) _ ((List.sorted_lt_range _).filter _) hs
  rw [List.perm_ext_iff_of_nodup ((List.nodup_range _).filter _) hnd]
  intro a
  simp only [List.mem_filter, List.mem_range, decide_eq_true_eq]
  exact ⟨fun h => h.2, fun h => ⟨hb a h, h⟩⟩

/-- What `kPoints.Crossover` returns, given strictly ascending points below `tot_bits`. -/
theorem kPoints_Crossover_spec (s s2 : kPoints) (draw : Nat → Nat)
    (mom dad child1 child2 : List Nat)
    (hd : dad.length = mom.length) (h1 : child1.length = mom.length)
    (h2 : child2.length = mom.length)
    (hk : s.k < (mom.length : Int) * 8) (hxl : (s.xps.length : Int) = s.k)
    (hr : s.randomXPoints draw ((mom.length : Int) * 8) = some s2)
    (hs : s2.xps.Sorted (· < ·)) (hb : ∀ x ∈ s2.xps, x < 8 * mom.length) :
    ∃ c1 c2, s.Crossover draw mom dad child1 child2 = .done s2 c1 c2 ∧
      c1.length = mom.length ∧ c2.length = mom.length ∧
      (∀ b, bitAt c1 b = (if pointsUpTo s2.xps b % 2 = 1 then bitAt dad b else bitAt mom b) ∧
            bitAt c2 b = (if pointsUpTo s2.xps b % 2 = 1 then bitAt mom b else bitAt dad b)) ∧
      ((∀ b, b < 8 * mom.length → bitAt dad b = !bitAt mom b) →
        transitions mom c1 = s2.xps ∧ transitions dad c2 = s2.xps ∧
        (s2.xps.length : Int) = s.k) := by
  obtain ⟨hlen2, _⟩ := randomXPoints_length s s2 draw _ hr
  have hinit := crossInv_init mom dad child1 child2 hd h1 h2
  obtain ⟨st, hloop, hinv⟩ := crossLoop_spec mom dad hd s2.xps [] _ hinit
    (by simpa using hs) hb
  simp only [List.nil_append, List.length_nil] at hloop hinv
  obtain ⟨hl1, hl2, hp0, hp1, hle, _, hm⟩ := hinv
  have hall : ∀ t, st.prevXByte < ((t / 8 : Nat) : Int) →
      pointsUpTo s2.xps t = s2.xps.length := fun t h =>
    pointsUpTo_all _ t (fun p hp => by have := hle p hp; omega)
  have hfinal : ∃ c1 c2, s.Crossover draw mom dad child1 child2 = .done s2 c1 c2 ∧
      c1.length = mom.length ∧ c2.length = mom.length ∧
      childrenMatch mom dad c1 c2 (fun b => decide (pointsUpTo s2.xps b % 2 = 1)) := by
    unfold kPoints.Crossover
    have hk2 : ¬ s.k ≥ (mom.length : Int) * 8 := by omega
    simp only [hk2, if_false, hr, hloop]
    by_cases hodd : s.k % 2 = 1
    · simp only [hodd, if_true]
      obtain ⟨c1, hc1, hlc1, hb1⟩ := copyTail_spec st.child1 dad (st.prevXByte + 1)
        (by omega) (by omega) (by omega)
      obtain ⟨c2, hc2, hlc2, hb2⟩ := copyTail_spec st.child2 mom (st.prevXByte + 1)
        (by omega) (by omega) (by omega)
      rw [hc1, hc2]
      refine ⟨c1, c2, rfl, hlc1.trans hl1, hlc2.trans hl2, ?_⟩
      refine childrenMatch_copy hm hb1 hb2 ?_
      intro t
      unfold swState
      rw [Bool.eq_iff_iff]
      simp only [decide_eq_true_eq, Bool.or_eq_true]
      have := hall t
      omega
    · simp only [hodd, if_false]
      refine ⟨_, _, rfl, hl1, hl2, ?_⟩
      intro t
      have hsw : swState s2.xps st.prevXByte t = decide (pointsUpTo s2.xps t % 2 = 1) := by
        unfold swState
        rw [Bool.eq_iff_iff]
        simp only [decide_eq_true_eq]
        have := hall t
        omega
      have hmt := hm t
      rw [hsw] at hmt
      exact hmt
  obtain ⟨c1, c2, hres, hlc1, hlc2, hmatch⟩ := hfinal
  have hbits : ∀ b,
      bitAt c1 b = (if pointsUpTo s2.xps b % 2 = 1 then bitAt dad b else bitAt mom b) ∧
      bitAt c2 b = (if pointsUpTo s2.xps b % 2 = 1 then bitAt mom b else bitAt dad b) := by
    intro b
    have := hmatch b
    simpa only [decide_eq_true_eq] using this
  refine ⟨c1, c2, hres, hlc1, hlc2, hbits, ?_⟩
  intro hcomp
  refine ⟨?_, ?_, by rw [hlen2]; exact hxl⟩
  · exact transitions_eq_points mom dad c1 s2.xps hs hb hcomp (fun b => (hbits b).1)
  · apply transitions_eq_points dad mom c2 s2.xps hs (by rw [hd]; exact hb)
    · intro b hb2
      rw [hd] at hb2
      rw [hcomp b hb2]; simp
    · exact fun b => (hbits b).2


/-- C9: `kPoints.Crossover` on four buffers of equal length with `k < tot_bits`, given
the strictly ascending points it drew (all below `tot_bits`): the call returns without
error, and for every bit position `b` child1 takes dad's bit and child2 mom's bit when
the number of points at or below `b` is odd, otherwise child1 takes mom's bit and child2
dad's.  With complementary parents both children show their transitions exactly at the
points, so exactly `k` of them, at the same strictly ascending positions. -/
theorem kpoints_crossover_bits (s s2 : kPoints) (draw : Nat → Nat)
    (mom dad child1 child2 : List Nat)
    (hd : dad.length = mom.length) (h1 : child1.length = mom.length)
    (h2 : child2.length = mom.length)
    (hk : s.k < (mom.length : Int) * 8) (hxl : (s.xps.length : Int) = s.k)
    (hr : s.randomXPoints draw ((mom.length : Int) * 8) = some s2)
    (hs : s2.xps.Sorted (· < ·)) (hb : ∀ x ∈ s2.xps, x < 8 * mom.length) :
    ∃ c1 c2, s.Crossover draw mom dad child1 child2 = .done s2 c1 c2 ∧
      c1.length = mom.length ∧ c2.length = mom.length ∧
      (∀ b, bitAt c1 b = (if pointsUpTo s2.xps b % 2 = 1 then bitAt dad b else bitAt mom b) ∧
            bitAt c2 b = (if pointsUpTo s2.xps b % 2 = 1 then bitAt mom b else bitAt dad b)) ∧
      ((∀ b, b < 8 * mom.length → bitAt dad b = !bitAt mom b) →
        transitions mom c1 = s2.xps ∧ transitions dad c2 = s2.xps ∧
        (s2.xps.length : Int) = s.k) :=
  kPoints_Crossover_spec s s2 draw mom dad child1 child2 hd h1 h2 hk hxl hr hs hb

theorem kpoints_crossover_bits_witness :
    (newKPoints 4).k < ((List.replicate 4 170).length : Int) * 8 ∧
    (newKPoints 4).randomXPoints testDraw (((List.replicate 4 170).length : Int) * 8)
      = some (drawnKPoints 4) ∧
    (drawnKPoints 4).xps = [6, 7, 8, 9, 10] ∧
    ∃ c1 c2, (newKPoints 4).Crossover testDraw (List.replicate 4 170) (List.replicate 4 85)
        (List.replicate 4 0) (List.replicate 4 0) = .done (drawnKPoints 4) c1 c2 ∧
      c1.length = (List.replicate 4 170).length ∧ c2.length = (List.replicate 4 170).length ∧
      (∀ b, bitAt c1 b = (if pointsUpTo (drawnKPoints 4).xps b % 2 = 1
                            then bitAt (List.replicate 4 85) b
                            else bitAt (List.replicate 4 170) b) ∧
            bitAt c2 b = (if pointsUpTo (drawnKPoints 4).xps b % 2 = 1
                            then bitAt (List.replicate 4 170) b
                            else bitAt (List.replicate 4 85) b)) ∧
      ((∀ b, b < 8 * (List.replicate 4 170).length →
          bitAt (List.replicate 4 85) b = !bitAt (List.replicate 4 170) b) →
        transitions (List.replicate 4 170) c1 = (drawnKPoints 4).xps ∧
        transitions (List.replicate 4 85) c2 = (drawnKPoints 4).xps ∧
        ((drawnKPoints 4).xps.length : Int) = (newKPoints 4).k) :=
  ⟨by decide, by decide, by decide,
    kpoints_crossover_bits (newKPoints 4) (drawnKPoints 4) testDraw (List.replicate 4 170)
      (List.replicate 4 85) (List.replicate 4 0) (List.replicate 4 0)
      (by decide) (by decide) (by decide) (by decide) (by decide) (by decide) (by decide)
      (by decide)⟩

/-- C10, as amended: for every `k ≥ 1` and parents with `k ≤ tot_bits - 2`, where
`tot_bits = 8 * len(mom)`, the crossover points a freshly constructed `KPoints(k)`
operator uses are `k` integers in `[1, tot_bits - 2]` in strictly ascending order (hence
pairwise distinct), for every outcome of the shuffle. -/
theorem fresh_points_in_range (k : Int) (s : kPoints) (draw : Nat → Nat)
    (mom dad child1 child2 : List Nat) (hs : KPoints k = some s)
    (hd : dad.length = mom.length) (h1 : child1.length = mom.length)
    (h2 : child2.length = mom.length) (hk : k ≤ (mom.length : Int) * 8 - 2) :
    1 ≤ k ∧
    ∃ s2 c1 c2, s.Crossover draw mom dad child1 child2 = .done s2 c1 c2 ∧
      (s2.xps.length : Int) = k ∧ s2.xps.Sorted (· < ·) ∧ s2.xps.Nodup ∧
      ∀ x ∈ s2.xps, 1 ≤ (x : Int) ∧ (x : Int) ≤ (mom.length : Int) * 8 - 2 := by
  have hsk : s.k = k ∧ (s.xps.length : Int) = k ∧ 1 ≤ k := by
    have hs2 := hs
    unfold KPoints at hs2
    by_cases h0 : k ≤ 0
    · simp [h0] at hs2
    · simp only [h0, if_false, Option.some.injEq] at hs2
      rw [← hs2]
      refine ⟨rfl, ?_, by omega⟩
      show (((List.replicate k.toNat 0).length : Nat) : Int) = k
      rw [List.length_replicate]
      omega
  obtain ⟨s2, hr, hk2, hlen, hsorted, hrange⟩ := randomXPoints_fresh k draw _ s hs hk
  obtain ⟨hsk1, hsk2, hsk3⟩ := hsk
  have hklt : s.k < (mom.length : Int) * 8 := by omega
  have hxl : (s.xps.length : Int) = s.k := by omega
  have hb : ∀ x ∈ s2.xps, x < 8 * mom.length := fun x hx => by
    have := hrange x hx; omega
  obtain ⟨c1, c2, hres, _⟩ := kPoints_Crossover_spec s s2 draw mom dad child1 child2 hd h1 h2
    hklt hxl hr hsorted hb
  exact ⟨hsk3, s2, c1, c2, hres, hlen, hsorted, hsorted.nodup, hrange⟩

theorem fresh_points_in_range_witness :
    KPoints 5 = some (newKPoints 4) ∧
    (5 : Int) ≤ ((List.replicate 4 170).length : Int) * 8 - 2 ∧
    1 ≤ (5 : Int) ∧
    ∃ s2 c1 c2, (newKPoints 4).Crossover testDraw (List.replicate 4 170) (List.replicate 4 85)
        (List.replicate 4 0) (List.replicate 4 0) = .done s2 c1 c2 ∧
      (s2.xps.length : Int) = 5 ∧ s2.xps.Sorted (· < ·) ∧ s2.xps.Nodup ∧
      ∀ x ∈ s2.xps, 1 ≤ (x : Int) ∧ (x : Int) ≤ ((List.replicate 4 170).length : Int) * 8 - 2 :=
  ⟨by decide, by decide,
    fresh_points_in_range 5 (newKPoints 4) testDraw (List.replicate 4 170)
      (List.replicate 4 85) (List.replicate 4 0) (List.replicate 4 0)
      (by decide) (by decide) (by decide) (by decide) (by decide)⟩

/-- C10, counterexample: `KPoints(7)` on one-byte parents passes the guard `k < tot_bits`
(7 < 8), but only 6 candidate points exist: the operator uses the points 0, 1, ..., 6,
and 0 is not in `[1, tot_bits - 2] = [1, 6]`. -/
theorem fresh_points_in_range_counterexample :
    KPoints 7 = some (newKPoints 6) ∧ (7 : Int) < (([170] : List Nat).length : Int) * 8 ∧
    ((newKPoints 6).Crossover testDraw [170] [85] [0] [0]).points
      = some [0, 1, 2, 3, 4, 5, 6] ∧
    ¬ (∀ x ∈ [0, 1, 2, 3, 4, 5, (6 : Nat)],
        1 ≤ (x : Int) ∧ (x : Int) ≤ (([170] : List Nat).length : Int) * 8 - 2) := by
  decide

/-! ## Bits of little-endian values -/

theorem bitAt_cons (b : Nat) (bs : List Nat) (k : Nat) :
    bitAt (b :: bs) k = if k < 8 then b.testBit k else bitAt bs (k - 8) := by
  unfold bitAt
  by_cases h : k < 8
  · have h1 : k / 8 = 0 := by omega
    have h2 : k % 8 = k := by omega
    simp [h, h1, h2]
  · have h1 : k / 8 = (k - 8) / 8 + 1 := by omega
    have h2 : k % 8 = (k - 8) % 8 := by omega
    simp only [h, if_false]
    rw [h1, h2]
    simp

theorem bitAt_nil (k : Nat) : bitAt [] k = false := by
  unfold bitAt; simp

theorem testBit_leValue : ∀ (bs : List Nat), bytesOk bs → ∀ k,
    (leValue bs).testBit k = bitAt bs k := by
  intro bs
  induction bs with
  | nil => intro _ k; simp [leValue, bitAt_nil]
  | cons b bs ih =>
    intro h k
    have hb : b < 2 ^ 8 := by
      have := h b (List.mem_cons_self _ _); norm_num; exact this
    have hbs : bytesOk bs := fun x hx => h x (List.mem_cons_of_mem _ hx)
    have e : leValue (b :: bs) = 2 ^ 8 * leValue bs + b := by
      simp only [leValue]; norm_num; ring
    rw [e, Nat.testBit_mul_pow_two_add _ hb, bitAt_cons, ih hbs]

theorem leValue_lt : ∀ (bs : List Nat), bytesOk bs → leValue bs < 2 ^ (8 * bs.length) := by
  intro bs
  induction bs with
  | nil => intro _; simp [leValue]
  | cons b bs ih =>
    intro h
    have hb : b < 256 := h b (List.mem_cons_self _ _)
    have hbs : bytesOk bs := fun x hx => h x (List.mem_cons_of_mem _ hx)
    have := ih hbs
    simp only [leValue, List.length_cons]
    have e : 2 ^ (8 * (bs.length + 1)) = 256 * 2 ^ (8 * bs.length) := by
      rw [Nat.mul_add, Nat.pow_add]; norm_num; ring
    rw [e]
    omega

theorem leBytes_length : ∀ (n v : Nat), (leBytes n v).length = n := by
  intro n
  induction n with
  | zero => intro v; rfl
  | succ n ih => intro v; simp [leBytes, ih]

theorem leBytes_ok : ∀ (n v : Nat), bytesOk (leBytes n v) := by
  intro n
  induction n with
  | zero => intro v b hb; simp [leBytes] at hb
  | succ n ih =>
    intro v b hb
    simp only [leBytes, List.mem_cons] at hb
    rcases hb with h | h
    · rw [h]; exact Nat.mod_lt _ (by norm_num)
    · exact ih _ b h

theorem bitAt_leBytes : ∀ (n v k : Nat),
    bitAt (leBytes n v) k = (decide (k < 8 * n) && v.testBit k) := by
  intro n
  induction n with
  | zero => intro v k; simp [leBytes, bitAt_nil]
  | succ n ih =>
    intro v k
    simp only [leBytes]
    rw [bitAt_cons]
    by_cases h : k < 8
    · have h2 : k < 8 * (n + 1) := by omega
      have e : (256 : Nat) = 2 ^ 8 := by norm_num
      simp only [h, if_true, h2, decide_True, Bool.true_and]
      rw [e, Nat.testBit_mod_two_pow]
      simp [h]
    · simp only [h, if_false]
      rw [ih]
      have e : v / 256 = v >>> 8 := by rw [Nat.shiftRight_eq_div_pow]
      rw [e, Nat.testBit_shiftRight]
      have e2 : 8 + (k - 8) = k := by omega
      rw [e2]
      have e3 : (k - 8 < 8 * n) ↔ (k < 8 * (n + 1)) := by omega
      simp only [e3]

theorem getD_splice (dst X : List Nat) (lo : Nat) (h : lo + X.length ≤ dst.length) (m : Nat) :
    (dst.take lo ++ X ++ dst.drop (lo + X.length)).getD m 0
      = if lo ≤ m ∧ m < lo + X.length then X.getD (m - lo) 0 else dst.getD m 0 := by
  simp only [List.getD_eq_getElem?_getD]
  have hl : (dst.take lo).length = lo := by simp; omega
  by_cases hm1 : m < lo
  · have : ¬ (lo ≤ m ∧ m < lo + X.length) := by omega
    simp only [this, if_false]
    rw [List.append_assoc, List.getElem?_append_left (by rw [hl]; exact hm1), List.getElem?_take]
    simp [hm1]
  · by_cases hm2 : m < lo + X.length
    · have : lo ≤ m ∧ m < lo + X.length := by omega
      simp only [this, and_self, if_true]
      rw [List.append_assoc, List.getElem?_append_right (by rw [hl]; omega), hl,
        List.getElem?_append_left (by omega)]
    · have : ¬ (lo ≤ m ∧ m < lo + X.length) := by omega
      simp only [this, if_false]
      have hl2 : (dst.take lo ++ X).length = lo + X.length := by simp; omega
      rw [List.getElem?_append_right (by rw [hl2]; omega), hl2, List.getElem?_drop]
      congr 2; omega

theorem bitAt_splice (dst X : List Nat) (lo : Nat) (h : lo + X.length ≤ dst.length) (k : Nat) :
    bitAt (dst.take lo ++ X ++ dst.drop (lo + X.length)) k
      = if 8 * lo ≤ k ∧ k < 8 * lo + 8 * X.length then bitAt X (k - 8 * lo) else bitAt dst k := by
  unfold bitAt
  rw [getD_splice dst X lo h]
  by_cases hc : lo ≤ k / 8 ∧ k / 8 < lo + X.length
  · have hc2 : 8 * lo ≤ k ∧ k < 8 * lo + 8 * X.length := by omega
    have e1 : (k - 8 * lo) / 8 = k / 8 - lo := by omega
    have e2 : (k - 8 * lo) % 8 = k % 8 := by omega
    simp only [hc, hc2, and_self, if_true, e1, e2]
  · have hc2 : ¬ (8 * lo ≤ k ∧ k < 8 * lo + 8 * X.length) := by omega
    simp only [hc, hc2, if_false]

theorem bytesOk_splice (dst X : List Nat) (lo n : Nat) (h1 : bytesOk dst) (h2 : bytesOk X) :
    bytesOk (dst.take lo ++ X ++ dst.drop n) := by
  intro b hb
  simp only [List.mem_append] at hb
  rcases hb with (hb | hb) | hb
  · exact h1 b (List.mem_of_mem_take hb)
  · exact h2 b hb
  · exact h1 b (List.mem_of_mem_drop hb)

/-- What the generic `read` returns: the bits of the scalar at `pos`. -/
theorem read_spec (size : Nat) (mem : List Nat) (pos : Nat) (hok : bytesOk mem)
    (h : pos + size ≤ mem.length) :
    ∃ v, read size mem pos = some v ∧ v < 2 ^ (8 * size) ∧
      ∀ k, v.testBit k = (decide (k < 8 * size) && bitAt mem (8 * pos + k)) := by
  unfold read
  simp only [h, if_true]
  have hok2 : bytesOk ((mem.drop pos).take size) := fun b hb =>
    hok b (List.mem_of_mem_drop (List.mem_of_mem_take hb))
  have hlen : ((mem.drop pos).take size).length = size := by simp; omega
  refine ⟨_, rfl, ?_, ?_⟩
  · have := leValue_lt _ hok2
    rwa [hlen] at this
  · intro k
    rw [testBit_leValue _ hok2]
    unfold bitAt
    simp only [List.getD_eq_getElem?_getD, List.getElem?_take, List.getElem?_drop]
    by_cases hk : k < 8 * size
    · have h1 : k / 8 < size := by omega
      have e1 : (8 * pos + k) / 8 = pos + k / 8 := by omega
      have e2 : (8 * pos + k) % 8 = k % 8 := by omega
      simp only [h1, if_true, hk, decide_True, Bool.true_and, e1, e2]
    · have h1 : ¬ k / 8 < size := by omega
      simp [h1, hk]

/-- What the generic `write` stores: the low bits of the value at `pos`, nothing else. -/
theorem write_spec (size : Nat) (mem : List Nat) (pos value : Nat) (hok : bytesOk mem)
    (h : pos + size ≤ mem.length) :
    ∃ mem2, write size mem pos value = some mem2 ∧ mem2.length = mem.length ∧ bytesOk mem2 ∧
      ∀ k, bitAt mem2 k = if 8 * pos ≤ k ∧ k < 8 * pos + 8 * size then value.testBit (k - 8 * pos)
        else bitAt mem k := by
  unfold write
  simp only [h, if_true]
  have hl := leBytes_length size value
  refine ⟨_, rfl, ?_, bytesOk_splice _ _ _ _ hok (leBytes_ok _ _), ?_⟩
  · simp [hl]; omega
  · intro k
    have hs := bitAt_splice mem (leBytes size value) pos (by rw [hl]; exact h) k
    rw [hl] at hs
    rw [hs, bitAt_leBytes]
    by_cases hc : 8 * pos ≤ k ∧ k < 8 * pos + 8 * size
    · have : k - 8 * pos < 8 * size := by omega
      simp [hc, this]
    · simp [hc]

/-! ## The locus codec -/

theorem testBit_mask (j : Nat) : mask.testBit j = decide (j < 64) := by
  unfold mask
  exact Nat.testBit_two_pow_sub_one 64 j

theorem testBit_not64 (x j : Nat) : (not64 x).testBit j = xor (decide (j < 64)) (x.testBit j) := by
  unfold not64
  rw [Nat.testBit_xor, testBit_mask]

theorem testBit_shl64 (x n j : Nat) :
    (shl64 x n).testBit j = (decide (j < 64) && (decide (n ≤ j) && x.testBit (j - n))) := by
  unfold shl64
  rw [Nat.testBit_mod_two_pow, Nat.testBit_shiftLeft]

theorem testBit_lowMask (w j : Nat) :
    (not64 (shl64 mask w)).testBit j = (decide (j < 64) && decide (j < w)) := by
  rw [testBit_not64, testBit_shl64, testBit_mask]
  by_cases h1 : j < 64 <;> by_cases h2 : w ≤ j
  · have : j - w < 64 := by omega
    have h3 : ¬ j < w := by omega
    simp [h1, h2, this, h3]
  · have h3 : j < w := by omega
    simp [h1, h2, h3]
  · simp [h1]
  · simp [h1]

/-- The read-modify-write of `locus.write` on the loaded 64-bit word. -/
theorem rmw_testBit (t value bo w i : Nat) (hi : i < 64) (hbw : bo + w ≤ 64) :
    (t &&& not64 (shl64 (not64 (shl64 mask w)) bo) |||
        shl64 (value &&& not64 (shl64 mask w)) bo).testBit i
      = if bo ≤ i ∧ i < bo + w then value.testBit (i - bo) else t.testBit i := by
  rw [Nat.testBit_or, Nat.testBit_and, testBit_not64, testBit_shl64, testBit_shl64,
    Nat.testBit_and, testBit_lowMask]
  by_cases h1 : bo ≤ i
  · by_cases h2 : i - bo < w
    · have h3 : i - bo < 64 := by omega
      have h4 : bo ≤ i ∧ i < bo + w := by omega
      simp [hi, h1, h2, h3, h4]
    · have h4 : ¬ (bo ≤ i ∧ i < bo + w) := by omega
      have h5 : ¬ i < bo + w := by omega
      simp [hi, h1, h2, h5]
  · have h4 : ¬ (bo ≤ i ∧ i < bo + w) := by omega
    simp [hi, h1, h4]

theorem ByteSlice.from_spec (data : ByteSlice) (base : Int) (h0 : 0 ≤ base)
    (h1 : base ≤ data.len) :
    data.from base
      = some { mem := data.mem, off := data.off + base.toNat, len := data.len - base.toNat } := by
  unfold ByteSlice.from
  simp [h0, h1]

/-- What `locus.read` returns on the chromosome bytes `data[base:]`: the bits of the
window, and nothing else. -/
theorem locus_read_spec (l : locus) (base : Int) (data sub : ByteSlice)
    (hok : bytesOk data.mem) (h : locusOk l base data) (hsub : data.from base = some sub) :
    ∃ r, l.read sub = some r ∧
      ∀ j, r.testBit j
        = (decide ((j : Int) < l.bitWidth) && bitAt data.mem (absStart l base data + j)) := by
  obtain ⟨h0, h1, h2, h3, h4, h5, h6, h7⟩ := h
  rw [ByteSlice.from_spec data base h0 h1] at hsub
  have hsub2 := (Option.some.inj hsub).symm
  subst hsub2
  unfold locus.read
  have hb : ¬ (l.byteIndex < 0 ∨ (((data.len - base.toNat : Nat)) : Int) ≤ l.byteIndex) := by
    omega
  simp only [hb, if_false]
  obtain ⟨v, hv, _, hbits⟩ := read_spec 8 data.mem (data.off + base.toNat + l.byteIndex.toNat)
    hok h4
  rw [hv]
  have h5b : ¬ l.bitOffset < 0 := by omega
  have h6b : ¬ l.bitWidth < 0 := by omega
  simp only [h5b, h6b, if_false]
  refine ⟨_, rfl, ?_⟩
  intro j
  rw [Nat.testBit_and, Nat.testBit_shiftRight, testBit_lowMask, hbits]
  unfold absStart
  by_cases hj : (j : Int) < l.bitWidth
  · have e1 : j < l.bitWidth.toNat := by omega
    have e2 : l.bitOffset.toNat + j < 8 * 8 := by omega
    have e3 : j < 64 := by omega
    have e4 : 8 * (data.off + base.toNat + l.byteIndex.toNat) + (l.bitOffset.toNat + j)
        = 8 * (data.off + base.toNat + l.byteIndex.toNat) + l.bitOffset.toNat + j := by omega
    simp only [hj, e1, e2, e3, decide_True, Bool.true_and, Bool.and_true, e4]
  · have e1 : ¬ j < l.bitWidth.toNat := by omega
    simp [hj, e1]

/-- What `locus.write` does on the chromosome bytes `data[base:]`: the window takes the
low bits of the value and every other bit of the memory is preserved. -/
theorem locus_write_spec (l : locus) (base : Int) (data sub : ByteSlice) (value : Nat)
    (hok : bytesOk data.mem) (h : locusOk l base data) (hsub : data.from base = some sub) :
    ∃ sub2, l.write sub value = some sub2 ∧ sub2.mem.length = data.mem.length ∧
      bytesOk sub2.mem ∧
      ∀ k, bitAt sub2.mem k
        = if absStart l base data ≤ k ∧ (k : Int) < absStart l base data + l.bitWidth
          then value.testBit (k - absStart l base data) else bitAt data.mem k := by
  obtain ⟨h0, h1, h2, h3, h4, h5, h6, h7⟩ := h
  rw [ByteSlice.from_spec data base h0 h1] at hsub
  have hsub2 := (Option.some.inj hsub).symm
  subst hsub2
  unfold locus.write
  have hb : ¬ (l.byteIndex < 0 ∨ (((data.len - base.toNat : Nat)) : Int) ≤ l.byteIndex) := by
    omega
  have h5b : ¬ l.bitOffset < 0 := by omega
  have h6b : ¬ l.bitWidth < 0 := by omega
  simp only [hb, h5b, h6b, if_false]
  obtain ⟨t, ht, _, htbits⟩ := read_spec 8 data.mem (data.off + base.toNat + l.byteIndex.toNat)
    hok h4
  rw [ht]
  simp only
  obtain ⟨mem2, hw, hlen, hok2, hwbits⟩ := write_spec 8 data.mem
    (data.off + base.toNat + l.byteIndex.toNat)
    (t &&& not64 (shl64 (not64 (shl64 mask l.bitWidth.toNat)) l.bitOffset.toNat) |||
      shl64 (value &&& not64 (shl64 mask l.bitWidth.toNat)) l.bitOffset.toNat) hok h4
  rw [hw]
  refine ⟨_, rfl, hlen, hok2, ?_⟩
  intro k
  rw [hwbits k]
  unfold absStart
  by_cases hin : 8 * (data.off + base.toNat + l.byteIndex.toNat) ≤ k ∧
      k < 8 * (data.off + base.toNat + l.byteIndex.toNat) + 8 * 8
  · simp only [hin, and_self, if_true]
    have hi : k - 8 * (data.off + base.toNat + l.byteIndex.toNat) < 64 := by omega
    rw [rmw_testBit _ _ _ _ _ hi (by omega), htbits]
    have hi8 : k - 8 * (data.off + base.toNat + l.byteIndex.toNat) < 8 * 8 := by omega
    have ek : 8 * (data.off + base.toNat + l.byteIndex.toNat)
        + (k - 8 * (data.off + base.toNat + l.byteIndex.toNat)) = k := by omega
    simp only [hi8, decide_True, Bool.true_and, ek]
    by_cases hwin : 8 * (data.off + base.toNat + l.byteIndex.toNat) + l.bitOffset.toNat ≤ k ∧
        (k : Int) < ((8 * (data.off + base.toNat + l.byteIndex.toNat) + l.bitOffset.toNat : Nat)
          : Int) + l.bitWidth
    · have a1 : l.bitOffset.toNat ≤ k - 8 * (data.off + base.toNat + l.byteIndex.toNat) ∧
          k - 8 * (data.off + base.toNat + l.byteIndex.toNat)
            < l.bitOffset.toNat + l.bitWidth.toNat := by omega
      have a4 : k - 8 * (data.off + base.toNat + l.byteIndex.toNat) - l.bitOffset.toNat
          = k - (8 * (data.off + base.toNat + l.byteIndex.toNat) + l.bitOffset.toNat) := by
        omega
      simp only [hwin, a1, and_self, if_true, a4]
    · have a1 : ¬ (l.bitOffset.toNat ≤ k - 8 * (data.off + base.toNat + l.byteIndex.toNat) ∧
          k - 8 * (data.off + base.toNat + l.byteIndex.toNat)
            < l.bitOffset.toNat + l.bitWidth.toNat) := by omega
      simp only [hwin, a1, if_false]
  · have hwin : ¬ (8 * (data.off + base.toNat + l.byteIndex.toNat) + l.bitOffset.toNat ≤ k ∧
        (k : Int) < ((8 * (data.off + base.toNat + l.byteIndex.toNat) + l.bitOffset.toNat : Nat)
          : Int) + l.bitWidth) := by omega
    simp only [hin, hwin, if_false]

/-! ## The codec on the genes of a schema -/

theorem encodePlaced_append (ph : Phenotype) : ∀ (a b : List PlacedGene) (data : ByteSlice),
    encodePlaced ph data (a ++ b)
      = (encodePlaced ph data a).bind fun d => encodePlaced ph d b := by
  intro a
  induction a with
  | nil => intro b data; rfl
  | cons pg a ih =>
    intro b data
    simp only [List.cons_append, encodePlaced]
    cases data.from pg.1 with
    | none => rfl
    | some sub =>
      simp only
      cases pg.2.Encode ph sub with
      | none => rfl
      | some sub2 => exact ih b _

theorem encodeGenes_eq (ph : Phenotype) (base : Int) : ∀ (genes : List Gene) (data : ByteSlice),
    encodeGenes ph base data genes = encodePlaced ph data (genes.map fun g => (base, g)) := by
  intro genes
  induction genes with
  | nil => intro data; rfl
  | cons g genes ih =>
    intro data
    simp only [List.map_cons, encodeGenes, encodePlaced]
    cases data.from base with
    | none => rfl
    | some sub =>
      simp only
      cases g.Encode ph sub with
      | none => rfl
      | some sub2 => exact ih _

theorem encodeChromosomes_eq (ph : Phenotype) : ∀ (cs : List Chromosome) (data : ByteSlice),
    encodeChromosomes ph data cs
      = encodePlaced ph data (cs.flatMap fun c => c.genes.map fun g => (c.bytesIndex, g)) := by
  intro cs
  induction cs with
  | nil => intro data; rfl
  | cons c cs ih =>
    intro data
    simp only [List.flatMap_cons, encodeChromosomes, encodePlaced_append, encodeGenes_eq]
    cases encodePlaced ph data (c.genes.map fun g => (c.bytesIndex, g)) with
    | none => rfl
    | some d => exact ih d

theorem Schema.Encode_eq (s : Schema) (ph : Phenotype) (data : ByteSlice) :
    s.Encode ph data = encodePlaced ph data s.placed :=
  encodeChromosomes_eq ph s.chromosomes data

theorem decodePlaced_append (data : ByteSlice) : ∀ (a b : List PlacedGene) (ph : Phenotype),
    decodePlaced data ph (a ++ b)
      = (decodePlaced data ph a).bind fun q => decodePlaced data q b := by
  intro a
  induction a with
  | nil => intro b ph; rfl
  | cons pg a ih =>
    intro b ph
    simp only [List.cons_append, decodePlaced]
    cases data.from pg.1 with
    | none => rfl
    | some sub =>
      simp only
      cases pg.2.Decode ph sub with
      | none => rfl
      | some ph2 => exact ih b _

theorem decodeGenes_eq (data : ByteSlice) (base : Int) : ∀ (genes : List Gene) (ph : Phenotype),
    decodeGenes data base ph genes = decodePlaced data ph (genes.map fun g => (base, g)) := by
  intro genes
  induction genes with
  | nil => intro ph; rfl
  | cons g genes ih =>
    intro ph
    simp only [List.map_cons, decodeGenes, decodePlaced]
    cases data.from base with
    | none => rfl
    | some sub =>
      simp only
      cases g.Decode ph sub with
      | none => rfl
      | some ph2 => exact ih _

theorem decodeChromosomes_eq (data : ByteSlice) : ∀ (cs : List Chromosome) (ph : Phenotype),
    decodeChromosomes data ph cs
      = decodePlaced data ph (cs.flatMap fun c => c.genes.map fun g => (c.bytesIndex, g)) := by
  intro cs
  induction cs with
  | nil => intro ph; rfl
  | cons c cs ih =>
    intro ph
    simp only [List.flatMap_cons, decodeChromosomes, decodePlaced_append, decodeGenes_eq]
    cases decodePlaced data ph (c.genes.map fun g => (c.bytesIndex, g)) with
    | none => rfl
    | some q => exact ih q

theorem Schema.Decode_eq (s : Schema) (ph : Phenotype) (data : ByteSlice) :
    s.Decode ph data = decodePlaced data ph s.placed :=
  decodeChromosomes_eq data s.chromosomes ph

theorem locusOk_congr {l : locus} {base : Int} {d1 d2 : ByteSlice} (h : locusOk l base d1)
    (h1 : d2.off = d1.off) (h2 : d2.len = d1.len) (h3 : d2.mem.length = d1.mem.length) :
    locusOk l base d2 := by
  unfold locusOk at h ⊢
  rw [h1, h2, h3]; exact h

theorem absStart_congr (l : locus) (base : Int) {d1 d2 : ByteSlice} (h1 : d2.off = d1.off) :
    absStart l base d2 = absStart l base d1 := by
  unfold absStart; rw [h1]

/-- After the loops of `Encode`, the window of every gene holds the low bits of the slot
of the gene, and the bits of the memory outside all windows are unchanged. -/
theorem encodePlaced_spec (ph : Phenotype) : ∀ (placed : List PlacedGene) (data : ByteSlice),
    bytesOk data.mem →
    (∀ pg ∈ placed, locusOk pg.2.toLocus pg.1 data) →
    (∀ pg ∈ placed, ∃ v, pg.2.load ph = some v) →
    placed.Pairwise (windowsDisjoint data) →
    ∃ data2, encodePlaced ph data placed = some data2 ∧
      data2.off = data.off ∧ data2.len = data.len ∧ data2.mem.length = data.mem.length ∧
      bytesOk data2.mem ∧
      (∀ pg ∈ placed, ∀ v, pg.2.load ph = some v → ∀ j : Nat, (j : Int) < pg.2.toLocus.bitWidth →
        bitAt data2.mem (absStart pg.2.toLocus pg.1 data + j) = v.testBit j) ∧
      (∀ k, (∀ pg ∈ placed, ¬ (absStart pg.2.toLocus pg.1 data ≤ k ∧
          (k : Int) < absStart pg.2.toLocus pg.1 data + pg.2.toLocus.bitWidth)) →
        bitAt data2.mem k = bitAt data.mem k) := by
  intro placed
  induction placed with
  | nil =>
    intro data hok _ _ _
    exact ⟨data, rfl, rfl, rfl, rfl, hok, by simp, fun _ _ => rfl⟩
  | cons pg rest ih =>
    intro data hok hl hv hp
    have hlpg := hl pg (List.mem_cons_self _ _)
    obtain ⟨v, hvpg⟩ := hv pg (List.mem_cons_self _ _)
    have hsub := ByteSlice.from_spec data pg.1 hlpg.1 hlpg.2.1
    obtain ⟨sub2, hw, hlen2, hok2, hbits2⟩ :=
      locus_write_spec pg.2.toLocus pg.1 data _ v hok hlpg hsub
    have hp2 := List.pairwise_cons.1 hp
    have hl2 : ∀ x ∈ rest, locusOk x.2.toLocus x.1 { data with mem := sub2.mem } :=
      fun x hx => locusOk_congr (hl x (List.mem_cons_of_mem _ hx)) rfl rfl hlen2
    have hp3 : rest.Pairwise (windowsDisjoint { data with mem := sub2.mem }) := hp2.2
    obtain ⟨data3, he, ho3, hn3, hlen3, hok3, hin3, hout3⟩ :=
      ih { data with mem := sub2.mem } hok2 hl2
        (fun x hx => hv x (List.mem_cons_of_mem _ hx)) hp3
    refine ⟨data3, ?_, ho3, hn3, hlen3.trans hlen2, hok3, ?_, ?_⟩
    · simp only [encodePlaced, hsub, Gene.Encode, hvpg, hw]
      exact he
    · intro x hx w hxw j hj
      rcases List.mem_cons.1 hx with h1 | h1
      · subst h1
        have hvw : w = v := by rw [hvpg] at hxw; exact (Option.some.inj hxw).symm
        subst hvw
        rw [hout3, hbits2]
        · have hc : absStart x.2.toLocus x.1 data ≤ absStart x.2.toLocus x.1 data + j ∧
              ((absStart x.2.toLocus x.1 data + j : Nat) : Int)
                < absStart x.2.toLocus x.1 data + x.2.toLocus.bitWidth := by omega
          simp only [hc, and_self, if_true]
          congr 1; omega
        · intro y hy
          have hd := hp2.1 y hy
          unfold windowsDisjoint at hd
          have e : absStart y.2.toLocus y.1 { data with mem := sub2.mem }
              = absStart y.2.toLocus y.1 data := rfl
          rw [e]
          omega
      · exact hin3 x h1 w hxw j hj
    · intro k hk
      rw [hout3 k (fun y hy => hk y (List.mem_cons_of_mem _ hy)), hbits2]
      have := hk pg (List.mem_cons_self _ _)
      simp only [this, if_false]

theorem testBit_eq_false_of_lt (v n k : Nat) (h : v < 2 ^ n) (hk : n ≤ k) :
    v.testBit k = false :=
  Nat.testBit_lt_two_pow (lt_of_lt_of_le h (Nat.pow_le_pow_right (by norm_num) hk))

/-- What `Gene.load` returns: the bits of the slot. -/
theorem load_spec (g : Gene) (ph : Phenotype) (hs : g.slotOk ph)
    (hok : bytesOk (ph.region g.dynamic)) :
    ∃ v, g.load ph = some v ∧ v < 2 ^ (8 * g.type_.size) ∧
      ∀ k, v.testBit k
        = (decide (k < 8 * g.type_.size) && bitAt (ph.region g.dynamic) (8 * g.slotPos + k)) := by
  obtain ⟨h1, h2⟩ := hs
  unfold Gene.load
  unfold Gene.slotPos at h2 ⊢
  unfold Phenotype.region at h2 hok ⊢
  cases hd : g.dynamic with
  | true =>
    rw [hd] at h2 hok
    simp only [if_true] at h2 hok ⊢
    have : ¬ g.dynamicIndex < 0 := by have := h1 hd; omega
    simp only [this, if_false]
    exact read_spec _ _ _ hok h2
  | false =>
    rw [hd] at h2 hok
    simp only [Bool.false_eq_true, if_false] at h2 hok ⊢
    exact read_spec _ _ _ hok h2

/-- What `Gene.store` does: the slot takes the low bits of the value, every other bit of
the phenotype is preserved. -/
theorem store_spec (g : Gene) (ph : Phenotype) (value : Nat) (hs : g.slotOk ph)
    (hok : ph.ok) :
    ∃ q, g.store ph value = some q ∧ ph.sameShape q ∧ q.ok ∧
      ∀ (dyn : Bool) (k : Nat), bitAt (q.region dyn) k
        = if dyn = g.dynamic ∧ 8 * g.slotPos ≤ k ∧ k < 8 * g.slotPos + 8 * g.type_.size
          then value.testBit (k - 8 * g.slotPos) else bitAt (ph.region dyn) k := by
  obtain ⟨h1, h2⟩ := hs
  obtain ⟨hokr, hoke⟩ := hok
  unfold Gene.store
  unfold Gene.slotPos at h2 ⊢
  unfold Phenotype.region at h2
  cases hd : g.dynamic with
  | true =>
    rw [hd] at h2
    simp only [if_true] at h2 ⊢
    have : ¬ g.dynamicIndex < 0 := by have := h1 hd; omega
    simp only [this, if_false]
    obtain ⟨m2, hw, hlen, hok2, hbits⟩ := write_spec g.type_.size ph.elems g.dynamicIndex.toNat
      value hoke h2
    rw [hw]
    refine ⟨_, rfl, ⟨rfl, hlen.symm⟩, ⟨hokr, hok2⟩, ?_⟩
    intro dyn k
    cases dyn with
    | true => simp only [Phenotype.region, if_true, true_and, hbits k]
    | false => simp [Phenotype.region]
  | false =>
    rw [hd] at h2
    simp only [Bool.false_eq_true, if_false] at h2 ⊢
    obtain ⟨m2, hw, hlen, hok2, hbits⟩ := write_spec g.type_.size ph.root g.phenotypeOffset
      value hokr h2
    rw [hw]
    refine ⟨_, rfl, ⟨hlen.symm, rfl⟩, ⟨hok2, hoke⟩, ?_⟩
    intro dyn k
    cases dyn with
    | true => simp [Phenotype.region]
    | false => simp only [Phenotype.region, Bool.false_eq_true, if_false, true_and, hbits k]

theorem slotOk_congr {g : Gene} {p q : Phenotype} (h : g.slotOk p) (hs : p.sameShape q) :
    g.slotOk q := by
  unfold Gene.slotOk Phenotype.region at h ⊢
  obtain ⟨h1, h2⟩ := hs
  cases hd : g.dynamic with
  | true => rw [hd] at h; simp only [if_true] at h ⊢; rw [← h2]; exact h
  | false => rw [hd] at h; simp only [Bool.false_eq_true, if_false] at h ⊢; rw [← h1]; exact h

theorem region_ok {ph : Phenotype} (h : ph.ok) (dyn : Bool) : bytesOk (ph.region dyn) := by
  unfold Phenotype.region
  cases dyn with
  | true => exact h.2
  | false => exact h.1

/-- After the loops of `Decode`, the slot of every gene holds the value of the window of
the gene, and the bits of the phenotype outside all slots are unchanged. -/
theorem decodePlaced_spec (data : ByteSlice) (hok : bytesOk data.mem) :
    ∀ (placed : List PlacedGene) (q : Phenotype),
    (∀ pg ∈ placed, locusOk pg.2.toLocus pg.1 data) →
    q.ok → (∀ pg ∈ placed, pg.2.slotOk q) →
    placed.Pairwise (fun a b => a.2.slotDisjoint b.2) →
    ∃ q2, decodePlaced data q placed = some q2 ∧ q.sameShape q2 ∧ q2.ok ∧
      (∀ pg ∈ placed, ∀ r : Nat, r < 2 ^ (8 * pg.2.type_.size) →
        (∀ j, r.testBit j = (decide ((j : Int) < pg.2.toLocus.bitWidth) &&
          bitAt data.mem (absStart pg.2.toLocus pg.1 data + j))) →
        pg.2.load q2 = some r) ∧
      (∀ (dyn : Bool) (k : Nat),
        (∀ pg ∈ placed, ¬ (dyn = pg.2.dynamic ∧ 8 * pg.2.slotPos ≤ k ∧
          k < 8 * pg.2.slotPos + 8 * pg.2.type_.size)) →
        bitAt (q2.region dyn) k = bitAt (q.region dyn) k) := by
  intro placed
  induction placed with
  | nil =>
    intro q _ hq _ _
    exact ⟨q, rfl, ⟨rfl, rfl⟩, hq, by simp, fun _ _ _ => rfl⟩
  | cons pg rest ih =>
    intro q hl hq hs hp
    have hlpg := hl pg (List.mem_cons_self _ _)
    have hsub := ByteSlice.from_spec data pg.1 hlpg.1 hlpg.2.1
    obtain ⟨r0, hr0, hr0bits⟩ := locus_read_spec pg.2.toLocus pg.1 data _ hok hlpg hsub
    obtain ⟨q1, hst, hshape1, hq1, hbits1⟩ := store_spec pg.2 q r0
      (hs pg (List.mem_cons_self _ _)) hq
    have hp2 := List.pairwise_cons.1 hp
    obtain ⟨q2, hd, hshape2, hq2, hin2, hout2⟩ := ih q1
      (fun x hx => hl x (List.mem_cons_of_mem _ hx)) hq1
      (fun x hx => slotOk_congr (hs x (List.mem_cons_of_mem _ hx)) hshape1) hp2.2
    refine ⟨q2, ?_, ⟨hshape1.1.trans hshape2.1, hshape1.2.trans hshape2.2⟩, hq2, ?_, ?_⟩
    · simp only [decodePlaced, hsub, Gene.Decode, hr0, hst]
      exact hd
    · intro x hx r hrlt hrbits
      rcases List.mem_cons.1 hx with h1 | h1
      · subst h1
        have hr : r = r0 := Nat.eq_of_testBit_eq (fun j => by rw [hrbits j, hr0bits j])
        subst hr
        have hsx : x.2.slotOk q2 := slotOk_congr (hs x (List.mem_cons_self _ _))
          ⟨hshape1.1.trans hshape2.1, hshape1.2.trans hshape2.2⟩
        obtain ⟨v, hv, _, hvbits⟩ := load_spec x.2 q2 hsx (region_ok hq2 _)
        rw [hv]
        congr 1
        apply Nat.eq_of_testBit_eq
        intro k
        rw [hvbits k]
        by_cases hk : k < 8 * x.2.type_.size
        · simp only [hk, decide_True, Bool.true_and]
          rw [hout2, hbits1]
          · have hc : x.2.dynamic = x.2.dynamic ∧ 8 * x.2.slotPos ≤ 8 * x.2.slotPos + k ∧
                8 * x.2.slotPos + k < 8 * x.2.slotPos + 8 * x.2.type_.size :=
              ⟨rfl, by omega, by omega⟩
            simp only [hc, and_self, if_true]
            congr 1; omega
          · intro y hy
            have hdj := hp2.1 y hy
            unfold Gene.slotDisjoint at hdj
            intro hcon
            rcases hdj with h | h | h
            · exact h hcon.1
            · omega
            · omega
        · simp only [hk, decide_False, Bool.false_and]
          exact (testBit_eq_false_of_lt r (8 * x.2.type_.size) k hrlt (by omega)).symm
      · exact hin2 x h1 r hrlt hrbits
    · intro dyn k hk
      rw [hout2 dyn k (fun y hy => hk y (List.mem_cons_of_mem _ hy)), hbits1]
      have := hk pg (List.mem_cons_self _ _)
      simp only [this, if_false]

/-! ## The layout `Build` produces, seen from the codec -/

/-- The loci of a compiled chromosome with legal widths: each lies inside the byte region
of the chromosome and inside one 64-bit word, and they are pairwise disjoint. -/
theorem compiledFrom_layout {cs : ChromosomeSpec} {c : Chromosome}
    (h : compiledFrom cs c) (hv : ∀ g ∈ cs.genes, 1 ≤ g.bits ∧ g.bits ≤ 64) :
    0 ≤ c.bytesLength ∧
    (∀ g ∈ c.genes, 0 ≤ g.toLocus.byteIndex ∧ 0 ≤ g.toLocus.bitOffset ∧
      1 ≤ g.toLocus.bitWidth ∧ g.toLocus.bitOffset + g.toLocus.bitWidth ≤ 64 ∧
      g.toLocus.byteIndex * 8 + g.toLocus.bitOffset + g.toLocus.bitWidth ≤ 8 * c.bytesLength) ∧
    c.genes.Pairwise (fun a b => a.toLocus.disjoint b.toLocus) := by
  have hvw := compiledFrom_validWidths hv
  obtain ⟨h1, _, h3, h4, _⟩ := offerAll_spec _ hvw
  obtain ⟨_, hlen, hb⟩ := compiledFrom_bytesLength h hv
  obtain ⟨hloci, _⟩ := compiledFrom_loci h
  have hfl := h1 ((offerAll (expandWidths
    (sortStableFunc cmpBits cs.genes))).1.cellsFree.length - 1)
  refine ⟨by omega, ?_, ?_⟩
  · intro g hg
    have hl : g.toLocus ∈ (offerAll (expandWidths (sortStableFunc cmpBits cs.genes))).2 := by
      rw [← hloci]; exact List.mem_map_of_mem _ hg
    obtain ⟨k, hk, hs, he, hw1, ho0, ho8, ho64⟩ := h3 _ hl
    rw [freeAt_empty] at hs
    simp only [locus.stop, locus.start] at hs he
    have hfk := h1 k
    refine ⟨by omega, ho0, hw1, ho64, ?_⟩
    by_cases hkl : k = (offerAll (expandWidths
        (sortStableFunc cmpBits cs.genes))).1.cellsFree.length - 1
    · rw [← hkl] at hfl hb; omega
    · omega
  · rw [← hloci] at h4
    exact List.pairwise_map.1 h4

/-- For a schema `Build` returns from legal widths and a genome buffer of `Size()` bytes
with 7 addressable bytes behind it, every gene can be read and written, and the windows
of the genes are pairwise disjoint in the buffer. -/
theorem build_layout (spec : Spec) (schema : Schema) (h : Build false spec = some schema)
    (hv : Spec.validBits spec) (data : ByteSlice) (hlen : (data.len : Int) = schema.Size)
    (hslack : data.off + data.len + 7 ≤ data.mem.length) :
    (∀ pg ∈ schema.placed, locusOk pg.2.toLocus pg.1 data) ∧
    schema.placed.Pairwise (windowsDisjoint data) := by
  obtain ⟨hsize, hall, hreg⟩ := Build_spec spec schema h
  have hlay : ∀ c ∈ schema.chromosomes,
      0 ≤ c.bytesLength ∧
      (∀ g ∈ c.genes, 0 ≤ g.toLocus.byteIndex ∧ 0 ≤ g.toLocus.bitOffset ∧
        1 ≤ g.toLocus.bitWidth ∧ g.toLocus.bitOffset + g.toLocus.bitWidth ≤ 64 ∧
        g.toLocus.byteIndex * 8 + g.toLocus.bitOffset + g.toLocus.bitWidth
          ≤ 8 * c.bytesLength) ∧
      c.genes.Pairwise (fun a b => a.toLocus.disjoint b.toLocus) := by
    intro c hc
    obtain ⟨cs, hcs, hcomp⟩ := forall₂_mem_right hall c hc
    exact compiledFrom_layout hcomp (hv cs hcs)
  obtain ⟨hin, hpw⟩ := regionsFrom_disjoint _ _ hreg (fun c hc => (hlay c hc).1)
  unfold Schema.Size at hlen
  rw [hsize] at hlen
  have hok : ∀ c ∈ schema.chromosomes, ∀ g ∈ c.genes,
      locusOk g.toLocus c.bytesIndex data := by
    intro c hc g hg
    obtain ⟨hl0, hlg, _⟩ := hlay c hc
    obtain ⟨g1, g2, g3, g4, g5⟩ := hlg g hg
    have := hin c hc
    unfold locusOk
    refine ⟨by omega, by omega, g1, by omega, by omega, g2, by omega, g4⟩
  have habs : ∀ c ∈ schema.chromosomes, ∀ g ∈ c.genes,
      (absStart g.toLocus c.bytesIndex data : Int)
        = 8 * data.off + 8 * c.bytesIndex + g.toLocus.start := by
    intro c hc g hg
    obtain ⟨_, hlg, _⟩ := hlay c hc
    obtain ⟨g1, g2, _, _, _⟩ := hlg g hg
    have := hin c hc
    unfold absStart locus.start
    omega
  refine ⟨?_, ?_⟩
  · intro pg hpg
    unfold Schema.placed at hpg
    obtain ⟨c, hc, hg⟩ := List.mem_flatMap.1 hpg
    obtain ⟨g, hg2, rfl⟩ := List.mem_map.1 hg
    exact hok c hc g hg2
  · unfold Schema.placed
    rw [List.pairwise_flatMap]
    refine ⟨?_, ?_⟩
    · intro c hc
      rw [List.pairwise_map]
      refine List.Pairwise.imp_of_mem ?_ (hlay c hc).2.2
      intro a b ha hb hab
      unfold windowsDisjoint
      simp only
      rw [habs c hc a ha, habs c hc b hb]
      unfold locus.disjoint locus.stop at hab
      omega
    · refine List.Pairwise.imp_of_mem ?_ hpw
      intro c1 c2 hc1 hc2 h12 x hx y hy
      obtain ⟨a, ha, rfl⟩ := List.mem_map.1 hx
      obtain ⟨b, hb, rfl⟩ := List.mem_map.1 hy
      unfold windowsDisjoint
      simp only
      rw [habs c1 hc1 a ha, habs c2 hc2 b hb]
      obtain ⟨a1, a2, a3, a4, a5⟩ := (hlay c1 hc1).2.1 a ha
      obtain ⟨b1, b2, b3, b4, b5⟩ := (hlay c2 hc2).2.1 b hb
      unfold locus.start
      left
      omega

/-- The round trip on the genes of a schema: `Encode` then `Decode` leaves in every slot
the bits of the original slot below the width of the gene, and touches nothing else. -/
theorem roundtrip_placed (placed : List PlacedGene) (data : ByteSlice) (p q : Phenotype)
    (hok : bytesOk data.mem) (hl : ∀ pg ∈ placed, locusOk pg.2.toLocus pg.1 data)
    (hw : placed.Pairwise (windowsDisjoint data)) (hp : p.ok) (hq : q.ok)
    (hsp : ∀ pg ∈ placed, pg.2.slotOk p) (hsq : ∀ pg ∈ placed, pg.2.slotOk q)
    (hsd : placed.Pairwise (fun a b => a.2.slotDisjoint b.2)) :
    ∃ data2 q2, encodePlaced p data placed = some data2 ∧
      decodePlaced data2 q placed = some q2 ∧
      data2.off = data.off ∧ data2.len = data.len ∧ data2.mem.length = data.mem.length ∧
      q.sameShape q2 ∧ q2.ok ∧
      (∀ pg ∈ placed, ∃ v, pg.2.load p = some v ∧
        pg.2.load q2 = some (v % 2 ^ pg.2.toLocus.bitWidth.toNat)) ∧
      (∀ (dyn : Bool) (k : Nat),
        (∀ pg ∈ placed, ¬ (dyn = pg.2.dynamic ∧ 8 * pg.2.slotPos ≤ k ∧
          k < 8 * pg.2.slotPos + 8 * pg.2.type_.size)) →
        bitAt (q2.region dyn) k = bitAt (q.region dyn) k) := by
  have hloads : ∀ pg ∈ placed, ∃ v, pg.2.load p = some v := fun pg hpg => by
    obtain ⟨v, hv, _⟩ := load_spec pg.2 p (hsp pg hpg) (region_ok hp _)
    exact ⟨v, hv⟩
  obtain ⟨data2, he, ho2, hn2, hlen2, hok2, hin2, _⟩ :=
    encodePlaced_spec p placed data hok hl hloads hw
  have hl2 : ∀ pg ∈ placed, locusOk pg.2.toLocus pg.1 data2 := fun pg hpg =>
    locusOk_congr (hl pg hpg) ho2 hn2 hlen2
  obtain ⟨q2, hd, hshape, hq2, hinq, houtq⟩ := decodePlaced_spec data2 hok2 placed q hl2 hq hsq hsd
  refine ⟨data2, q2, he, hd, ho2, hn2, hlen2, hshape, hq2, ?_, houtq⟩
  intro pg hpg
  obtain ⟨v, hv, hvlt, _⟩ := load_spec pg.2 p (hsp pg hpg) (region_ok hp _)
  refine ⟨v, hv, ?_⟩
  apply hinq pg hpg
  · exact lt_of_le_of_lt (Nat.mod_le _ _) hvlt
  · intro j
    rw [Nat.testBit_mod_two_pow, absStart_congr _ _ ho2]
    have hw0 := (hl pg hpg).2.2.2.2.2.2.1
    by_cases hj : (j : Int) < pg.2.toLocus.bitWidth
    · have hj2 : j < pg.2.toLocus.bitWidth.toNat := by omega
      simp only [hj, hj2, decide_True, Bool.true_and]
      exact (hin2 pg hpg v hv j hj).symm
    · have hj2 : ¬ j < pg.2.toLocus.bitWidth.toNat := by omega
      simp only [hj, hj2, decide_False, Bool.false_and]

theorem placed_genes (s : Schema) : s.placed.map Prod.snd = s.genes := by
  unfold Schema.placed Schema.genes
  induction s.chromosomes with
  | nil => rfl
  | cons c cs ih =>
    simp only [List.flatMap_cons, List.map_append, ih, List.map_map]
    congr 1
    exact List.map_id _

theorem typeWidth_of_ne_bool (k : Kind) (h : k ≠ .bool) : k.typeWidth = 8 * (k.size : Int) := by
  cases k <;> first | rfl | exact absurd rfl h

theorem mem_placed {s : Schema} {pg : PlacedGene} (h : pg ∈ s.placed) : pg.2 ∈ s.genes := by
  rw [← placed_genes]; exact List.mem_map_of_mem _ h

/-- C1: for every schema `Build` returns (gene widths in 1..64) whose genes are bound to
pairwise disjoint scalar slots inside the phenotype, a genome buffer of `Size()` bytes
(with the 7 bytes behind it that the 8-byte loads reach) and every phenotype `p`:
`Encode(p, buf)` followed by `Decode(buf, q)` returns and leaves in each bound slot of `q`
the bit pattern of the slot of `p` reduced modulo `2^bitWidth`, zero-extended.  Hence the
slots of `q` equal those of `p` whenever every pattern is below `2^bitWidth`, which is the
case when every gene keeps the width of its type (bools holding 0 or 1). -/
theorem encode_decode_roundtrip (spec : Spec) (schema : Schema)
    (h : Build false spec = some schema) (hv : Spec.validBits spec)
    (buf : ByteSlice) (hlen : (buf.len : Int) = schema.Size)
    (hslack : buf.off + buf.len + 7 ≤ buf.mem.length) (hbuf : bytesOk buf.mem)
    (p q : Phenotype) (hp : p.ok) (hq : q.ok)
    (hsp : ∀ g ∈ schema.genes, g.slotOk p) (hsq : ∀ g ∈ schema.genes, g.slotOk q)
    (hsd : schema.genes.Pairwise Gene.slotDisjoint) :
    ∃ buf2 q2, schema.Encode p buf = some buf2 ∧ schema.Decode q buf2 = some q2 ∧
      (∀ g ∈ schema.genes, ∃ v, g.load p = some v ∧
        g.load q2 = some (v % 2 ^ g.toLocus.bitWidth.toNat)) ∧
      ((∀ g ∈ schema.genes, ∀ v, g.load p = some v → v < 2 ^ g.toLocus.bitWidth.toNat) →
        ∀ g ∈ schema.genes, g.load q2 = g.load p) ∧
      ((∀ g ∈ schema.genes, g.keepsTypeWidth ∧
          (g.type_ = .bool → ∀ v, g.load p = some v → v ≤ 1)) →
        ∀ g ∈ schema.genes, g.load q2 = g.load p) := by
  obtain ⟨hl, hw⟩ := build_layout spec schema h hv buf hlen hslack
  have hsd2 : schema.placed.Pairwise (fun a b => a.2.slotDisjoint b.2) := by
    have := hsd
    rw [← placed_genes, List.pairwise_map] at this
    exact this
  obtain ⟨buf2, q2, he, hd, _, _, _, _, _, hvals, _⟩ := roundtrip_placed schema.placed buf p q
    hbuf hl hw hp hq (fun pg hpg => hsp _ (mem_placed hpg)) (fun pg hpg => hsq _ (mem_placed hpg))
    hsd2
  have hvals2 : ∀ g ∈ schema.genes, ∃ v, g.load p = some v ∧
      g.load q2 = some (v % 2 ^ g.toLocus.bitWidth.toNat) := by
    intro g hg
    rw [← placed_genes] at hg
    obtain ⟨pg, hpg, rfl⟩ := List.mem_map.1 hg
    exact hvals pg hpg
  have hsmall : (∀ g ∈ schema.genes, ∀ v, g.load p = some v →
      v < 2 ^ g.toLocus.bitWidth.toNat) → ∀ g ∈ schema.genes, g.load q2 = g.load p := by
    intro hlt g hg
    obtain ⟨v, hv1, hv2⟩ := hvals2 g hg
    rw [hv1, hv2, Nat.mod_eq_of_lt (hlt g hg v hv1)]
  refine ⟨buf2, q2, ?_, ?_, hvals2, hsmall, ?_⟩
  · rw [Schema.Encode_eq]; exact he
  · rw [Schema.Decode_eq]; exact hd
  · intro hnat
    apply hsmall
    intro g hg v hv1
    obtain ⟨hk, hb⟩ := hnat g hg
    obtain ⟨v2, hv2, hlt, _⟩ := load_spec g p (hsp g hg) (region_ok hp _)
    have hvv : v2 = v := by rw [hv1] at hv2; exact (Option.some.inj hv2).symm
    subst hvv
    unfold Gene.keepsTypeWidth at hk
    by_cases hbool : g.type_ = .bool
    · have := hb hbool v2 hv1
      rw [hbool] at hk
      rw [hk]
      show v2 < 2 ^ 1
      omega
    · have hk2 : g.toLocus.bitWidth = 8 * (g.type_.size : Int) := by
        rw [hk, typeWidth_of_ne_bool _ hbool]
      rw [hk2]
      have : (8 * (g.type_.size : Int)).toNat = 8 * g.type_.size := by omega
      rw [this]
      exact hlt

theorem encode_decode_roundtrip_witness :
    Build false (specOf buildOptionsSpec) = some (schemaOf (specOf buildOptionsSpec)) ∧
    Spec.validBits (specOf buildOptionsSpec) ∧
    (schemaOf (specOf buildOptionsSpec)).genes.Pairwise Gene.slotDisjoint ∧
    ∃ buf2 q2,
      (schemaOf (specOf buildOptionsSpec)).Encode
        (tenInts [0x1111, 0x222, 0x333, 0x444, 0x555, 1, 2, 3, 4, 0x15]) (genomeBuffer 11)
          = some buf2 ∧
      (schemaOf (specOf buildOptionsSpec)).Decode (tenInts (List.replicate 10 0)) buf2
        = some q2 ∧
      (∀ g ∈ (schemaOf (specOf buildOptionsSpec)).genes, ∃ v,
        g.load (tenInts [0x1111, 0x222, 0x333, 0x444, 0x555, 1, 2, 3, 4, 0x15]) = some v ∧
        g.load q2 = some (v % 2 ^ g.toLocus.bitWidth.toNat)) ∧
      ((∀ g ∈ (schemaOf (specOf buildOptionsSpec)).genes, ∀ v,
          g.load (tenInts [0x1111, 0x222, 0x333, 0x444, 0x555, 1, 2, 3, 4, 0x15]) = some v →
          v < 2 ^ g.toLocus.bitWidth.toNat) →
        ∀ g ∈ (schemaOf (specOf buildOptionsSpec)).genes,
          g.load q2 = g.load (tenInts [0x1111, 0x222, 0x333, 0x444, 0x555, 1, 2, 3, 4, 0x15])) ∧
      ((∀ g ∈ (schemaOf (specOf buildOptionsSpec)).genes, g.keepsTypeWidth ∧
          (g.type_ = .bool → ∀ v,
            g.load (tenInts [0x1111, 0x222, 0x333, 0x444, 0x555, 1, 2, 3, 4, 0x15]) = some v →
            v ≤ 1)) →
        ∀ g ∈ (schemaOf (specOf buildOptionsSpec)).genes,
          g.load q2 = g.load (tenInts [0x1111, 0x222, 0x333, 0x444, 0x555, 1, 2, 3, 4, 0x15])) :=
  ⟨by decide, by decide, by decide,
    encode_decode_roundtrip (specOf buildOptionsSpec) (schemaOf (specOf buildOptionsSpec))
      (by decide) (by decide) (genomeBuffer 11) (by decide) (by decide) (by decide)
      (tenInts [0x1111, 0x222, 0x333, 0x444, 0x555, 1, 2, 3, 4, 0x15])
      (tenInts (List.replicate 10 0)) (by decide) (by decide) (by decide) (by decide)
      (by decide)⟩

/-- Reading the same window bits from two memories gives the same phenotype. -/
theorem decodePlaced_congr (d1 d2 : ByteSlice) (hoff : d2.off = d1.off)
    (hlen : d2.len = d1.len) (hm : d2.mem.length = d1.mem.length)
    (ok1 : bytesOk d1.mem) (ok2 : bytesOk d2.mem) :
    ∀ (placed : List PlacedGene) (q : Phenotype),
      (∀ pg ∈ placed, locusOk pg.2.toLocus pg.1 d1) →
      (∀ pg ∈ placed, ∀ j : Nat, (j : Int) < pg.2.toLocus.bitWidth →
        bitAt d2.mem (absStart pg.2.toLocus pg.1 d1 + j)
          = bitAt d1.mem (absStart pg.2.toLocus pg.1 d1 + j)) →
      decodePlaced d2 q placed = decodePlaced d1 q placed := by
  intro placed
  induction placed with
  | nil => intro q _ _; rfl
  | cons pg rest ih =>
    intro q hl hb
    have hl1 := hl pg (List.mem_cons_self _ _)
    have hl2 : locusOk pg.2.toLocus pg.1 d2 := locusOk_congr hl1 hoff hlen hm
    have hs1 := ByteSlice.from_spec d1 pg.1 hl1.1 hl1.2.1
    have hs2 := ByteSlice.from_spec d2 pg.1 hl2.1 hl2.2.1
    obtain ⟨r1, hr1, hb1⟩ := locus_read_spec pg.2.toLocus pg.1 d1 _ ok1 hl1 hs1
    obtain ⟨r2, hr2, hb2⟩ := locus_read_spec pg.2.toLocus pg.1 d2 _ ok2 hl2 hs2
    have hr : r2 = r1 := by
      apply Nat.eq_of_testBit_eq
      intro j
      rw [hb1 j, hb2 j, absStart_congr _ _ hoff]
      by_cases hj : (j : Int) < pg.2.toLocus.bitWidth
      · rw [hb pg (List.mem_cons_self _ _) j hj]
      · simp [hj]
    simp only [decodePlaced, hs1, hs2, Gene.Decode, hr1, hr2, hr]
    cases pg.2.store q r1 with
    | none => rfl
    | some q1 =>
      exact ih q1 (fun x hx => hl x (List.mem_cons_of_mem _ hx))
        (fun x hx => hb x (List.mem_cons_of_mem _ hx))

theorem bitAt_append_left (a b : List Nat) (k : Nat) (h : k < 8 * a.length) :
    bitAt (a ++ b) k = bitAt a k := by
  unfold bitAt
  simp only [List.getD_eq_getElem?_getD]
  rw [List.getElem?_append_left (by omega)]

theorem cons_eq_replicate_succ {w : Int} {ws : List Int} {m : Nat}
    (h : w :: ws = List.replicate m w) : ∃ n, m = n + 1 ∧ ws = List.replicate n w := by
  cases m with
  | zero => simp at h
  | succ n => exact ⟨n, rfl, by simpa [List.replicate_succ] using h⟩

theorem fitsSeq_replicate (w : Int) (m : Nat) (hw : 1 ≤ w) (hm : (m : Int) * w ≤ 64) :
    fitsSeq 0 (List.replicate m w) := by
  cases m with
  | zero => trivial
  | succ n =>
    rw [List.replicate_succ]
    have hw64 : w ≤ 64 := by
      have : (0 : Int) ≤ (n : Int) * w := by positivity
      push_cast at hm
      nlinarith
    refine ⟨hw, hw64, Or.inr ⟨rfl, ?_⟩⟩
    apply fitsSeq_of_sum_le
    · intro x hx; rw [(List.mem_replicate.1 hx).2]; exact hw
    · rw [List.sum_replicate]
      push_cast at hm
      simp only [smul_eq_mul, nsmul_eq_mul]
      nlinarith
    · omega

theorem seqStarts_replicate (w : Int) : ∀ (m : Nat) (s : Int) (i : Nat),
    i < m → (seqStarts s (List.replicate m w)).getD i 0 = s + (i : Int) * w := by
  intro m
  induction m with
  | zero => intro s i hi; omega
  | succ n ih =>
    intro s i hi
    rw [List.replicate_succ]
    simp only [seqStarts]
    cases i with
    | zero => simp
    | succ j =>
      rw [List.getD_cons_succ, ih (s + w) j (by omega)]
      push_cast; ring

theorem regionsFrom_succ : ∀ (cs : List Chromosome) (start : Int), regionsFrom start cs →
    ∀ (j : Nat) (hj : j + 1 < cs.length),
      (cs.get ⟨j + 1, hj⟩).bytesIndex
        = (cs.get ⟨j, by omega⟩).bytesIndex + (cs.get ⟨j, by omega⟩).bytesLength := by
  intro cs
  induction cs with
  | nil => intro _ _ j hj; simp at hj
  | cons c cs ih =>
    intro start h j hj
    cases j with
    | zero =>
      cases cs with
      | nil => simp at hj
      | cons c2 cs2 =>
        simp only [List.get_eq_getElem, List.getElem_cons_succ, List.getElem_cons_zero]
        rw [h.2.1, h.1]
    | succ j =>
      have := ih _ h.2 j (by simpa using hj)
      simpa using this

/-- The decode of the test genome does not depend on the bytes behind the buffer. -/
theorem buildOptions_decode (slack : List Nat) (hs : slack.length = 7) (hok : bytesOk slack) :
    (schemaOf (specOf buildOptionsSpec)).Decode (tenInts (List.replicate 10 0))
        { mem := buildOptionsGenome ++ slack, len := 11 }
      = some (tenInts [0x111, 0x222, 0x333, 0x444, 0x555, 1, 2, 3, 4, 5]) := by
  have hlen11 : buildOptionsGenome.length = 11 := by decide
  have hokg : bytesOk buildOptionsGenome := by decide
  have ok2 : bytesOk (buildOptionsGenome ++ slack) := by
    intro b hb
    rcases List.mem_append.1 hb with h1 | h1
    · exact hokg b h1
    · exact hok b h1
  have hwin : ∀ pg ∈ (schemaOf (specOf buildOptionsSpec)).placed,
      (absStart pg.2.toLocus pg.1
        { mem := buildOptionsGenome ++ List.replicate 7 0, len := 11 } : Int)
        + pg.2.toLocus.bitWidth ≤ 88 := by decide
  have hd := decodePlaced_congr
    { mem := buildOptionsGenome ++ List.replicate 7 0, len := 11 }
    { mem := buildOptionsGenome ++ slack, len := 11 } rfl rfl
    (by simp [hs]) (by decide) ok2
    (schemaOf (specOf buildOptionsSpec)).placed (tenInts (List.replicate 10 0))
    (by decide)
    (by
      intro pg hpg j hj
      have hb := hwin pg hpg
      show bitAt (buildOptionsGenome ++ slack) _
        = bitAt (buildOptionsGenome ++ List.replicate 7 0) _
      rw [bitAt_append_left _ _ _ (by rw [hlen11]; omega),
        bitAt_append_left _ _ _ (by rw [hlen11]; omega)])
  rw [Schema.Decode_eq, hd]
  decide

/-- C2: in a chromosome `Build` compiles from `m` genes of equal width `w ≥ 1` with
`m * w ≤ 64`, gene `i` has its window at the bits `[i*w, (i+1)*w)` of the chromosome
(`byteIndex * 8 + bitOffset = i * w`), and each chromosome starts at the byte where the
one before it ends.  For the `[10]int` schema with 5 genes of 12 bits and 5 genes of 4
bits, `Decode` of the 11 genome bytes of the test yields
`[0x111, 0x222, 0x333, 0x444, 0x555, 1, 2, 3, 4, 5]`, whatever the 7 bytes behind the
buffer hold. -/
theorem build_equal_width_layout (spec : Spec) (schema : Schema)
    (h : Build false spec = some schema) :
    (∀ c ∈ schema.chromosomes, ∀ w : Int, 1 ≤ w →
      (∀ g ∈ c.genes, g.toLocus.bitWidth = w) → (c.genes.length : Int) * w ≤ 64 →
      ∀ (i : Nat) (hi : i < c.genes.length),
        (c.genes.get ⟨i, hi⟩).toLocus.byteIndex * 8 + (c.genes.get ⟨i, hi⟩).toLocus.bitOffset
          = (i : Int) * w ∧
        (c.genes.get ⟨i, hi⟩).toLocus.byteIndex * 8 + (c.genes.get ⟨i, hi⟩).toLocus.bitOffset
          + (c.genes.get ⟨i, hi⟩).toLocus.bitWidth = ((i : Int) + 1) * w) ∧
    (∀ (j : Nat) (hj : j + 1 < schema.chromosomes.length),
      (schema.chromosomes.get ⟨j + 1, hj⟩).bytesIndex
        = (schema.chromosomes.get ⟨j, by omega⟩).bytesIndex
          + (schema.chromosomes.get ⟨j, by omega⟩).bytesLength) ∧
    (∀ slack : List Nat, slack.length = 7 → bytesOk slack →
      (schemaOf (specOf buildOptionsSpec)).Decode (tenInts (List.replicate 10 0))
          { mem := buildOptionsGenome ++ slack, len := 11 }
        = some (tenInts [0x111, 0x222, 0x333, 0x444, 0x555, 1, 2, 3, 4, 5])) := by
  obtain ⟨_, hall, hreg⟩ := Build_spec spec schema h
  refine ⟨?_, regionsFrom_succ _ _ hreg, ?_⟩
  · intro c hc w hw hall_w hmw i hi
    obtain ⟨cs, _, hcomp⟩ := forall₂_mem_right hall c hc
    have hrep : c.genes.map Gene.bitWidth = List.replicate c.genes.length w := by
      rw [List.eq_replicate_iff]
      refine ⟨by simp, ?_⟩
      intro x hx
      obtain ⟨g, hg, rfl⟩ := List.mem_map.1 hx
      exact hall_w g hg
    have hfit : fitsSeq 0 (c.genes.map Gene.bitWidth) := by
      rw [hrep]; exact fitsSeq_replicate w _ hw hmw
    obtain ⟨hst, _⟩ := compiledFrom_sequential hcomp hfit
    rw [hrep] at hst
    have hi2 : i < (c.genes.map (fun g => g.toLocus.start)).length := by simpa using hi
    have e1 : (c.genes.map (fun g => g.toLocus.start)).getD i 0
        = (c.genes.get ⟨i, hi⟩).toLocus.start := by
      rw [List.getD_eq_getElem?_getD, List.getElem?_eq_getElem hi2]
      simp
    have e2 := seqStarts_replicate w c.genes.length 0 i hi
    rw [← hst, e1] at e2
    unfold locus.start at e2
    have e3 := hall_w _ (List.get_mem c.genes i hi)
    constructor
    · rw [e2]; ring
    · rw [e2, e3]; ring
  · exact buildOptions_decode

theorem build_equal_width_layout_witness :
    Build false (specOf buildOptionsSpec) = some (schemaOf (specOf buildOptionsSpec)) ∧
    (schemaOf (specOf buildOptionsSpec)).chromosomes.map
        (fun c => c.genes.map (fun g => g.toLocus.byteIndex * 8 + g.toLocus.bitOffset))
      = [[0, 12, 24, 36, 48], [0, 4, 8, 12, 16]] ∧
    (∀ (j : Nat) (hj : j + 1 < (schemaOf (specOf buildOptionsSpec)).chromosomes.length),
      ((schemaOf (specOf buildOptionsSpec)).chromosomes.get ⟨j + 1, hj⟩).bytesIndex
        = ((schemaOf (specOf buildOptionsSpec)).chromosomes.get ⟨j, by omega⟩).bytesIndex
          + ((schemaOf (specOf buildOptionsSpec)).chromosomes.get ⟨j, by omega⟩).bytesLength) :=
  ⟨by decide, by decide,
    (build_equal_width_layout (specOf buildOptionsSpec) (schemaOf (specOf buildOptionsSpec))
      (by decide)).2.1⟩

/-- `Build` returns a schema when every gene spec has a type and a legal width and every
chromosome has at least one gene. -/
theorem buildFrom_total : ∀ (spec : List ChromosomeSpec) (schema : Schema),
    (∀ cs ∈ spec, (∀ g ∈ cs.genes, g.type_ ≠ none ∧ 1 ≤ g.bits ∧ g.bits ≤ 64) ∧
      expandWidths (sortStableFunc cmpBits cs.genes) ≠ []) →
    ∃ s, buildFrom schema spec = some s := by
  intro spec
  induction spec with
  | nil => intro schema _; exact ⟨schema, rfl⟩
  | cons cs rest ih =>
    intro schema h
    obtain ⟨hg, hne⟩ := h cs (List.mem_cons_self _ _)
    have ht : ∀ g ∈ sortStableFunc cmpBits cs.genes, g.type_ ≠ none := fun g hg2 =>
      (hg g ((mem_sortStableFunc _ _ _).1 hg2)).1
    obtain ⟨st, hst⟩ := buildGenes_total (sortStableFunc cmpBits cs.genes) ({}, []) ht
    have heq := (buildGenes_eq _ _ _ hst).2
    rw [foldl_emitGene _ _ (allTemplates_fresh _), allTemplates_widths _ ht] at heq
    have hvw : validWidths (expandWidths (sortStableFunc cmpBits cs.genes)) :=
      compiledFrom_validWidths (fun g hg2 => (hg g hg2).2)
    obtain ⟨h1, h2, _⟩ := offerAll_spec _ hvw
    have hnb := nBytes_spec _ h1 (h2 hne)
    have hst1 : st.1 = (offerAll (expandWidths (sortStableFunc cmpBits cs.genes))).1 := by
      rw [heq]; rfl
    unfold buildFrom buildChromosome
    rw [hst]
    simp only
    rw [hst1, hnb]
    exact ih _ (fun x hx => h x (List.mem_cons_of_mem _ hx))

theorem intsToBytes_length (xs : List Nat) : (intsToBytes xs).length = 8 * xs.length := by
  unfold intsToBytes
  rw [length_flatMap_const _ 8 _ (fun x _ => leBytes_length 8 x)]
  omega

theorem intsToBytes_ok (xs : List Nat) : bytesOk (intsToBytes xs) := by
  intro b hb
  unfold intsToBytes at hb
  obtain ⟨x, _, hx⟩ := List.mem_flatMap.1 hb
  exact leBytes_ok 8 x b hx

theorem bitAt_intsToBytes : ∀ (xs : List Nat) (i j : Nat), j < 64 →
    bitAt (intsToBytes xs) (64 * i + j) = (xs.getD i 0).testBit j := by
  intro xs
  induction xs with
  | nil => intro i j _; simp [intsToBytes, bitAt_nil]
  | cons x xs ih =>
    intro i j hj
    have e : intsToBytes (x :: xs) = leBytes 8 x ++ intsToBytes xs := by
      simp [intsToBytes, List.flatMap_cons]
    rw [e]
    unfold bitAt
    simp only [List.getD_eq_getElem?_getD]
    cases i with
    | zero =>
      rw [List.getElem?_append_left (by rw [leBytes_length]; omega)]
      have := bitAt_leBytes 8 x (64 * 0 + j)
      unfold bitAt at this
      simp only [List.getD_eq_getElem?_getD] at this
      rw [this]
      simp [hj]
    | succ i =>
      rw [List.getElem?_append_right (by rw [leBytes_length]; omega), leBytes_length]
      have := ih i j hj
      unfold bitAt at this
      simp only [List.getD_eq_getElem?_getD] at this
      have e1 : (64 * (i + 1) + j) / 8 - 8 = (64 * i + j) / 8 := by omega
      have e2 : (64 * (i + 1) + j) % 8 = (64 * i + j) % 8 := by omega
      rw [e1, e2, this]
      simp

/-- Element `i` of a slice of 64-bit values, read from its bytes. -/
theorem read_intsToBytes (xs : List Nat) (i : Nat) (hi : i < xs.length)
    (hx : ∀ x ∈ xs, x < 2 ^ 64) : read 8 (intsToBytes xs) (8 * i) = some (xs.getD i 0) := by
  obtain ⟨v, hv, hlt, hbits⟩ := read_spec 8 (intsToBytes xs) (8 * i) (intsToBytes_ok xs)
    (by rw [intsToBytes_length]; omega)
  rw [hv]
  congr 1
  apply Nat.eq_of_testBit_eq
  intro k
  rw [hbits k]
  have hxi : xs.getD i 0 < 2 ^ 64 := by
    rw [List.getD_eq_getElem?_getD, List.getElem?_eq_getElem hi]
    exact hx _ (List.getElem_mem hi)
  by_cases hk : k < 8 * 8
  · have e : 8 * (8 * i) + k = 64 * i + k := by omega
    simp only [hk, decide_True, Bool.true_and, e]
    exact bitAt_intsToBytes xs i k (by omega)
  · simp only [hk, decide_False, Bool.false_and]
    exact (testBit_eq_false_of_lt _ 64 k hxi (by omega)).symm

/-- Two memories of equal size with the same bits in a slot give the same scalar. -/
theorem read_congr (size : Nat) (m1 m2 : List Nat) (pos : Nat) (ok1 : bytesOk m1)
    (ok2 : bytesOk m2) (hlen : m2.length = m1.length) (h : pos + size ≤ m1.length)
    (hb : ∀ k, k < 8 * size → bitAt m2 (8 * pos + k) = bitAt m1 (8 * pos + k)) :
    read size m2 pos = read size m1 pos := by
  obtain ⟨v1, hv1, _, hb1⟩ := read_spec size m1 pos ok1 h
  obtain ⟨v2, hv2, _, hb2⟩ := read_spec size m2 pos ok2 (by rw [hlen]; exact h)
  rw [hv1, hv2]
  congr 1
  apply Nat.eq_of_testBit_eq
  intro k
  rw [hb1 k, hb2 k]
  by_cases hk : k < 8 * size
  · rw [hb k hk]
  · simp [hk]

/-- The spec `bind(root).Index(i0).Len(n).Bits(b)` on a `[]int` root returns. -/
theorem buildSliceSpec_eq (i0 n b : Int) (hb : b ≤ 64) :
    buildSliceSpec i0 n b = some [IntChromosome [sliceGeneSpec i0 n b]] := by
  have hb2 : ¬ b > 64 := by omega
  simp [buildSliceSpec, bind, binderX, Kind.bits, GeneSpec.Index, GeneSpec.Len,
    GeneSpec.Bits, hb2, sliceGeneSpec]

theorem flatMap_range_one {α β : Type} (f : α → Nat → β) : ∀ l : List α,
    (l.flatMap fun i => (List.range 1).map (f i)) = l.map fun i => f i 0 := by
  intro l
  induction l with
  | nil => rfl
  | cons x xs ih => rw [List.flatMap_cons, ih]; rfl

/-- The genes of the schema of a `[]int` slice spec: gene `i` is bound to element
`i0 + i` of the backing array and has the width `b`. -/
theorem sliceSchema_genes (i0 n b : Int) (schema : Schema)
    (h : Build false [IntChromosome [sliceGeneSpec i0 n b]] = some schema) :
    ∃ genes : List Gene, schema.placed = genes.map (fun g => ((0 : Int), g)) ∧
      genes.length = n.toNat ∧
      ∀ (i : Nat) (hi : i < genes.length),
        genes[i].type_ = .int ∧ genes[i].dynamic = true ∧
        genes[i].dynamicIndex = (i0 + i) * 8 ∧ genes[i].toLocus.bitWidth = b := by
  obtain ⟨_, hall, hreg⟩ := Build_spec _ _ h
  cases hch : schema.chromosomes with
  | nil => rw [hch] at hall; cases hall
  | cons c rest =>
    rw [hch] at hall hreg
    cases hall with
    | cons hc hrest =>
      cases hrest
      have hidx : c.bytesIndex = 0 := hreg.1
      have hsort : sortStableFunc cmpBits (IntChromosome [sliceGeneSpec i0 n b]).genes
          = [sliceGeneSpec i0 n b] := rfl
      obtain ⟨_, hw⟩ := compiledFrom_loci hc
      obtain ⟨_, hg, _⟩ := hc
      unfold chromosomeGenes at hg
      rw [hsort] at hg hw
      have htm : allTemplates [sliceGeneSpec i0 n b]
          = (List.range n.toNat).map (sliceTemplate i0 b) := by
        unfold allTemplates GeneSpec.templates sliceGeneSpec
        simp only [List.flatMap_cons, List.flatMap_nil, List.append_nil, if_true]
        exact flatMap_range_one _ _
      have hwid : c.genes.map Gene.bitWidth = List.replicate n.toNat b := by
        rw [hw]
        simp [expandWidths, GeneSpec.count, sliceGeneSpec]
      have hlen : c.genes.length = n.toNat := by
        have := congrArg List.length hwid
        simpa using this
      refine ⟨c.genes, ?_, hlen, ?_⟩
      · unfold Schema.placed
        rw [hch]
        simp [hidx]
      · intro i hi
        have hb : Gene.bitWidth c.genes[i] = b := by
          have hm : Gene.bitWidth c.genes[i] ∈ c.genes.map Gene.bitWidth :=
            List.mem_map_of_mem _ (List.getElem_mem hi)
          rw [hwid] at hm
          exact List.eq_of_mem_replicate hm
        have hi2 : i < (List.zipWith Gene.withLocus (allTemplates [sliceGeneSpec i0 n b])
            (offerAll (expandWidths [sliceGeneSpec i0 n b])).2).length := by
          rw [← hg]; exact hi
        have hgi : c.genes[i] = (List.zipWith Gene.withLocus
            (allTemplates [sliceGeneSpec i0 n b])
            (offerAll (expandWidths [sliceGeneSpec i0 n b])).2).get ⟨i, hi2⟩ := by
          simp only [List.get_eq_getElem]
          congr 1
        rw [hgi]
        simp only [List.get_eq_getElem, List.getElem_zipWith, htm, List.getElem_map,
          List.getElem_range]
        refine ⟨rfl, rfl, ?_, ?_⟩
        · show (i0 + (i : Int)) * ((8 : Nat) : Int) * 1 + ((0 : Nat) : Int) * ((8 : Nat) : Int)
            = (i0 + i) * 8
          push_cast
          ring
        · rw [hgi] at hb
          simpa [Gene.bitWidth] using hb
/-- `Build` returns a schema for the `[]int` slice spec with at least one element and a
width of 1 to 64 bits. -/
theorem sliceSchema_build (i0 n b : Int) (hn : 1 ≤ n) (hb1 : 1 ≤ b) (hb64 : b ≤ 64) :
    specOf (buildSliceSpec i0 n b) = [IntChromosome [sliceGeneSpec i0 n b]] ∧
    Build false (specOf (buildSliceSpec i0 n b))
      = some (schemaOf (specOf (buildSliceSpec i0 n b))) ∧
    Spec.validBits (specOf (buildSliceSpec i0 n b)) := by
  have hspec : specOf (buildSliceSpec i0 n b) = [IntChromosome [sliceGeneSpec i0 n b]] := by
    rw [buildSliceSpec_eq i0 n b hb64]; rfl
  have hgenes : ∀ g ∈ (IntChromosome [sliceGeneSpec i0 n b]).genes, g = sliceGeneSpec i0 n b := by
    intro g hg
    exact List.mem_singleton.1 hg
  have hvalid : ∀ cs ∈ [IntChromosome [sliceGeneSpec i0 n b]], ∀ g ∈ cs.genes,
      1 ≤ g.bits ∧ g.bits ≤ 64 := by
    intro cs hcs g hg
    rw [List.mem_singleton.1 hcs] at hg
    rw [hgenes g hg]
    exact ⟨hb1, hb64⟩
  have htot : ∃ s, buildFrom {} [IntChromosome [sliceGeneSpec i0 n b]] = some s := by
    apply buildFrom_total
    intro cs hcs
    rw [List.mem_singleton.1 hcs]
    refine ⟨?_, ?_⟩
    · intro g hg
      rw [hgenes g hg]
      exact ⟨by simp [sliceGeneSpec], hb1, hb64⟩
    · have hsort : sortStableFunc cmpBits (IntChromosome [sliceGeneSpec i0 n b]).genes
          = [sliceGeneSpec i0 n b] := rfl
      rw [hsort]
      have hc : 0 < n.toNat := by omega
      intro hnil
      have := congrArg List.length hnil
      simp [expandWidths, GeneSpec.count, sliceGeneSpec] at this
      omega
  obtain ⟨s, hs⟩ := htot
  have hB : Build false [IntChromosome [sliceGeneSpec i0 n b]] = some s := by
    unfold Build
    simpa using hs
  refine ⟨hspec, ?_, ?_⟩
  · rw [hspec]
    unfold schemaOf
    rw [hB]
    rfl
  · rw [hspec]
    exact hvalid
/-- C3: for the `[]int` schema of one int chromosome `bind(root).Index(i0).Len(n).Bits(b)`
(`0 ≤ i0`, `1 ≤ n`, `1 ≤ b ≤ 64`) and slices `v` and `d` of at least `i0 + n` elements,
taken as 64-bit patterns:
`Build` returns the schema, `Encode(v, buf)` and `Decode(buf, d)` return, and afterwards
element `i` of `d` is `v[i] mod 2^b` for `i0 ≤ i < i0 + n` and is unchanged for every
other `i`.  The buffer has `Size()` bytes and 7 addressable bytes behind it.  The two
runs of the test: `[1,2,3,4,5]` with `Len 3`, `Bits 2` decoded into five zeros gives
`[1,2,3,0,0]`, and with `Index 1`, `Len 3`, `Bits 3` it gives `[0,2,3,4,0]`. -/
theorem slice_encode_decode (i0 n b : Int) (hi0 : 0 ≤ i0) (hn : 1 ≤ n) (hb1 : 1 ≤ b)
    (hb64 : b ≤ 64) (hdr : List Nat) (hhdr : bytesOk hdr) (v d : List Nat)
    (hv : i0 + n ≤ v.length) (hd : i0 + n ≤ d.length)
    (hvb : ∀ x ∈ v, x < 2 ^ 64) (hdb : ∀ x ∈ d, x < 2 ^ 64)
    (buf : ByteSlice)
    (hlen : (buf.len : Int) = (schemaOf (specOf (buildSliceSpec i0 n b))).Size)
    (hslack : buf.off + buf.len + 7 ≤ buf.mem.length) (hbuf : bytesOk buf.mem) :
    Build false (specOf (buildSliceSpec i0 n b))
      = some (schemaOf (specOf (buildSliceSpec i0 n b))) ∧
    (∃ buf2 d2,
      (schemaOf (specOf (buildSliceSpec i0 n b))).Encode (intSlice hdr v) buf = some buf2 ∧
      (schemaOf (specOf (buildSliceSpec i0 n b))).Decode (intSlice hdr d) buf2 = some d2 ∧
      d2.elems.length = 8 * d.length ∧
      (∀ j : Nat, (j : Int) < n →
        d2.intAt (i0.toNat + j) = some (v.getD (i0.toNat + j) 0 % 2 ^ b.toNat)) ∧
      (∀ i : Nat, i < d.length → ¬ (i0 ≤ i ∧ (i : Int) < i0 + n) →
        d2.intAt i = some (d.getD i 0))) ∧
    sliceRoundtrip 0 3 2 [1, 2, 3, 4, 5] [0, 0, 0, 0, 0]
      = some (intSlice (List.replicate 24 0) [1, 2, 3, 0, 0]) ∧
    sliceRoundtrip 1 3 3 [1, 2, 3, 4, 5] [0, 0, 0, 0, 0]
      = some (intSlice (List.replicate 24 0) [0, 2, 3, 4, 0]) := by
  obtain ⟨hspec, hB, hvalid⟩ := sliceSchema_build i0 n b hn hb1 hb64
  refine ⟨hB, ?_, by decide, by decide⟩
  obtain ⟨hl, hw⟩ := build_layout _ _ hB hvalid buf hlen hslack
  have hB2 := hB
  rw [hspec] at hB2
  obtain ⟨genes, hplaced, hglen, hgenes⟩ := sliceSchema_genes i0 n b _ hB2
  rw [← hspec] at hplaced
  -- every placed gene is one of the `n` slice genes
  have hfacts : ∀ pg ∈ (schemaOf (specOf (buildSliceSpec i0 n b))).placed,
      ∃ j : Nat, (j : Int) < n ∧ pg.2.type_ = .int ∧ pg.2.dynamic = true ∧
        pg.2.dynamicIndex = (i0 + j) * 8 ∧ pg.2.toLocus.bitWidth = b := by
    intro pg hpg
    rw [hplaced] at hpg
    obtain ⟨g, hg, rfl⟩ := List.mem_map.1 hpg
    obtain ⟨j, hj, rfl⟩ := List.getElem_of_mem hg
    exact ⟨j, by omega, hgenes j hj⟩
  have hslot : ∀ (xs : List Nat), i0 + n ≤ xs.length →
      ∀ pg ∈ (schemaOf (specOf (buildSliceSpec i0 n b))).placed,
        pg.2.slotOk (intSlice hdr xs) := by
    intro xs hxs pg hpg
    obtain ⟨j, hj, ht, hdyn, hidx, _⟩ := hfacts pg hpg
    unfold Gene.slotOk Gene.slotPos Phenotype.region
    rw [hdyn, ht, hidx]
    simp only [if_true]
    refine ⟨fun _ => by omega, ?_⟩
    show ((i0 + j) * 8).toNat + 8 ≤ (intsToBytes xs).length
    rw [intsToBytes_length]
    omega
  have hsd : (schemaOf (specOf (buildSliceSpec i0 n b))).placed.Pairwise
      (fun a b => a.2.slotDisjoint b.2) := by
    rw [hplaced, List.pairwise_map, List.pairwise_iff_getElem]
    intro i j hi hj hij
    obtain ⟨ti, di, xi, _⟩ := hgenes i hi
    obtain ⟨tj, dj, xj, _⟩ := hgenes j hj
    unfold Gene.slotDisjoint Gene.slotPos
    simp only [di, dj, ti, tj, xi, xj, if_true]
    right; left
    show ((i0 + i) * 8).toNat + 8 ≤ ((i0 + j) * 8).toNat
    omega
  have hpok : ∀ xs : List Nat, (intSlice hdr xs).ok := fun xs => ⟨hhdr, intsToBytes_ok xs⟩
  obtain ⟨buf2, d2, he, hdec, _, _, _, hshape, hd2ok, hvals, hout⟩ :=
    roundtrip_placed _ buf (intSlice hdr v) (intSlice hdr d) hbuf hl hw (hpok v) (hpok d)
      (hslot v hv) (hslot d hd) hsd
  have hlen2 : d2.elems.length = 8 * d.length := by
    rw [← hshape.2]
    exact intsToBytes_length d
  refine ⟨buf2, d2, ?_, ?_, hlen2, ?_, ?_⟩
  · rw [Schema.Encode_eq]; exact he
  · rw [Schema.Decode_eq]; exact hdec
  · intro j hj
    have hjl : j < genes.length := by omega
    have hmem : ((0 : Int), genes[j]) ∈ (schemaOf (specOf (buildSliceSpec i0 n b))).placed := by
      rw [hplaced]
      exact List.mem_map_of_mem _ (List.getElem_mem hjl)
    obtain ⟨x, hx1, hx2⟩ := hvals _ hmem
    obtain ⟨ht, hdyn, hidx, hwid⟩ := hgenes j hjl
    have hpos : ((i0 + (j : Int)) * 8).toNat = 8 * (i0.toNat + j) := by omega
    have hneg : ¬ (i0 + (j : Int)) * 8 < 0 := by omega
    unfold Gene.load at hx1 hx2
    simp only [hdyn, ht, hidx, hwid, if_true, hneg, if_false, hpos] at hx1 hx2
    have hx1b : Genetta.read 8 (intsToBytes v) (8 * (i0.toNat + j)) = some x := hx1
    rw [read_intsToBytes v _ (by omega) hvb] at hx1b
    have hxv : v.getD (i0.toNat + j) 0 = x := Option.some.inj hx1b
    rw [hxv]
    exact hx2
  · intro i hi hout2
    unfold Phenotype.intAt
    have hr : Genetta.read 8 d2.elems (8 * i) = Genetta.read 8 (intsToBytes d) (8 * i) := by
      apply read_congr 8 (intsToBytes d) d2.elems (8 * i) (intsToBytes_ok d) hd2ok.2
      · rw [hlen2, intsToBytes_length]
      · rw [intsToBytes_length]; omega
      · intro k hk
        have := hout true (8 * (8 * i) + k) (by
          intro pg hpg
          obtain ⟨j, hj, ht, hdyn, hidx, _⟩ := hfacts pg hpg
          unfold Gene.slotPos
          rw [hdyn, ht, hidx]
          simp only [if_true]
          have h8 : Kind.int.size = 8 := rfl
          rw [h8]
          intro hc
          obtain ⟨_, h1, h2⟩ := hc
          omega)
        exact this
    rw [hr]
    exact read_intsToBytes d i hi hdb

theorem slice_encode_decode_witness :
    Build false (specOf (buildSliceSpec 1 3 3))
      = some (schemaOf (specOf (buildSliceSpec 1 3 3))) ∧
    (∃ buf2 d2,
      (schemaOf (specOf (buildSliceSpec 1 3 3))).Encode
        (intSlice (List.replicate 24 0) [1, 2, 3, 12, 5]) (genomeBuffer 2) = some buf2 ∧
      (schemaOf (specOf (buildSliceSpec 1 3 3))).Decode
        (intSlice (List.replicate 24 0) [9, 9, 9, 9, 9]) buf2 = some d2 ∧
      d2.elems.length = 8 * [9, 9, 9, 9, 9].length ∧
      (∀ j : Nat, (j : Int) < 3 →
        d2.intAt ((1 : Int).toNat + j)
          = some ([1, 2, 3, 12, 5].getD ((1 : Int).toNat + j) 0 % 2 ^ (3 : Int).toNat)) ∧
      (∀ i : Nat, i < [9, 9, 9, 9, 9].length → ¬ ((1 : Int) ≤ i ∧ (i : Int) < 1 + 3) →
        d2.intAt i = some ([9, 9, 9, 9, 9].getD i 0))) ∧
    sliceRoundtrip 0 3 2 [1, 2, 3, 4, 5] [0, 0, 0, 0, 0]
      = some (intSlice (List.replicate 24 0) [1, 2, 3, 0, 0]) ∧
    sliceRoundtrip 1 3 3 [1, 2, 3, 4, 5] [0, 0, 0, 0, 0]
      = some (intSlice (List.replicate 24 0) [0, 2, 3, 4, 0]) :=
  slice_encode_decode 1 3 3 (by decide) (by decide) (by decide) (by decide)
    (List.replicate 24 0) (by decide) [1, 2, 3, 12, 5] [9, 9, 9, 9, 9] (by decide) (by decide)
    (by decide) (by decide) (genomeBuffer 2) (by decide) (by decide) (by decide)

/-! ## Children of a crossover are made of the bits of the parents -/

theorem bytesOk_set (a : List Nat) (i v : Nat) (ha : bytesOk a) (hv : v < 256) :
    bytesOk (a.set i v) := by
  intro b hb
  rcases List.mem_or_eq_of_mem_set hb with h | h
  · exact ha b h
  · rw [h]; exact hv

theorem bytesOk_append {a b : List Nat} (ha : bytesOk a) (hb : bytesOk b) :
    bytesOk (a ++ b) := by
  intro x hx
  rcases List.mem_append.1 hx with h | h
  · exact ha x h
  · exact hb x h

theorem bytesOk_take {a : List Nat} (n : Nat) (ha : bytesOk a) : bytesOk (a.take n) :=
  fun x hx => ha x (List.mem_of_mem_take hx)

theorem bytesOk_drop {a : List Nat} (n : Nat) (ha : bytesOk a) : bytesOk (a.drop n) :=
  fun x hx => ha x (List.mem_of_mem_drop hx)

theorem bytesOk_copyBytes {dst src : List Nat} (hd : bytesOk dst) (hs : bytesOk src) :
    bytesOk (copyBytes dst src) :=
  bytesOk_append (bytesOk_take _ hs) (bytesOk_drop _ hd)

theorem getD_lt_of_bytesOk {a : List Nat} (ha : bytesOk a) (i : Nat) : a.getD i 0 < 256 := by
  rw [List.getD_eq_getElem?_getD]
  cases h : a[i]? with
  | none => simp
  | some v => exact ha v (List.getElem?_mem h)

/-- A `flip` that returns keeps the children made of the bits of the parents. -/
theorem exchanged_flip {mom dad c1 c2 : List Nat} {i mask : Nat} {r : List Nat × List Nat}
    (h : Exchanged mom dad c1 c2) (hf : flip c1 c2 i mask = some r) :
    (i : Int) < mom.length ∧ Exchanged mom dad r.1 r.2 := by
  obtain ⟨l1, l2, o1, o2, sw, hm⟩ := h
  have hi : i < c1.length ∧ i < c2.length := by
    unfold flip at hf
    by_contra hc
    simp [hc] at hf
  obtain ⟨a2, b2, hfl, la, lb, hbits⟩ := flip_spec c1 c2 i mask hi.1 hi.2
  rw [hfl] at hf
  have hr : r = (a2, b2) := (Option.some.inj hf).symm
  subst hr
  refine ⟨by omega, by simpa [la] using l1, by simpa [lb] using l2, ?_, ?_, ?_⟩
  · unfold flip at hfl
    simp only [hi, and_self, if_true, Option.some.injEq, Prod.mk.injEq] at hfl
    rw [← hfl.1]
    apply bytesOk_set _ _ _ o1
    exact Nat.or_lt_two_pow (n := 8)
      (lt_of_le_of_lt Nat.and_le_left (getD_lt_of_bytesOk o1 i))
      (lt_of_le_of_lt Nat.and_le_left (getD_lt_of_bytesOk o2 i))
  · unfold flip at hfl
    simp only [hi, and_self, if_true, Option.some.injEq, Prod.mk.injEq] at hfl
    rw [← hfl.2]
    apply bytesOk_set _ _ _ o2
    exact Nat.or_lt_two_pow (n := 8)
      (lt_of_le_of_lt Nat.and_le_left (getD_lt_of_bytesOk o2 i))
      (lt_of_le_of_lt Nat.and_le_left (getD_lt_of_bytesOk o1 i))
  · exact ⟨_, childrenMatch_flip hm hbits (fun _ => rfl)⟩
theorem copyRange_some {dst src : List Nat} {lo hi : Int} {d2 : List Nat}
    (h : copyRange dst src lo hi = some d2) :
    0 ≤ lo ∧ lo ≤ hi ∧ hi ≤ dst.length ∧ hi ≤ src.length := by
  unfold copyRange at h
  by_contra hc
  simp [hc] at h

theorem bytesOk_copyRange {dst src : List Nat} {lo hi : Int} {d2 : List Nat}
    (h : copyRange dst src lo hi = some d2) (hd : bytesOk dst) (hs : bytesOk src) :
    bytesOk d2 := by
  have hc := copyRange_some h
  unfold copyRange at h
  simp only [hc, and_self, if_true, Option.some.injEq] at h
  rw [← h]
  exact bytesOk_append (bytesOk_append (bytesOk_take _ hd) (bytesOk_take _ (bytesOk_drop _ hs)))
    (bytesOk_drop _ hd)

theorem copyTail_some {dst src : List Nat} {lo : Int} {d2 : List Nat}
    (h : copyTail dst src lo = some d2) : 0 ≤ lo ∧ lo ≤ dst.length ∧ lo ≤ src.length := by
  unfold copyTail at h
  by_contra hc
  simp [hc] at h

theorem bytesOk_copyTail {dst src : List Nat} {lo : Int} {d2 : List Nat}
    (h : copyTail dst src lo = some d2) (hd : bytesOk dst) (hs : bytesOk src) :
    bytesOk d2 := by
  have hc := copyTail_some h
  unfold copyTail at h
  simp only [hc, and_self, if_true, Option.some.injEq] at h
  rw [← h]
  exact bytesOk_append (bytesOk_take _ hd) (bytesOk_copyBytes (bytesOk_drop _ hd) (bytesOk_drop _ hs))

/-- Copying the same byte range of `dad` into the first child and of `mom` into the second
keeps the children made of the bits of the parents. -/
theorem exchanged_copyRange {mom dad c1 c2 a2 b2 : List Nat} {lo hi : Int}
    (hmo : bytesOk mom) (hdo : bytesOk dad)
    (h : Exchanged mom dad c1 c2) (h1 : copyRange c1 dad lo hi = some a2)
    (h2 : copyRange c2 mom lo hi = some b2) : Exchanged mom dad a2 b2 := by
  obtain ⟨l1, l2, o1, o2, sw, hm⟩ := h
  obtain ⟨p0, p1, p2, p3⟩ := copyRange_some h1
  obtain ⟨x1, e1, la, hb1⟩ := copyRange_spec c1 dad lo hi p0 p1 p2 p3
  obtain ⟨x2, e2, lb, hb2⟩ := copyRange_spec c2 mom lo hi p0 p1 (by omega) (by omega)
  rw [h1] at e1
  rw [h2] at e2
  have ea : a2 = x1 := Option.some.inj e1
  have eb : b2 = x2 := Option.some.inj e2
  subst ea
  subst eb
  exact ⟨by omega, by omega, bytesOk_copyRange h1 o1 hdo, bytesOk_copyRange h2 o2 hmo,
    _, childrenMatch_copy hm hb1 hb2 (fun _ => rfl)⟩

theorem exchanged_copyTail {mom dad c1 c2 a2 b2 : List Nat} {lo : Int}
    (hdl : dad.length = mom.length) (hmo : bytesOk mom) (hdo : bytesOk dad)
    (h : Exchanged mom dad c1 c2) (h1 : copyTail c1 dad lo = some a2)
    (h2 : copyTail c2 mom lo = some b2) : Exchanged mom dad a2 b2 := by
  obtain ⟨l1, l2, o1, o2, sw, hm⟩ := h
  obtain ⟨p0, p1, p2⟩ := copyTail_some h1
  obtain ⟨x1, e1, la, hb1⟩ := copyTail_spec c1 dad lo p0 (by omega) p1
  obtain ⟨x2, e2, lb, hb2⟩ := copyTail_spec c2 mom lo p0 (by omega) (by omega)
  rw [h1] at e1
  rw [h2] at e2
  have ea : a2 = x1 := Option.some.inj e1
  have eb : b2 = x2 := Option.some.inj e2
  subst ea
  subst eb
  exact ⟨by omega, by omega, bytesOk_copyTail h1 o1 hdo, bytesOk_copyTail h2 o2 hmo,
    _, childrenMatch_copy hm hb1 hb2 (fun _ => rfl)⟩

/-- One round of the loop of `Crossover` keeps the children made of the bits of the
parents, whatever the point is. -/
theorem exchanged_crossPoint {mom dad : List Nat} {st st2 : CrossState} {i xp : Nat}
    (hmo : bytesOk mom) (hdo : bytesOk dad)
    (h : Exchanged mom dad st.child1 st.child2)
    (hs : crossPoint mom dad st i xp = some st2) :
    Exchanged mom dad st2.child1 st2.child2 := by
  unfold crossPoint at hs
  simp only at hs
  split at hs
  · split at hs
    · obtain ⟨r, hr, rfl⟩ := Option.map_eq_some'.1 hs
      exact (exchanged_flip h hr).2
    · split at hs
      · exact absurd hs (by simp)
      · rename_i c1 hc1
        split at hs
        · exact absurd hs (by simp)
        · rename_i c2 hc2
          obtain ⟨r, hr, rfl⟩ := Option.map_eq_some'.1 hs
          exact (exchanged_flip (exchanged_copyRange hmo hdo h hc1 hc2) hr).2
  · obtain ⟨r, hr, rfl⟩ := Option.map_eq_some'.1 hs
    exact (exchanged_flip h hr).2

theorem exchanged_crossLoop {mom dad : List Nat} (hmo : bytesOk mom) (hdo : bytesOk dad) :
    ∀ (xps : List Nat) (i : Nat) (st st2 : CrossState),
      Exchanged mom dad st.child1 st.child2 → crossLoop mom dad xps i st = some st2 →
      Exchanged mom dad st2.child1 st2.child2 := by
  intro xps
  induction xps with
  | nil =>
    intro i st st2 h hs
    unfold crossLoop at hs
    rw [← Option.some.inj hs]
    exact h
  | cons xp rest ih =>
    intro i st st2 h hs
    unfold crossLoop at hs
    split at hs
    · exact absurd hs (by simp)
    · rename_i st1 h1
      exact ih (i + 1) st1 st2 (exchanged_crossPoint hmo hdo h h1) hs

/-- The children at the start of a crossover, copies of the parents. -/
theorem exchanged_init {mom dad child1 child2 : List Nat} (hdl : dad.length = mom.length)
    (h1 : child1.length = mom.length) (h2 : child2.length = mom.length)
    (hmo : bytesOk mom) (hdo : bytesOk dad) :
    Exchanged mom dad (copyBytes child1 mom) (copyBytes child2 dad) := by
  rw [copyBytes_of_length_eq _ _ h1, copyBytes_of_length_eq _ _ (by omega)]
  exact ⟨rfl, hdl, hmo, hdo, fun _ => false, fun b => by simp⟩

/-- Whenever `kPoints.Crossover` returns without error, whatever the state of the operator
and the points drawn, the children are made of the bits of the parents. -/
theorem exchanged_kPoints {s s2 : kPoints} {draw : Nat → Nat}
    {mom dad child1 child2 c1 c2 : List Nat} (hdl : dad.length = mom.length)
    (h1 : child1.length = mom.length) (h2 : child2.length = mom.length)
    (hmo : bytesOk mom) (hdo : bytesOk dad)
    (h : s.Crossover draw mom dad child1 child2 = .done s2 c1 c2) :
    Exchanged mom dad c1 c2 := by
  unfold kPoints.Crossover at h
  simp only at h
  split at h
  · exact absurd h (by simp)
  · split at h
    · exact absurd h (by simp)
    · rename_i s3 hs3
      split at h
      · exact absurd h (by simp)
      · rename_i st hst
        have hE := exchanged_crossLoop hmo hdo _ _ _ _
          (exchanged_init hdl h1 h2 hmo hdo) hst
        split at h
        · split at h
          · exact absurd h (by simp)
          · rename_i a2 ha2
            split at h
            · exact absurd h (by simp)
            · rename_i b2 hb2
              simp only [CrossResult.done.injEq] at h
              obtain ⟨_, rfl, rfl⟩ := h
              exact exchanged_copyTail hdl hmo hdo hE ha2 hb2
        · simp only [CrossResult.done.injEq] at h
          obtain ⟨_, rfl, rfl⟩ := h
          exact hE
theorem bitAt_byte (a : List Nat) (i j : Nat) (hj : j < 8) :
    bitAt a (8 * i + j) = (a.getD i 0).testBit j := by
  unfold bitAt
  have e1 : (8 * i + j) / 8 = i := by omega
  have e2 : (8 * i + j) % 8 = j := by omega
  rw [e1, e2]

theorem testBit_byte_high (x j : Nat) (hx : x < 256) (hj : 8 ≤ j) : x.testBit j = false :=
  testBit_eq_false_of_lt x 8 j hx hj

/-- From the bits to the bytes: children made of the bits of byte parents satisfy the
relations between the bytes. -/
theorem xorRelations_of_exchanged {mom dad c1 c2 : List Nat}
    (hmo : bytesOk mom) (hdo : bytesOk dad) (h : Exchanged mom dad c1 c2) :
    xorRelations mom dad c1 c2 := by
  obtain ⟨l1, l2, o1, o2, sw, hm⟩ := h
  refine ⟨l1, l2, ?_, ?_⟩
  · intro i _
    have hbits : ∀ j, j < 8 →
        (c1.getD i 0).testBit j = (if sw (8 * i + j) = true then (dad.getD i 0).testBit j
          else (mom.getD i 0).testBit j) ∧
        (c2.getD i 0).testBit j = (if sw (8 * i + j) = true then (mom.getD i 0).testBit j
          else (dad.getD i 0).testBit j) := by
      intro j hj
      have := hm (8 * i + j)
      rw [bitAt_byte _ _ _ hj, bitAt_byte _ _ _ hj, bitAt_byte _ _ _ hj,
        bitAt_byte _ _ _ hj] at this
      exact this
    have hc1 := getD_lt_of_bytesOk o1 i
    have hc2 := getD_lt_of_bytesOk o2 i
    have hmi := getD_lt_of_bytesOk hmo i
    have hdi := getD_lt_of_bytesOk hdo i
    refine ⟨?_, ?_, ?_⟩
    · apply Nat.eq_of_testBit_eq
      intro j
      simp only [Nat.testBit_xor]
      by_cases hj : j < 8
      · obtain ⟨e1, e2⟩ := hbits j hj
        rw [e1, e2]
        cases sw (8 * i + j) <;> cases (mom.getD i 0).testBit j <;>
          cases (dad.getD i 0).testBit j <;> rfl
      · rw [testBit_byte_high _ j hc1 (by omega), testBit_byte_high _ j hc2 (by omega),
          testBit_byte_high _ j hmi (by omega), testBit_byte_high _ j hdi (by omega)]
    · apply Nat.eq_of_testBit_eq
      intro j
      simp only [Nat.testBit_xor]
      by_cases hj : j < 8
      · obtain ⟨e1, e2⟩ := hbits j hj
        rw [e1, e2]
        cases sw (8 * i + j) <;> cases (mom.getD i 0).testBit j <;>
          cases (dad.getD i 0).testBit j <;> rfl
      · rw [testBit_byte_high _ j hc1 (by omega), testBit_byte_high _ j hc2 (by omega),
          testBit_byte_high _ j hmi (by omega), testBit_byte_high _ j hdi (by omega)]
    · intro hcomp
      have hx : ∀ j, j < 8 → xor ((mom.getD i 0).testBit j) ((dad.getD i 0).testBit j) = true := by
        intro j hj
        rw [← Nat.testBit_xor, hcomp]
        have h := Nat.testBit_two_pow_sub_one 8 j
        simp only [show (2 : Nat) ^ 8 - 1 = 255 by norm_num] at h
        rw [h]; simpa using hj
      refine ⟨?_, ?_⟩
      · apply Nat.eq_of_testBit_eq
        intro j
        simp only [Nat.testBit_and, Nat.zero_testBit]
        by_cases hj : j < 8
        · obtain ⟨e1, e2⟩ := hbits j hj
          have := hx j hj
          rw [e1, e2]
          revert this
          cases sw (8 * i + j) <;> cases (mom.getD i 0).testBit j <;>
            cases (dad.getD i 0).testBit j <;> simp
        · rw [testBit_byte_high _ j hc1 (by omega)]
          rfl
      · apply Nat.eq_of_testBit_eq
        intro j
        simp only [Nat.testBit_xor]
        by_cases hj : j < 8
        · obtain ⟨e1, e2⟩ := hbits j hj
          have := hx j hj
          have h255 : Nat.testBit 255 j = true := by
            have h := Nat.testBit_two_pow_sub_one 8 j
            simp only [show (2 : Nat) ^ 8 - 1 = 255 by norm_num] at h
            rw [h]; simpa using hj
          rw [e1, e2, h255]
          revert this
          cases sw (8 * i + j) <;> cases (mom.getD i 0).testBit j <;>
            cases (dad.getD i 0).testBit j <;> simp
        · rw [testBit_byte_high _ j hc1 (by omega), testBit_byte_high _ j hc2 (by omega),
            testBit_byte_high _ j (by norm_num) (by omega)]
          rfl
  · intro b hb
    obtain ⟨e1, e2⟩ := hm b
    rw [e1, e2]
    cases sw b <;> simp [hb]
/-- The points a new operator draws when `k` is the number of bits less one: the `k - 1`
candidate points and the zero the point slice was made with. -/
theorem randomXPoints_fresh_full (k : Int) (draw : Nat → Nat) (totBits : Int) (s : kPoints)
    (hs : KPoints k = some s) (hk2 : k = totBits - 1) :
    ∃ s2, s.randomXPoints draw totBits = some s2 ∧ s2.k = k ∧
      (s2.xps.length : Int) = k ∧ s2.xps.Sorted (· < ·) ∧
      ∀ x ∈ s2.xps, (x : Int) ≤ totBits - 2 := by
  unfold KPoints at hs
  by_cases hk : k ≤ 0
  · simp [hk] at hs
  · simp only [hk, if_false, Option.some.injEq] at hs
    subst hs
    have hR : ¬ totBits - 2 < 0 := by omega
    unfold kPoints.randomXPoints
    simp only [hR, if_false]
    refine ⟨_, rfl, rfl, ?_⟩
    simp only
    have hbuf : (if ((([] : List Nat).length : Nat) : Int) = totBits - 2 then ([] : List Nat)
        else (List.range (totBits - 2).toNat).map (fun i => 1 + i) ++
          (if ((([] : List Nat).length : Nat) : Int) < totBits - 2
            then List.replicate (totBits - 2).toNat 0 else []).drop (totBits - 2).toNat)
        = (List.range (totBits - 2).toNat).map (fun i => 1 + i) := by
      by_cases h0 : totBits - 2 = 0
      · simp [h0]
      · have hne : ¬ (((([] : List Nat).length : Nat) : Int) = totBits - 2) := by
          simp only [List.length_nil, Nat.cast_zero]; omega
        have hlt : ((([] : List Nat).length : Nat) : Int) < totBits - 2 := by
          simp only [List.length_nil, Nat.cast_zero]; omega
        simp only [hne, hlt, if_true, if_false]
        rw [List.drop_eq_nil_of_le (by simp), List.append_nil]
    rw [hbuf]
    have hperm := randShuffle_perm draw (totBits - 2).toNat
      ((List.range (totBits - 2).toNat).map (fun i => 1 + i)) (by simp)
    have hlen : (randShuffle draw (totBits - 2).toNat
        ((List.range (totBits - 2).toNat).map (fun i => 1 + i))).length
          = (totBits - 2).toNat := by
      rw [hperm.length_eq]; simp
    have hcopy : copyBytes (List.replicate k.toNat 0)
        (randShuffle draw (totBits - 2).toNat
          ((List.range (totBits - 2).toNat).map (fun i => 1 + i)))
        = randShuffle draw (totBits - 2).toNat
          ((List.range (totBits - 2).toNat).map (fun i => 1 + i)) ++ [0] := by
      unfold copyBytes
      rw [List.length_replicate, List.take_of_length_le (by rw [hlen]; omega), hlen,
        List.drop_replicate]
      have : k.toNat - (totBits - 2).toNat = 1 := by omega
      rw [this]
      rfl
    rw [hcopy]
    have hnodup : (List.map (fun i => 1 + i) (List.range (totBits - 2).toNat)).Nodup :=
      List.Nodup.map (fun a b hab => by simpa using hab) (List.nodup_range _)
    have hmem : ∀ x ∈ randShuffle draw (totBits - 2).toNat
        ((List.range (totBits - 2).toNat).map (fun i => 1 + i)),
        1 ≤ x ∧ (x : Int) ≤ totBits - 2 := by
      intro x hx
      obtain ⟨i, hi, rfl⟩ := List.mem_map.1 (hperm.mem_iff.1 hx)
      have := List.mem_range.1 hi
      omega
    have hnd2 : (randShuffle draw (totBits - 2).toNat
        ((List.range (totBits - 2).toNat).map (fun i => 1 + i)) ++ [0]).Nodup := by
      rw [List.nodup_append]
      refine ⟨hperm.nodup_iff.2 hnodup, List.nodup_singleton 0, ?_⟩
      intro x hx h0
      have := (hmem x hx).1
      have : x = 0 := List.mem_singleton.1 h0
      omega
    have hps := List.perm_insertionSort (· ≤ ·)
      (randShuffle draw (totBits - 2).toNat
        ((List.range (totBits - 2).toNat).map (fun i => 1 + i)) ++ [0])
    refine ⟨?_, ?_, ?_⟩
    · rw [hps.length_eq, List.length_append, hlen]
      simp only [List.length_singleton]
      omega
    · exact (List.sorted_insertionSort (· ≤ ·) _).lt_of_le (hps.nodup_iff.2 hnd2)
    · intro x hx
      rcases List.mem_append.1 (hps.mem_iff.1 hx) with h | h
      · exact (hmem x h).2
      · have : x = 0 := List.mem_singleton.1 h
        omega

/-- A new operator `KPoints(k)` with `k` below the number of bits of the parents returns
without error, for every outcome of the shuffle. -/
theorem fresh_Crossover_done (k : Int) (s : kPoints) (draw : Nat → Nat)
    (mom dad child1 child2 : List Nat) (hs : KPoints k = some s)
    (hd : dad.length = mom.length) (h1 : child1.length = mom.length)
    (h2 : child2.length = mom.length) (hk : k < (mom.length : Int) * 8) :
    ∃ s2 c1 c2, s.Crossover draw mom dad child1 child2 = .done s2 c1 c2 := by
  have hks : s.k = k ∧ (s.xps.length : Int) = k := by
    unfold KPoints at hs
    by_cases hk0 : k ≤ 0
    · simp [hk0] at hs
    · simp only [hk0, if_false, Option.some.injEq] at hs
      subst hs
      refine ⟨rfl, ?_⟩
      simp only [List.length_replicate]
      omega
  have hpts : ∃ s2, s.randomXPoints draw ((mom.length : Int) * 8) = some s2 ∧
      s2.xps.Sorted (· < ·) ∧ ∀ x ∈ s2.xps, x < 8 * mom.length := by
    by_cases hk2 : k ≤ (mom.length : Int) * 8 - 2
    · obtain ⟨s2, e, _, _, hsort, hb⟩ := randomXPoints_fresh k draw ((mom.length : Int) * 8) s hs hk2
      exact ⟨s2, e, hsort, fun x hx => by have := hb x hx; omega⟩
    · obtain ⟨s2, e, _, _, hsort, hb⟩ := randomXPoints_fresh_full k draw ((mom.length : Int) * 8) s hs (by omega)
      exact ⟨s2, e, hsort, fun x hx => by have := hb x hx; omega⟩
  obtain ⟨s2, e, hsort, hb⟩ := hpts
  obtain ⟨c1, c2, hc, _⟩ := kPoints_Crossover_spec s s2 draw mom dad child1 child2 hd h1 h2
    (by rw [hks.1]; exact hk) (by rw [hks.1]; exact hks.2) e hsort hb
  exact ⟨s2, c1, c2, hc⟩

/-! ## Parametric half-uniform crossover -/

theorem countBelow_succ (p : Nat → Bool) (n : Nat) :
    countBelow p (n + 1) = countBelow p n + (if p n = true then 1 else 0) := by
  unfold countBelow
  rw [List.range_succ, List.filter_append, List.length_append]
  by_cases h : p n = true <;> simp [h]

theorem countBelow_add (p : Nat → Bool) (a : Nat) : ∀ j,
    countBelow p (a + j) = countBelow p a + countBelow (fun b => p (a + b)) j := by
  intro j
  induction j with
  | zero => simp [countBelow]
  | succ j ih =>
    rw [← Nat.add_assoc, countBelow_succ, countBelow_succ, ih]
    omega

theorem testBit_bitMask (j b : Nat) (hj : j < 8) :
    ((1 <<< j) % 256).testBit b = decide (j = b) := by
  have h256 : (256 : Nat) = 2 ^ 8 := by norm_num
  rw [Nat.one_shiftLeft, h256, Nat.testBit_mod_two_pow, Nat.testBit_two_pow]
  by_cases hb : j = b
  · subst hb; simp [hj]
  · simp [hb]

theorem and_bitMask_ne_zero (x j : Nat) (hj : j < 8) :
    (x &&& (1 <<< j) % 256 ≠ 0) ↔ x.testBit j = true := by
  constructor
  · intro h
    by_contra hc
    apply h
    apply Nat.eq_of_testBit_eq
    intro b
    rw [Nat.testBit_and, testBit_bitMask j b hj, Nat.zero_testBit]
    by_cases hb : j = b
    · subst hb; simp [hc]
    · simp [hb]
  · intro h h0
    have := congrArg (fun v => Nat.testBit v j) h0
    simp only [Nat.testBit_and, testBit_bitMask j j hj, Nat.zero_testBit, h] at this
    simp at this
/-- One round of the loop over the bits of a byte: a draw is made when bit `j` of the mask
is set, and the bit stays in the mask when the draw is below the rate. -/
theorem uniformBit_spec {K : Type} [LinearOrder K] (rate : K) (draw : Nat → K)
    (st : Nat × Nat) (j : Nat) (hj : j < 8) :
    (uniformBit rate draw st j).2 = st.2 + (if st.1.testBit j = true then 1 else 0) ∧
    ∀ b, (uniformBit rate draw st j).1.testBit b
      = if b = j then (st.1.testBit j && decide (draw st.2 < rate)) else
          (st.1.testBit b && (decide (b < 8) || !st.1.testBit j || decide (draw st.2 < rate))) := by
  unfold uniformBit
  simp only
  by_cases hm : st.1.testBit j = true
  · have hne := (and_bitMask_ne_zero st.1 j hj).2 hm
    rw [if_pos hne]
    simp only [hm, if_true]
    by_cases hd : draw st.2 < rate
    · have hge : ¬ draw st.2 ≥ rate := not_le.2 hd
      simp only [hge, if_false, hd, decide_True, Bool.and_true, Bool.or_true, Bool.not_true]
      refine ⟨trivial, ?_⟩
      intro b
      by_cases hb : b = j
      · subst hb; simp [hm]
      · simp [hb]
    · have hge : draw st.2 ≥ rate := not_lt.1 hd
      simp only [hge, if_true, hd, decide_False, Bool.and_false, Bool.or_false, Bool.not_true]
      refine ⟨trivial, ?_⟩
      intro b
      rw [Nat.testBit_and]
      by_cases hb8 : b < 8
      · rw [testBit_not8 _ _ hb8, testBit_bitMask j b hj]
        by_cases hb : b = j
        · subst hb; simp
        · have hb2 : ¬ j = b := fun e => hb e.symm
          simp [hb, hb2, hb8]
      · have hb : ¬ b = j := by omega
        have hhi : (not8 ((1 <<< j) % 256)).testBit b = false := by
          apply testBit_eq_false_of_lt _ 8 b _ (by omega)
          unfold not8
          exact Nat.xor_lt_two_pow (n := 8) (by norm_num) (Nat.mod_lt _ (by norm_num))
        simp [hb, hb8, hhi]
  · have hm2 : st.1.testBit j = false := by simpa using hm
    have hne : ¬ (st.1 &&& (1 <<< j) % 256 ≠ 0) := fun h =>
      hm ((and_bitMask_ne_zero st.1 j hj).1 h)
    rw [if_neg hne]
    simp only [hm2, Bool.false_and, Bool.not_false, Bool.or_true, Bool.true_or,
      Bool.and_true, Bool.false_eq_true, if_false, Nat.add_zero]
    refine ⟨trivial, ?_⟩
    intro b
    by_cases hb : b = j
    · subst hb; simp [hm2]
    · simp [hb]

/-- The loop over the bits of a byte: one draw for each set bit of the mask, in ascending
order, and the bit stays in the mask when its draw is below the rate. -/
theorem uniformBits_spec {K : Type} [LinearOrder K] (rate : K) (draw : Nat → K)
    (mask0 n0 : Nat) (hmask : mask0 < 256) : ∀ j, j ≤ 8 →
    ((List.range j).foldl (uniformBit rate draw) (mask0, n0)).2
      = n0 + countBelow mask0.testBit j ∧
    ∀ b, ((List.range j).foldl (uniformBit rate draw) (mask0, n0)).1.testBit b
      = if b < j then
          (mask0.testBit b && decide (draw (n0 + countBelow mask0.testBit b) < rate))
        else mask0.testBit b := by
  intro j
  induction j with
  | zero => intro _; simp [countBelow]
  | succ j ih =>
    intro hj
    obtain ⟨ih1, ih2⟩ := ih (by omega)
    rw [List.range_succ, List.foldl_append]
    simp only [List.foldl_cons, List.foldl_nil]
    obtain ⟨s1, s2⟩ := uniformBit_spec rate draw
      ((List.range j).foldl (uniformBit rate draw) (mask0, n0)) j (by omega)
    have hjj : ((List.range j).foldl (uniformBit rate draw) (mask0, n0)).1.testBit j
        = mask0.testBit j := by
      rw [ih2 j]; simp
    refine ⟨?_, ?_⟩
    · rw [s1, ih1, countBelow_succ, hjj]
      omega
    · intro b
      rw [s2 b, hjj, ih1, ih2 b]
      by_cases hb : b = j
      · subst hb; simp
      · by_cases hlt : b < j
        · have hlt2 : b < j + 1 := by omega
          have hb8 : b < 8 := by omega
          simp [hb, hlt, hlt2, hb8]
        · have hlt2 : ¬ b < j + 1 := by omega
          simp only [hb, hlt, hlt2, if_false]
          by_cases hb8 : b < 8
          · simp [hb8]
          · have : mask0.testBit b = false :=
              testBit_eq_false_of_lt mask0 8 b hmask (by omega)
            simp [this]
theorem countBelow_congr (p q : Nat → Bool) (n : Nat) (h : ∀ x, x < n → p x = q x) :
    countBelow p n = countBelow q n := by
  unfold countBelow
  congr 1
  apply List.filter_congr
  intro x hx
  exact h x (List.mem_range.1 hx)

theorem eq_of_bitAt_eq {a b : List Nat} (hl : a.length = b.length) (ha : bytesOk a)
    (hb : bytesOk b) (h : ∀ t, bitAt a t = bitAt b t) : a = b := by
  apply List.ext_getElem hl
  intro i h1 h2
  have e1 : a.getD i 0 = a[i] := by
    rw [List.getD_eq_getElem?_getD, List.getElem?_eq_getElem h1]; rfl
  have e2 : b.getD i 0 = b[i] := by
    rw [List.getD_eq_getElem?_getD, List.getElem?_eq_getElem h2]; rfl
  rw [← e1, ← e2]
  apply Nat.eq_of_testBit_eq
  intro j
  by_cases hj : j < 8
  · rw [← bitAt_byte a i j hj, ← bitAt_byte b i j hj]
    exact h _
  · rw [testBit_byte_high _ j (getD_lt_of_bytesOk ha i) (by omega),
      testBit_byte_high _ j (getD_lt_of_bytesOk hb i) (by omega)]

/-- One round of the loop of `uniform.Crossover`. -/
theorem uniformByte_step {K : Type} [LinearOrder K] (rate : K) (draw : Nat → K)
    (mom dad : List Nat) (hmo : bytesOk mom)
    (hdo : bytesOk dad) (i : Nat) (st : UniformState) (hi : i < mom.length)
    (hinv : UniformInv rate draw mom dad i st) :
    ∃ st2, uniformByte rate draw st i = some st2 ∧ UniformInv rate draw mom dad (i + 1) st2 := by
  obtain ⟨l1, l2, o1, o2, hdr, hrest, hm⟩ := hinv
  obtain ⟨e1, e2⟩ := hrest i (le_refl i)
  have hmask : mom.getD i 0 ^^^ dad.getD i 0 < 256 :=
    Nat.xor_lt_two_pow (n := 8) (getD_lt_of_bytesOk hmo i) (getD_lt_of_bytesOk hdo i)
  obtain ⟨r2, rbits⟩ := uniformBits_spec rate draw (mom.getD i 0 ^^^ dad.getD i 0) st.draws
    hmask 8 (le_refl 8)
  have hi1 : i < st.child1.length := by omega
  have hi2 : i < st.child2.length := by omega
  obtain ⟨a2, b2, hfl, la, lb, hbits⟩ := flip_spec st.child1 st.child2 i
    ((List.range 8).foldl (uniformBit rate draw)
      (mom.getD i 0 ^^^ dad.getD i 0, st.draws)).1 hi1 hi2
  have hE : Exchanged mom dad st.child1 st.child2 := ⟨l1, l2, o1, o2, _, hm⟩
  obtain ⟨_, _, _, oa, ob, _⟩ := exchanged_flip hE hfl
  have hdiff : ∀ b, b < 8 → (mom.getD i 0 ^^^ dad.getD i 0).testBit b
      = (bitAt mom (8 * i + b) != bitAt dad (8 * i + b)) := by
    intro b hb
    rw [Nat.testBit_xor, bitAt_byte _ _ _ hb, bitAt_byte _ _ _ hb]
  have hcnt : ∀ b, b ≤ 8 →
      st.draws + countBelow (mom.getD i 0 ^^^ dad.getD i 0).testBit b
        = differBelow mom dad (8 * i + b) := by
    intro b hb
    rw [hdr]
    unfold differBelow
    rw [countBelow_add, countBelow_congr _ _ b (fun x hx => hdiff x (by omega))]
  refine ⟨{ child1 := a2, child2 := b2,
            draws := ((List.range 8).foldl (uniformBit rate draw)
              (mom.getD i 0 ^^^ dad.getD i 0, st.draws)).2 }, ?_, ?_⟩
  · unfold uniformByte
    simp only [hi1, hi2, and_self, if_true, e1, e2, hfl, Option.map_some']
  · refine ⟨by simpa [la] using l1, by simpa [lb] using l2, oa, ob, ?_, ?_, ?_⟩
    · show ((List.range 8).foldl (uniformBit rate draw)
        (mom.getD i 0 ^^^ dad.getD i 0, st.draws)).2 = differBelow mom dad (8 * (i + 1))
      rw [r2, hcnt 8 (le_refl 8)]
      rfl
    · intro m hm2
      have hflip := hfl
      unfold flip at hflip
      simp only [hi1, hi2, and_self, if_true, Option.some.injEq, Prod.mk.injEq] at hflip
      obtain ⟨ha, hb⟩ := hflip
      show a2.getD m 0 = mom.getD m 0 ∧ b2.getD m 0 = dad.getD m 0
      rw [← ha, ← hb, getD_set_eq _ _ _ _ hi1, getD_set_eq _ _ _ _ hi2]
      have hne : ¬ m = i := by omega
      simp only [hne, if_false]
      exact hrest m (by omega)
    · apply childrenMatch_flip hm hbits
      intro t
      have h8 : t % 8 < 8 := Nat.mod_lt _ (by norm_num)
      by_cases ht : t / 8 = i
      · have hti : 8 * i + t % 8 = t := by omega
        have d1 : decide (t / 8 < i) = false := by
          have : ¬ t / 8 < i := by omega
          simpa using this
        have d2 : decide (t / 8 < i + 1) = true := by
          have : t / 8 < i + 1 := by omega
          simpa using this
        have d3 : decide (t / 8 = i) = true := by simpa using ht
        show (decide (t / 8 < i + 1) && uniformSwap rate draw mom dad t)
          = xor (decide (t / 8 < i) && uniformSwap rate draw mom dad t)
              (decide (t / 8 = i) && ((List.range 8).foldl (uniformBit rate draw)
                (mom.getD i 0 ^^^ dad.getD i 0, st.draws)).1.testBit (t % 8))
        rw [d1, d2, d3, rbits (t % 8), if_pos h8, hdiff _ h8, hcnt _ (by omega), hti]
        simp only [Bool.true_and, Bool.false_and, Bool.false_xor]
        rfl
      · by_cases hlt : t / 8 < i
        · have hlt2 : t / 8 < i + 1 := by omega
          simp [ht, hlt, hlt2]
        · have hlt2 : ¬ t / 8 < i + 1 := by omega
          simp [ht, hlt, hlt2]

theorem uniformLoop_spec {K : Type} [LinearOrder K] (rate : K) (draw : Nat → K)
    (mom dad : List Nat) (hmo : bytesOk mom)
    (hdo : bytesOk dad) : ∀ (n i : Nat) (st : UniformState), i + n = mom.length →
    UniformInv rate draw mom dad i st →
    ∃ st2, uniformLoop rate draw (List.range' i n) st = some st2 ∧
      UniformInv rate draw mom dad mom.length st2 := by
  intro n
  induction n with
  | zero =>
    intro i st hin hinv
    have : i = mom.length := by omega
    subst this
    exact ⟨st, rfl, hinv⟩
  | succ n ih =>
    intro i st hin hinv
    obtain ⟨st1, h1, hinv1⟩ := uniformByte_step rate draw mom dad hmo hdo i st
      (by omega) hinv
    obtain ⟨st2, h2, hinv2⟩ := ih (i + 1) st1 (by omega) hinv1
    refine ⟨st2, ?_, hinv2⟩
    rw [List.range'_succ]
    unfold uniformLoop
    rw [h1]
    exact h2
theorem bitAt_beyond (a : List Nat) (t : Nat) (h : a.length ≤ t / 8) : bitAt a t = false := by
  unfold bitAt
  rw [List.getD_eq_getElem?_getD, List.getElem?_eq_none (by omega)]
  simp

/-- What `uniform.Crossover` does: it returns, it makes one draw for each bit position at
which the parents differ, in ascending order of the positions, and it exchanges the bit
between the children when the draw is below the rate. -/
theorem uniform_Crossover_spec {K : Type} [LinearOrder K] (rate : K) (draw : Nat → K)
    (mom dad child1 child2 : List Nat) (hdl : dad.length = mom.length)
    (h1 : child1.length = mom.length) (h2 : child2.length = mom.length)
    (hmo : bytesOk mom) (hdo : bytesOk dad) :
    ∃ c1 c2, (ParametricHalfUniform rate).Crossover draw mom dad child1 child2
        = some { child1 := c1, child2 := c2, draws := differBelow mom dad (8 * mom.length) } ∧
      c1.length = mom.length ∧ c2.length = mom.length ∧ bytesOk c1 ∧ bytesOk c2 ∧
      childrenMatch mom dad c1 c2 (uniformSwap rate draw mom dad) := by
  have hinit : UniformInv rate draw mom dad 0
      { child1 := copyBytes child1 mom, child2 := copyBytes child2 dad, draws := 0 } := by
    rw [copyBytes_of_length_eq _ _ h1, copyBytes_of_length_eq _ _ (by omega)]
    refine ⟨rfl, hdl, hmo, hdo, ?_, fun m _ => ⟨rfl, rfl⟩, ?_⟩
    · simp [differBelow, countBelow]
    · intro b
      simp
  obtain ⟨st2, hrun, l1, l2, o1, o2, hdr, _, hm⟩ :=
    uniformLoop_spec rate draw mom dad hmo hdo mom.length 0 _ (by omega) hinit
  refine ⟨st2.child1, st2.child2, ?_, l1, l2, o1, o2, ?_⟩
  · unfold uniform.Crossover ParametricHalfUniform
    rw [List.range_eq_range']
    simp only
    rw [hrun, ← hdr]
  · have hfun : (fun t => decide (t / 8 < mom.length) && uniformSwap rate draw mom dad t)
        = uniformSwap rate draw mom dad := by
      funext t
      by_cases ht : t / 8 < mom.length
      · simp [ht]
      · have e1 := bitAt_beyond mom t (by omega)
        have e2 := bitAt_beyond dad t (by omega)
        simp [ht, uniformSwap, e1, e2]
    rw [hfun] at hm
    exact hm
/-- C11: for `kPoints.Crossover` and `ParametricHalfUniform(rate).Crossover` on byte parents
and children of one length, for every outcome of the random draws: the children satisfy
`c1 ^ c2 == mom ^ dad` and `c1 ^ mom == c2 ^ dad` byte by byte, a bit on which the parents
agree is unchanged in both children, and complementary parents give complementary children
(`c1 & c2 == 0`).  For `kPoints` this holds whenever the call returns without error, in
every state of the operator, and a new operator `KPoints(k)` with `k` below the number of
bits always returns without error; the uniform crossover always returns. -/
theorem crossover_xor_relations (K : Type) [LinearOrder K] (mom dad child1 child2 : List Nat)
    (hdl : dad.length = mom.length) (h1 : child1.length = mom.length)
    (h2 : child2.length = mom.length) (hmo : bytesOk mom) (hdo : bytesOk dad) :
    (∀ (s s2 : kPoints) (draw : Nat → Nat) (c1 c2 : List Nat),
      s.Crossover draw mom dad child1 child2 = .done s2 c1 c2 →
      xorRelations mom dad c1 c2) ∧
    (∀ (k : Int) (s : kPoints) (draw : Nat → Nat), KPoints k = some s →
      k < (mom.length : Int) * 8 →
      ∃ s2 c1 c2, s.Crossover draw mom dad child1 child2 = .done s2 c1 c2 ∧
        xorRelations mom dad c1 c2) ∧
    (∀ (rate : K) (draw : Nat → K),
      ∃ st, (ParametricHalfUniform rate).Crossover draw mom dad child1 child2 = some st ∧
        xorRelations mom dad st.child1 st.child2) := by
  have hgen : ∀ (s s2 : kPoints) (draw : Nat → Nat) (c1 c2 : List Nat),
      s.Crossover draw mom dad child1 child2 = .done s2 c1 c2 →
      xorRelations mom dad c1 c2 := fun s s2 draw c1 c2 h =>
    xorRelations_of_exchanged hmo hdo (exchanged_kPoints hdl h1 h2 hmo hdo h)
  refine ⟨hgen, ?_, ?_⟩
  · intro k s draw hs hk
    obtain ⟨s2, c1, c2, h⟩ := fresh_Crossover_done k s draw mom dad child1 child2 hs hdl h1 h2 hk
    exact ⟨s2, c1, c2, h, hgen s s2 draw c1 c2 h⟩
  · intro rate draw
    obtain ⟨c1, c2, h, l1, l2, o1, o2, hm⟩ :=
      uniform_Crossover_spec rate draw mom dad child1 child2 hdl h1 h2 hmo hdo
    exact ⟨_, h, xorRelations_of_exchanged hmo hdo ⟨l1, l2, o1, o2, _, hm⟩⟩

theorem crossover_xor_relations_witness :
    (∀ (s s2 : kPoints) (draw : Nat → Nat) (c1 c2 : List Nat),
      s.Crossover draw [0xaa, 0xaa, 0xaa, 0xaa] [0x55, 0x55, 0x55, 0x55] [0, 0, 0, 0]
        [0, 0, 0, 0] = .done s2 c1 c2 →
      xorRelations [0xaa, 0xaa, 0xaa, 0xaa] [0x55, 0x55, 0x55, 0x55] c1 c2) ∧
    (∀ (k : Int) (s : kPoints) (draw : Nat → Nat), KPoints k = some s →
      k < (([0xaa, 0xaa, 0xaa, 0xaa] : List Nat).length : Int) * 8 →
      ∃ s2 c1 c2, s.Crossover draw [0xaa, 0xaa, 0xaa, 0xaa] [0x55, 0x55, 0x55, 0x55]
          [0, 0, 0, 0] [0, 0, 0, 0] = .done s2 c1 c2 ∧
        xorRelations [0xaa, 0xaa, 0xaa, 0xaa] [0x55, 0x55, 0x55, 0x55] c1 c2) ∧
    (∀ (rate : ℚ) (draw : Nat → ℚ),
      ∃ st, (ParametricHalfUniform rate).Crossover draw [0xaa, 0xaa, 0xaa, 0xaa]
          [0x55, 0x55, 0x55, 0x55] [0, 0, 0, 0] [0, 0, 0, 0] = some st ∧
        xorRelations [0xaa, 0xaa, 0xaa, 0xaa] [0x55, 0x55, 0x55, 0x55] st.child1 st.child2) :=
  crossover_xor_relations ℚ [0xaa, 0xaa, 0xaa, 0xaa] [0x55, 0x55, 0x55, 0x55] [0, 0, 0, 0]
    [0, 0, 0, 0] (by decide) (by decide) (by decide) (by decide) (by decide)

/-- C12: `ParametricHalfUniform(rate).Crossover` on byte parents and children of one length
returns; it makes one draw for each bit position at which `mom` and `dad` differ, in the
order of the positions (bytes in order, low bit first), and none for the others; the bit
is exchanged between the two children exactly when its draw is below the rate.  Hence with
draws in `[0, 1)` a rate `≤ 0` gives `c1 = mom`, `c2 = dad` and a rate `≥ 1` gives
`c1 = dad`, `c2 = mom`. -/
theorem uniform_draws_and_exchanges (K : Type) [LinearOrderedField K] (rate : K)
    (draw : Nat → K) (mom dad child1 child2 : List Nat) (hdl : dad.length = mom.length)
    (h1 : child1.length = mom.length) (h2 : child2.length = mom.length)
    (hmo : bytesOk mom) (hdo : bytesOk dad) :
    ∃ c1 c2, (ParametricHalfUniform rate).Crossover draw mom dad child1 child2
        = some { child1 := c1, child2 := c2, draws := differBelow mom dad (8 * mom.length) } ∧
      (∀ t, bitAt c1 t = (if ((bitAt mom t != bitAt dad t) &&
              decide (draw (differBelow mom dad t) < rate)) = true
            then bitAt dad t else bitAt mom t) ∧
          bitAt c2 t = (if ((bitAt mom t != bitAt dad t) &&
              decide (draw (differBelow mom dad t) < rate)) = true
            then bitAt mom t else bitAt dad t)) ∧
      (rate ≤ 0 → (∀ n, 0 ≤ draw n) → c1 = mom ∧ c2 = dad) ∧
      (1 ≤ rate → (∀ n, draw n < 1) → c1 = dad ∧ c2 = mom) := by
  obtain ⟨c1, c2, h, l1, l2, o1, o2, hm⟩ :=
    uniform_Crossover_spec rate draw mom dad child1 child2 hdl h1 h2 hmo hdo
  refine ⟨c1, c2, h, hm, ?_, ?_⟩
  · intro hr hd
    have hno : ∀ t, uniformSwap rate draw mom dad t = false := by
      intro t
      unfold uniformSwap
      have : ¬ draw (differBelow mom dad t) < rate := not_lt.2 (le_trans hr (hd _))
      simp [this]
    refine ⟨eq_of_bitAt_eq l1 o1 hmo ?_, eq_of_bitAt_eq (by omega) o2 hdo ?_⟩
    · intro t
      rw [(hm t).1, hno t]
      simp
    · intro t
      rw [(hm t).2, hno t]
      simp
  · intro hr hd
    have hall : ∀ t, uniformSwap rate draw mom dad t = (bitAt mom t != bitAt dad t) := by
      intro t
      unfold uniformSwap
      have : draw (differBelow mom dad t) < rate := lt_of_lt_of_le (hd _) hr
      simp [this]
    refine ⟨eq_of_bitAt_eq (by omega) o1 hdo ?_, eq_of_bitAt_eq l2 o2 hmo ?_⟩
    · intro t
      rw [(hm t).1, hall t]
      cases bitAt mom t <;> cases bitAt dad t <;> rfl
    · intro t
      rw [(hm t).2, hall t]
      cases bitAt mom t <;> cases bitAt dad t <;> rfl

theorem uniform_draws_and_exchanges_witness :
    ∃ c1 c2, (ParametricHalfUniform (1 / 2 : ℚ)).Crossover testUniformDraw
        [0xa0, 0xaa] [0x55, 0x5a] [0, 0] [0, 0]
        = some { child1 := c1, child2 := c2,
                 draws := differBelow [0xa0, 0xaa] [0x55, 0x5a] (8 * [0xa0, 0xaa].length) } ∧
      (∀ t, bitAt c1 t = (if ((bitAt [0xa0, 0xaa] t != bitAt [0x55, 0x5a] t) &&
              decide (testUniformDraw (differBelow [0xa0, 0xaa] [0x55, 0x5a] t) < 1 / 2)) = true
            then bitAt [0x55, 0x5a] t else bitAt [0xa0, 0xaa] t) ∧
          bitAt c2 t = (if ((bitAt [0xa0, 0xaa] t != bitAt [0x55, 0x5a] t) &&
              decide (testUniformDraw (differBelow [0xa0, 0xaa] [0x55, 0x5a] t) < 1 / 2)) = true
            then bitAt [0xa0, 0xaa] t else bitAt [0x55, 0x5a] t)) ∧
      ((1 / 2 : ℚ) ≤ 0 → (∀ n, 0 ≤ testUniformDraw n) →
        c1 = [0xa0, 0xaa] ∧ c2 = [0x55, 0x5a]) ∧
      (1 ≤ (1 / 2 : ℚ) → (∀ n, testUniformDraw n < 1) →
        c1 = [0x55, 0x5a] ∧ c2 = [0xa0, 0xaa]) :=
  uniform_draws_and_exchanges ℚ (1 / 2) testUniformDraw [0xa0, 0xaa] [0x55, 0x5a]
    [0, 0] [0, 0] (by decide) (by decide) (by decide) (by decide) (by decide)

/-- C13: `kPoints.Crossover` returns an error exactly when `k ≥ 8 * len(mom)`, whatever the
state of the operator and the draws; in that case the operator and both children are left
as they were.  Below that bound a new operator `KPoints(k)` returns without error. -/
theorem kpoints_error_iff (s : kPoints) (draw : Nat → Nat) (mom dad child1 child2 : List Nat) :
    ((∃ op c1 c2, s.Crossover draw mom dad child1 child2 = .failed op c1 c2)
      ↔ s.k ≥ (mom.length : Int) * 8) ∧
    (s.k ≥ (mom.length : Int) * 8 →
      s.Crossover draw mom dad child1 child2 = .failed s child1 child2) ∧
    (∀ k, KPoints k = some s → dad.length = mom.length → child1.length = mom.length →
      child2.length = mom.length → k < (mom.length : Int) * 8 →
      ∃ s2 c1 c2, s.Crossover draw mom dad child1 child2 = .done s2 c1 c2) := by
  have hfail : s.k ≥ (mom.length : Int) * 8 →
      s.Crossover draw mom dad child1 child2 = .failed s child1 child2 := by
    intro hk
    unfold kPoints.Crossover
    simp only [hk, if_true]
  refine ⟨⟨?_, fun hk => ⟨s, child1, child2, hfail hk⟩⟩, hfail, ?_⟩
  · intro hex
    obtain ⟨op, c1, c2, h⟩ := hex
    by_contra hk
    unfold kPoints.Crossover at h
    simp only [hk, if_false] at h
    split at h
    · exact absurd h (by simp)
    · split at h
      · exact absurd h (by simp)
      · split at h
        · split at h
          · exact absurd h (by simp)
          · split at h
            · exact absurd h (by simp)
            · exact absurd h (by simp)
        · exact absurd h (by simp)
  · intro k hs hd h1 h2 hk
    exact fresh_Crossover_done k s draw mom dad child1 child2 hs hd h1 h2 hk

/-! ## Bit-string mutation -/

/-- The loop over the bits of a byte in `Mutate`: 8 draws, and bit `b` of the mask is set
when draw `b` of the 8 is below `p`. -/
theorem mutateBits_spec {K : Type} [LinearOrder K] (p : K) (draw : Nat → K) (n0 : Nat) :
    ∀ j, j ≤ 8 →
    ((List.range j).foldl (mutateBit p draw) (0, n0)).2 = n0 + j ∧
    ∀ b, ((List.range j).foldl (mutateBit p draw) (0, n0)).1.testBit b
      = (decide (b < j) && decide (draw (n0 + b) < p)) := by
  intro j
  induction j with
  | zero => intro _; simp
  | succ j ih =>
    intro hj
    obtain ⟨ih1, ih2⟩ := ih (by omega)
    rw [List.range_succ, List.foldl_append]
    simp only [List.foldl_cons, List.foldl_nil]
    generalize (List.range j).foldl (mutateBit p draw) (0, n0) = S at ih1 ih2 ⊢
    unfold mutateBit
    rw [ih1]
    by_cases hd : draw (n0 + j) < p
    · simp only [hd, if_true]
      refine ⟨by omega, ?_⟩
      intro b
      rw [Nat.testBit_or, ih2 b, testBit_bitMask j b (by omega)]
      by_cases hb : j = b
      · subst hb; simp [hd]
      · have h1 : (b < j + 1) ↔ (b < j) := by omega
        simp [hb, h1]
    · simp only [hd, if_false]
      refine ⟨by omega, ?_⟩
      intro b
      rw [ih2 b]
      by_cases hb : j = b
      · subst hb; simp [hd]
      · have h1 : (b < j + 1) ↔ (b < j) := by omega
        simp [h1]

/-- The loop of `Mutate` over the bytes: 8 draws for each byte, and byte `i` is combined by
exclusive or with the mask of the draws `8 * i .. 8 * i + 7` that are below `p`. -/
theorem mutateLoop_spec {K : Type} [LinearOrder K] (p : K) (draw : Nat → K) :
    ∀ (genome : List Nat) (n : Nat),
      (mutateLoop p draw genome n).2 = n + 8 * genome.length ∧
      (mutateLoop p draw genome n).1.length = genome.length ∧
      ∀ i, i < genome.length → ∀ b,
        ((mutateLoop p draw genome n).1.getD i 0).testBit b
          = xor ((genome.getD i 0).testBit b)
              (decide (b < 8) && decide (draw (n + 8 * i + b) < p)) := by
  intro genome
  induction genome with
  | nil => intro n; simp [mutateLoop]
  | cons x rest ih =>
    intro n
    obtain ⟨m1, m2⟩ := mutateBits_spec p draw n 8 (le_refl 8)
    obtain ⟨r1, r2, r3⟩ := ih ((List.range 8).foldl (mutateBit p draw) (0, n)).2
    unfold mutateLoop
    simp only
    refine ⟨?_, ?_, ?_⟩
    · rw [r1, m1, List.length_cons]; omega
    · rw [List.length_cons, List.length_cons, r2]
    · intro i hi b
      cases i with
      | zero =>
        simp only [List.getD_cons_zero]
        have hx : (if ((List.range 8).foldl (mutateBit p draw) (0, n)).1 = 0 then x
            else x ^^^ ((List.range 8).foldl (mutateBit p draw) (0, n)).1)
            = x ^^^ ((List.range 8).foldl (mutateBit p draw) (0, n)).1 := by
          split
          · rename_i h0; rw [h0]; simp
          · rfl
        rw [hx, Nat.testBit_xor, m2 b]
        simp
      | succ i =>
        simp only [List.getD_cons_succ]
        rw [r3 i (by simpa using hi) b, m1]
        have : n + 8 + 8 * i + b = n + 8 * (i + 1) + b := by omega
        rw [this]
/-- C14: `BitString(n).Mutate` on a genome of `L` bytes makes exactly `8 * L` draws and
flips bit `t = 8 * i + j` (bit `j` of byte `i`) exactly when draw number `t` is below
`p = n / (8 * L)`; the length of the genome is unchanged and bytes stay bytes.  Hence, with
draws in `[0, 1)`: `n = 0` leaves the genome unchanged, `n ≥ 8 * L` flips every bit, and
the number of flipped bits is the number of draws below `p`. -/
theorem bitstring_mutate_spec (K : Type) [LinearOrderedField K] (n : Int) (draw : Nat → K)
    (genome : List Nat) :
    ((BitString K n).Mutate draw genome).2 = 8 * genome.length ∧
    ((BitString K n).Mutate draw genome).1.length = genome.length ∧
    (BitString K n).p genome.length = (n : K) / (8 * (genome.length : K)) ∧
    (∀ t, t < 8 * genome.length →
      bitAt ((BitString K n).Mutate draw genome).1 t
        = xor (bitAt genome t) (decide (draw t < (BitString K n).p genome.length))) ∧
    (bytesOk genome → bytesOk ((BitString K n).Mutate draw genome).1) ∧
    (n = 0 → (∀ k, 0 ≤ draw k) → ((BitString K n).Mutate draw genome).1 = genome) ∧
    (n ≥ 8 * (genome.length : Int) → (∀ k, draw k < 1) → ∀ t, t < 8 * genome.length →
      bitAt ((BitString K n).Mutate draw genome).1 t = !bitAt genome t) ∧
    countBelow (fun t => bitAt ((BitString K n).Mutate draw genome).1 t != bitAt genome t)
        (8 * genome.length)
      = countBelow (fun t => decide (draw t < (BitString K n).p genome.length))
          (8 * genome.length) := by
  obtain ⟨s1, s2, s3⟩ := mutateLoop_spec ((BitString K n).p genome.length) draw genome 0
  have hM : (BitString K n).Mutate draw genome
      = mutateLoop ((BitString K n).p genome.length) draw genome 0 := rfl
  rw [hM]
  have hbit : ∀ t, t < 8 * genome.length →
      bitAt (mutateLoop ((BitString K n).p genome.length) draw genome 0).1 t
        = xor (bitAt genome t) (decide (draw t < (BitString K n).p genome.length)) := by
    intro t ht
    have h8 : t % 8 < 8 := Nat.mod_lt _ (by norm_num)
    unfold bitAt
    rw [s3 (t / 8) (by omega) (t % 8)]
    have e : 0 + 8 * (t / 8) + t % 8 = t := by omega
    rw [e]
    simp [h8]
  have hp : (BitString K n).p genome.length = (n : K) / (8 * (genome.length : K)) := by
    unfold bitString.p BitString
    push_cast
    ring
  refine ⟨by omega, s2, hp, hbit, ?_, ?_, ?_, ?_⟩
  · intro hok x hx
    obtain ⟨i, hi, rfl⟩ := List.getElem_of_mem hx
    have hi2 : i < genome.length := by omega
    have e : (mutateLoop ((BitString K n).p genome.length) draw genome 0).1[i]
        = (mutateLoop ((BitString K n).p genome.length) draw genome 0).1.getD i 0 := by
      rw [List.getD_eq_getElem?_getD, List.getElem?_eq_getElem hi]; rfl
    rw [e]
    apply Nat.lt_pow_two_of_testBit _ (n := 8)
    intro b hb
    rw [s3 i hi2 b, testBit_byte_high _ b (getD_lt_of_bytesOk hok i) hb]
    have : ¬ b < 8 := by omega
    simp [this]
  · intro hn hd
    have hp0 : (BitString K n).p genome.length = 0 := by
      rw [hp, hn]; simp
    apply List.ext_getElem s2
    intro i h1 h2
    have e1 : (mutateLoop ((BitString K n).p genome.length) draw genome 0).1[i]
        = (mutateLoop ((BitString K n).p genome.length) draw genome 0).1.getD i 0 := by
      rw [List.getD_eq_getElem?_getD, List.getElem?_eq_getElem h1]; rfl
    have e2 : genome[i] = genome.getD i 0 := by
      rw [List.getD_eq_getElem?_getD, List.getElem?_eq_getElem h2]; rfl
    rw [e1, e2]
    apply Nat.eq_of_testBit_eq
    intro b
    rw [s3 i h2 b, hp0]
    have hnd : ∀ k, ¬ draw k < 0 := fun k => not_lt.2 (hd k)
    simp [hnd]
  · intro hn hd t ht
    rw [hbit t ht]
    have hL : (0 : K) < 8 * (genome.length : K) := by
      have : 0 < genome.length := by omega
      have : (0 : K) < (genome.length : K) := by exact_mod_cast this
      linarith
    have hp1 : 1 ≤ (BitString K n).p genome.length := by
      rw [hp, one_le_div hL]
      have : ((8 * (genome.length : Int) : Int) : K) ≤ (n : K) := by exact_mod_cast hn
      push_cast at this
      exact this
    have : draw t < (BitString K n).p genome.length := lt_of_lt_of_le (hd t) hp1
    simp [this]
  · apply countBelow_congr
    intro t ht
    rw [hbit t ht]
    cases bitAt genome t <;> simp

/-! ## Populations: `SetFitness` -/

theorem indexAt_eq {α : Type} (xs : List α) (i : Int) (h0 : 0 ≤ i) (h1 : i < xs.length) :
    ∃ x, indexAt xs i = some x ∧ xs[i.toNat]? = some x := by
  have hi : i.toNat < xs.length := by omega
  refine ⟨xs[i.toNat], ?_, List.getElem?_eq_getElem hi⟩
  unfold indexAt
  have : ¬ i < 0 := by omega
  simp only [this, if_false]
  exact List.getElem?_eq_getElem hi

theorem sum_set {K : Type} [LinearOrderedField K] : ∀ (l : List K) (i : Nat) (x f : K),
    l[i]? = some x → (l.set i f).sum = l.sum + (f - x) := by
  intro l
  induction l with
  | nil => intro i x f h; simp at h
  | cons y ys ih =>
    intro i x f h
    cases i with
    | zero =>
      simp only [List.getElem?_cons_zero, Option.some.injEq] at h
      subst h
      simp only [List.set_cons_zero, List.sum_cons]
      ring
    | succ i =>
      simp only [List.getElem?_cons_succ] at h
      simp only [List.set_cons_succ, List.sum_cons, ih i x f h]
      ring

/-- What `SetFitness(i, f)` does for a valid index `i`, when `worst` and `fittest` are
negative or valid indices. -/
theorem SetFitness_spec {K : Type} [LinearOrderedField K] (g : Genomes K) (i : Int) (f : K)
    (h0 : 0 ≤ i) (h1 : i < g.fitness.length) (hw : g.worst < g.fitness.length)
    (hf : g.fittest < g.fitness.length) :
    ∃ g2 old, g.SetFitness i f = some g2 ∧ g.fitness[i.toNat]? = some old ∧
      g2.fitness = g.fitness.set i.toNat f ∧
      g2.totalFitness = g.totalFitness + (f - old) ∧
      g2.size = g.size ∧ g2.chromosomeLen = g.chromosomeLen ∧ g2.genotype = g.genotype ∧
      g2.isSorted = g.isSorted ∧
      (g.worst < 0 → g2.worst = i) ∧
      (0 ≤ g.worst → ∃ w, (g.fitness.set i.toNat f)[g.worst.toNat]? = some w ∧
        g2.worst = if f < w then i else g.worst) ∧
      (g.fittest < 0 → g2.fittest = i) ∧
      (0 ≤ g.fittest → ∃ w, (g.fitness.set i.toNat f)[g.fittest.toNat]? = some w ∧
        g2.fittest = if f > w then i else g.fittest) := by
  obtain ⟨old, ho, ho2⟩ := indexAt_eq g.fitness i h0 h1
  unfold Genomes.SetFitness
  simp only [ho, Option.bind_eq_bind, Option.some_bind, Option.pure_def]
  by_cases hwn : g.worst < 0
  · by_cases hfn : g.fittest < 0
    · simp only [hwn, hfn, if_true, Option.some_bind]
      refine ⟨_, old, rfl, ho2, rfl, rfl, rfl, rfl, rfl, rfl, fun _ => rfl,
        fun h => absurd hwn (by omega), fun _ => rfl, fun h => absurd hfn (by omega)⟩
    · obtain ⟨wf, hwf, hwf2⟩ := indexAt_eq (g.fitness.set i.toNat f) g.fittest (by omega)
        (by simpa using hf)
      simp only [hwn, hfn, if_true, if_false, Option.some_bind, hwf, Option.map_some']
      refine ⟨_, old, rfl, ho2, rfl, rfl, rfl, rfl, rfl, rfl, fun _ => rfl,
        fun h => absurd hwn (by omega), fun h => h.elim, fun _ => ⟨wf, hwf2, rfl⟩⟩
  · obtain ⟨ww, hww, hww2⟩ := indexAt_eq (g.fitness.set i.toNat f) g.worst (by omega)
      (by simpa using hw)
    by_cases hfn : g.fittest < 0
    · simp only [hwn, hfn, if_true, if_false, Option.some_bind, hww, Option.map_some']
      refine ⟨_, old, rfl, ho2, rfl, rfl, rfl, rfl, rfl, rfl, fun h => h.elim,
        fun _ => ⟨ww, hww2, rfl⟩, fun _ => rfl, fun h => absurd hfn (by omega)⟩
    · obtain ⟨wf, hwf, hwf2⟩ := indexAt_eq (g.fitness.set i.toNat f) g.fittest (by omega)
        (by simpa using hf)
      simp only [hwn, hfn, if_false, Option.some_bind, hww, hwf, Option.map_some']
      refine ⟨_, old, rfl, ho2, rfl, rfl, rfl, rfl, rfl, rfl, fun h => h.elim,
        fun _ => ⟨ww, hww2, rfl⟩, fun h => h.elim, fun _ => ⟨wf, hwf2, rfl⟩⟩
theorem randomizeIndividuals_fields {K : Type} (schema : Schema) (rnd : Nat → Nat) :
    ∀ (is : List Nat) (g : Genomes K) (n : Nat) (r : Genomes K × Nat),
      randomizeIndividuals schema rnd is g n = some r →
      r.1.size = g.size ∧ r.1.chromosomeLen = g.chromosomeLen ∧ r.1.fitness = g.fitness ∧
      r.1.totalFitness = g.totalFitness ∧ r.1.isSorted = g.isSorted ∧
      r.1.fittest = g.fittest ∧ r.1.worst = g.worst := by
  intro is
  induction is with
  | nil =>
    intro g n r h
    unfold randomizeIndividuals at h
    rw [← Option.some.inj h]
    exact ⟨rfl, rfl, rfl, rfl, rfl, rfl, rfl⟩
  | cons i rest ih =>
    intro g n r h
    unfold randomizeIndividuals at h
    split at h
    · exact absurd h (by simp)
    · split at h
      · exact absurd h (by simp)
      · have hh := ih _ _ _ h
        exact hh

/-- The fitness bookkeeping of a population `New` returns: all fitness values and the total
are zero, and `fittest` and `worst` are the index 0. -/
theorem New_fields {K : Type} [LinearOrderedField K] (schema : Schema) (size : Int)
    (rnd : Nat → Nat) (p : Population K) (h : New K schema size rnd = some p) :
    0 ≤ size ∧ p.size = size ∧ p.chromosomeLen = schema.Size ∧
    p.fitness = List.replicate size.toNat 0 ∧ p.totalFitness = 0 ∧ p.isSorted = false ∧
    p.fittest = 0 ∧ p.worst = 0 ∧ p.schema = schema := by
  unfold New at h
  split at h
  · exact absurd h (by simp)
  · rename_i hs
    obtain ⟨r, hr, rfl⟩ := Option.map_eq_some'.1 h
    obtain ⟨a, b, c, d, e, f, g⟩ := randomizeIndividuals_fields schema rnd _ _ _ _ hr
    exact ⟨by omega, a, b, c, d, e, f, g, rfl⟩

/-- A sequence of `SetFitness` calls with valid indices keeps the total equal to the sum
of the fitness values. -/
theorem setFitnessAll_sum {K : Type} [LinearOrderedField K] :
    ∀ (calls : List (Int × K)) (g : Genomes K),
      (∀ c ∈ calls, 0 ≤ c.1 ∧ c.1 < g.fitness.length) →
      g.worst < g.fitness.length → g.fittest < g.fitness.length →
      ∃ g2, setFitnessAll calls g = some g2 ∧ g2.fitness.length = g.fitness.length ∧
        g2.size = g.size ∧
        g2.totalFitness - g2.fitness.sum = g.totalFitness - g.fitness.sum := by
  intro calls
  induction calls with
  | nil => intro g _ _ _; exact ⟨g, rfl, rfl, rfl, rfl⟩
  | cons c rest ih =>
    intro g hv hw hf
    obtain ⟨h0, h1⟩ := hv c (List.mem_cons_self _ _)
    obtain ⟨g1, old, hs, ho, hfit, htot, hsz, _, _, _, w1, w2, f1, f2⟩ :=
      SetFitness_spec g c.1 c.2 h0 h1 hw hf
    have hlen : g1.fitness.length = g.fitness.length := by rw [hfit]; simp
    have hw1 : g1.worst < g1.fitness.length := by
      rw [hlen]
      by_cases hn : g.worst < 0
      · rw [w1 hn]; exact h1
      · obtain ⟨w, _, e⟩ := w2 (by omega)
        rw [e]; split <;> assumption
    have hf1 : g1.fittest < g1.fitness.length := by
      rw [hlen]
      by_cases hn : g.fittest < 0
      · rw [f1 hn]; exact h1
      · obtain ⟨w, _, e⟩ := f2 (by omega)
        rw [e]; split <;> assumption
    obtain ⟨g2, hrun, l2, s2, t2⟩ := ih g1
      (fun x hx => by rw [hlen]; exact hv x (List.mem_cons_of_mem _ hx)) hw1 hf1
    refine ⟨g2, ?_, by omega, by rw [s2, hsz], ?_⟩
    · unfold setFitnessAll
      rw [hs]
      exact hrun
    · rw [t2, htot, hfit, sum_set _ _ _ _ ho]
      ring

/-- C18: starting from a population `New` returns, after any finite sequence of calls
`SetFitness(i, f)` with valid indices (indices may repeat), every call returns and
`totalFitness` equals the sum of the fitness vector (arithmetic taken exactly). -/
theorem total_is_sum_after_SetFitness (K : Type) [LinearOrderedField K] (schema : Schema)
    (size : Int) (rnd : Nat → Nat) (p : Population K) (h : New K schema size rnd = some p)
    (calls : List (Int × K)) (hv : ∀ c ∈ calls, 0 ≤ c.1 ∧ c.1 < size) :
    ∃ g, setFitnessAll calls p.toGenomes = some g ∧ g.totalFitness = g.fitness.sum ∧
      (g.fitness.length : Int) = size := by
  obtain ⟨hs, _, _, hfit, htot, _, hft, hwt, _⟩ := New_fields schema size rnd p h
  have hlen : (p.fitness.length : Int) = size := by rw [hfit]; simp; omega
  cases calls with
  | nil =>
    refine ⟨p.toGenomes, rfl, ?_, hlen⟩
    rw [htot, hfit]
    simp
  | cons c rest =>
    have hpos := hv c (List.mem_cons_self _ _)
    obtain ⟨g, hrun, l, _, t⟩ := setFitnessAll_sum (c :: rest) p.toGenomes
      (fun x hx => by rw [hlen]; exact hv x hx) (by rw [hwt]; omega) (by rw [hft]; omega)
    refine ⟨g, hrun, ?_, by omega⟩
    have : p.totalFitness - p.fitness.sum = 0 := by rw [htot, hfit]; simp
    rw [this] at t
    linarith

theorem total_is_sum_after_SetFitness_witness :
    ∃ p, testPopulation = some p ∧
      ∃ g, setFitnessAll [(0, 5), (1, 3), (1, 10), (2, -4)] p.toGenomes = some g ∧
        g.totalFitness = g.fitness.sum ∧ (g.fitness.length : Int) = 3 := by
  obtain ⟨p, hp⟩ := Option.isSome_iff_exists.1 (show testPopulation.isSome = true by decide)
  exact ⟨p, hp, total_is_sum_after_SetFitness ℚ _ 3 _ p hp [(0, 5), (1, 3), (1, 10), (2, -4)]
    (by decide)⟩
/-! ## Populations: `fittest` and `worst` -/

theorem indexAt_set {K : Type} (xs : List K) (i j : Int) (f : K) (hi0 : 0 ≤ i)
    (hi : i < xs.length) (hj0 : 0 ≤ j) :
    indexAt (xs.set i.toNat f) j = if j = i then some f else indexAt xs j := by
  unfold indexAt
  have hn : ¬ j < 0 := by omega
  simp only [hn, if_false]
  by_cases hji : j = i
  · subst hji
    simp only [if_true]
    rw [List.getElem?_set_self (by omega)]
  · simp only [hji, if_false]
    rw [List.getElem?_set_ne (by omega)]

/-- One more `SetFitness` at an index that has not been set keeps `worst` and `fittest`
right on the indices set. -/
theorem SetFitness_extremes {K : Type} [LinearOrderedField K] (g : Genomes K) (S : List Int)
    (i : Int) (f : K) (h0 : 0 ≤ i) (h1 : i < g.fitness.length)
    (hS : ∀ j ∈ S, 0 ≤ j ∧ j < g.fitness.length) (hi : i ∉ S) (hE : g.extremesOn S) :
    ∃ g2, g.SetFitness i f = some g2 ∧ g2.fitness.length = g.fitness.length ∧
      g2.extremesOn (S ++ [i]) := by
  obtain ⟨fw, fm, hw, hf, hwS, hfS, hall⟩ := hE
  obtain ⟨w0, w1⟩ := hS _ hwS
  obtain ⟨f0, f1⟩ := hS _ hfS
  obtain ⟨g2, old, hs, _, hfit, _, _, _, _, _, _, wsp, _, fsp⟩ :=
    SetFitness_spec g i f h0 h1 w1 f1
  have hwi : g.worst ≠ i := fun e => hi (e ▸ hwS)
  have hfi : g.fittest ≠ i := fun e => hi (e ▸ hfS)
  have hfw : indexAt g.fitness g.worst = some fw := by
    unfold Genomes.Worst at hw
    obtain ⟨x, hx, hxe⟩ := Option.map_eq_some'.1 hw
    rw [hx, (Prod.mk.inj hxe).2]
  have hfm : indexAt g.fitness g.fittest = some fm := by
    unfold Genomes.Fittest at hf
    obtain ⟨x, hx, hxe⟩ := Option.map_eq_some'.1 hf
    rw [hx, (Prod.mk.inj hxe).2]
  have hiw : ∀ j, 0 ≤ j → indexAt g2.fitness j = if j = i then some f else indexAt g.fitness j :=
    fun j hj => by rw [hfit]; exact indexAt_set g.fitness i j f h0 h1 hj
  have toIdx : ∀ (xs : List K) (j : Int), 0 ≤ j → xs[j.toNat]? = indexAt xs j := by
    intro xs j hj
    unfold indexAt
    have : ¬ j < 0 := by omega
    simp only [this, if_false]
  obtain ⟨w, hwv, hwe⟩ := wsp w0
  obtain ⟨m, hmv, hme⟩ := fsp f0
  rw [toIdx _ _ w0, indexAt_set g.fitness i _ f h0 h1 w0, if_neg hwi, hfw] at hwv
  rw [toIdx _ _ f0, indexAt_set g.fitness i _ f h0 h1 f0, if_neg hfi, hfm] at hmv
  have hwv2 : w = fw := (Option.some.inj hwv).symm
  have hmv2 : m = fm := (Option.some.inj hmv).symm
  subst hwv2
  subst hmv2
  have hlen : g2.fitness.length = g.fitness.length := by rw [hfit]; simp
  refine ⟨g2, hs, hlen, ?_⟩
  -- the new values of `Worst` and `Fittest`
  have hW : ∃ nw, g2.Worst = some (g2.worst, nw) ∧ nw = min f w ∧
      (g2.worst = i ∨ g2.worst = g.worst) := by
    unfold Genomes.Worst
    by_cases hlt : f < w
    · rw [hwe, if_pos hlt, hiw i h0, if_pos rfl]
      exact ⟨f, rfl, (min_eq_left (le_of_lt hlt)).symm, Or.inl rfl⟩
    · rw [hwe, if_neg hlt, hiw _ w0, if_neg hwi, hfw]
      exact ⟨w, rfl, (min_eq_right (not_lt.1 hlt)).symm, Or.inr rfl⟩
  have hF : ∃ nm, g2.Fittest = some (g2.fittest, nm) ∧ nm = max f m ∧
      (g2.fittest = i ∨ g2.fittest = g.fittest) := by
    unfold Genomes.Fittest
    by_cases hlt : f > m
    · rw [hme, if_pos hlt, hiw i h0, if_pos rfl]
      exact ⟨f, rfl, (max_eq_left (le_of_lt hlt)).symm, Or.inl rfl⟩
    · rw [hme, if_neg hlt, hiw _ f0, if_neg hfi, hfm]
      exact ⟨m, rfl, (max_eq_right (not_lt.1 hlt)).symm, Or.inr rfl⟩
  obtain ⟨nw, hnw, enw, cw⟩ := hW
  obtain ⟨nm, hnm, enm, cm⟩ := hF
  refine ⟨nw, nm, hnw, hnm, ?_, ?_, ?_⟩
  · rcases cw with e | e
    · rw [e]; simp
    · rw [e]; exact List.mem_append_left _ hwS
  · rcases cm with e | e
    · rw [e]; simp
    · rw [e]; exact List.mem_append_left _ hfS
  · intro j hj
    rcases List.mem_append.1 hj with hjS | hji
    · obtain ⟨fj, hfj, a, b⟩ := hall j hjS
      have hne : j ≠ i := fun e => hi (e ▸ hjS)
      refine ⟨fj, ?_, ?_, ?_⟩
      · unfold Genomes.Fitness at hfj ⊢
        rw [hiw j (hS j hjS).1, if_neg hne]
        exact hfj
      · rw [enw]; exact le_trans (min_le_right _ _) a
      · rw [enm]; exact le_trans b (le_max_right _ _)
    · have hji2 : j = i := List.mem_singleton.1 hji
      subst hji2
      refine ⟨f, ?_, ?_, ?_⟩
      · unfold Genomes.Fitness
        rw [hiw j h0, if_pos rfl]
      · rw [enw]; exact min_le_left _ _
      · rw [enm]; exact le_max_left _ _
/-- The first `SetFitness` after `Reset` makes its index both `worst` and `fittest`. -/
theorem SetFitness_first_reset {K : Type} [LinearOrderedField K] (g : Genomes K) (i : Int)
    (f : K) (h0 : 0 ≤ i) (h1 : i < g.fitness.length) (hw : g.worst < 0) (hf : g.fittest < 0) :
    ∃ g2, g.SetFitness i f = some g2 ∧ g2.fitness.length = g.fitness.length ∧
      g2.extremesOn [i] := by
  obtain ⟨g2, old, hs, _, hfit, _, _, _, _, _, wsp, _, fsp, _⟩ :=
    SetFitness_spec g i f h0 h1 (by omega) (by omega)
  have hlen : g2.fitness.length = g.fitness.length := by rw [hfit]; simp
  have hv : indexAt g2.fitness i = some f := by
    rw [hfit, indexAt_set g.fitness i i f h0 h1 h0, if_pos rfl]
  refine ⟨g2, hs, hlen, f, f, ?_, ?_, ?_, ?_, ?_⟩
  · unfold Genomes.Worst; rw [wsp hw, hv]; rfl
  · unfold Genomes.Fittest; rw [fsp hf, hv]; rfl
  · rw [wsp hw]; simp
  · rw [fsp hf]; simp
  · intro j hj
    have : j = i := List.mem_singleton.1 hj
    subst this
    exact ⟨f, hv, le_refl _, le_refl _⟩

/-- A first `SetFitness` at index 0 of a new population, whose `worst` and `fittest` are 0,
leaves them at 0. -/
theorem SetFitness_first_new {K : Type} [LinearOrderedField K] (g : Genomes K) (f : K)
    (h1 : 0 < g.fitness.length) (hw : g.worst = 0) (hf : g.fittest = 0) :
    ∃ g2, g.SetFitness 0 f = some g2 ∧ g2.fitness.length = g.fitness.length ∧
      g2.extremesOn [0] := by
  obtain ⟨g2, old, hs, _, hfit, _, _, _, _, _, _, wsp, _, fsp⟩ :=
    SetFitness_spec g 0 f (le_refl 0) (by omega) (by omega) (by omega)
  have hlen : g2.fitness.length = g.fitness.length := by rw [hfit]; simp
  have hv : indexAt g2.fitness 0 = some f := by
    rw [hfit, indexAt_set g.fitness 0 0 f (le_refl 0) (by omega) (le_refl 0), if_pos rfl]
  have hv0 : (g.fitness.set (0 : Int).toNat f)[(0 : Int).toNat]? = some f := by
    rw [List.getElem?_set_self (by simpa using h1)]
  obtain ⟨w, hwv, hwe⟩ := wsp (by omega)
  obtain ⟨m, hmv, hme⟩ := fsp (by omega)
  rw [hw, hv0] at hwv
  rw [hf, hv0] at hmv
  have e1 : w = f := (Option.some.inj hwv).symm
  have e2 : m = f := (Option.some.inj hmv).symm
  rw [e1] at hwe
  rw [e2] at hme
  have hw2 : g2.worst = 0 := by rw [hwe, hw]; simp
  have hf2 : g2.fittest = 0 := by rw [hme, hf]; simp
  refine ⟨g2, hs, hlen, f, f, ?_, ?_, ?_, ?_, ?_⟩
  · unfold Genomes.Worst; rw [hw2, hv]; rfl
  · unfold Genomes.Fittest; rw [hf2, hv]; rfl
  · rw [hw2]; simp
  · rw [hf2]; simp
  · intro j hj
    have : j = 0 := List.mem_singleton.1 hj
    subst this
    exact ⟨f, hv, le_refl _, le_refl _⟩

/-- Further `SetFitness` calls at pairwise distinct indices that have not been set keep
`worst` and `fittest` right on the indices set. -/
theorem setFitnessAll_extremes {K : Type} [LinearOrderedField K] :
    ∀ (calls : List (Int × K)) (g : Genomes K) (S : List Int),
      (∀ c ∈ calls, 0 ≤ c.1 ∧ c.1 < g.fitness.length ∧ c.1 ∉ S) →
      (calls.map Prod.fst).Nodup → (∀ j ∈ S, 0 ≤ j ∧ j < g.fitness.length) →
      g.extremesOn S →
      ∃ g2, setFitnessAll calls g = some g2 ∧ g2.fitness.length = g.fitness.length ∧
        g2.extremesOn (S ++ calls.map Prod.fst) := by
  intro calls
  induction calls with
  | nil =>
    intro g S _ _ _ hE
    refine ⟨g, rfl, rfl, ?_⟩
    simpa using hE
  | cons c rest ih =>
    intro g S hv hnd hS hE
    obtain ⟨h0, h1, hnot⟩ := hv c (List.mem_cons_self _ _)
    obtain ⟨g1, hs, hlen, hE1⟩ := SetFitness_extremes g S c.1 c.2 h0 h1 hS hnot hE
    rw [List.map_cons, List.nodup_cons] at hnd
    obtain ⟨g2, hrun, hlen2, hE2⟩ := ih g1 (S ++ [c.1])
      (fun x hx => by
        obtain ⟨a, b, d⟩ := hv x (List.mem_cons_of_mem _ hx)
        refine ⟨a, by rw [hlen]; exact b, ?_⟩
        intro hmem
        rcases List.mem_append.1 hmem with h | h
        · exact d h
        · have : x.1 = c.1 := List.mem_singleton.1 h
          exact hnd.1 (this ▸ List.mem_map_of_mem Prod.fst hx))
      hnd.2
      (fun j hj => by
        rw [hlen]
        rcases List.mem_append.1 hj with h | h
        · exact hS j h
        · have : j = c.1 := List.mem_singleton.1 h
          rw [this]; exact ⟨h0, h1⟩)
      hE1
    refine ⟨g2, ?_, by omega, ?_⟩
    · unfold setFitnessAll
      rw [hs]
      exact hrun
    · simpa using hE2

/-- When every index has been set, what is right on the indices set is right on the whole
fitness vector. -/
theorem extremesOk_of_extremesOn {K : Type} [LinearOrderedField K] (g : Genomes K)
    (S : List Int) (hE : g.extremesOn S)
    (hall : ∀ j : Nat, j < g.fitness.length → (j : Int) ∈ S) : g.extremesOk := by
  obtain ⟨fw, fm, hw, hf, _, _, hb⟩ := hE
  refine ⟨fw, fm, hw, hf, ?_⟩
  intro x hx
  obtain ⟨j, hj, rfl⟩ := List.getElem_of_mem hx
  obtain ⟨fj, hfj, a, b⟩ := hb _ (hall j hj)
  unfold Genomes.Fitness indexAt at hfj
  have hn : ¬ (j : Int) < 0 := by omega
  simp only [hn, if_false, Int.toNat_ofNat, List.getElem?_eq_getElem hj,
    Option.some.injEq] at hfj
  rw [hfj]
  exact ⟨a, b⟩
/-- C19 (amended): after a non-empty sequence of calls `SetFitness(i, f)` with valid and
pairwise distinct indices, made on a population `New` returns with index 0 set first (as
the evaluation loop does), or made after `Reset`, the methods `Fittest` and `Worst` return
the maximum and the minimum of the fitness values set by the calls; once every index has
been set these are the maximum and the minimum of the fitness vector. -/
theorem extremes_after_distinct_SetFitness (K : Type) [LinearOrderedField K] (c : Int × K)
    (rest : List (Int × K)) (hnd : ((c :: rest).map Prod.fst).Nodup) :
    (∀ (schema : Schema) (size : Int) (rnd : Nat → Nat) (p : Population K),
      New K schema size rnd = some p → c.1 = 0 →
      (∀ x ∈ c :: rest, 0 ≤ x.1 ∧ x.1 < size) →
      ∃ g, setFitnessAll (c :: rest) p.toGenomes = some g ∧
        g.extremesOn ((c :: rest).map Prod.fst) ∧
        ((∀ j : Nat, (j : Int) < size → (j : Int) ∈ (c :: rest).map Prod.fst) →
          g.extremesOk)) ∧
    (∀ p : Population K, (∀ x ∈ c :: rest, 0 ≤ x.1 ∧ x.1 < p.fitness.length) →
      ∃ g, setFitnessAll (c :: rest) p.Reset.toGenomes = some g ∧
        g.extremesOn ((c :: rest).map Prod.fst) ∧
        ((∀ j : Nat, j < p.fitness.length → (j : Int) ∈ (c :: rest).map Prod.fst) →
          g.extremesOk)) := by
  rw [List.map_cons, List.nodup_cons] at hnd
  have hrest : ∀ (g1 : Genomes K), g1.extremesOn [c.1] → 0 ≤ c.1 → c.1 < g1.fitness.length →
      (∀ x ∈ rest, 0 ≤ x.1 ∧ x.1 < g1.fitness.length) →
      ∃ g, setFitnessAll rest g1 = some g ∧ g.fitness.length = g1.fitness.length ∧
        g.extremesOn (c.1 :: rest.map Prod.fst) := by
    intro g1 hE h0 h1 hv
    obtain ⟨g, hrun, hl, hE2⟩ := setFitnessAll_extremes rest g1 [c.1]
      (fun x hx => ⟨(hv x hx).1, (hv x hx).2, fun hm =>
        hnd.1 ((List.mem_singleton.1 hm) ▸ List.mem_map_of_mem Prod.fst hx)⟩)
      hnd.2 (fun j hj => by rw [List.mem_singleton.1 hj]; exact ⟨h0, h1⟩) hE
    exact ⟨g, hrun, hl, by simpa using hE2⟩
  refine ⟨?_, ?_⟩
  · intro schema size rnd p hp hc hv
    obtain ⟨hs, _, _, hfit, _, _, hft, hwt, _⟩ := New_fields schema size rnd p hp
    have hlen : (p.fitness.length : Int) = size := by rw [hfit]; simp; omega
    have hpos := hv c (List.mem_cons_self _ _)
    obtain ⟨g1, hs1, hl1, hE1⟩ := SetFitness_first_new p.toGenomes c.2 (by omega) hwt hft
    rw [← hc] at hs1 hE1
    obtain ⟨g, hrun, hl, hE⟩ := hrest g1 hE1 hpos.1 (by rw [hl1, hlen]; exact hpos.2)
      (fun x hx => by rw [hl1, hlen]; exact hv x (List.mem_cons_of_mem _ hx))
    refine ⟨g, ?_, hE, ?_⟩
    · unfold setFitnessAll
      rw [hs1]
      exact hrun
    · intro hall
      exact extremesOk_of_extremesOn g _ hE (fun j hj => hall j (by omega))
  · intro p hv
    have hpos := hv c (List.mem_cons_self _ _)
    obtain ⟨g1, hs1, hl1, hE1⟩ := SetFitness_first_reset p.Reset.toGenomes c.1 c.2 hpos.1
      hpos.2 (by show (-1 : Int) < 0; omega) (by show (-1 : Int) < 0; omega)
    have hl0 : p.Reset.fitness.length = p.fitness.length := rfl
    obtain ⟨g, hrun, hl, hE⟩ := hrest g1 hE1 hpos.1 (by rw [hl1, hl0]; exact hpos.2)
      (fun x hx => by rw [hl1, hl0]; exact hv x (List.mem_cons_of_mem _ hx))
    refine ⟨g, ?_, hE, ?_⟩
    · unfold setFitnessAll
      rw [hs1]
      exact hrun
    · intro hall
      exact extremesOk_of_extremesOn g _ hE (fun j hj => hall j (by omega))

theorem extremes_after_distinct_SetFitness_witness :
    ∃ p, testPopulation = some p ∧
      ∃ g, setFitnessAll [(0, 5), (2, 3), (1, 10)] p.toGenomes = some g ∧
        g.extremesOn [0, 2, 1] ∧ g.extremesOk := by
  obtain ⟨p, hp⟩ := Option.isSome_iff_exists.1 (show testPopulation.isSome = true by decide)
  obtain ⟨g, h1, h2, h3⟩ := (extremes_after_distinct_SetFitness ℚ (0, 5) [(2, 3), (1, 10)]
    (by decide)).1 _ 3 _ p hp rfl (by decide)
  refine ⟨p, hp, g, h1, h2, h3 ?_⟩
  intro j hj
  have : j = 0 ∨ j = 1 ∨ j = 2 := by omega
  rcases this with h | h | h <;> subst h <;> decide

/-- C19: the claim as stated fails.  On a new population of 3 individuals the calls
`SetFitness(0, 5)`, `SetFitness(1, 3)`, `SetFitness(2, 4)`, `SetFitness(1, 10)` leave the
fitness vector `[5, 10, 4]` with `worst = 1`: `Worst` returns the fitness 10, not the
minimum 4. -/
theorem extremes_after_SetFitness_counterexample :
    ∃ p g, testPopulation = some p ∧
      setFitnessAll [(0, 5), (1, 3), (2, 4), (1, 10)] p.toGenomes = some g ∧
      g.fitness = [5, 10, 4] ∧ g.Worst = some (1, 10) ∧ ¬ g.extremesOk := by
  obtain ⟨p, hp⟩ := Option.isSome_iff_exists.1 (show testPopulation.isSome = true by decide)
  obtain ⟨_, _, _, hfit, htot, _, hft, hwt, _⟩ := New_fields _ _ _ p hp
  have hfit3 : p.fitness = [0, 0, 0] := by rw [hfit]; rfl
  obtain ⟨g, hrun, _, _⟩ := setFitnessAll_sum [((0 : Int), (5 : ℚ)), (1, 3), (2, 4), (1, 10)]
    p.toGenomes (by rw [hfit3]; decide) (by rw [hwt, hfit3]; decide)
    (by rw [hft, hfit3]; decide)
  have hrun2 := hrun
  simp [setFitnessAll, Genomes.SetFitness, indexAt, hfit3, hft, hwt, htot] at hrun2
  norm_num at hrun2
  subst hrun2
  refine ⟨p, _, hp, hrun, rfl, ?_, ?_⟩
  · simp [Genomes.Worst, indexAt]
  · rintro ⟨fw, fm, hw, _, hall⟩
    simp [Genomes.Worst, indexAt] at hw
    have := (hall 4 (by simp)).1
    rw [← hw] at this
    norm_num at this

/-! ## Populations: `MakeFitnessPositive` -/

/-- The loop of `MakeFitnessPositive` over the indices `i, ..., i + n - 1` inside the
fitness vector subtracts `w` at these indices and leaves the others. -/
theorem subtractLoop_spec {K : Type} [LinearOrderedField K] (w : K) :
    ∀ (n i : Nat) (fit : List K), i + n ≤ fit.length →
      ∃ r, subtractLoop w (List.range' i n) fit = some r ∧ r.length = fit.length ∧
        ∀ j, r[j]? = if i ≤ j ∧ j < i + n then (fit[j]?).map (fun x => x - w) else fit[j]? := by
  intro n
  induction n with
  | zero =>
    intro i fit _
    refine ⟨fit, rfl, rfl, ?_⟩
    intro j
    have : ¬ (i ≤ j ∧ j < i + 0) := by omega
    simp only [this, if_false]
  | succ n ih =>
    intro i fit h
    have hi : i < fit.length := by omega
    obtain ⟨r, hr, hl, hj⟩ := ih (i + 1) (fit.set i (fit[i] - w)) (by simp; omega)
    refine ⟨r, ?_, by simpa using hl, ?_⟩
    · rw [List.range'_succ]
      unfold subtractLoop subtractAt
      simp only [List.getElem?_eq_getElem hi, Option.map_some']
      exact hr
    · intro j
      rw [hj j, List.getElem?_set]
      by_cases hji : i = j
      · subst hji
        have h1 : ¬ (i + 1 ≤ i ∧ i < i + 1 + n) := by omega
        have h2 : i ≤ i ∧ i < i + (n + 1) := by omega
        simp only [h1, h2, if_false, if_true, and_self, hi, List.getElem?_eq_getElem hi,
          Option.map_some']
      · have h1 : (i + 1 ≤ j ∧ j < i + 1 + n) ↔ (i ≤ j ∧ j < i + (n + 1)) := by omega
        simp only [hji, if_false, h1]

theorem subtractLoop_all {K : Type} [LinearOrderedField K] (w : K) (fit : List K) :
    subtractLoop w (List.range fit.length) fit = some (fit.map fun x => x - w) := by
  obtain ⟨r, hr, hl, hj⟩ := subtractLoop_spec w fit.length 0 fit (by omega)
  rw [List.range_eq_range', hr]
  congr 1
  apply List.ext_getElem? 
  intro j
  rw [hj j, List.getElem?_map]
  by_cases h : j < fit.length
  · have : 0 ≤ j ∧ j < 0 + fit.length := by omega
    simp only [this, and_self, if_true]
  · have : ¬ (0 ≤ j ∧ j < 0 + fit.length) := by omega
    simp only [this, if_false]
    rw [List.getElem?_eq_none (by omega)]
    rfl

theorem sum_map_sub {K : Type} [LinearOrderedField K] (w : K) : ∀ fit : List K,
    (fit.map fun x => x - w).sum = fit.sum - w * (fit.length : K) := by
  intro fit
  induction fit with
  | nil => simp
  | cons x xs ih =>
    simp only [List.map_cons, List.sum_cons, ih, List.length_cons]
    push_cast
    ring

/-- C17: `MakeFitnessPositive` on a population of `size` fitness values where `worst`
indexes a minimum `w` of the fitness vector and `totalFitness` is the sum of the vector:
when `w` is negative every fitness `f` becomes `f - w`, all are then `≥ 0`, the worst is
exactly 0, and `totalFitness` becomes `total - w * size`, still the sum of the vector;
when `w ≥ 0` nothing changes (arithmetic taken exactly). -/
theorem make_fitness_positive_spec (K : Type) [LinearOrderedField K] (g : Genomes K) (w : K)
    (hsize : g.size = g.fitness.length) (hw : g.Worst = some (g.worst, w))
    (hmin : ∀ x ∈ g.fitness, w ≤ x) (htot : g.totalFitness = g.fitness.sum) :
    (w < 0 → ∃ g2, g.MakeFitnessPositive = some g2 ∧
      g2.fitness = g.fitness.map (fun f => f - w) ∧
      g2.totalFitness = g.totalFitness - w * (g.size : K) ∧
      (∀ x ∈ g2.fitness, 0 ≤ x) ∧ g2.Worst = some (g.worst, 0) ∧
      g2.totalFitness = g2.fitness.sum ∧
      g2.size = g.size ∧ g2.chromosomeLen = g.chromosomeLen ∧ g2.genotype = g.genotype ∧
      g2.isSorted = g.isSorted ∧ g2.fittest = g.fittest ∧ g2.worst = g.worst) ∧
    (0 ≤ w → g.MakeFitnessPositive = some g) := by
  have hidx : indexAt g.fitness g.worst = some w := by
    unfold Genomes.Worst at hw
    obtain ⟨x, hx, hxe⟩ := Option.map_eq_some'.1 hw
    rw [hx, (Prod.mk.inj hxe).2]
  refine ⟨?_, ?_⟩
  · intro hneg
    have hge : ¬ w ≥ 0 := not_le.2 hneg
    have hn : g.size.toNat = g.fitness.length := by omega
    refine ⟨{ g with fitness := g.fitness.map (fun f => f - w),
                     totalFitness := g.totalFitness - w * (g.size : K) }, ?_, rfl, rfl, ?_, ?_,
      ?_, rfl, rfl, rfl, rfl, rfl, rfl⟩
    · unfold Genomes.MakeFitnessPositive
      simp only [hidx, hge, if_false, hn, subtractLoop_all]
    · intro x hx
      obtain ⟨y, hy, rfl⟩ := List.mem_map.1 hx
      have := hmin y hy
      linarith
    · unfold Genomes.Worst
      have hm : indexAt (g.fitness.map fun f => f - w) g.worst = some (w - w) := by
        unfold indexAt at hidx ⊢
        split at hidx
        · exact absurd hidx (by simp)
        · rename_i h0
          simp only [h0, if_false, List.getElem?_map, hidx, Option.map_some']
      simp only [hm, Option.map_some', sub_self]
    · show g.totalFitness - w * (g.size : K) = (g.fitness.map fun f => f - w).sum
      rw [sum_map_sub, htot, hsize]
      simp
  · intro hpos
    unfold Genomes.MakeFitnessPositive
    simp only [hidx, ge_iff_le, hpos, if_true]

theorem make_fitness_positive_spec_witness :
    ((-3 : ℚ) < 0 → ∃ g2, negativeGenomes.MakeFitnessPositive = some g2 ∧
      g2.fitness = negativeGenomes.fitness.map (fun f => f - (-3)) ∧
      g2.totalFitness = negativeGenomes.totalFitness - (-3) * (negativeGenomes.size : ℚ) ∧
      (∀ x ∈ g2.fitness, 0 ≤ x) ∧ g2.Worst = some (negativeGenomes.worst, 0) ∧
      g2.totalFitness = g2.fitness.sum ∧
      g2.size = negativeGenomes.size ∧ g2.chromosomeLen = negativeGenomes.chromosomeLen ∧
      g2.genotype = negativeGenomes.genotype ∧ g2.isSorted = negativeGenomes.isSorted ∧
      g2.fittest = negativeGenomes.fittest ∧ g2.worst = negativeGenomes.worst) ∧
    (0 ≤ (-3 : ℚ) → negativeGenomes.MakeFitnessPositive = some negativeGenomes) :=
  make_fitness_positive_spec ℚ negativeGenomes (-3) (by rfl)
    (by simp [Genomes.Worst, indexAt, negativeGenomes])
    (by norm_num [negativeGenomes])
    (by norm_num [negativeGenomes])

/-! ## Roulette-wheel selection -/

/-- The scan of the roulette wheel from index `k` on, when the value drawn `s0` does not
exceed the sum of the fitness values and no prefix sum up to `k` reaches it: the scan
stops at the first index whose prefix sum reaches `s0`. -/
theorem rouletteScan_spec {K : Type} [LinearOrderedField K] (p : Genomes K) (s0 : K)
    (hs : s0 ≤ p.fitness.sum) :
    ∀ (n k : Nat), k + n = p.fitness.length → 0 < n →
      (∀ j, j < k → (p.fitness.take (j + 1)).sum < s0) →
      ∃ idx, idx < p.fitness.length ∧
        rouletteScan p (List.range' k n) (s0 - (p.fitness.take k).sum) = .found idx ∧
        s0 ≤ (p.fitness.take (idx + 1)).sum ∧
        ∀ j, j < idx → (p.fitness.take (j + 1)).sum < s0 := by
  intro n
  induction n with
  | zero => intro k _ h; omega
  | succ n ih =>
    intro k hk _ hbelow
    have hkl : k < p.fitness.length := by omega
    have hfit : p.Fitness (k : Int) = some p.fitness[k] := by
      unfold Genomes.Fitness indexAt
      have : ¬ (k : Int) < 0 := by omega
      simp only [this, if_false, Int.toNat_ofNat, List.getElem?_eq_getElem hkl]
    have hsum := List.sum_take_succ p.fitness k hkl
    rw [List.range'_succ]
    unfold rouletteScan
    simp only [hfit]
    by_cases hstop : s0 - (p.fitness.take k).sum - p.fitness[k] ≤ 0
    · simp only [hstop, if_true]
      refine ⟨k, hkl, rfl, ?_, hbelow⟩
      rw [hsum]; linarith
    · simp only [hstop, if_false]
      have hlt : (p.fitness.take (k + 1)).sum < s0 := by
        rw [hsum]
        have := not_le.1 hstop
        linarith
      have hn : 0 < n := by
        by_contra h0
        have hk1 : k + 1 = p.fitness.length := by omega
        rw [hk1, List.take_length] at hlt
        exact absurd hs (not_le.2 hlt)
      have e : s0 - (p.fitness.take k).sum - p.fitness[k]
          = s0 - (p.fitness.take (k + 1)).sum := by rw [hsum]; ring
      rw [e]
      exact ih (k + 1) (by omega) hn (fun j hj => by
        by_cases hjk : j < k
        · exact hbelow j hjk
        · have : j = k := by omega
          rw [this]; exact hlt)

/-- The slice `Genotype(idx)` of a well-formed population, for a valid index. -/
theorem Genotype_valid {K : Type} (p : Genomes K) (idx : Nat) (hcl : 0 ≤ p.chromosomeLen)
    (hg : (p.genotype.length : Int) = p.size * p.chromosomeLen) (hi : (idx : Int) < p.size) :
    p.Genotype idx = some { mem := p.genotype, off := idx * p.chromosomeLen.toNat,
                            len := p.chromosomeLen.toNat } := by
  unfold Genomes.Genotype
  have h1 : 0 ≤ (idx : Int) * p.chromosomeLen := mul_nonneg (by omega) hcl
  have h2 : (idx : Int) * p.chromosomeLen + p.chromosomeLen ≤ p.genotype.length := by
    rw [hg]
    have : ((idx : Int) + 1) * p.chromosomeLen ≤ p.size * p.chromosomeLen :=
      mul_le_mul_of_nonneg_right (by omega) hcl
    linarith
  have h3 : (idx : Int) * p.chromosomeLen ≤ (idx : Int) * p.chromosomeLen + p.chromosomeLen := by
    omega
  simp only [h1, h2, h3, and_self, if_true]
  congr 2
  obtain ⟨n, hn⟩ := Int.eq_ofNat_of_zero_le hcl
  rw [hn]
  have e : ((idx : Int) * (n : Int)) = ((idx * n : Nat) : Int) := by push_cast; rfl
  rw [e, Int.toNat_ofNat, Int.toNat_ofNat]
/-- The loop of the roulette wheel over the slots `i0, ..., i0 + n - 1` of the buffer, on a
well-formed population whose draws do not exceed the sum of the fitness values: every slot
receives the genome of the first index whose prefix sum reaches the value drawn for it. -/
theorem rouletteLoop_spec {K : Type} [LinearOrderedField K] (p : Genomes K) (total : K)
    (draw : Nat → K) (hsize : p.size = p.fitness.length) (hpos : 0 < p.fitness.length)
    (hcl : 0 ≤ p.chromosomeLen) (hg : (p.genotype.length : Int) = p.size * p.chromosomeLen)
    (hdraw : ∀ i, draw i * total ≤ p.fitness.sum) :
    ∀ (n i0 : Nat) (buffer : List ByteSlice), i0 + n = buffer.length →
      ∃ b2, rouletteLoop p total draw (List.range' i0 n) buffer = .done p b2 ∧
        b2.length = buffer.length ∧ (∀ i, i < i0 → b2[i]? = buffer[i]?) ∧
        ∀ i, i0 ≤ i → i < i0 + n → ∃ idx slab, idx < p.fitness.length ∧
          p.Genotype idx = some slab ∧ b2[i]? = some slab ∧
          draw i * total ≤ (p.fitness.take (idx + 1)).sum ∧
          ∀ j, j < idx → (p.fitness.take (j + 1)).sum < draw i * total := by
  intro n
  induction n with
  | zero =>
    intro i0 buffer _
    exact ⟨buffer, rfl, rfl, fun _ _ => rfl, fun i h1 h2 => by omega⟩
  | succ n ih =>
    intro i0 buffer hlen
    obtain ⟨idx, hidx, hscan, hreach, hfirst⟩ := rouletteScan_spec p (draw i0 * total)
      (hdraw i0) p.fitness.length 0 (by omega) hpos (fun j hj => by omega)
    simp only [List.take_zero, List.sum_nil, sub_zero] at hscan
    have hgen := Genotype_valid p idx hcl hg (by omega)
    obtain ⟨b2, hrun, hl, hkeep, hslots⟩ := ih (i0 + 1) (buffer.set i0
      { mem := p.genotype, off := idx * p.chromosomeLen.toNat, len := p.chromosomeLen.toNat })
      (by simp; omega)
    refine ⟨b2, ?_, by simpa using hl, ?_, ?_⟩
    · rw [List.range'_succ]
      unfold rouletteLoop
      have hn : p.NIndividuals.toNat = p.fitness.length := by
        unfold Genomes.NIndividuals; omega
      rw [hn, List.range_eq_range', hscan]
      simp only [hgen]
      exact hrun
    · intro i hi
      rw [hkeep i (by omega), List.getElem?_set_ne (by omega)]
    · intro i h1 h2
      by_cases hi : i = i0
      · subst hi
        refine ⟨idx, _, hidx, hgen, ?_, hreach, hfirst⟩
        rw [hkeep i (by omega), List.getElem?_set_self (by omega)]
      · exact hslots i (by omega) (by omega)

/-- C15: `RouletteWheel.SelectInto` on a well-formed population (`size` fitness values and
`size` genomes, valid `worst` and `fittest`) with every fitness `≥ 0` and `totalFitness`
equal to the sum of the fitness values and positive, for draws `u` in `[0, 1)`: the call
returns a nil error (the scan never runs out), the population is unchanged, and slot `i`
of the buffer receives the genome of the smallest index `idx` with
`fitness[0] + ... + fitness[idx] ≥ u_i * totalFitness` (arithmetic taken exactly). -/
theorem roulette_selects_first_prefix (K : Type) [LinearOrderedField K] (p : Genomes K)
    (draw : Nat → K) (pick : Nat → Nat) (buffer : List ByteSlice)
    (hsize : p.size = p.fitness.length) (hcl : 0 ≤ p.chromosomeLen)
    (hg : (p.genotype.length : Int) = p.size * p.chromosomeLen)
    (hw : 0 ≤ p.worst ∧ p.worst < p.size) (hf : 0 ≤ p.fittest ∧ p.fittest < p.size)
    (hnn : ∀ x ∈ p.fitness, 0 ≤ x) (htot : p.totalFitness = p.fitness.sum)
    (hpos : 0 < p.totalFitness) (hdraw : ∀ i, 0 ≤ draw i ∧ draw i < 1) :
    ∃ b2, rouletteWheel.SelectInto p draw pick buffer = .done p b2 ∧
      b2.length = buffer.length ∧
      ∀ i, i < buffer.length → ∃ idx slab, idx < p.fitness.length ∧
        p.Genotype idx = some slab ∧ b2[i]? = some slab ∧
        draw i * p.totalFitness ≤ (p.fitness.take (idx + 1)).sum ∧
        ∀ j, j < idx → (p.fitness.take (j + 1)).sum < draw i * p.totalFitness := by
  obtain ⟨fw, hfw, hfw2⟩ := indexAt_eq p.fitness p.worst hw.1 (by omega)
  obtain ⟨fm, hfm, _⟩ := indexAt_eq p.fitness p.fittest hf.1 (by omega)
  have hfw0 : fw ≥ 0 := hnn fw (List.getElem?_mem hfw2)
  have hlen : 0 < p.fitness.length := by
    by_contra h0
    have : p.fitness = [] := List.eq_nil_of_length_eq_zero (by omega)
    rw [htot, this] at hpos
    simp at hpos
  have hd : ∀ i, draw i * p.totalFitness ≤ p.fitness.sum := by
    intro i
    rw [← htot]
    have := mul_le_mul_of_nonneg_right (le_of_lt (hdraw i).2) (le_of_lt hpos)
    linarith
  obtain ⟨b2, hrun, hl, _, hslots⟩ := rouletteLoop_spec p p.totalFitness draw hsize hlen hcl hg
    hd buffer.length 0 buffer (by omega)
  refine ⟨b2, ?_, hl, fun i hi => hslots i (by omega) (by omega)⟩
  unfold rouletteWheel.SelectInto Genomes.MakeFitnessPositive Genomes.Stats
  simp only [hfw, hfw0, if_true, hfm, ne_of_gt hpos, if_false]
  rw [List.range_eq_range']
  exact hrun

theorem roulette_selects_first_prefix_witness :
    ∃ b2, rouletteWheel.SelectInto positiveGenomes testUniformDraw (fun n => n)
        [nilSlice, nilSlice, nilSlice] = .done positiveGenomes b2 ∧
      b2.length = [nilSlice, nilSlice, nilSlice].length ∧
      ∀ i, i < [nilSlice, nilSlice, nilSlice].length → ∃ idx slab,
        idx < positiveGenomes.fitness.length ∧
        positiveGenomes.Genotype idx = some slab ∧ b2[i]? = some slab ∧
        testUniformDraw i * positiveGenomes.totalFitness
          ≤ (positiveGenomes.fitness.take (idx + 1)).sum ∧
        ∀ j, j < idx →
          (positiveGenomes.fitness.take (j + 1)).sum
            < testUniformDraw i * positiveGenomes.totalFitness :=
  roulette_selects_first_prefix ℚ positiveGenomes testUniformDraw (fun n => n)
    [nilSlice, nilSlice, nilSlice] (by rfl) (by decide) (by decide) (by decide) (by decide)
    (by norm_num [positiveGenomes]) (by norm_num [positiveGenomes])
    (by norm_num [positiveGenomes])
    (fun i => by
      unfold testUniformDraw
      have h : (0 : ℚ) < (i : ℚ) + 2 := by positivity
      refine ⟨by positivity, ?_⟩
      rw [div_lt_one h]
      have : (0 : ℚ) ≤ (i : ℚ) := by positivity
      linarith)
/-- `MakeFitnessPositive` with a negative worst fitness `w`, on a population of `size`
fitness values: every fitness and the total are shifted. -/
theorem MakeFitnessPositive_shift {K : Type} [LinearOrderedField K] (g : Genomes K) (w : K)
    (hsize : g.size = g.fitness.length) (hidx : indexAt g.fitness g.worst = some w)
    (hneg : w < 0) :
    g.MakeFitnessPositive = some { g with fitness := g.fitness.map (fun f => f - w),
                                          totalFitness := g.totalFitness - w * (g.size : K) } := by
  have hge : ¬ w ≥ 0 := not_le.2 hneg
  have hn : g.size.toNat = g.fitness.length := by omega
  unfold Genomes.MakeFitnessPositive
  simp only [hidx, hge, if_false, hn, subtractLoop_all]

/-- `RouletteWheel.SelectInto` on a population whose worst fitness is not negative and
whose total is not zero: the population is left as it is and the wheel is run against the
stored total. -/
theorem SelectInto_nonneg {K : Type} [LinearOrderedField K] (p : Genomes K) (draw : Nat → K)
    (pick : Nat → Nat) (buffer : List ByteSlice) (fw fm : K)
    (hw : indexAt p.fitness p.worst = some fw) (hf : indexAt p.fitness p.fittest = some fm)
    (hfw : 0 ≤ fw) (ht : p.totalFitness ≠ 0) :
    rouletteWheel.SelectInto p draw pick buffer
      = rouletteLoop p p.totalFitness draw (List.range buffer.length) buffer := by
  unfold rouletteWheel.SelectInto Genomes.MakeFitnessPositive Genomes.Stats
  simp only [hw, ge_iff_le, hfw, if_true, hf, ht, if_false]

/-- C16: the claim fails on the code.  `SelectInto` receives the `Genomes` by value, so
`MakeFitnessPositive` updates the total of the copy only, while the fitness values it
shifts are those of the caller.  For the population with fitness `[-3, 1]` and total `-2`:
the call returns, the caller is left with the fitness vector `[0, 4]`, whose sum is 4, and
the total `-2`; a second roulette-wheel selection on it scans against `-2` and gives every
slot the genome 0, whose fitness is 0. -/
theorem roulette_leaves_total_stale :
    ∃ p1 b1, rouletteWheel.SelectInto negativeGenomes testUniformDraw (fun n => n)
        [nilSlice, nilSlice] = .done p1 b1 ∧
      p1.totalFitness = 4 ∧
      (negativeGenomes.afterCall p1).fitness = [0, 4] ∧
      (negativeGenomes.afterCall p1).fitness.sum = 4 ∧
      (negativeGenomes.afterCall p1).totalFitness = -2 ∧
      ∃ b2, rouletteWheel.SelectInto (negativeGenomes.afterCall p1) testUniformDraw
          (fun n => n) [nilSlice, nilSlice] = .done (negativeGenomes.afterCall p1) b2 ∧
        b2 = [{ mem := [1, 2], off := 0, len := 1 }, { mem := [1, 2], off := 0, len := 1 }] := by
  have hdr : ∀ i, (0 : ℚ) < testUniformDraw i ∧ testUniformDraw i < 1 := by
    intro i
    unfold testUniformDraw
    have h : (0 : ℚ) < (i : ℚ) + 2 := by positivity
    refine ⟨by positivity, ?_⟩
    rw [div_lt_one h]
    have : (0 : ℚ) ≤ (i : ℚ) := by positivity
    linarith
  have hshift : negativeGenomes.MakeFitnessPositive = some shiftedGenomes := by
    rw [MakeFitnessPositive_shift negativeGenomes (-3) (by rfl)
      (by simp [indexAt, negativeGenomes]) (by norm_num)]
    norm_num [negativeGenomes, shiftedGenomes]
  -- the first call
  have hfirst : rouletteWheel.SelectInto negativeGenomes testUniformDraw (fun n => n)
      [nilSlice, nilSlice]
      = rouletteLoop shiftedGenomes 4 testUniformDraw (List.range 2) [nilSlice, nilSlice] := by
    unfold rouletteWheel.SelectInto
    rw [hshift]
    simp [Genomes.Stats, indexAt, shiftedGenomes]
  obtain ⟨b1, hrun1, _, _, _⟩ := rouletteLoop_spec shiftedGenomes 4 testUniformDraw
    (by rfl) (by decide) (by decide) (by decide)
    (fun i => by
      have := (hdr i).2
      norm_num [shiftedGenomes]
      linarith)
    2 0 [nilSlice, nilSlice] (by rfl)
  rw [List.range_eq_range'] at hfirst
  refine ⟨shiftedGenomes, b1, hfirst.trans hrun1, rfl, rfl,
    by norm_num [Genomes.afterCall, shiftedGenomes], rfl, ?_⟩
  -- the second call, on the population of the caller
  have hsecond := SelectInto_nonneg (negativeGenomes.afterCall shiftedGenomes)
    testUniformDraw (fun n => n) [nilSlice, nilSlice] 0 4
    (by simp [indexAt, negativeGenomes, shiftedGenomes, Genomes.afterCall])
    (by simp [indexAt, negativeGenomes, shiftedGenomes, Genomes.afterCall])
    (le_refl 0) (by norm_num [negativeGenomes, Genomes.afterCall])
  obtain ⟨b2, hrun2, hl2, _, hslots⟩ := rouletteLoop_spec
    (negativeGenomes.afterCall shiftedGenomes)
    (negativeGenomes.afterCall shiftedGenomes).totalFitness testUniformDraw
    (by rfl) (by decide) (by decide) (by decide)
    (fun i => by
      have := (hdr i).1
      norm_num [negativeGenomes, shiftedGenomes, Genomes.afterCall]
      linarith)
    2 0 [nilSlice, nilSlice] (by rfl)
  rw [List.range_eq_range'] at hsecond
  refine ⟨b2, hsecond.trans hrun2, ?_⟩
  have hslot : ∀ i, i < 2 → b2[i]? = some { mem := [1, 2], off := 0, len := 1 } := by
    intro i hi
    obtain ⟨idx, slab, hidx, hgen, hb, _, hbelow⟩ := hslots i (by omega) (by omega)
    have hidx0 : idx = 0 := by
      by_contra hne
      have h1 := hbelow 0 (by omega)
      have h2 := (hdr i).1
      norm_num [negativeGenomes, shiftedGenomes, Genomes.afterCall] at h1
      linarith
    subst hidx0
    rw [hb, ← hgen]
    rfl
  apply List.ext_getElem?
  intro i
  by_cases hi : i < 2
  · rw [hslot i hi]
    have : i = 0 ∨ i = 1 := by omega
    rcases this with h | h <;> subst h <;> rfl
  · rw [List.getElem?_eq_none (by rw [hl2]; simp; omega),
      List.getElem?_eq_none (by simp; omega)]
/-! ## The evaluation phase -/

/-- C20: the claim fails on the code in every epoch after the first.  `Reset` sets the total
to 0 and keeps the fitness vector, and `SetFitness` then adds `f - fitness[i]` with the
fitness of the epoch before.  For a new population of 3 individuals that score 5, 3, 4 in
two epochs in a row: after the first evaluation the total is 12, the sum of the scores;
after the second the scores recorded are again 5, 3, 4 and the total is 0. -/
theorem second_epoch_total_stale :
    ∃ p p1 p2, testPopulation = some p ∧
      evaluationPhase p testScore = some p1 ∧
      p1.fitness = [5, 3, 4] ∧ p1.totalFitness = 12 ∧
      evaluationPhase p1 testScore = some p2 ∧
      p2.fitness = [5, 3, 4] ∧ p2.fitness.sum = 12 ∧ p2.totalFitness = 0 := by
  obtain ⟨p, hp⟩ := Option.isSome_iff_exists.1 (show testPopulation.isSome = true by decide)
  obtain ⟨_, hsz, _, hfit, htot, _, hft, hwt, _⟩ := New_fields _ _ _ p hp
  have hfit3 : p.fitness = [0, 0, 0] := by rw [hfit]; rfl
  have h1 : evaluationPhase p testScore
      = some { p with fitness := [5, 3, 4], totalFitness := 12, fittest := 0, worst := 1,
                      isSorted := false } := by
    simp [evaluationPhase, Population.Reset, Genomes.NIndividuals, hsz, scoreLoop,
      List.range, List.range.loop, testScore, Genomes.SetFitness, indexAt, hfit3]
    norm_num
  have h2 : evaluationPhase
      ({ p with fitness := [5, 3, 4], totalFitness := 12, fittest := 0, worst := 1,
                isSorted := false } : Population ℚ) testScore
      = some { p with fitness := [5, 3, 4], totalFitness := 0, fittest := 0, worst := 1,
                      isSorted := false } := by
    simp [evaluationPhase, Population.Reset, Genomes.NIndividuals, hsz, scoreLoop,
      List.range, List.range.loop, testScore, Genomes.SetFitness, indexAt]
    norm_num
  exact ⟨p, _, _, hp, h1, rfl, rfl, h2, rfl, by norm_num, rfl⟩

/-! ## Compatibility of the binary operators -/

/-- C29: the claim fails on the code for a chromosome flagged as a permutation.
`IsCompatible` of every binary operator compares the kind with `reflect.Int` and never
looks at the flags (the source marks this with `TODO no permutation should be allowed`),
and the probability wrapper answers with the method of the operator it wraps.  So for
every operator the answer is `kind = int`, whatever the flags, and for the kind `int` with
the flag `FlagPermutation` set all four operators answer true. -/
theorem iscompatible_ignores_flags :
    (∀ (op : CrossoverOp) (kind : Kind) (flags : Nat),
        op.IsCompatible kind flags = decide (kind = .int)) ∧
    (∀ (op : MutationOp) (kind : Kind) (flags : Nat),
        op.IsCompatible kind flags = decide (kind = .int)) ∧
    FlagPermutation &&& FlagPermutation ≠ 0 ∧
    (CrossoverOp.kPoints 1).IsCompatible .int FlagPermutation = true ∧
    (CrossoverOp.uniform ⟨1, 2⟩).IsCompatible .int FlagPermutation = true ∧
    (CrossoverOp.probability ⟨3, 4⟩ SinglePoint).IsCompatible .int FlagPermutation = true ∧
    (MutationOp.bitString ⟨1, 1⟩).IsCompatible .int FlagPermutation = true := by
  refine ⟨?_, ?_, by decide, rfl, rfl, rfl, rfl⟩
  · intro op kind flags
    induction op with
    | kPoints k => rfl
    | uniform r => rfl
    | probability p inner ih => exact ih
  · intro op kind flags
    cases op
    rfl

/-! ## The 8-byte access of the codec and the size of a genome -/

/-- C30: the claim fails on the code for the schema of `TestBuildOptions`.  Its genome
takes 11 bytes: the first chromosome has the bytes 0 to 7 and the second, at
`bytesIndex` 8, the bytes 8 to 10, as `nBytes` gives back the unused bytes of the last
cell.  The genes of the second chromosome sit at `byteIndex` 0, 0, 1, 1, 2, so their 8-byte
access ends at byte 16, 17 or 18, behind the 11 bytes `Make(1)` allocates; `Decode` on a
buffer of exactly `Size()` bytes reads bytes that are not there. -/
theorem load_overruns_genome :
    (schemaOf (specOf buildOptionsSpec)).Size = 11 ∧
    (schemaOf (specOf buildOptionsSpec)).chromosomes.map
        (fun c => (c.bytesIndex, c.genes.map fun g => g.toLocus.byteIndex))
      = [(0, [0, 1, 3, 4, 6]), (8, [0, 0, 1, 1, 2])] ∧
    (∃ c ∈ (schemaOf (specOf buildOptionsSpec)).chromosomes, ∃ g ∈ c.genes,
      (schemaOf (specOf buildOptionsSpec)).Size < c.bytesIndex + g.toLocus.byteIndex + 8) ∧
    (schemaOf (specOf buildOptionsSpec)).Decode (tenInts (List.replicate 10 0))
      { mem := buildOptionsGenome, len := 11 } = none := by
  decide

/-! ## The initial phenotype -/

/-- C26: the claim fails on the code for every slice phenotype.  The test `any(t) != nil`
at the head of `Schema.Init` holds for the zero value of every type that is not an interface
type, a nil slice included, so `Init` returns the zero value and never reaches the branch
that makes the slice.  For the schema of `bind(ph).Len(3).Bits(8)` over a `[]int` the genes
sit at `byteIndex` 0, 1, 2 and the slice branch would make 3 cells, but `Init` returns the
nil slice, of length 0. -/
theorem init_returns_nil_slice :
    (∀ (s : Schema) (T : PhenotypeType), T.isInterface = false →
      s.Init T = some { root := List.replicate T.size 0, elems := [] }) ∧
    (schemaOf (specOf (buildSliceSpec 0 3 8))).genes.map (fun g => g.toLocus.byteIndex)
      = [0, 1, 2] ∧
    (schemaOf (specOf (buildSliceSpec 0 3 8))).initCells = 3 ∧
    ((schemaOf (specOf (buildSliceSpec 0 3 8))).Init intSliceType).map
      (fun ph => ph.sliceLen intSliceType) = some 0 := by
  refine ⟨?_, by decide, by decide, by decide⟩
  intro s T h
  simp [Schema.Init, h]

/-! ## Randomizing a genome -/

/-- C27: the claim fails on the code.  `Schema.Randomize` hands the whole genome to
`Chromosome.Randomize` of every chromosome, where `Schema.Crossover` and `Schema.Mutate`
take the slice `[bytesIndex : bytesIndex+bytesLength]`.  In the schema of
`TestBuildOptions` (regions `[0, 8)` and `[8, 11)`) each chromosome alone rewrites all 11
bytes, so with the draws 1, 2, 3, ... the genome ends as the draws 12 to 22 of the second
chromosome.  A `float64` chromosome stores 8 bytes at every byte of the genome: for a
genome of 8 bytes followed by 8 more bytes of the array the bytes 8 to 14 are written too,
and at the end of the array the store runs over it. -/
theorem randomize_writes_whole_genome :
    (schemaOf (specOf buildOptionsSpec)).chromosomes.map
        (fun c => (c.type_, c.bytesIndex, c.bytesLength)) = [(.int, 0, 8), (.int, 8, 3)] ∧
    (∀ c ∈ (schemaOf (specOf buildOptionsSpec)).chromosomes,
      (c.Randomize (fun n => n + 1) { mem := List.replicate 11 0, len := 11 } 0).map
        (fun r => r.1.mem) = some [1, 2, 3, 4, 5, 6, 7, 8, 9, 10, 11]) ∧
    ((schemaOf (specOf buildOptionsSpec)).Randomize (fun n => n + 1)
        { mem := List.replicate 11 0, len := 11 } 0).map (fun r => (r.1.mem, r.2))
      = some ([12, 13, 14, 15, 16, 17, 18, 19, 20, 21, 22], 22) ∧
    (schemaOf (specOf float64Spec)).chromosomes.map
        (fun c => (c.type_, c.bytesIndex, c.bytesLength)) = [(.float64, 0, 8)] ∧
    ((schemaOf (specOf float64Spec)).Randomize (fun n => 257 * (n + 1))
        { mem := List.replicate 16 0, len := 8 } 0).map (fun r => r.1.mem)
      = some [1, 2, 3, 4, 5, 6, 7, 8, 8, 0, 0, 0, 0, 0, 0, 0] ∧
    (schemaOf (specOf float64Spec)).Randomize (fun n => 257 * (n + 1))
        { mem := List.replicate 8 0, len := 8 } 0 = none := by
  decide

/-! ## The operators of a chromosome -/

theorem regionsFrom_nonempty_of_forall₂ {s : Spec} {cs : List Chromosome}
    (h : List.Forall₂ compiledFrom s cs) (hs : s ≠ []) : cs ≠ [] := by
  cases h with
  | nil => exact absurd rfl hs
  | cons _ _ => simp

/-- C28, as amended: a chromosome declared with `Spec.IntChromosome` and no further
configuration carries the default crossover operator, single-point wrapped at probability
3/4, which reports itself compatible, and no mutation operator.  So in every schema that
`Build` returns for a spec of such chromosomes each chromosome has this crossover operator
and a nil mutation operator, and `Schema.Mutate` panics on it for every genotype. -/
theorem int_chromosome_default_operators (s : Spec) (schema : Schema)
    (hs : ∀ cs ∈ s, ∃ genes, cs = IntChromosome genes)
    (hb : Build false s = some schema) :
    (∀ c ∈ schema.chromosomes, c.type_ = .int ∧
      c.crossover = some (.probability ⟨3, 4⟩ SinglePoint) ∧
      (CrossoverOp.probability ⟨3, 4⟩ SinglePoint).IsCompatible c.type_ c.flags = true ∧
      c.mutate = none) ∧
    (s ≠ [] → ∀ (d : Nat → Nat → Nat → ℚ) (mem : List Nat) (g : Slab) (rest : List Slab),
      schema.Mutate d mem (g :: rest) = .panicked) := by
  obtain ⟨_, hf, _⟩ := Build_spec s schema hb
  have hall : ∀ c ∈ schema.chromosomes, c.type_ = .int ∧
      c.crossover = some (.probability ⟨3, 4⟩ SinglePoint) ∧ c.mutate = none := by
    intro c hc
    obtain ⟨i, hi, rfl⟩ := List.getElem_of_mem hc
    have hl := hf.length_eq
    have hcf := List.forall₂_iff_get.1 hf |>.2 i (by omega) hi
    obtain ⟨genes, hg⟩ := hs _ (List.get_mem s i (by omega))
    obtain ⟨_, _, _, h1, h2, h3, _⟩ := hcf
    simp only [List.get_eq_getElem] at hg h1 h2 h3
    rw [hg] at h1 h2 h3
    exact ⟨h1, h2, h3⟩
  refine ⟨fun c hc => ?_, ?_⟩
  · obtain ⟨h1, h2, h3⟩ := hall c hc
    refine ⟨h1, h2, ?_, h3⟩
    rw [h1]
    rfl
  · intro hne d mem g rest
    have hne2 := regionsFrom_nonempty_of_forall₂ hf hne
    obtain ⟨c, cs, hcs⟩ := List.exists_cons_of_ne_nil hne2
    have hm : c.mutate = none := (hall c (by rw [hcs]; simp)).2.2
    unfold Schema.Mutate mutateGenotypes
    rw [hcs]
    unfold mutateChromosomes
    cases g.slice c.bytesIndex (c.bytesIndex + c.bytesLength) with
    | none => rfl
    | some w => simp only [hm]

theorem int_chromosome_default_operators_witness :
    ((schemaOf (specOf (oneByteSpec 8))).chromosomes.map
        (fun c => (c.crossover, c.mutate))
      = [(some (.probability ⟨3, 4⟩ SinglePoint), none)]) ∧
    (∀ c ∈ (schemaOf (specOf (oneByteSpec 8))).chromosomes, c.type_ = .int ∧
      c.crossover = some (.probability ⟨3, 4⟩ SinglePoint) ∧
      (CrossoverOp.probability ⟨3, 4⟩ SinglePoint).IsCompatible c.type_ c.flags = true ∧
      c.mutate = none) :=
  ⟨by decide,
   (int_chromosome_default_operators (specOf (oneByteSpec 8)) (schemaOf (specOf (oneByteSpec 8)))
    (by
      have h : specOf (oneByteSpec 8)
          = [IntChromosome [{ type_ := some .uint8, bits := 8, cells := 1, len := 1 }]] := by
        decide
      rw [h]
      intro cs hcs
      exact ⟨_, List.mem_singleton.1 hcs⟩)
    (by decide)).1⟩

/-- C28 as stated fails on the code: the schema `Build` returns for one `uint8` bound in
an `IntChromosome` has the default crossover operator and a nil mutation operator;
`Schema.Crossover` returns for two genomes of the array, and `Schema.Mutate` panics.  No
call of `BitString`, whose argument is an `int`, gives a mean of 0.5 flips. -/
theorem int_chromosome_default_operators_counterexample :
    Build false (specOf (oneByteSpec 8)) = some (schemaOf (specOf (oneByteSpec 8))) ∧
    (schemaOf (specOf (oneByteSpec 8))).chromosomes.map (fun c => (c.crossover, c.mutate))
      = [(some (.probability ⟨3, 4⟩ SinglePoint), none)] ∧
    (schemaOf (specOf (oneByteSpec 8))).Crossover
        (fun _ => ({ float := fun _ => 1, int := fun _ => 0 } : Draws ℚ)) [5, 6, 0, 0]
        { off := 0, len := 1, cap := 4 } { off := 1, len := 1, cap := 3 }
        { off := 2, len := 1, cap := 2 } { off := 3, len := 1, cap := 1 }
      = .done [5, 6, 5, 6] ∧
    (schemaOf (specOf (oneByteSpec 8))).Mutate (fun _ _ _ => (1 : ℚ)) [5, 6, 5, 6]
        [{ off := 2, len := 1, cap := 2 }, { off := 3, len := 1, cap := 1 }] = .panicked ∧
    ∀ m : Int, (BitString ℚ m).n ≠ 1 / 2 := by
  refine ⟨by decide, by decide, ?_, by decide, ?_⟩
  · obtain ⟨gs, h⟩ : ∃ gs, (schemaOf (specOf (oneByteSpec 8))).chromosomes
        = [{ type_ := .int, bytesIndex := 0, bytesLength := 1,
             crossover := some (.probability ⟨3, 4⟩ SinglePoint), mutate := none,
             genes := gs }] := ⟨(schemaOf (specOf (oneByteSpec 8))).genes, by decide⟩
    have key : ∀ s : Schema, s.chromosomes
        = [{ type_ := .int, bytesIndex := 0, bytesLength := 1,
             crossover := some (.probability ⟨3, 4⟩ SinglePoint), mutate := none,
             genes := gs }] →
        s.Crossover (fun _ => ({ float := fun _ => 1, int := fun _ => 0 } : Draws ℚ))
          [5, 6, 0, 0] { off := 0, len := 1, cap := 4 } { off := 1, len := 1, cap := 3 }
          { off := 2, len := 1, cap := 2 } { off := 3, len := 1, cap := 1 }
        = .done [5, 6, 5, 6] := by
      intro s hs
      simp [Schema.Crossover, hs, crossoverChromosomes, Slab.slice, CrossoverOp.Crossover,
        Fraction.val, Slab.copy]
      norm_num
    exact key _ h
  · intro m h
    have h2 : ((2 * m : Int) : ℚ) = ((1 : Int) : ℚ) := by
      simp only [BitString] at h
      push_cast
      linarith
    have h3 : 2 * m = 1 := by exact_mod_cast h2
    omega

/-! ## Sorting a population -/

theorem indexAt_nat {α : Type} (xs : List α) (i : Nat) : indexAt xs (i : Int) = xs[i]? := by
  unfold indexAt
  have : ¬ (i : Int) < 0 := by omega
  simp only [this, if_false, Int.toNat_ofNat]

theorem swapAt_spec {α : Type} (xs : List α) (i j : Nat) (hi : i < xs.length)
    (hj : j < xs.length) :
    ∃ ys, swapAt xs (i : Int) (j : Int) = some ys ∧ ys.length = xs.length ∧
      ∀ k, ys[k]? = xs[Equiv.swap i j k]? := by
  unfold swapAt
  rw [indexAt_nat, indexAt_nat, List.getElem?_eq_getElem hi, List.getElem?_eq_getElem hj]
  refine ⟨_, rfl, by simp, ?_⟩
  intro k
  simp only [Int.toNat_ofNat, Equiv.swap_apply_def]
  by_cases hkj : k = j
  · subst hkj
    rw [List.getElem?_set_self (by simpa using hj)]
    by_cases hki : k = i
    · subst hki
      simp
    · simp [hki, List.getElem?_eq_getElem hi]
  · rw [List.getElem?_set_ne (fun h => hkj h.symm)]
    by_cases hki : k = i
    · subst hki
      rw [List.getElem?_set_self hi]
      simp [List.getElem?_eq_getElem hj]
    · rw [List.getElem?_set_ne (fun h => hki h.symm)]
      simp [hki, hkj]

theorem swapBytes_spec (i0 j0 : Nat) : ∀ (cnt s : Nat) (mem : List Nat),
    i0 + s + cnt ≤ mem.length → j0 + s + cnt ≤ mem.length →
    (i0 + s + cnt ≤ j0 + s ∨ j0 + s + cnt ≤ i0 + s) →
    ∃ mem2, swapBytes (i0 : Int) (j0 : Int) (List.range' s cnt) mem = some mem2 ∧
      mem2.length = mem.length ∧
      ∀ k, mem2[k]? = mem[if i0 + s ≤ k ∧ k < i0 + s + cnt then k - i0 + j0
                          else if j0 + s ≤ k ∧ k < j0 + s + cnt then k - j0 + i0 else k]? := by
  intro cnt
  induction cnt with
  | zero =>
    intro s mem _ _ _
    refine ⟨mem, rfl, rfl, ?_⟩
    intro k
    have h1 : ¬ (i0 + s ≤ k ∧ k < i0 + s + 0) := by omega
    have h2 : ¬ (j0 + s ≤ k ∧ k < j0 + s + 0) := by omega
    simp only [h1, h2, if_false]
  | succ cnt ih =>
    intro s mem h1 h2 h3
    rw [List.range'_succ]
    unfold swapBytes
    have e1 : ((i0 : Int) + (s : Int)) = ((i0 + s : Nat) : Int) := by push_cast; rfl
    have e2 : ((j0 : Int) + (s : Int)) = ((j0 + s : Nat) : Int) := by push_cast; rfl
    rw [e1, e2]
    obtain ⟨m1, hm1, hl1, hk1⟩ := swapAt_spec mem (i0 + s) (j0 + s) (by omega) (by omega)
    rw [hm1]
    obtain ⟨m2, hm2, hl2, hk2⟩ := ih (s + 1) m1 (by omega) (by omega) (by omega)
    refine ⟨m2, hm2, by omega, ?_⟩
    intro k
    rw [hk2, hk1]
    congr 1
    simp only [Equiv.swap_apply_def]
    split_ifs <;> omega
theorem window_le (a b L : Nat) (h : a < b) : a * L + L ≤ b * L := by
  have := Nat.mul_le_mul_right L (Nat.succ_le_of_lt h)
  rw [Nat.succ_mul] at this
  exact this

theorem Swap_spec {K : Type} (g : Genomes K) (n L i j : Nat) (hw : g.shaped n L)
    (hi : i < n) (hj : j < n) (hij : i ≠ j) :
    ∃ g2, GenomesSortDesc.Swap g (i : Int) (j : Int) = some g2 ∧ g2.shaped n L ∧
      g.sameScalars g2 ∧ g2.isSorted = g.isSorted ∧ g.rearranged g2 L (Equiv.swap i j) := by
  obtain ⟨hs, hc, hf, hg⟩ := hw
  unfold GenomesSortDesc.Swap
  obtain ⟨f2, hf2, hfl, hfk⟩ := swapAt_spec g.fitness i j (by omega) (by omega)
  rw [hf2]
  have hin := window_le i n L hi
  have hjn := window_le j n L hj
  have hdis : i * L + 0 + L ≤ j * L + 0 ∨ j * L + 0 + L ≤ i * L + 0 := by
    rcases Nat.lt_or_gt_of_ne hij with h | h
    · left
      have := window_le i j L h
      omega
    · right
      have := window_le j i L h
      omega
  obtain ⟨m2, hm2, hml, hmk⟩ := swapBytes_spec (i * L) (j * L) L 0 g.genotype
    (by omega) (by omega) hdis
  have e1 : (i : Int) * g.chromosomeLen = ((i * L : Nat) : Int) := by rw [hc]; push_cast; rfl
  have e2 : (j : Int) * g.chromosomeLen = ((j * L : Nat) : Int) := by rw [hc]; push_cast; rfl
  have e3 : g.chromosomeLen.toNat = L := by rw [hc]; simp
  rw [e1, e2, e3, List.range_eq_range', hm2]
  refine ⟨_, rfl, ⟨hs, hc, by simpa [hfl] using hf, by simpa [hml] using hg⟩,
    ⟨rfl, rfl, rfl, rfl, rfl⟩, rfl, ?_⟩
  intro k
  refine ⟨hfk k, ?_⟩
  intro x hx
  show m2[k * L + x]? = g.genotype[Equiv.swap i j k * L + x]?
  rw [hmk]
  congr 1
  have hki : k < i → k * L + L ≤ i * L := window_le k i L
  have hik : i < k → i * L + L ≤ k * L := window_le i k L
  have hkj : k < j → k * L + L ≤ j * L := window_le k j L
  have hjk : j < k → j * L + L ≤ k * L := window_le j k L
  have hij1 : i < j → i * L + L ≤ j * L := window_le i j L
  have hji1 : j < i → j * L + L ≤ i * L := window_le j i L
  simp only [Equiv.swap_apply_def]
  by_cases h1 : k = i
  · subst h1
    simp only [if_true]
    have : k * L + 0 ≤ k * L + x ∧ k * L + x < k * L + 0 + L := by omega
    rw [if_pos this]
    omega
  · by_cases h2 : k = j
    · subst h2
      simp only [h1, if_false, if_true]
      have c1 : ¬ (i * L + 0 ≤ k * L + x ∧ k * L + x < i * L + 0 + L) := by
        rcases Nat.lt_or_gt_of_ne h1 with h | h
        · have := hki h
          omega
        · have := hik h
          omega
      have c2 : k * L + 0 ≤ k * L + x ∧ k * L + x < k * L + 0 + L := by omega
      rw [if_neg c1, if_pos c2]
      omega
    · simp only [h1, h2, if_false]
      have c1 : ¬ (i * L + 0 ≤ k * L + x ∧ k * L + x < i * L + 0 + L) := by
        rcases Nat.lt_or_gt_of_ne h1 with h | h
        · have := hki h
          omega
        · have := hik h
          omega
      have c2 : ¬ (j * L + 0 ≤ k * L + x ∧ k * L + x < j * L + 0 + L) := by
        rcases Nat.lt_or_gt_of_ne h2 with h | h
        · have := hkj h
          omega
        · have := hjk h
          omega
      rw [if_neg c1, if_neg c2]

theorem rearranged_refl {K : Type} (g : Genomes K) (L : Nat) : g.rearranged g L 1 := by
  intro k
  exact ⟨rfl, fun _ _ => rfl⟩

theorem rearranged_trans {K : Type} (g g1 g2 : Genomes K) (L : Nat) (π1 π2 : Equiv.Perm Nat)
    (h1 : g.rearranged g1 L π1) (h2 : g1.rearranged g2 L π2) :
    g.rearranged g2 L (π1 * π2) := by
  intro k
  refine ⟨?_, ?_⟩
  · rw [(h2 k).1, (h1 (π2 k)).1]
    rfl
  · intro x hx
    rw [(h2 k).2 x hx, (h1 (π2 k)).2 x hx]
    rfl

theorem sameScalars_trans {K : Type} (g g1 g2 : Genomes K) (h1 : g.sameScalars g1)
    (h2 : g1.sameScalars g2) : g.sameScalars g2 := by
  obtain ⟨a1, a2, a3, a4, a5⟩ := h1
  obtain ⟨b1, b2, b3, b4, b5⟩ := h2
  exact ⟨b1.trans a1, b2.trans a2, b3.trans a3, b4.trans a4, b5.trans a5⟩

theorem Less_spec {K : Type} [LinearOrderedField K] (g : Genomes K) (i j : Nat)
    (hi : i < g.fitness.length) (hj : j < g.fitness.length) :
    GenomesSortDesc.Less g (i : Int) (j : Int)
      = some (decide (g.fitness.getD i 0 > g.fitness.getD j 0)) := by
  unfold GenomesSortDesc.Less
  rw [indexAt_nat, indexAt_nat, List.getElem?_eq_getElem hi, List.getElem?_eq_getElem hj]
  simp [List.getD_eq_getElem?_getD, List.getElem?_eq_getElem hi, List.getElem?_eq_getElem hj]

theorem insertDown_spec {K : Type} [LinearOrderedField K] (n L i : Nat) (hi : i < n) :
    ∀ (j : Nat) (g : Genomes K), g.shaped n L → j ≤ i → insertInv g i j →
    ∃ g2 π, insertDown j g = some g2 ∧ g2.shaped n L ∧ g.sameScalars g2 ∧
      g2.isSorted = g.isSorted ∧ (∀ k, n ≤ k → π k = k) ∧ g.rearranged g2 L π ∧
      ∀ p q, p < q → q ≤ i → g2.fitness.getD q 0 ≤ g2.fitness.getD p 0 := by
  intro j
  induction j with
  | zero =>
    intro g hw _ hinv
    refine ⟨g, 1, rfl, hw, ⟨rfl, rfl, rfl, rfl, rfl⟩, rfl, fun _ _ => rfl,
      rearranged_refl g L, ?_⟩
    intro p q hpq hq
    exact hinv.2.1 p q (Nat.zero_le _) hpq hq
  | succ j ih =>
    intro g hw hji hinv
    obtain ⟨c1, c2, c3⟩ := hinv
    have hfl : g.fitness.length = n := hw.2.2.1
    unfold insertDown
    rw [Less_spec g (j + 1) j (by omega) (by omega)]
    by_cases hlt : g.fitness.getD (j + 1) 0 > g.fitness.getD j 0
    · simp only [hlt, decide_True]
      obtain ⟨g1, hg1, hw1, hs1, hso1, hr1⟩ :=
        Swap_spec g n L (j + 1) j hw (by omega) (by omega) (by omega)
      rw [hg1]
      have hF : ∀ k, g1.fitness.getD k 0
          = g.fitness.getD (if k = j + 1 then j else if k = j then j + 1 else k) 0 := by
        intro k
        rw [List.getD_eq_getElem?_getD, List.getD_eq_getElem?_getD, (hr1 k).1,
          Equiv.swap_apply_def]
      have hinv1 : insertInv g1 i j := by
        refine ⟨?_, ?_, ?_⟩
        · intro p q hpq hq
          rw [hF p, hF q]
          have e1 : ¬ p = j + 1 := by omega
          have e2 : ¬ p = j := by omega
          have e3 : ¬ q = j + 1 := by omega
          have e4 : ¬ q = j := by omega
          simp only [e1, e2, e3, e4, if_false]
          exact c1 p q hpq (by omega)
        · intro p q hp hpq hq
          rw [hF p, hF q]
          by_cases hpj : p = j
          · subst hpj
            have e1 : ¬ p = p + 1 := by omega
            simp only [e1, if_false, if_true]
            by_cases hqj : q = p + 1
            · subst hqj
              simp only [if_true]
              exact le_of_lt hlt
            · have e2 : ¬ q = p := by omega
              simp only [hqj, e2, if_false]
              exact c2 (p + 1) q (le_refl _) (by omega) hq
          · by_cases hpj1 : p = j + 1
            · subst hpj1
              have e3 : ¬ q = j + 1 := by omega
              have e4 : ¬ q = j := by omega
              simp only [e3, e4, if_false, if_true]
              exact c3 j q (by omega) (by omega) hq
            · have e3 : ¬ q = j + 1 := by omega
              have e4 : ¬ q = j := by omega
              simp only [hpj, hpj1, e3, e4, if_false]
              exact c2 p q (by omega) hpq hq
        · intro p q hp hjq hq
          rw [hF p, hF q]
          have e1 : ¬ p = j + 1 := by omega
          have e2 : ¬ p = j := by omega
          have e4 : ¬ q = j := by omega
          simp only [e1, e2, e4, if_false]
          by_cases hqj : q = j + 1
          · subst hqj
            simp only [if_true]
            exact c1 p j hp (by omega)
          · simp only [hqj, if_false]
            exact c3 p q (by omega) (by omega) hq
      obtain ⟨g2, π, hg2, hw2, hs2, hso2, hfix, hr2, hsorted⟩ := ih g1 hw1 (by omega) hinv1
      refine ⟨g2, Equiv.swap (j + 1) j * π, hg2, hw2, sameScalars_trans g g1 g2 hs1 hs2,
        by rw [hso2, hso1], ?_, rearranged_trans g g1 g2 L _ _ hr1 hr2, hsorted⟩
      intro k hk
      rw [Equiv.Perm.mul_apply, hfix k hk, Equiv.swap_apply_def]
      have e1 : ¬ k = j + 1 := by omega
      have e2 : ¬ k = j := by omega
      simp only [e1, e2, if_false]
    · simp only [hlt, decide_False]
      refine ⟨g, 1, rfl, hw, ⟨rfl, rfl, rfl, rfl, rfl⟩, rfl, fun _ _ => rfl,
        rearranged_refl g L, ?_⟩
      intro p q hpq hq
      have hle : g.fitness.getD (j + 1) 0 ≤ g.fitness.getD j 0 := not_lt.1 hlt
      by_cases h1 : q < j + 1
      · exact c1 p q hpq h1
      · by_cases h2 : j + 1 ≤ p
        · exact c2 p q h2 hpq hq
        · by_cases h3 : q = j + 1
          · subst h3
            by_cases h4 : p = j
            · subst h4
              exact hle
            · exact le_trans hle (c1 p j (by omega) (by omega))
          · exact c3 p q (by omega) (by omega) hq
theorem insertionSort_spec {K : Type} [LinearOrderedField K] (n L : Nat) :
    ∀ (cnt i0 : Nat) (g : Genomes K), g.shaped n L → 0 < i0 → i0 + cnt = n →
    (∀ p q, p < q → q < i0 → g.fitness.getD q 0 ≤ g.fitness.getD p 0) →
    ∃ g2 π, insertionSort (List.range' i0 cnt) g = some g2 ∧ g2.shaped n L ∧
      g.sameScalars g2 ∧ g2.isSorted = g.isSorted ∧ (∀ k, n ≤ k → π k = k) ∧
      g.rearranged g2 L π ∧
      ∀ p q, p < q → q < n → g2.fitness.getD q 0 ≤ g2.fitness.getD p 0 := by
  intro cnt
  induction cnt with
  | zero =>
    intro i0 g hw _ hn hs
    refine ⟨g, 1, rfl, hw, ⟨rfl, rfl, rfl, rfl, rfl⟩, rfl, fun _ _ => rfl,
      rearranged_refl g L, ?_⟩
    intro p q hpq hq
    exact hs p q hpq (by omega)
  | succ cnt ih =>
    intro i0 g hw h0 hn hs
    rw [List.range'_succ]
    unfold insertionSort
    have hinv : insertInv g i0 i0 :=
      ⟨hs, fun p q h1 h2 h3 => absurd h3 (by omega), fun p q h1 h2 h3 => absurd h3 (by omega)⟩
    obtain ⟨g1, π1, hg1, hw1, hs1, hso1, hfix1, hr1, hsorted1⟩ :=
      insertDown_spec n L i0 (by omega) i0 g hw (le_refl _) hinv
    rw [hg1]
    obtain ⟨g2, π2, hg2, hw2, hs2, hso2, hfix2, hr2, hsorted2⟩ :=
      ih (i0 + 1) g1 hw1 (by omega) (by omega) (fun p q h1 h2 => hsorted1 p q h1 (by omega))
    refine ⟨g2, π1 * π2, hg2, hw2, sameScalars_trans g g1 g2 hs1 hs2, by rw [hso2, hso1], ?_,
      rearranged_trans g g1 g2 L _ _ hr1 hr2, hsorted2⟩
    intro k hk
    rw [Equiv.Perm.mul_apply, hfix2 k hk, hfix1 k hk]

theorem map_succ_range (m : Nat) : (List.range m).map (fun i => i + 1) = List.range' 1 m := by
  rw [List.range_eq_range']
  apply List.ext_getElem
  · simp
  · intro k h1 h2
    simp
    omega

theorem sortStable_spec {K : Type} [LinearOrderedField K] (g : Genomes K) (n L : Nat)
    (hw : g.shaped n L) :
    ∃ g2 π, sortStable g = some g2 ∧ g2.shaped n L ∧ g.sameScalars g2 ∧
      g2.isSorted = g.isSorted ∧ (∀ k, n ≤ k → π k = k) ∧ g.rearranged g2 L π ∧
      ∀ p q, p < q → q < n → g2.fitness.getD q 0 ≤ g2.fitness.getD p 0 := by
  unfold sortStable GenomesSortDesc.Len
  rw [hw.1, Int.toNat_ofNat, map_succ_range]
  by_cases hn : n = 0
  · subst hn
    refine ⟨g, 1, rfl, hw, ⟨rfl, rfl, rfl, rfl, rfl⟩, rfl, fun _ _ => rfl,
      rearranged_refl g L, ?_⟩
    intro p q _ hq
    exact absurd hq (by omega)
  · exact insertionSort_spec n L (n - 1) 1 g hw (by omega) (by omega)
      (fun p q h1 h2 => absurd h2 (by omega))

theorem perm_lt_of_fix (π : Equiv.Perm Nat) (n : Nat) (hfix : ∀ k, n ≤ k → π k = k) (i : Nat)
    (hi : i < n) : π i < n := by
  by_contra h
  have h1 : π (π i) = π i := hfix _ (by omega)
  have h2 : π i = i := π.injective h1
  omega

theorem SortByFitnessDesc_spec {K : Type} [LinearOrderedField K] (g : Genomes K) (n L : Nat)
    (hw : g.shaped n L) :
    ∃ g2 π, g.SortByFitnessDesc = some g2 ∧ g2.shaped n L ∧ g.sameScalars g2 ∧
      g2.isSorted = true ∧ (∀ k, n ≤ k → π k = k) ∧ g.rearranged g2 L π ∧
      (g.isSorted = true → g2 = g) ∧
      (g.isSorted = false →
        ∀ p q, p < q → q < n → g2.fitness.getD q 0 ≤ g2.fitness.getD p 0) := by
  unfold Genomes.SortByFitnessDesc
  by_cases hs : g.isSorted = true
  · rw [if_pos hs]
    refine ⟨g, 1, rfl, hw, ⟨rfl, rfl, rfl, rfl, rfl⟩, hs, fun _ _ => rfl, rearranged_refl g L,
      fun _ => rfl, ?_⟩
    intro h
    rw [hs] at h
    exact absurd h (by simp)
  · rw [if_neg hs]
    obtain ⟨g2, π, hg2, hw2, hs2, _, hfix, hr, hsorted⟩ := sortStable_spec g n L hw
    rw [hg2]
    refine ⟨{ g2 with isSorted := true }, π, rfl, hw2, hs2, rfl, hfix, hr,
      fun h => absurd h hs, fun _ => hsorted⟩

theorem genome_eq_of_rearranged {K : Type} (g g2 : Genomes K) (n L : Nat) (π : Equiv.Perm Nat)
    (hw : g.shaped n L) (hw2 : g2.shaped n L) (hr : g.rearranged g2 L π) (i : Nat) :
    g2.genome i = g.genome (π i) := by
  unfold Genomes.genome
  rw [hw.2.1, hw2.2.1, Int.toNat_ofNat]
  apply List.ext_getElem?
  intro x
  by_cases hx : x < L
  · rw [List.getElem?_take_of_lt hx, List.getElem?_take_of_lt hx, List.getElem?_drop,
      List.getElem?_drop]
    exact (hr i).2 x hx
  · rw [List.getElem?_eq_none (by simp; omega), List.getElem?_eq_none (by simp; omega)]
theorem Genotype_bytes {K : Type} (g : Genomes K) (n L : Nat) (hw : g.shaped n L) (i : Nat)
    (hi : i < n) : (g.Genotype (i : Int)).map ByteSlice.bytes = some (g.genome i) := by
  obtain ⟨hs, hc, _, hg⟩ := hw
  rw [Genotype_valid g i (by omega) (by rw [hg, hs, hc]; push_cast; rfl) (by omega)]
  rfl

theorem testPopulation_genotype :
    testPopulation.map (fun p => p.genotype) = some [1, 2, 3] := by decide

theorem pairwise_of_getD {K : Type} [LinearOrderedField K] (xs : List K)
    (h : ∀ p q, p < q → q < xs.length → xs.getD q 0 ≤ xs.getD p 0) :
    xs.Pairwise (fun a b => b ≤ a) := by
  rw [List.pairwise_iff_getElem]
  intro i j hi hj hij
  have := h i j hij hj
  rwa [List.getD_eq_getElem xs 0 hi, List.getD_eq_getElem xs 0 hj] at this

theorem staleSortRun_eq :
    ∃ g, staleSortRun = some g ∧ g.fitness = [0, 2, 1] ∧ g.genotype = [3, 2, 1] ∧
      g.isSorted = true := by
  obtain ⟨p, hp⟩ := Option.isSome_iff_exists.1 (show testPopulation.isSome = true by decide)
  obtain ⟨_, hsz, hcl, hfit, htot, hso, hft, hwt, _⟩ := New_fields _ _ _ p hp
  have hg : p.genotype = [1, 2, 3] := by
    have := testPopulation_genotype
    rw [hp] at this
    simpa using this
  have hfit3 : p.fitness = [0, 0, 0] := by rw [hfit]; rfl
  have hcl1 : p.chromosomeLen = 1 := by rw [hcl]; decide
  unfold staleSortRun
  rw [hp]
  simp [setFitnessAll, Genomes.SetFitness, indexAt, hfit3, hft, hwt, htot,
    Genomes.SortByFitnessDesc, hso, sortStable, GenomesSortDesc.Len, hsz, insertionSort,
    insertDown, GenomesSortDesc.Less, GenomesSortDesc.Swap, swapAt, swapBytes, hcl1, hg,
    List.range, List.range.loop]
  norm_num

/-- C21: the claim fails on the code when a fitness is set after a sort.  `SetFitness` leaves
the flag `isSorted` as it is (only `Reset` clears it), and `SortByFitnessDesc` returns at
once while the flag is set.  On a new population of 3 individuals: the fitness values
1, 2, 3 are set, the sort leaves 3, 2, 1 and sets the flag, `SetFitness(0, 0)` leaves
0, 2, 1, and the second sort changes nothing, so the fitness vector is not non-increasing
after it.  On a population whose flag is clear the sort does leave the fitness vector
non-increasing. -/
theorem sort_skipped_after_SetFitness (K : Type) [LinearOrderedField K] :
    (∀ (g : Genomes K) (n L : Nat), g.shaped n L → g.isSorted = false →
      ∃ g2, g.SortByFitnessDesc = some g2 ∧ g2.isSorted = true ∧
        g2.fitness.Pairwise (fun a b => b ≤ a)) ∧
    ∃ g, staleSortRun = some g ∧ g.fitness = [0, 2, 1] ∧ g.isSorted = true ∧
      ¬ g.fitness.Pairwise (fun a b => b ≤ a) := by
  refine ⟨?_, ?_⟩
  · intro g n L hw hs
    obtain ⟨g2, π, hg2, hw2, _, hso, _, _, _, hsorted⟩ := SortByFitnessDesc_spec g n L hw
    refine ⟨g2, hg2, hso, pairwise_of_getD _ ?_⟩
    intro p q hpq hq
    exact hsorted hs p q hpq (by rw [hw2.2.2.1] at hq; exact hq)
  · obtain ⟨g, h1, h2, _, h4⟩ := staleSortRun_eq
    refine ⟨g, h1, h2, h4, ?_⟩
    rw [h2]
    intro h
    have := (List.pairwise_cons.1 h).1 2 (by simp)
    norm_num at this

/-- C22: `SortByFitnessDesc` on a population of `n` individuals of `L` bytes each returns,
and there is a permutation `π` of the individuals (a permutation of the numbers that
leaves every number from `n` on in place) such that for every `i < n` individual `i` of
the sorted population has the fitness and the `L` genome bytes, as `Genotype` gives
them, of individual `π i` of the population before the call. -/
theorem sort_permutes_fitness_and_genomes {K : Type} [LinearOrderedField K] (g : Genomes K)
    (n L : Nat) (hw : g.shaped n L) :
    ∃ (g2 : Genomes K) (π : Equiv.Perm Nat), g.SortByFitnessDesc = some g2 ∧ g2.shaped n L ∧
      (∀ k, n ≤ k → π k = k) ∧
      ∀ i, i < n → π i < n ∧ g2.fitness[i]? = g.fitness[π i]? ∧
        (g.Genotype (π i : Nat)).map ByteSlice.bytes = some (g.genome (π i)) ∧
        (g2.Genotype (i : Nat)).map ByteSlice.bytes = some (g.genome (π i)) := by
  obtain ⟨g2, π, hg2, hw2, _, _, hfix, hr, _, _⟩ := SortByFitnessDesc_spec g n L hw
  refine ⟨g2, π, hg2, hw2, hfix, ?_⟩
  intro i hi
  have hpi := perm_lt_of_fix π n hfix i hi
  refine ⟨hpi, (hr i).1, Genotype_bytes g n L hw _ hpi, ?_⟩
  rw [Genotype_bytes g2 n L hw2 i hi, genome_eq_of_rearranged g g2 n L π hw hw2 hr i]

theorem sort_permutes_fitness_and_genomes_witness :
    positiveGenomes.shaped 2 1 ∧
    ∃ (g2 : Genomes ℚ) (π : Equiv.Perm Nat),
      positiveGenomes.SortByFitnessDesc = some g2 ∧ g2.shaped 2 1 ∧
      (∀ k, 2 ≤ k → π k = k) ∧
      ∀ i, i < 2 → π i < 2 ∧ g2.fitness[i]? = positiveGenomes.fitness[π i]? ∧
        (positiveGenomes.Genotype (π i : Nat)).map ByteSlice.bytes
          = some (positiveGenomes.genome (π i)) ∧
        (g2.Genotype (i : Nat)).map ByteSlice.bytes = some (positiveGenomes.genome (π i)) :=
  ⟨⟨rfl, rfl, rfl, rfl⟩,
   sort_permutes_fitness_and_genomes positiveGenomes 2 1 ⟨rfl, rfl, rfl, rfl⟩⟩

/-! ## The solver -/

theorem indexAt_some {α : Type} (xs : List α) (i : Int) (x : α) (h : indexAt xs i = some x) :
    0 ≤ i ∧ i < xs.length := by
  unfold indexAt at h
  split at h
  · exact absurd h (by simp)
  · rename_i hi
    obtain ⟨hl, _⟩ := List.getElem?_eq_some_iff.1 h
    omega

theorem SetFitness_frame {K : Type} [LinearOrderedField K] (g g2 : Genomes K) (i : Int) (f : K)
    (h : g.SetFitness i f = some g2) :
    0 ≤ i ∧ i < g.fitness.length ∧ g2.genotype = g.genotype ∧ g2.size = g.size ∧
      g2.chromosomeLen = g.chromosomeLen ∧ g2.isSorted = g.isSorted ∧
      g2.fitness.length = g.fitness.length := by
  unfold Genomes.SetFitness at h
  cases ho : indexAt g.fitness i with
  | none => simp [ho] at h
  | some old =>
    obtain ⟨h0, h1⟩ := indexAt_some _ _ _ ho
    simp only [ho, Option.bind_eq_bind, Option.some_bind, Option.pure_def] at h
    by_cases hwn : g.worst < 0
    · by_cases hfn : g.fittest < 0
      · simp only [hwn, hfn, if_true, Option.some_bind, Option.some.injEq] at h
        subst h
        exact ⟨h0, h1, rfl, rfl, rfl, rfl, by simp⟩
      · simp only [hwn, hfn, if_true, if_false, Option.some_bind, Option.bind_eq_some,
          Option.some.injEq] at h
        obtain ⟨_, _, h⟩ := h
        subst h
        exact ⟨h0, h1, rfl, rfl, rfl, rfl, by simp⟩
    · by_cases hfn : g.fittest < 0
      · simp only [hwn, hfn, if_true, if_false, Option.some_bind, Option.bind_eq_some,
          Option.some.injEq] at h
        obtain ⟨_, _, h⟩ := h
        subst h
        exact ⟨h0, h1, rfl, rfl, rfl, rfl, by simp⟩
      · simp only [hwn, hfn, if_false, Option.bind_eq_some, Option.some.injEq] at h
        obtain ⟨_, _, _, _, h⟩ := h
        subst h
        exact ⟨h0, h1, rfl, rfl, rfl, rfl, by simp⟩

theorem scoresLoop_frame {K : Type} [LinearOrderedField K] (schema : Schema)
    (fitnessFunc : Phenotype → Option K) :
    ∀ (is : List Nat) (ph : Phenotype) (g g2 : Genomes K),
      scoresLoop schema fitnessFunc is ph g = some g2 →
      g2.genotype = g.genotype ∧ g2.size = g.size ∧ g2.chromosomeLen = g.chromosomeLen ∧
        g2.isSorted = g.isSorted ∧ g2.fitness.length = g.fitness.length ∧
        ∃ fs : List K, fs.length = is.length ∧
          setFitnessAll ((is.map fun (i : Nat) => (i : Int)).zip fs) g = some g2 := by
  intro is
  induction is with
  | nil =>
    intro ph g g2 h
    simp only [scoresLoop, Option.some.injEq] at h
    subst h
    exact ⟨rfl, rfl, rfl, rfl, rfl, [], rfl, rfl⟩
  | cons i rest ih =>
    intro ph g g2 h
    unfold scoresLoop at h
    split at h
    · exact absurd h (by simp)
    · split at h
      · exact absurd h (by simp)
      · split at h
        · exact absurd h (by simp)
        · rename_i f hf
          split at h
          · exact absurd h (by simp)
          · rename_i g1 hg1
            obtain ⟨_, _, a1, a2, a3, a4, a5⟩ := SetFitness_frame g g1 i f hg1
            obtain ⟨b1, b2, b3, b4, b5, fs, hfs, hall⟩ := ih _ g1 g2 h
            refine ⟨b1.trans a1, b2.trans a2, b3.trans a3, b4.trans a4, b5.trans a5,
              f :: fs, by simp [hfs], ?_⟩
            simp only [List.map_cons, List.zip_cons_cons, setFitnessAll, hg1]
            exact hall

theorem calculateFitnessScores_frame {K : Type} [LinearOrderedField K] (ga ga1 : gaSolver K)
    (r : Result K) (found : Bool) (h : calculateFitnessScores ga = some (ga1, r, found)) :
    ga1.generation = ga.generation ∧ ga1.opts = ga.opts ∧ ga1.schema = ga.schema ∧
      ga1.breedingPool = ga.breedingPool ∧ ga1.fitnessFunc = ga.fitnessFunc ∧
      ga1.phenotype = ga.phenotype ∧
      ga1.population.genotype = ga.population.genotype ∧
      ga1.population.size = ga.population.size ∧
      ga1.population.chromosomeLen = ga.population.chromosomeLen ∧
      ga1.population.fitness.length = ga.population.fitness.length ∧
      ga1.population.isSorted = false ∧ ga1.population.schema = ga.population.schema ∧
      r.population = ga1.population ∧
      ∃ m, ga1.population.Fittest = some (r.index, m) ∧
        (found = true ↔ ga.opts.targetFitness = some m) ∧
        ∃ fs : List K, fs.length = ga.population.size.toNat ∧
          setFitnessAll (((List.range ga.population.size.toNat).map fun (i : Nat) => (i : Int)).zip fs)
            ga.population.Reset.toGenomes = some ga1.population.toGenomes := by
  unfold calculateFitnessScores at h
  simp only at h
  split at h
  · exact absurd h (by simp)
  · split at h
    · exact absurd h (by simp)
    · rename_i g hg
      split at h
      · exact absurd h (by simp)
      · rename_i ft m hm
        simp only [Option.some.injEq, Prod.mk.injEq] at h
        obtain ⟨h1, h2, h3⟩ := h
        subst h1 h2
        obtain ⟨b1, b2, b3, b4, b5, fs, hfs, hall⟩ := scoresLoop_frame _ _ _ _ _ _ hg
        refine ⟨rfl, rfl, rfl, rfl, rfl, rfl, b1, b2, b3, b5, b4, rfl, rfl, m, hm, ?_,
          fs, by simpa [Genomes.NIndividuals, Population.Reset] using hfs, hall⟩
        rw [← h3]
        cases ht : ga.opts.targetFitness with
        | none => simp
        | some t =>
          simp only [decide_eq_true_eq, Option.some.injEq]
          exact eq_comm
theorem reset_calls_extremes {K : Type} [LinearOrderedField K] (p : Population K)
    (c : Int × K) (rest : List (Int × K)) (hnd : ((c :: rest).map Prod.fst).Nodup)
    (hv : ∀ x ∈ c :: rest, 0 ≤ x.1 ∧ x.1 < p.fitness.length) (g : Genomes K)
    (hrun : setFitnessAll (c :: rest) p.Reset.toGenomes = some g)
    (hall : ∀ j : Nat, j < p.fitness.length → (j : Int) ∈ (c :: rest).map Prod.fst) :
    g.extremesOk := by
  rw [List.map_cons, List.nodup_cons] at hnd
  have hpos := hv c (List.mem_cons_self _ _)
  obtain ⟨g1, hs1, hl1, hE1⟩ := SetFitness_first_reset p.Reset.toGenomes c.1 c.2 hpos.1
    hpos.2 (by show (-1 : Int) < 0; omega) (by show (-1 : Int) < 0; omega)
  have hl0 : p.Reset.fitness.length = p.fitness.length := rfl
  obtain ⟨g2, hrun2, hl, hE2⟩ := setFitnessAll_extremes rest g1 [c.1]
    (fun x hx => ⟨(hv x (List.mem_cons_of_mem _ hx)).1,
      by rw [hl1, hl0]; exact (hv x (List.mem_cons_of_mem _ hx)).2,
      fun hm => hnd.1 ((List.mem_singleton.1 hm) ▸ List.mem_map_of_mem Prod.fst hx)⟩)
    hnd.2 (fun j hj => by rw [List.mem_singleton.1 hj, hl1, hl0]; exact hpos) hE1
  simp only [setFitnessAll, hs1] at hrun
  rw [hrun2, Option.some.injEq] at hrun
  subst hrun
  exact extremesOk_of_extremesOn g2 _ hE2 (fun j hj => by
    have := hall j (by omega)
    simpa using this)

theorem evaluation_maximum {K : Type} [LinearOrderedField K] (ga ga1 : gaSolver K)
    (r : Result K) (found : Bool) (h : calculateFitnessScores ga = some (ga1, r, found))
    (hlen : (ga.population.fitness.length : Int) = ga.population.size) :
    ∃ m, ga1.population.Fittest = some (r.index, m) ∧ m ∈ ga1.population.fitness ∧
      (∀ x ∈ ga1.population.fitness, x ≤ m) ∧
      (found = true ↔ ga.opts.targetFitness = some m) := by
  obtain ⟨_, _, _, _, _, _, _, _, _, hfl, _, _, _, m, hm, hf, fs, hfs, hall⟩ :=
    calculateFitnessScores_frame ga ga1 r found h
  have hmem : m ∈ ga1.population.fitness := by
    unfold Genomes.Fittest at hm
    obtain ⟨x, hx, hxe⟩ := Option.map_eq_some'.1 hm
    simp only [Prod.mk.injEq] at hxe
    rw [← hxe.2]
    unfold indexAt at hx
    split at hx
    · exact absurd hx (by simp)
    · exact List.getElem?_mem hx
  refine ⟨m, hm, hmem, ?_, hf⟩
  have hN : ga.population.size.toNat = ga.population.fitness.length := by omega
  have hpos : 0 < ga.population.fitness.length := by
    rw [← hfl]
    exact List.length_pos_of_mem hmem
  rw [hN] at hall hfs
  obtain ⟨n, hn⟩ : ∃ n, ga.population.fitness.length = n + 1 := ⟨_, (Nat.succ_pred_eq_of_pos hpos).symm⟩
  have hfst : (((List.range ga.population.fitness.length).map fun (i : Nat) => (i : Int)).zip fs).map
      Prod.fst = (List.range ga.population.fitness.length).map fun (i : Nat) => (i : Int) := by
    rw [List.map_fst_zip]
    simp [hfs]
  obtain ⟨c, rest, hcr⟩ : ∃ c rest,
      ((List.range ga.population.fitness.length).map fun (i : Nat) => (i : Int)).zip fs = c :: rest := by
    cases hz : ((List.range ga.population.fitness.length).map fun (i : Nat) => (i : Int)).zip fs with
    | nil =>
      have := congrArg List.length hfst
      rw [hz] at this
      simp at this
      omega
    | cons c rest => exact ⟨c, rest, rfl⟩
  rw [hcr] at hall hfst
  have hOk := reset_calls_extremes ga.population c rest
    (by
      rw [hfst]
      exact (List.nodup_range _).map (fun a b hab => by simpa using hab))
    (by
      intro x hx
      have : x.1 ∈ (c :: rest).map Prod.fst := List.mem_map_of_mem Prod.fst hx
      rw [hfst] at this
      obtain ⟨j, hj, hje⟩ := List.mem_map.1 this
      rw [List.mem_range] at hj
      omega)
    _ hall
    (by
      intro j hj
      rw [hfst]
      exact List.mem_map.2 ⟨j, List.mem_range.2 hj, rfl⟩)
  obtain ⟨fw, fm, _, hfm, hb⟩ := hOk
  have hfm2 : ga1.population.Fittest = some (ga1.population.fittest, fm) := hfm
  rw [hm] at hfm2
  simp only [Option.some.injEq, Prod.mk.injEq] at hfm2
  intro x hx
  rw [hfm2.2]
  exact (hb x hx).2
theorem selectBreedingPool_frame {K : Type} [LinearOrderedField K] (ga ga1 : gaSolver K)
    (d : EpochDraws K) (h : selectBreedingPool ga d = some ga1) :
    ga1.generation = ga.generation ∧ ga1.opts = ga.opts ∧ ga1.schema = ga.schema ∧
      ga1.fitnessFunc = ga.fitnessFunc ∧ ga1.phenotype = ga.phenotype := by
  unfold selectBreedingPool at h
  split at h
  · exact absurd h (by simp)
  · split at h
    · exact absurd h (by simp)
    · split at h
      · split at h
        · exact absurd h (by simp)
        · simp only [Option.some.injEq] at h
          subst h
          exact ⟨rfl, rfl, rfl, rfl, rfl⟩
        · simp only [Option.some.injEq] at h
          subst h
          exact ⟨rfl, rfl, rfl, rfl, rfl⟩
      · exact absurd h (by simp)

theorem nextGeneration_frame {K : Type} [LinearOrderedField K] (ga ga2 : gaSolver K)
    (d : EpochDraws K) (h : nextGeneration ga d = some ga2) :
    ga2.generation = ga.generation + 1 ∧ ga2.opts = ga.opts ∧ ga2.schema = ga.schema ∧
      ga2.fitnessFunc = ga.fitnessFunc ∧ ga2.phenotype = ga.phenotype := by
  unfold nextGeneration at h
  split at h
  · exact absurd h (by simp)
  · rename_i ga1 h1
    obtain ⟨a1, a2, a3, a4, a5⟩ := selectBreedingPool_frame ga ga1 d h1
    obtain ⟨p, _, hp⟩ := Option.map_eq_some'.1 h
    subst hp
    exact ⟨by rw [← a1], a2, a3, a4, a5⟩

theorem epochsLoop_spec {K : Type} [LinearOrderedField K] (d : Nat → EpochDraws K) :
    ∀ (n e : Nat) (ga : gaSolver K) (r0 : Result K) (ga2 : gaSolver K) (r : Result K)
      (found : Bool), epochsLoop d n e ga r0 = some (ga2, r, found) →
      ga2.opts = ga.opts ∧
      (found = false → ga2.generation = ga.generation + n) ∧
      (found = true → ∃ m : Nat, m < n ∧ ga2.generation = ga.generation + m ∧
        ∃ t, ga.opts.targetFitness = some t) := by
  intro n
  induction n with
  | zero =>
    intro e ga r0 ga2 r found h
    simp only [epochsLoop, Option.some.injEq, Prod.mk.injEq] at h
    obtain ⟨h1, _, h3⟩ := h
    subst h1 h3
    exact ⟨rfl, fun _ => by simp, fun hf => absurd hf (by simp)⟩
  | succ n ih =>
    intro e ga r0 ga2 r found h
    unfold epochsLoop at h
    split at h
    · exact absurd h (by simp)
    · rename_i ga1 ft hc
      simp only [Option.some.injEq, Prod.mk.injEq] at h
      obtain ⟨h1, _, h3⟩ := h
      subst h1 h3
      obtain ⟨a1, a2, _, _, _, _, _, _, _, _, _, _, _, m, _, hf, _⟩ :=
        calculateFitnessScores_frame ga ga1 ft true hc
      refine ⟨a2, fun hf2 => absurd hf2 (by simp), fun _ => ⟨0, by omega, by simpa using a1,
        m, hf.1 rfl⟩⟩
    · rename_i ga1 ft hc
      obtain ⟨a1, a2, _⟩ := calculateFitnessScores_frame ga ga1 ft false hc
      split at h
      · exact absurd h (by simp)
      · rename_i ga3 hn
        obtain ⟨b1, b2, _⟩ := nextGeneration_frame ga1 ga3 _ hn
        obtain ⟨c1, c2, c3⟩ := ih (e + 1) ga3 ft ga2 r found h
        refine ⟨by rw [c1, b2, a2], ?_, ?_⟩
        · intro hf
          rw [c2 hf, b1, a1]
          push_cast
          ring
        · intro hf
          obtain ⟨m, hm, hg, t, ht⟩ := c3 hf
          refine ⟨m + 1, by omega, ?_, t, by rw [← a2, ← b2]; exact ht⟩
          rw [hg, b1, a1]
          push_cast
          ring
theorem oneIntSchema_eq (cross : CrossoverOp) (flips : Int) :
    oneIntSchema cross flips
      = { chromosomes := [{ type_ := .int, bytesIndex := 0, bytesLength := 8,
                            crossover := some cross, mutate := some (.bitString ⟨flips, 1⟩),
                            genes := [{ type_ := .int, toLocus := { bitWidth := 64 } }] }],
          sizeInBytes := 8 } := by
  rfl
theorem oneInt_Decode0 (cross : CrossoverOp) (flips : Int) :
    (oneIntSchema cross flips).Decode { root := [0, 0, 0, 0, 0, 0, 0, 0] }
        { mem := sixteenBytes, off := 0, len := 8 }
      = some { root := [1, 2, 3, 4, 5, 6, 7, 8] } := by
  rw [oneIntSchema_eq]
  simp only [Schema.Decode, decodeChromosomes]
  decide

theorem oneInt_Decode1 (cross : CrossoverOp) (flips : Int) :
    (oneIntSchema cross flips).Decode { root := [1, 2, 3, 4, 5, 6, 7, 8] }
        { mem := sixteenBytes, off := 8, len := 8 }
      = some { root := [9, 10, 11, 12, 13, 14, 15, 16] } := by
  rw [oneIntSchema_eq]
  simp only [Schema.Decode, decodeChromosomes]
  decide

theorem oneInt_Randomize (cross : CrossoverOp) (flips : Int) (mem : List Nat) (o n : Nat) :
    (oneIntSchema cross flips).Randomize (fun n => n + 1) { mem := mem, off := o, len := 8 } n
      = (randomizeLoop 1 (fun n => n + 1) { mem := mem, off := o, len := 8 } (List.range 8)
          (mem, n)).map fun r => ({ mem := r.1, off := o, len := 8 }, r.2) := by
  rw [oneIntSchema_eq]
  simp only [Schema.Randomize, randomizeChromosomes, Chromosome.Randomize]
  cases randomizeLoop 1 (fun n => n + 1) { mem := mem, off := o, len := 8 } (List.range 8)
      (mem, n) <;> rfl
theorem oneInt_New (cross : CrossoverOp) (flips : Int) :
    New ℚ (oneIntSchema cross flips) 2 (fun n => n + 1)
      = some { size := 2, chromosomeLen := 8, genotype := sixteenBytes, fitness := [0, 0],
               totalFitness := 0, isSorted := false, fittest := 0, worst := 0,
               schema := oneIntSchema cross flips } := by
  have hs : (oneIntSchema cross flips).sizeInBytes = 8 := by rw [oneIntSchema_eq]
  have hsz : (oneIntSchema cross flips).Size = 8 := hs
  have h1 : randomizeLoop 1 (fun n => n + 1)
      { mem := [0, 0, 0, 0, 0, 0, 0, 0, 0, 0, 0, 0, 0, 0, 0, 0], off := 0, len := 8 }
      [0, 1, 2, 3, 4, 5, 6, 7] ([0, 0, 0, 0, 0, 0, 0, 0, 0, 0, 0, 0, 0, 0, 0, 0], 0)
      = some ([1, 2, 3, 4, 5, 6, 7, 8, 0, 0, 0, 0, 0, 0, 0, 0], 8) := by
    decide
  have h2 : randomizeLoop 1 (fun n => n + 1)
      { mem := [1, 2, 3, 4, 5, 6, 7, 8, 0, 0, 0, 0, 0, 0, 0, 0], off := 8, len := 8 }
      [0, 1, 2, 3, 4, 5, 6, 7] ([1, 2, 3, 4, 5, 6, 7, 8, 0, 0, 0, 0, 0, 0, 0, 0], 8)
      = some (sixteenBytes, 16) := by
    decide
  simp [New, hs, hsz, randomizeIndividuals, List.range, List.range.loop, Genomes.Genotype,
    oneInt_Randomize, h1, h2]
theorem oneIntSolver_ok (cross : CrossoverOp) (flips : Int) (opts : List (SolverOption ℚ))
    (o : options ℚ) (ho : applyOptions opts { populationSize := 2 } = some o) :
    oneIntSolver cross flips opts
      = .ok { schema := oneIntSchema cross flips, phenotype := intType, fitnessFunc := lowByte,
              opts := o,
              population := { size := 2, chromosomeLen := 8, genotype := sixteenBytes,
                              fitness := [0, 0], totalFitness := 0, isSorted := false,
                              fittest := 0, worst := 0, schema := oneIntSchema cross flips },
              breedingPool := [nilSlice, nilSlice], generation := 1 } := by
  unfold oneIntSolver NewSolver
  simp only [ho, oneInt_New]
  rfl

theorem oneInt_evaluation (S : Schema)
    (e0 : S.Init intType = some { root := [0, 0, 0, 0, 0, 0, 0, 0] })
    (e1 : S.Decode { root := [0, 0, 0, 0, 0, 0, 0, 0] }
        { mem := sixteenBytes, off := 0, len := 8 } = some { root := [1, 2, 3, 4, 5, 6, 7, 8] })
    (e2 : S.Decode { root := [1, 2, 3, 4, 5, 6, 7, 8] }
        { mem := sixteenBytes, off := 8, len := 8 }
      = some { root := [9, 10, 11, 12, 13, 14, 15, 16] })
    (ga : gaSolver ℚ) (h : ga.isOneInt S) :
    ∃ ga1 r, calculateFitnessScores ga
        = some (ga1, r, decide (ga.opts.targetFitness = some 9)) ∧
      ga1.isOneInt S ∧ ga1.generation = ga.generation ∧ ga1.opts = ga.opts ∧
      ga1.population.fitness = [1, 9] ∧ r.index = 1 ∧ ga1.population.fittest = 1 ∧
      ga1.population.worst = 0 ∧ ga1.population.isSorted = false ∧
      ga1.breedingPool = ga.breedingPool := by
  obtain ⟨h1, h2, h3, h4, h5, h6, h7, h8, h9⟩ := h
  obtain ⟨schema, ph, ⟨⟨size, cl, geno, fit, tot, srt, ft, wt⟩, pschema⟩, pool, gen, ff, opts⟩ := ga
  simp only at h1 h2 h3 h4 h5 h6 h7 h8 h9
  subst h1 h2 h3 h4 h5 h6 h7
  obtain ⟨a, b, rfl⟩ : ∃ a b, fit = [a, b] := by
    match fit, h8 with
    | [a, b], _ => exact ⟨a, b, rfl⟩
  have hl : sixteenBytes.length = 16 := rfl
  simp [calculateFitnessScores, e0, Population.Reset, Genomes.NIndividuals, scoresLoop,
    List.range, List.range.loop, Genomes.Genotype, hl, e1, e2, lowByte,
    Genomes.SetFitness, indexAt, Genomes.Fittest]
  refine ⟨_, _, ⟨rfl, rfl, ?_⟩, ⟨rfl, rfl, rfl, rfl, rfl, rfl, rfl, rfl, h9⟩, rfl, rfl,
    rfl, rfl, rfl, rfl, rfl, rfl⟩
  cases opts.targetFitness with
  | none => simp
  | some t =>
    simp only [Option.some.injEq]
    congr 1
    exact propext eq_comm
theorem mutateBits_const {K : Type} [LinearOrder K] (p u : K) (n0 : Nat) :
    (List.range 8).foldl (mutateBit p (fun _ => u)) (0, n0)
      = (if u < p then 255 else 0, n0 + 8) := by
  by_cases h : u < p <;> simp [List.range, List.range.loop, mutateBit, h]

theorem mutateLoop_const {K : Type} [LinearOrder K] (p u : K) :
    ∀ (genome : List Nat) (n : Nat),
      (mutateLoop p (fun _ => u) genome n).1
        = if u < p then genome.map (fun b => b ^^^ 255) else genome := by
  intro genome
  induction genome with
  | nil => intro n; simp [mutateLoop]
  | cons b rest ih =>
    intro n
    unfold mutateLoop
    simp only [mutateBits_const, ih]
    by_cases h : u < p <;> simp [h]

theorem oneInt_select (S : Schema) (ga : gaSolver ℚ) (h : ga.isOneInt S)
    (h10 : ga.opts.selectionOp = some .random) (h11 : ga.opts.elite.len = 0) (u : ℚ) :
    ∃ ga1, selectBreedingPool ga (constDraws u) = some ga1 ∧ ga1.isOneInt S ∧
      ga1.generation = ga.generation ∧ ga1.opts = ga.opts ∧
      ga1.breedingPool = [{ mem := sixteenBytes, off := 0, len := 8 },
                          { mem := sixteenBytes, off := 8, len := 8 }] := by
  obtain ⟨h1, h2, h3, h4, h5, h6, h7, h8, h9⟩ := h
  obtain ⟨schema, ph, ⟨⟨size, cl, geno, fit, tot, srt, ft, wt⟩, pschema⟩, pool, gen, ff, opts⟩ := ga
  simp only at h1 h2 h3 h4 h5 h6 h7 h8 h9 h10 h11
  subst h1 h2 h3 h4 h5 h6 h7
  obtain ⟨x, y, rfl⟩ : ∃ x y, pool = [x, y] := by
    match pool, h9 with
    | [x, y], _ => exact ⟨x, y, rfl⟩
  have hl : sixteenBytes.length = 16 := rfl
  simp [selectBreedingPool, elitePart, h10, h11, SelectionOp.SelectInto,
    random.SelectInto, randomLoop, List.range, List.range.loop, Genomes.NIndividuals,
    Genomes.Genotype, hl, constDraws, Genomes.afterCall]
  exact ⟨rfl, rfl, rfl, rfl, rfl, rfl, rfl, h8, rfl⟩

theorem oneInt_breedPairs (S : Schema) (d : EpochDraws ℚ) (p : Population ℚ)
    (h5 : p.size = 2) (h6 : p.chromosomeLen = 8) (h7 : p.genotype = sixteenBytes)
    (r : OpResult) (m1 m2 : List Nat) (hr : r = .done m1 ∨ r = .failed m1)
    (hx : S.Crossover (d.crossover 0) sixteenBytes
        { off := 0, len := 8, cap := 16 } { off := 8, len := 8, cap := 8 }
        { off := 0, len := 8, cap := 16 } { off := 8, len := 8, cap := 8 } = r)
    (hm : S.Mutate (d.mutate 0) m1
        [{ off := 0, len := 8, cap := 16 }, { off := 8, len := 8, cap := 8 }] = .done m2) :
    breedPairs S [{ mem := sixteenBytes, off := 0, len := 8 },
                  { mem := sixteenBytes, off := 8, len := 8 }] d [0] p
      = some { p with genotype := m2 } := by
  obtain ⟨⟨size, cl, geno, fit, tot, srt, ft, wt⟩, pschema⟩ := p
  simp only at h5 h6 h7
  subst h5 h6 h7
  have g0 : Genomes.Genotype
      ({ size := 2, chromosomeLen := 8, genotype := sixteenBytes, fitness := fit,
         totalFitness := tot, isSorted := srt, fittest := ft, worst := wt } : Genomes ℚ)
      (0 : Int) = some { mem := sixteenBytes, off := 0, len := 8 } := by
    simp [Genomes.Genotype, Genomes.NIndividuals, sixteenBytes]
  have g1 : Genomes.Genotype
      ({ size := 2, chromosomeLen := 8, genotype := sixteenBytes, fitness := fit,
         totalFitness := tot, isSorted := srt, fittest := ft, worst := wt } : Genomes ℚ)
      (1 : Int) = some { mem := sixteenBytes, off := 8, len := 8 } := by
    simp [Genomes.Genotype, Genomes.NIndividuals, sixteenBytes]
  have b0 : ByteSlice.slab { mem := sixteenBytes, off := 0, len := 8 }
      = { off := 0, len := 8, cap := 16 } := by decide
  have b1 : ByteSlice.slab { mem := sixteenBytes, off := 8, len := 8 }
      = { off := 8, len := 8, cap := 8 } := by decide
  rcases hr with hr | hr <;> subst hr <;>
    simp [breedPairs, g0, g1, b0, b1, hx, hm]

theorem oneInt_nextGeneration (S : Schema) (ga : gaSolver ℚ) (h : ga.isOneInt S)
    (h10 : ga.opts.selectionOp = some .random) (h11 : ga.opts.elite.len = 0) (u : ℚ)
    (r : OpResult) (m1 m2 : List Nat) (hr : r = .done m1 ∨ r = .failed m1)
    (hx : S.Crossover ((constDraws u).crossover 0) sixteenBytes
        { off := 0, len := 8, cap := 16 } { off := 8, len := 8, cap := 8 }
        { off := 0, len := 8, cap := 16 } { off := 8, len := 8, cap := 8 } = r)
    (hm : S.Mutate ((constDraws u).mutate 0) m1
        [{ off := 0, len := 8, cap := 16 }, { off := 8, len := 8, cap := 8 }] = .done m2) :
    ∃ ga2, nextGeneration ga (constDraws u) = some ga2 ∧
      ga2.generation = ga.generation + 1 ∧ ga2.opts = ga.opts ∧
      ga2.population.genotype = m2 ∧ (m2 = sixteenBytes → ga2.isOneInt S) := by
  obtain ⟨ga1, hs, hi, hg, ho, hp⟩ := oneInt_select S ga h h10 h11 u
  obtain ⟨i1, i2, i3, i4, i5, i6, i7, i8, i9⟩ := hi
  have hb := oneInt_breedPairs S (constDraws u) ga1.population i5 i6 i7 r m1 m2 hr hx hm
  have hn : ga1.population.NIndividuals = 2 := i5
  have hlist : (List.range ((ga1.population.NIndividuals.toNat + 1) / 2)).map (fun i => 2 * i)
      = [0] := by
    rw [hn]
    decide
  have hn2 : nextGeneration ga (constDraws u)
      = some { ga1 with population := { ga1.population with genotype := m2 },
                        generation := ga1.generation + 1 } := by
    unfold nextGeneration
    simp only [hs, hlist, i1, hp, hb, Option.map_some']
  refine ⟨_, hn2, ?_, ?_, ?_, ?_⟩
  · simp only [hg]
  · exact ho
  · rfl
  · intro hm2
    exact ⟨i1, i2, i3, i4, i5, i6, hm2, i8, i9⟩
theorem bitString_p_one (l : List Nat) (hl : l.length = 8) :
    bitString.p { n := Fraction.val ℚ ⟨64, 1⟩ } l.length = 1 := by
  rw [hl]
  unfold bitString.p Fraction.val
  norm_num
theorem Mutate_flip_all (mem : List Nat) (w : Slab) (hb : (w.bytes mem).length = 8) :
    MutationOp.Mutate (.bitString ⟨64, 1⟩) (fun _ => (1 / 2 : ℚ)) mem w
      = .done (mem.take w.off ++ ((w.bytes mem).map (fun b => b ^^^ 255)
          ++ mem.drop (w.off + w.len))) := by
  have hq1 : ((1 / 2 : ℚ) < 1) := by norm_num
  simp only [MutationOp.Mutate, bitString.Mutate, mutateLoop_const, bitString_p_one _ hb, hq1,
    if_true]
theorem oneInt_Mutate_flip (S : Schema) (gs : List Gene)
    (hS : S.chromosomes = [{ type_ := .int, bytesIndex := 0, bytesLength := 8,
                             crossover := some (.kPoints 64),
                             mutate := some (.bitString ⟨64, 1⟩), genes := gs }]) :
    S.Mutate ((constDraws (1 / 2)).mutate 0) sixteenBytes
        [{ off := 0, len := 8, cap := 16 }, { off := 8, len := 8, cap := 8 }]
      = .done (sixteenBytes.map fun b => b ^^^ 255) := by
  have m1 := Mutate_flip_all sixteenBytes { off := 0, len := 8, cap := 16 } (by decide)
  have m2 := Mutate_flip_all
    [254, 253, 252, 251, 250, 249, 248, 247, 9, 10, 11, 12, 13, 14, 15, 16]
    { off := 8, len := 8, cap := 8 } (by decide)
  have r1 : List.take 0 sixteenBytes ++ (List.map (fun b => b ^^^ 255)
      (Slab.bytes { off := 0, len := 8, cap := 16 } sixteenBytes) ++ List.drop (0 + 8) sixteenBytes)
      = [254, 253, 252, 251, 250, 249, 248, 247, 9, 10, 11, 12, 13, 14, 15, 16] := by decide
  have r2 : List.take 8 [254, 253, 252, 251, 250, 249, 248, 247, 9, 10, 11, 12, 13, 14, 15, 16]
      ++ (List.map (fun b => b ^^^ 255) (Slab.bytes { off := 8, len := 8, cap := 8 }
        [254, 253, 252, 251, 250, 249, 248, 247, 9, 10, 11, 12, 13, 14, 15, 16])
      ++ List.drop (8 + 8) [254, 253, 252, 251, 250, 249, 248, 247, 9, 10, 11, 12, 13, 14, 15, 16])
      = sixteenBytes.map fun b => b ^^^ 255 := by decide
  simp only [r1] at m1
  simp only [r2] at m2
  have s1 : Slab.slice { off := 0, len := 8, cap := 16 } 0 (0 + 8)
      = some { off := 0, len := 8, cap := 16 } := by decide
  have s2 : Slab.slice { off := 8, len := 8, cap := 8 } 0 (0 + 8)
      = some { off := 8, len := 8, cap := 8 } := by decide
  simp only [Schema.Mutate, mutateGenotypes, mutateChromosomes, hS, s1, s2, constDraws, m1, m2]

theorem kPoints_CrossoverAt_failed (s : kPoints) (d : Nat → Nat) (mem : List Nat)
    (mom dad child1 child2 : Slab) (h : s.k ≥ (mom.len : Int) * 8) :
    s.CrossoverAt d mem mom dad child1 child2 = .failed mem := by
  unfold kPoints.CrossoverAt
  simp only [h, if_true]

theorem oneInt_Crossover_failed (S : Schema) (gs : List Gene)
    (hS : S.chromosomes = [{ type_ := .int, bytesIndex := 0, bytesLength := 8,
                             crossover := some (.kPoints 64),
                             mutate := some (.bitString ⟨64, 1⟩), genes := gs }]) :
    S.Crossover ((constDraws (1 / 2)).crossover 0) sixteenBytes
        { off := 0, len := 8, cap := 16 } { off := 8, len := 8, cap := 8 }
        { off := 0, len := 8, cap := 16 } { off := 8, len := 8, cap := 8 }
      = .failed sixteenBytes := by
  obtain ⟨s, hk, hsk⟩ : ∃ s, KPoints 64 = some s ∧ s.k = 64 := ⟨_, rfl, rfl⟩
  have hf : ∀ (d : Nat → Nat) (mem : List Nat) (o c : Nat) (dad child1 child2 : Slab),
      s.CrossoverAt d mem { off := o, len := 8, cap := c } dad child1 child2 = .failed mem := by
    intro d mem o c dad child1 child2
    exact kPoints_CrossoverAt_failed _ _ _ _ _ _ _
      (by rw [hsk]; show (64 : Int) ≥ ((8 : Nat) : Int) * 8; decide)
  simp [Schema.Crossover, hS, crossoverChromosomes, Slab.slice, CrossoverOp.Crossover, hk, hf]

theorem oneInt_breed_copy (S : Schema) (gs : List Gene)
    (hS : S.chromosomes = [{ type_ := .int, bytesIndex := 0, bytesLength := 8,
                             crossover := some (.probability ⟨3, 4⟩ SinglePoint),
                             mutate := some (.bitString ⟨0, 1⟩), genes := gs }])
    (ga : gaSolver ℚ) (h : ga.isOneInt S) (h10 : ga.opts.selectionOp = some .random)
    (h11 : ga.opts.elite.len = 0) :
    ∃ ga2, nextGeneration ga (constDraws (7 / 8)) = some ga2 ∧ ga2.isOneInt S ∧
      ga2.generation = ga.generation + 1 ∧ ga2.opts = ga.opts := by
  have hx : S.Crossover ((constDraws (7 / 8)).crossover 0) sixteenBytes
      { off := 0, len := 8, cap := 16 } { off := 8, len := 8, cap := 8 }
      { off := 0, len := 8, cap := 16 } { off := 8, len := 8, cap := 8 }
      = .done sixteenBytes := by
    have hq1 : (3 / 4 : ℚ) ≤ 7 / 8 := by norm_num
    have hc1 : Slab.copy sixteenBytes { off := 0, len := 8, cap := 16 }
        { off := 0, len := 8, cap := 16 } = sixteenBytes := by decide
    have hc2 : Slab.copy sixteenBytes { off := 8, len := 8, cap := 8 }
        { off := 8, len := 8, cap := 8 } = sixteenBytes := by decide
    have hv : Fraction.val ℚ ⟨3, 4⟩ = 3 / 4 := by
      unfold Fraction.val
      norm_num
    simp [Schema.Crossover, hS, crossoverChromosomes, Slab.slice, CrossoverOp.Crossover,
      constDraws, hv, hq1, hc1, hc2]
  have hm : S.Mutate ((constDraws (7 / 8)).mutate 0) sixteenBytes
      [{ off := 0, len := 8, cap := 16 }, { off := 8, len := 8, cap := 8 }]
      = .done sixteenBytes := by
    have hq2 : ¬ ((7 / 8 : ℚ) < 0) := by norm_num
    have hv : Fraction.val ℚ ⟨0, 1⟩ = 0 := by
      unfold Fraction.val
      norm_num
    have hm1 : ∀ (mem : List Nat) (w : Slab),
        MutationOp.Mutate (.bitString ⟨0, 1⟩) (fun _ => (7 / 8 : ℚ)) mem w
          = .done (mem.take w.off ++ (w.bytes mem ++ mem.drop (w.off + w.len))) := by
      intro mem w
      simp only [MutationOp.Mutate, bitString.Mutate, mutateLoop_const, bitString.p, hv,
        zero_div, hq2, if_false]
    have r1 : List.take 0 sixteenBytes ++ (Slab.bytes { off := 0, len := 8, cap := 16 }
        sixteenBytes ++ List.drop (0 + 8) sixteenBytes) = sixteenBytes := by decide
    have r2 : List.take 8 sixteenBytes ++ (Slab.bytes { off := 8, len := 8, cap := 8 }
        sixteenBytes ++ List.drop (8 + 8) sixteenBytes) = sixteenBytes := by decide
    have s1 : Slab.slice { off := 0, len := 8, cap := 16 } 0 (0 + 8)
        = some { off := 0, len := 8, cap := 16 } := by decide
    have s2 : Slab.slice { off := 8, len := 8, cap := 8 } 0 (0 + 8)
        = some { off := 8, len := 8, cap := 8 } := by decide
    simp only [Schema.Mutate, mutateGenotypes, mutateChromosomes, hS, s1, s2, constDraws, hm1,
      r1, r2]
  obtain ⟨ga2, hn, hg, ho, _, hone⟩ := oneInt_nextGeneration S ga h h10 h11 (7 / 8) _ _ _
    (Or.inl rfl) hx hm
  exact ⟨ga2, hn, hone rfl, hg, ho⟩

theorem oneInt_copy_run (target : Option ℚ) (o : options ℚ)
    (ho : o = { populationSize := 2, selectionOp := some .random, targetFitness := target })
    (ga0 : gaSolver ℚ)
    (hga : ga0 = { schema := oneIntSchema (.probability ⟨3, 4⟩ SinglePoint) 0,
                   phenotype := intType, fitnessFunc := lowByte, opts := o,
                   population := { size := 2, chromosomeLen := 8, genotype := sixteenBytes,
                                   fitness := [0, 0], totalFitness := 0, isSorted := false,
                                   fittest := 0, worst := 0,
                                   schema := oneIntSchema (.probability ⟨3, 4⟩ SinglePoint) 0 },
                   breedingPool := [nilSlice, nilSlice], generation := 1 }) :
    (target = none → ∃ ga2 r, ga0.Epochs 2 (fun _ => constDraws (7 / 8)) = some (ga2, r, false) ∧
      ga2.Generation = 3) ∧
    (target = some 9 → ∃ ga1 r, ga0.Epochs 2 (fun _ => constDraws (7 / 8)) = some (ga1, r, true) ∧
      ga1.Generation = 1 ∧ r.index = 1 ∧ ga1.population.genotype = ga0.population.genotype) := by
  have hS := congrArg Schema.chromosomes (oneIntSchema_eq (.probability ⟨3, 4⟩ SinglePoint) 0)
  simp only at hS
  have e0 : (oneIntSchema (.probability ⟨3, 4⟩ SinglePoint) 0).Init intType
      = some { root := [0, 0, 0, 0, 0, 0, 0, 0] } := by
    unfold Schema.Init
    rfl
  have hone : ga0.isOneInt (oneIntSchema (.probability ⟨3, 4⟩ SinglePoint) 0) := by
    rw [hga, ho]
    exact ⟨rfl, rfl, rfl, rfl, rfl, rfl, rfl, rfl, rfl⟩
  have hgen : ga0.generation = 1 := by rw [hga]
  have hopt : ga0.opts.targetFitness = target := by rw [hga, ho]
  have hsel : ga0.opts.selectionOp = some .random := by rw [hga, ho]
  have hel : ga0.opts.elite.len = 0 := by rw [hga, ho]
  have hgeno : ga0.population.genotype = sixteenBytes := by rw [hga]
  obtain ⟨ga1, r1, hc1, hi1, hg1, ho1, _, hr1, _⟩ := oneInt_evaluation _ e0 (oneInt_Decode0 _ _)
    (oneInt_Decode1 _ _) ga0 hone
  refine ⟨?_, ?_⟩
  · intro ht
    rw [hopt, ht] at hc1
    obtain ⟨ga2, hn2, hi2, hg2, ho2⟩ := oneInt_breed_copy _ _ hS ga1 hi1 (by rw [ho1, hsel])
      (by rw [ho1, hel])
    obtain ⟨ga3, r3, hc3, hi3, hg3, ho3, _⟩ := oneInt_evaluation _ e0 (oneInt_Decode0 _ _)
      (oneInt_Decode1 _ _) ga2 hi2
    rw [ho2, ho1, hopt, ht] at hc3
    obtain ⟨ga4, hn4, hi4, hg4, ho4⟩ := oneInt_breed_copy _ _ hS ga3 hi3
      (by rw [ho3, ho2, ho1, hsel]) (by rw [ho3, ho2, ho1, hel])
    refine ⟨ga4, r3, ?_, ?_⟩
    · show epochsLoop _ 2 0 ga0 _ = _
      simp only [epochsLoop]
      have d1 : decide ((none : Option ℚ) = some 9) = false := by simp
      rw [d1] at hc1 hc3
      simp only [hc1, hn2, hc3, hn4]
    · show ga4.generation = 3
      rw [hg4, hg3, hg2, hg1, hgen]
      rfl
  · intro ht
    rw [hopt, ht] at hc1
    refine ⟨ga1, r1, ?_, ?_, hr1, ?_⟩
    · show epochsLoop _ 2 0 ga0 _ = _
      simp only [epochsLoop]
      have d1 : decide ((some 9 : Option ℚ) = some 9) = true := by simp
      rw [d1] at hc1
      simp only [hc1]
    · show ga1.generation = 1
      rw [hg1, hgen]
    · rw [hgeno]
      exact hi1.2.2.2.2.2.2.1
/-- C23: `Epochs(n)` runs at most `n` epochs in sequence.  A new solver starts at generation
1.  The evaluation of an epoch leaves the generation and the genomes as they are and
reports `found` exactly when a target is configured and equals the fitness `Fittest`
returns, which is the greatest fitness of the population; an epoch that finds the target
makes `Epochs` return at once with `found = true`, without breeding; any other epoch runs
`nextGeneration`, which advances the generation by 1, and the loop goes on.  So when
`Epochs(n)` returns with `found = false` the generation has grown by `n`, with
`found = true` by less than `n`, and without a target `found` is false.  For a solver of
two individuals, whose fitness values are 1 and 9: `Epochs(2)` without a target returns
`found = false` at generation 3, and with the target 9 it returns `found = true` for
individual 1 at generation 1 with the genomes it started with. -/
theorem epochs_control_flow (K : Type) [LinearOrderedField K] :
    (∀ (schema : Schema) (P : PhenotypeType) (f : Phenotype → Option K) (N : Int)
        (opts : List (SolverOption K)) (rnd : Nat → Nat) (ga : gaSolver K),
      NewSolver K schema P f N opts rnd = .ok ga → ga.Generation = 1) ∧
    (∀ (ga ga1 : gaSolver K) (r : Result K) (found : Bool),
      calculateFitnessScores ga = some (ga1, r, found) →
      ga1.Generation = ga.Generation ∧ ga1.population.genotype = ga.population.genotype ∧
      ∃ m, ga1.population.Fittest = some (r.index, m) ∧
        (found = true ↔ ga.opts.targetFitness = some m) ∧
        ((ga.population.fitness.length : Int) = ga.population.size →
          m ∈ ga1.population.fitness ∧ ∀ x ∈ ga1.population.fitness, x ≤ m)) ∧
    (∀ (d : Nat → EpochDraws K) (n e : Nat) (ga ga1 : gaSolver K) (r0 r : Result K),
      calculateFitnessScores ga = some (ga1, r, true) →
      epochsLoop d (n + 1) e ga r0 = some (ga1, r, true)) ∧
    (∀ (d : Nat → EpochDraws K) (n e : Nat) (ga ga1 : gaSolver K) (r0 r : Result K),
      calculateFitnessScores ga = some (ga1, r, false) →
      epochsLoop d (n + 1) e ga r0
        = (nextGeneration ga1 (d e)).bind fun ga2 => epochsLoop d n (e + 1) ga2 r) ∧
    (∀ (ga ga2 : gaSolver K) (d : EpochDraws K), nextGeneration ga d = some ga2 →
      ga2.Generation = ga.Generation + 1) ∧
    (∀ (ga ga2 : gaSolver K) (n : Int) (d : Nat → EpochDraws K) (r : Result K) (found : Bool),
      ga.Epochs n d = some (ga2, r, found) →
      (found = false → ga2.Generation = ga.Generation + n.toNat) ∧
      (found = true → ∃ m : Nat, (m : Int) < n ∧ ga2.Generation = ga.Generation + m) ∧
      (ga.opts.targetFitness = none → found = false)) ∧
    (∃ ga0 ga2 r, oneIntSolver (.probability ⟨3, 4⟩ SinglePoint) 0 [WithSelection .random]
        = .ok ga0 ∧ ga0.Generation = 1 ∧
      ga0.Epochs 2 (fun _ => constDraws (7 / 8)) = some (ga2, r, false) ∧
      ga2.Generation = 3) ∧
    (∃ ga0 ga1 r, oneIntSolver (.probability ⟨3, 4⟩ SinglePoint) 0
        [WithSelection .random, WithTargetFitness 9] = .ok ga0 ∧
      ga0.Epochs 2 (fun _ => constDraws (7 / 8)) = some (ga1, r, true) ∧
      ga1.Generation = 1 ∧ r.index = 1 ∧
      ga1.population.genotype = ga0.population.genotype) := by
  refine ⟨?_, ?_, ?_, ?_, ?_, ?_, ?_, ?_⟩
  · intro schema P f N opts rnd ga h
    unfold NewSolver at h
    split at h
    · exact absurd h (by simp)
    · split at h
      · exact absurd h (by simp)
      · split at h
        · exact absurd h (by simp)
        · simp only [Outcome.ok.injEq] at h
          subst h
          rfl
  · intro ga ga1 r found h
    obtain ⟨a1, _, _, _, _, _, a7, _⟩ := calculateFitnessScores_frame ga ga1 r found h
    obtain ⟨_, _, _, _, _, _, _, _, _, _, _, _, _, m, hm, hf, _⟩ :=
      calculateFitnessScores_frame ga ga1 r found h
    refine ⟨a1, a7, m, hm, hf, ?_⟩
    intro hlen
    obtain ⟨m2, hm2, hmem, hmax, _⟩ := evaluation_maximum ga ga1 r found h hlen
    rw [hm] at hm2
    simp only [Option.some.injEq, Prod.mk.injEq, true_and] at hm2
    subst hm2
    exact ⟨hmem, hmax⟩
  · intro d n e ga ga1 r0 r h
    simp only [epochsLoop, h]
  · intro d n e ga ga1 r0 r h
    simp only [epochsLoop, h]
    cases nextGeneration ga1 (d e) <;> rfl
  · intro ga ga2 d h
    exact (nextGeneration_frame ga ga2 d h).1
  · intro ga ga2 n d r found h
    obtain ⟨c1, c2, c3⟩ := epochsLoop_spec d n.toNat 0 ga (Result.zero K) ga2 r found h
    refine ⟨c2, ?_, ?_⟩
    · intro hf
      obtain ⟨m, hm, hg, _⟩ := c3 hf
      exact ⟨m, by omega, hg⟩
    · intro ht
      cases hfd : found with
      | false => rfl
      | true =>
        obtain ⟨_, _, _, t, htt⟩ := c3 hfd
        rw [ht] at htt
        exact absurd htt (by simp)
  · obtain ⟨h1, _⟩ := oneInt_copy_run none _ rfl _ rfl
    obtain ⟨ga2, r, hr, hg⟩ := h1 rfl
    exact ⟨_, ga2, r, oneIntSolver_ok _ _ _ _ rfl, rfl, hr, hg⟩
  · obtain ⟨_, h2⟩ := oneInt_copy_run (some 9) _ rfl _ rfl
    obtain ⟨ga1, r, hr, hg, hi, hgeno⟩ := h2 rfl
    exact ⟨_, ga1, r, oneIntSolver_ok _ _ _ _ rfl, hr, hg, hi, hgeno⟩
theorem oneInt_breed_error (S : Schema) (gs : List Gene)
    (hS : S.chromosomes = [{ type_ := .int, bytesIndex := 0, bytesLength := 8,
                             crossover := some (.kPoints 64),
                             mutate := some (.bitString ⟨64, 1⟩), genes := gs }])
    (ga : gaSolver ℚ) (h : ga.isOneInt S) (h10 : ga.opts.selectionOp = some .random)
    (h11 : ga.opts.elite.len = 0) :
    ga.schema.Crossover ((constDraws (1 / 2)).crossover 0) ga.population.genotype
        { off := 0, len := 8, cap := 16 } { off := 8, len := 8, cap := 8 }
        { off := 0, len := 8, cap := 16 } { off := 8, len := 8, cap := 8 }
      = .failed sixteenBytes ∧
    ∃ ga2, nextGeneration ga (constDraws (1 / 2)) = some ga2 ∧
      ga2.generation = ga.generation + 1 ∧
      ga2.population.genotype = sixteenBytes.map fun b => b ^^^ 255 := by
  have hx := oneInt_Crossover_failed S gs hS
  obtain ⟨ga2, hn, hg, _, hgeno, _⟩ := oneInt_nextGeneration S ga h h10 h11 (1 / 2) _ _ _
    (Or.inr rfl) hx (oneInt_Mutate_flip S gs hS)
  refine ⟨?_, ga2, hn, hg, hgeno⟩
  rw [h.1, h.2.2.2.2.2.2.1]
  exact hx

theorem oneIntSolver_isOneInt (cross : CrossoverOp) (flips : Int) :
    ∃ ga0, oneIntSolver cross flips [WithSelection .random] = .ok ga0 ∧
      ga0.isOneInt (oneIntSchema cross flips) ∧ ga0.generation = 1 ∧
      ga0.opts.targetFitness = none ∧ ga0.opts.selectionOp = some .random ∧
      ga0.opts.elite.len = 0 :=
  ⟨_, oneIntSolver_ok cross flips [WithSelection .random] _ rfl,
    ⟨rfl, rfl, rfl, rfl, rfl, rfl, rfl, rfl, rfl⟩, rfl, rfl, rfl, rfl⟩

/-- C24: the claim fails on the code.  `nextGeneration` and `selectBreedingPool` test the
error an operator returns and do nothing with it (the branches hold only `// TODO`), so the
loop over the pairs goes on and the generation is advanced.  Whenever `nextGeneration`
returns, the generation has grown by 1, and `selectBreedingPool` returns when the selection
operator returned an error.  For a solver of two genomes of 64 bits with the crossover
operator `KPoints(64)` and the mutation operator `BitString(64)`: `Schema.Crossover`
returns the error of a 64-point crossover on 64 bits for the only pair and leaves the
genomes as they are; `nextGeneration` returns all the same, with every bit of both genomes
flipped by the mutation and the generation advanced from 1 to 2. -/
theorem operator_errors_dropped (K : Type) [LinearOrderedField K] :
    (∀ (ga ga2 : gaSolver K) (d : EpochDraws K), nextGeneration ga d = some ga2 →
      ga2.Generation = ga.Generation + 1) ∧
    (∀ (ga : gaSolver K) (d : EpochDraws K) (p : Population K) (pool : List ByteSlice)
        (pos : Nat) (op : SelectionOp) (q : Genomes K) (buffer : List ByteSlice),
      elitePart ga = some (p, pool, pos) → ga.opts.selectionOp = some op →
      pos ≤ pool.length →
      op.SelectInto p.toGenomes d.selectFloat d.selectInt (pool.drop pos) = .failed q buffer →
      (selectBreedingPool ga d).isSome = true) ∧
    ∃ ga0 ga1 r ga2, oneIntSolver (.kPoints 64) 64 [WithSelection .random] = .ok ga0 ∧
      calculateFitnessScores ga0 = some (ga1, r, false) ∧
      ga1.Generation = 1 ∧ ga1.population.genotype = sixteenBytes ∧
      ga1.schema.Crossover ((constDraws (1 / 2)).crossover 0) ga1.population.genotype
          { off := 0, len := 8, cap := 16 } { off := 8, len := 8, cap := 8 }
          { off := 0, len := 8, cap := 16 } { off := 8, len := 8, cap := 8 }
        = .failed sixteenBytes ∧
      nextGeneration ga1 (constDraws (1 / 2)) = some ga2 ∧ ga2.Generation = 2 ∧
      ga2.population.genotype = sixteenBytes.map fun b => b ^^^ 255 := by
  refine ⟨?_, ?_, ?_⟩
  · intro ga ga2 d h
    exact (nextGeneration_frame ga ga2 d h).1
  · intro ga d p pool pos op q buffer h1 h2 h3 h4
    unfold selectBreedingPool
    simp only [h1, h2, h3, if_true, h4]
    rfl
  · have hS := congrArg Schema.chromosomes (oneIntSchema_eq (.kPoints 64) 64)
    simp only at hS
    have e0 : (oneIntSchema (.kPoints 64) 64).Init intType
        = some { root := [0, 0, 0, 0, 0, 0, 0, 0] } := by
      unfold Schema.Init
      rfl
    obtain ⟨ga0, hok, hone, hgen, htar, hsel, hel⟩ := oneIntSolver_isOneInt (.kPoints 64) 64
    obtain ⟨ga1, r1, hc1, hi1, hg1, ho1, _⟩ := oneInt_evaluation _ e0 (oneInt_Decode0 _ _)
      (oneInt_Decode1 _ _) ga0 hone
    have d1 : decide ((none : Option ℚ) = some 9) = false := by simp
    rw [htar, d1] at hc1
    obtain ⟨hx, ga2, hn2, hg2, hgeno2⟩ := oneInt_breed_error _ _ hS ga1 hi1
      (by rw [ho1, hsel]) (by rw [ho1, hel])
    refine ⟨ga0, ga1, r1, ga2, hok, hc1, ?_, hi1.2.2.2.2.2.2.1, hx, hn2, ?_, hgeno2⟩
    · show ga1.generation = 1
      rw [hg1, hgen]
    · show ga2.generation = 2
      rw [hg2, hg1, hgen]
      rfl

/-! ## The breeding pool -/

theorem eliteCopies_spec {K : Type} (p : Genomes K) (i : Nat) (slab : ByteSlice)
    (hs : p.Genotype (i : Int) = some slab) :
    ∀ (c : Nat) (pool : List ByteSlice) (pos : Nat), pos + c ≤ pool.length →
      ∃ pool2, eliteCopies p i c (pool, pos) = some (pool2, pos + c) ∧
        pool2.length = pool.length ∧
        ∀ k, pool2[k]? = if pos ≤ k ∧ k < pos + c then some slab else pool[k]? := by
  intro c
  induction c with
  | zero =>
    intro pool pos _
    refine ⟨pool, rfl, rfl, ?_⟩
    intro k
    have : ¬ (pos ≤ k ∧ k < pos + 0) := by omega
    simp only [this, if_false]
  | succ c ih =>
    intro pool pos h
    unfold eliteCopies
    simp only [hs]
    have hp : pos < pool.length := by omega
    rw [if_pos hp]
    obtain ⟨pool2, h1, h2, h3⟩ := ih (pool.set pos slab) (pos + 1) (by simp; omega)
    refine ⟨pool2, ?_, by simpa using h2, ?_⟩
    · rw [h1]
      congr 2
      omega
    · intro k
      rw [h3 k]
      by_cases hk : k = pos
      · subst hk
        have a1 : ¬ (k + 1 ≤ k ∧ k < k + 1 + c) := by omega
        have a2 : k ≤ k ∧ k < k + (c + 1) := by omega
        rw [if_neg a1, if_pos a2, List.getElem?_set_self hp]
      · rw [List.getElem?_set_ne (fun h => hk h.symm)]
        by_cases hin : pos + 1 ≤ k ∧ k < pos + 1 + c
        · have a2 : pos ≤ k ∧ k < pos + (c + 1) := by omega
          rw [if_pos hin, if_pos a2]
        · have a2 : ¬ (pos ≤ k ∧ k < pos + (c + 1)) := by omega
          rw [if_neg hin, if_neg a2]

theorem eliteLoop_spec {K : Type} (p : Genomes K) (n L copies : Nat) (hw : p.shaped n L) :
    ∀ (m i0 : Nat) (pool : List ByteSlice), i0 + m ≤ n → (i0 + m) * copies ≤ pool.length →
      ∃ pool2, eliteLoop p copies (List.range' i0 m) (pool, i0 * copies)
          = some (pool2, (i0 + m) * copies) ∧
        pool2.length = pool.length ∧
        (∀ i c, i0 ≤ i → i < i0 + m → c < copies →
          pool2[i * copies + c]? = p.Genotype (i : Int) ∧ (p.Genotype (i : Int)).isSome = true) ∧
        ∀ k, k < i0 * copies ∨ (i0 + m) * copies ≤ k → pool2[k]? = pool[k]? := by
  intro m
  induction m with
  | zero =>
    intro i0 pool _ _
    exact ⟨pool, rfl, rfl, fun i c h1 h2 _ => absurd h2 (by omega), fun _ _ => rfl⟩
  | succ m ih =>
    intro i0 pool h1 h2
    rw [List.range'_succ]
    unfold eliteLoop
    obtain ⟨hs, hc, _, hg⟩ := hw
    have hgen := Genotype_valid p i0 (by omega) (by rw [hg, hs, hc]; push_cast; rfl) (by omega)
    have e1 : (i0 + (m + 1)) * copies = (i0 + 1 + m) * copies := by
      congr 1
      omega
    have e2 : (i0 + 1) * copies = i0 * copies + copies := Nat.succ_mul _ _
    have e3 : (i0 + 1) * copies ≤ (i0 + 1 + m) * copies :=
      Nat.mul_le_mul_right _ (by omega)
    obtain ⟨pool1, a1, a2, a3⟩ := eliteCopies_spec p i0 _ hgen copies pool (i0 * copies)
      (by omega)
    rw [a1, ← e2]
    obtain ⟨pool2, b1, b2, b3, b4⟩ := ih (i0 + 1) pool1 (by omega) (by rw [a2]; omega)
    simp only [b1]
    refine ⟨pool2, by rw [e1], by rw [b2, a2], ?_, ?_⟩
    · intro i c hi1 hi2 hcc
      by_cases hi : i = i0
      · subst hi
        have hk : i * copies + c < (i + 1) * copies := by omega
        rw [b4 _ (Or.inl hk), a3]
        have : i * copies ≤ i * copies + c ∧ i * copies + c < i * copies + copies := by omega
        rw [if_pos this, hgen]
        exact ⟨rfl, rfl⟩
      · exact b3 i c (by omega) (by omega) hcc
    · intro k hk
      have hk2 : k < (i0 + 1) * copies ∨ (i0 + 1 + m) * copies ≤ k := by
        rcases hk with h | h
        · left; omega
        · right; omega
      rw [b4 k hk2, a3]
      have : ¬ (i0 * copies ≤ k ∧ k < i0 * copies + copies) := by
        rcases hk with h | h
        · omega
        · omega
      rw [if_neg this]
theorem randomLoop_spec {K : Type} (p : Genomes K) (n L : Nat) (hw : p.shaped n L)
    (hn : 0 < n) (pick : Nat → Nat) :
    ∀ (m i0 : Nat) (buffer : List ByteSlice), i0 + m ≤ buffer.length →
      ∃ b, randomLoop p pick (List.range' i0 m) buffer = some b ∧
        b.length = buffer.length ∧
        (∀ k, i0 ≤ k → k < i0 + m →
          b[k]? = p.Genotype ((pick k % n : Nat) : Int) ∧
          (p.Genotype ((pick k % n : Nat) : Int)).isSome = true) ∧
        ∀ k, k < i0 ∨ i0 + m ≤ k → b[k]? = buffer[k]? := by
  obtain ⟨hs, hc, _, hg⟩ := hw
  have hN : p.NIndividuals.toNat = n := by
    unfold Genomes.NIndividuals
    rw [hs]
    simp
  have hpos : ¬ p.NIndividuals ≤ 0 := by
    unfold Genomes.NIndividuals
    rw [hs]
    omega
  intro m
  induction m with
  | zero =>
    intro i0 buffer _
    exact ⟨buffer, rfl, rfl, fun k h1 h2 => absurd h2 (by omega), fun _ _ => rfl⟩
  | succ m ih =>
    intro i0 buffer h
    rw [List.range'_succ]
    unfold randomLoop
    rw [if_neg hpos, hN]
    have hlt : pick i0 % n < n := Nat.mod_lt _ hn
    have hgen := Genotype_valid p (pick i0 % n) (by omega)
      (by rw [hg, hs, hc]; push_cast; rfl) (by omega)
    simp only [hgen]
    obtain ⟨b, b1, b2, b3, b4⟩ := ih (i0 + 1) (buffer.set i0
      { mem := p.genotype, off := pick i0 % n * p.chromosomeLen.toNat,
        len := p.chromosomeLen.toNat }) (by simp; omega)
    refine ⟨b, b1, by simpa using b2, ?_, ?_⟩
    · intro k hk1 hk2
      by_cases hk : k = i0
      · subst hk
        rw [b4 k (Or.inl (by omega)), List.getElem?_set_self (by omega), hgen]
        exact ⟨rfl, rfl⟩
      · exact b3 k (by omega) (by omega)
    · intro k hk
      rw [b4 k (by omega), List.getElem?_set_ne (by omega)]

theorem rouletteScan_total {K : Type} [LinearOrderedField K] (p : Genomes K) :
    ∀ (l : List Nat) (s : K), (∀ i ∈ l, i < p.fitness.length) →
      (∃ idx, idx ∈ l ∧ rouletteScan p l s = .found idx) ∨
        ∃ s2, rouletteScan p l s = .exhausted s2 := by
  intro l
  induction l with
  | nil =>
    intro s _
    exact Or.inr ⟨s, rfl⟩
  | cons i rest ih =>
    intro s h
    have hi := h i (List.mem_cons_self _ _)
    have hfit : p.Fitness (i : Int) = some p.fitness[i] := by
      unfold Genomes.Fitness
      rw [indexAt_nat, List.getElem?_eq_getElem hi]
    unfold rouletteScan
    simp only [hfit]
    by_cases hle : s - p.fitness[i] ≤ 0
    · rw [if_pos hle]
      exact Or.inl ⟨i, List.mem_cons_self _ _, rfl⟩
    · rw [if_neg hle]
      rcases ih (s - p.fitness[i]) (fun j hj => h j (List.mem_cons_of_mem _ hj)) with
        ⟨idx, h1, h2⟩ | ⟨s2, h2⟩
      · exact Or.inl ⟨idx, List.mem_cons_of_mem _ h1, h2⟩
      · exact Or.inr ⟨s2, h2⟩

theorem rouletteLoop_total {K : Type} [LinearOrderedField K] (p : Genomes K) (n L : Nat)
    (hw : p.shaped n L) (tot : K) (draw : Nat → K) :
    ∀ (is : List Nat) (buffer : List ByteSlice),
      ∃ b, (rouletteLoop p tot draw is buffer = .done p b ∨
          rouletteLoop p tot draw is buffer = .failed p b) ∧ b.length = buffer.length := by
  obtain ⟨hs, hc, hf, hg⟩ := hw
  have hN : p.NIndividuals.toNat = n := by
    unfold Genomes.NIndividuals
    rw [hs]
    simp
  intro is
  induction is with
  | nil =>
    intro buffer
    exact ⟨buffer, Or.inl rfl, rfl⟩
  | cons i rest ih =>
    intro buffer
    unfold rouletteLoop
    rw [hN]
    rcases rouletteScan_total p (List.range n) (draw i * tot)
        (fun j hj => by rw [hf]; exact List.mem_range.1 hj) with ⟨idx, h1, h2⟩ | ⟨s2, h2⟩
    · rw [h2]
      have hgen := Genotype_valid p idx (by omega) (by rw [hg, hs, hc]; push_cast; rfl)
        (by rw [hs]; exact_mod_cast List.mem_range.1 h1)
      simp only [hgen]
      obtain ⟨b, b1, b2⟩ := ih (buffer.set i
        { mem := p.genotype, off := idx * p.chromosomeLen.toNat, len := p.chromosomeLen.toNat })
      exact ⟨b, b1, by simpa using b2⟩
    · rw [h2]
      exact ⟨buffer, Or.inr rfl, rfl⟩

theorem random_SelectInto_spec {K : Type} (p : Genomes K) (n L : Nat) (hw : p.shaped n L)
    (hn : 0 < n) (pick : Nat → Nat) (buffer : List ByteSlice) :
    ∃ b, random.SelectInto p pick buffer = .done p b ∧ b.length = buffer.length ∧
      ∀ k, k < buffer.length → ∃ idx, idx < n ∧ b[k]? = p.Genotype ((idx : Nat) : Int) ∧
        (p.Genotype ((idx : Nat) : Int)).isSome = true := by
  obtain ⟨b, b1, b2, b3, _⟩ := randomLoop_spec p n L hw hn pick buffer.length 0 buffer (by omega)
  unfold random.SelectInto
  rw [List.range_eq_range', b1]
  refine ⟨b, rfl, b2, ?_⟩
  intro k hk
  obtain ⟨c1, c2⟩ := b3 k (by omega) (by omega)
  exact ⟨pick k % n, Nat.mod_lt _ hn, c1, c2⟩

theorem SelectInto_total {K : Type} [LinearOrderedField K] (op : SelectionOp) (g : Genomes K)
    (n L : Nat) (hw : g.shaped n L) (hn : 0 < n)
    (hft : 0 ≤ g.fittest ∧ g.fittest < n) (hwt : 0 ≤ g.worst ∧ g.worst < n)
    (df : Nat → K) (di : Nat → Nat) (buffer : List ByteSlice) :
    ∃ q b, (op.SelectInto g df di buffer = .done q b ∨
        op.SelectInto g df di buffer = .failed q b) ∧
      q.genotype = g.genotype ∧ b.length = buffer.length := by
  cases op with
  | random =>
    obtain ⟨b, b1, b2, _⟩ := random_SelectInto_spec g n L hw hn di buffer
    exact ⟨g, b, Or.inl b1, rfl, b2⟩
  | rouletteWheel =>
    obtain ⟨hs, hc, hf, hg⟩ := hw
    obtain ⟨w, hw1, _⟩ := indexAt_eq g.fitness g.worst hwt.1 (by omega)
    have hmk : ∃ p1, g.MakeFitnessPositive = some p1 ∧ p1.shaped n L ∧
        p1.genotype = g.genotype ∧ p1.worst = g.worst ∧ p1.fittest = g.fittest := by
      unfold Genomes.MakeFitnessPositive
      simp only [hw1]
      by_cases hge : w ≥ 0
      · rw [if_pos hge]
        exact ⟨g, rfl, ⟨hs, hc, hf, hg⟩, rfl, rfl, rfl⟩
      · rw [if_neg hge]
        have : g.size.toNat = g.fitness.length := by omega
        rw [this, subtractLoop_all]
        exact ⟨_, rfl, ⟨hs, hc, by simpa using hf, hg⟩, rfl, rfl, rfl⟩
    obtain ⟨p1, hp1, hw1s, hgeno, hwo, hfi⟩ := hmk
    obtain ⟨mn, hmn, _⟩ := indexAt_eq p1.fitness p1.worst (by rw [hwo]; exact hwt.1)
      (by rw [hwo, hw1s.2.2.1]; exact hwt.2)
    obtain ⟨mx, hmx, _⟩ := indexAt_eq p1.fitness p1.fittest (by rw [hfi]; exact hft.1)
      (by rw [hfi, hw1s.2.2.1]; exact hft.2)
    show ∃ q b, (rouletteWheel.SelectInto g df di buffer = .done q b ∨
      rouletteWheel.SelectInto g df di buffer = .failed q b) ∧ _
    unfold rouletteWheel.SelectInto
    simp only [hp1, Genomes.Stats, hmn, hmx]
    by_cases ht : p1.totalFitness = 0
    · rw [if_pos ht]
      obtain ⟨b, b1, b2, _⟩ := random_SelectInto_spec p1 n L hw1s hn di buffer
      exact ⟨p1, b, Or.inl b1, hgeno, b2⟩
    · rw [if_neg ht]
      obtain ⟨b, b1, b2⟩ := rouletteLoop_total p1 n L hw1s p1.totalFitness df
        (List.range buffer.length) buffer
      exact ⟨p1, b, b1, hgeno, b2⟩
theorem wrapInt64_id (x : Int) (h0 : 0 ≤ x) (h1 : x < 2 ^ 63) : wrapInt64 x = x := by
  unfold wrapInt64
  norm_num at h1 ⊢
  omega

/-- C25, as amended: for a solver with `WithElitism(size, copies)`, `size > 0`,
`copies > 0`, whose `size * copies` is at most the population size `n`, and with a selection
operator configured, on a population of `n` individuals of `L` bytes that has just been
evaluated (valid `fittest` and `worst`, `isSorted` clear): `selectBreedingPool` returns, the
population has been sorted by descending fitness, entry `i * copies + c` of the breeding
pool is genome `i` of the sorted population for every `i < size` and `c < copies`, the
pool keeps its `n` entries, and the entries from `size * copies` on are those the selection
operator leaves when it is given the sorted population and that part of the pool; with the
random selection each of them is a genome of the sorted population. -/
theorem elitism_fills_prefix {K : Type} [LinearOrderedField K] (ga : gaSolver K)
    (d : EpochDraws K) (n L size copies : Nat) (op : SelectionOp)
    (hw : ga.population.toGenomes.shaped n L) (hn : (n : Int) < 2 ^ 63)
    (hpool : ga.breedingPool.length = n) (hns : ga.population.isSorted = false)
    (hft : 0 ≤ ga.population.fittest ∧ ga.population.fittest < n)
    (hwt : 0 ≤ ga.population.worst ∧ ga.population.worst < n)
    (hsz : 0 < size) (hcp : 0 < copies) (hlen : size * copies ≤ n)
    (he : ga.opts.elite = { size := size, copies := copies,
                            len := wrapInt64 ((size : Int) * (copies : Int)) })
    (hop : ga.opts.selectionOp = some op) :
    ∃ ga2 g, selectBreedingPool ga d = some ga2 ∧
      ga.population.toGenomes.SortByFitnessDesc = some g ∧
      g.fitness.Pairwise (fun a b => b ≤ a) ∧
      ga2.population.genotype = g.genotype ∧ ga2.breedingPool.length = n ∧
      (∀ i c : Nat, i < size → c < copies →
        ga2.breedingPool[i * copies + c]? = g.Genotype (i : Int) ∧
        (g.Genotype (i : Int)).isSome = true) ∧
      (op.SelectInto g d.selectFloat d.selectInt (ga.breedingPool.drop (size * copies))).buffer
        = some (ga2.breedingPool.drop (size * copies)) ∧
      (op = .random → ∀ k, size * copies ≤ k → k < n → ∃ idx, idx < n ∧
        ga2.breedingPool[k]? = g.Genotype ((idx : Nat) : Int) ∧
        (g.Genotype ((idx : Nat) : Int)).isSome = true) := by
  have hpos : 0 < size * copies := Nat.mul_pos hsz hcp
  have hlv : wrapInt64 ((size : Int) * (copies : Int)) = ((size * copies : Nat) : Int) := by
    rw [wrapInt64_id _ (by positivity) (by push_cast at hlen ⊢; omega)]
    push_cast
    rfl
  obtain ⟨g, π, hg, hwg, hsc, _, _, _, _, hsorted⟩ :=
    SortByFitnessDesc_spec ga.population.toGenomes n L hw
  have hsize : size ≤ n := le_trans (Nat.le_mul_of_pos_right size hcp) hlen
  obtain ⟨pool2, e1, e2, e3, e4⟩ := eliteLoop_spec g n L copies hwg size 0 ga.breedingPool
    (by omega) (by rw [hpool]; simpa using hlen)
  simp only [Nat.zero_mul, Nat.zero_add] at e1 e3 e4
  have hpart : elitePart ga
      = some ({ ga.population with toGenomes := g }, pool2, size * copies) := by
    unfold elitePart
    rw [he]
    simp only [hlv]
    rw [if_pos (by exact_mod_cast hpos), hg]
    simp only [Int.toNat_ofNat, List.range_eq_range', e1, Option.map_some']
  have hdrop : pool2.drop (size * copies) = ga.breedingPool.drop (size * copies) := by
    apply List.ext_getElem?
    intro k
    rw [List.getElem?_drop, List.getElem?_drop]
    exact e4 _ (Or.inr (by omega))
  have hgf : 0 ≤ g.fittest ∧ g.fittest < n := by rw [hsc.2.2.2.1]; exact hft
  have hgw : 0 ≤ g.worst ∧ g.worst < n := by rw [hsc.2.2.2.2]; exact hwt
  obtain ⟨q, b, hsel, hq, hb⟩ := SelectInto_total op g n L hwg (by omega) hgf hgw
    d.selectFloat d.selectInt (pool2.drop (size * copies))
  have hp2 : size * copies ≤ pool2.length := by rw [e2, hpool]; exact hlen
  have hbl : b.length = n - size * copies := by
    rw [hb, List.length_drop, e2, hpool]
  have hres : selectBreedingPool ga d
      = some { ga with
          population := { toGenomes := g.afterCall q, schema := ga.population.schema },
          breedingPool := pool2.take (size * copies) ++ b } := by
    unfold selectBreedingPool
    simp only [hpart, hop]
    rw [if_pos hp2]
    rcases hsel with h | h <;> simp only [h]
  have htl : (pool2.take (size * copies)).length = size * copies := by
    rw [List.length_take]
    omega
  refine ⟨_, g, hres, hg, pairwise_of_getD _ ?_, hq, ?_, ?_, ?_, ?_⟩
  · intro p q hpq hq2
    exact hsorted hns p q hpq (by rw [hwg.2.2.1] at hq2; exact hq2)
  · show (pool2.take (size * copies) ++ b).length = n
    rw [List.length_append, htl, hbl]
    omega
  · intro i c hi hc
    have hk : i * copies + c < size * copies := by
      have := window_le i size copies hi
      omega
    show (pool2.take (size * copies) ++ b)[i * copies + c]? = _ ∧ _
    rw [List.getElem?_append_left (by rw [htl]; exact hk), List.getElem?_take_of_lt hk]
    exact e3 i c (Nat.zero_le _) hi hc
  · show _ = some ((pool2.take (size * copies) ++ b).drop (size * copies))
    rw [List.drop_left' htl, ← hdrop]
    rcases hsel with h | h <;> rw [h] <;> rfl
  · intro hr k hk1 hk2
    subst hr
    obtain ⟨b2, c1, c2, c3⟩ := random_SelectInto_spec g n L hwg (by omega) d.selectInt
      (pool2.drop (size * copies))
    have hb2 : b = b2 := by
      have hsel2 : SelectionOp.random.SelectInto g d.selectFloat d.selectInt
          (pool2.drop (size * copies)) = .done g b2 := c1
      rcases hsel with h | h
      · rw [hsel2] at h
        simp only [SelectResult.done.injEq] at h
        exact h.2.symm
      · rw [hsel2] at h
        exact absurd h (by simp)
    subst hb2
    show ∃ idx, idx < n ∧ (pool2.take (size * copies) ++ b)[k]? = _ ∧ _
    rw [List.getElem?_append_right (by rw [htl]; exact hk1), htl]
    exact c3 (k - size * copies) (by rw [List.length_drop, e2, hpool]; omega)

theorem elitism_fills_prefix_witness :
    eliteSolver.population.toGenomes.shaped 2 8 ∧
    ∃ ga2 g, selectBreedingPool eliteSolver (constDraws (7 / 8)) = some ga2 ∧
      eliteSolver.population.toGenomes.SortByFitnessDesc = some g ∧
      g.fitness.Pairwise (fun a b => b ≤ a) ∧
      ga2.population.genotype = g.genotype ∧ ga2.breedingPool.length = 2 ∧
      (∀ i c : Nat, i < 1 → c < 1 →
        ga2.breedingPool[i * 1 + c]? = g.Genotype (i : Int) ∧
        (g.Genotype (i : Int)).isSome = true) ∧
      (SelectionOp.random.SelectInto g (constDraws (7 / 8)).selectFloat
          (constDraws (7 / 8)).selectInt (eliteSolver.breedingPool.drop (1 * 1))).buffer
        = some (ga2.breedingPool.drop (1 * 1)) ∧
      (SelectionOp.random = .random → ∀ k, 1 * 1 ≤ k → k < 2 → ∃ idx, idx < 2 ∧
        ga2.breedingPool[k]? = g.Genotype ((idx : Nat) : Int) ∧
        (g.Genotype ((idx : Nat) : Int)).isSome = true) :=
  ⟨⟨rfl, rfl, rfl, rfl⟩,
   elitism_fills_prefix eliteSolver (constDraws (7 / 8)) 2 8 1 1 .random ⟨rfl, rfl, rfl, rfl⟩
    (by norm_num) rfl rfl ⟨by decide, by decide⟩ ⟨by decide, by decide⟩ (by decide)
    (by decide) (by decide) rfl rfl⟩
theorem eliteSolver_ok :
    oneIntSolver (.probability ⟨3, 4⟩ SinglePoint) 0 [WithSelection .random, WithElitism 1 1]
      = .ok eliteSolver :=
  oneIntSolver_ok _ _ _ _ rfl

theorem oneInt_elite_panic (S : Schema) (ga : gaSolver ℚ) (d : EpochDraws ℚ)
    (h : ga.isOneInt S) (hfit : ga.population.fitness = [1, 9])
    (hso : ga.population.isSorted = false)
    (he : ga.opts.elite = { size := 2, copies := 2, len := 4 }) :
    elitePart ga = none ∧ selectBreedingPool ga d = none := by
  obtain ⟨h1, h2, h3, h4, h5, h6, h7, h8, h9⟩ := h
  obtain ⟨schema, ph, ⟨⟨size, cl, geno, fit, tot, srt, ft, wt⟩, pschema⟩, pool, gen, ff, opts⟩ := ga
  simp only at h1 h2 h3 h4 h5 h6 h7 h8 h9 hfit hso he
  subst h1 h2 h3 h4 h5 h6 h7 hfit hso
  obtain ⟨x, y, rfl⟩ : ∃ x y, pool = [x, y] := by
    match pool, h9 with
    | [x, y], _ => exact ⟨x, y, rfl⟩
  have hl : sixteenBytes.length = 16 := rfl
  have hpart : elitePart
      ({ schema := pschema, phenotype := intType,
         population := { size := 2, chromosomeLen := 8, genotype := sixteenBytes,
                         fitness := [1, 9], totalFitness := tot, isSorted := false,
                         fittest := ft, worst := wt, schema := pschema },
         breedingPool := [x, y], generation := gen, fitnessFunc := lowByte,
         opts := opts } : gaSolver ℚ) = none := by
    simp [elitePart, he, Genomes.SortByFitnessDesc, sortStable,
      GenomesSortDesc.Len, insertionSort, insertDown, GenomesSortDesc.Less,
      GenomesSortDesc.Swap, swapAt, swapBytes, indexAt, List.range, List.range.loop, eliteLoop,
      eliteCopies, Genomes.Genotype, sixteenBytes]
  refine ⟨hpart, ?_⟩
  unfold selectBreedingPool
  rw [hpart]

/-- C25 as stated fails on the code: `NewSolver` does not compare the elite with the
population size and does not ask for a selection operator.  The solver for one `int`, 2
individuals, `WithSelection(Random())` and `WithElitism(2, 2)` is accepted; in its first
epoch, after the evaluation, `selectBreedingPool` assigns `breedingPool[2]` in a pool of 2
entries and panics, and so does `Epoch`.  The solver with `WithElitism(1, 1)` alone is
accepted too, and `selectBreedingPool` panics on the nil selection operator. -/
theorem elitism_fills_prefix_counterexample :
    (∃ ga0 ga1 r, oneIntSolver (.probability ⟨3, 4⟩ SinglePoint) 0
        [WithSelection .random, WithElitism 2 2] = .ok ga0 ∧ ga0.Elitism = (2, 2) ∧
      ga0.opts.populationSize = 2 ∧
      calculateFitnessScores ga0 = some (ga1, r, false) ∧
      elitePart ga1 = none ∧ selectBreedingPool ga1 (constDraws (7 / 8)) = none ∧
      ga0.Epoch (constDraws (7 / 8)) = none) ∧
    (∃ ga0, oneIntSolver (.probability ⟨3, 4⟩ SinglePoint) 0 [WithElitism 1 1] = .ok ga0 ∧
      ga0.Elitism = (1, 1) ∧ (elitePart ga0).isSome = true ∧
      selectBreedingPool ga0 (constDraws (7 / 8)) = none) := by
  have e0 : (oneIntSchema (.probability ⟨3, 4⟩ SinglePoint) 0).Init intType
      = some { root := [0, 0, 0, 0, 0, 0, 0, 0] } := by
    unfold Schema.Init
    rfl
  refine ⟨?_, ?_⟩
  · obtain ⟨ga0, hok, hone, hopt, hel⟩ : ∃ ga0,
        oneIntSolver (.probability ⟨3, 4⟩ SinglePoint) 0
          [WithSelection .random, WithElitism 2 2] = .ok ga0 ∧
        ga0.isOneInt (oneIntSchema (.probability ⟨3, 4⟩ SinglePoint) 0) ∧
        ga0.opts.targetFitness = none ∧
        ga0.opts.elite = { size := 2, copies := 2, len := 4 } :=
      ⟨_, oneIntSolver_ok _ _ _ _ rfl, ⟨rfl, rfl, rfl, rfl, rfl, rfl, rfl, rfl, rfl⟩, rfl, rfl⟩
    obtain ⟨ga1, r1, hc1, hi1, _, ho1, hf1, _, _, _, hs1, _⟩ := oneInt_evaluation _ e0
      (oneInt_Decode0 _ _) (oneInt_Decode1 _ _) ga0 hone
    have d1 : decide ((none : Option ℚ) = some 9) = false := by simp
    rw [hopt, d1] at hc1
    obtain ⟨hp0, hp⟩ := oneInt_elite_panic _ ga1 (constDraws (7 / 8)) hi1 hf1 hs1
      (by rw [ho1, hel])
    refine ⟨ga0, ga1, r1, hok, ?_, ?_, hc1, hp0, hp, ?_⟩
    · show (ga0.opts.elite.size, ga0.opts.elite.copies) = (2, 2)
      rw [hel]
    · have := oneIntSolver_ok (.probability ⟨3, 4⟩ SinglePoint) 0
        [WithSelection .random, WithElitism 2 2] _ rfl
      rw [hok] at this
      simp only [Outcome.ok.injEq] at this
      rw [this]
    · unfold gaSolver.Epoch gaSolver.Epochs
      simp [epochsLoop, hc1, nextGeneration, hp]
  · refine ⟨_, oneIntSolver_ok _ _ _ _ rfl, rfl, ?_, ?_⟩
    · have hw1 : wrapInt64 1 = 1 := by decide
      simp [elitePart, hw1, Genomes.SortByFitnessDesc, sortStable,
        GenomesSortDesc.Len, insertionSort, insertDown, GenomesSortDesc.Less,
        GenomesSortDesc.Swap, swapAt, swapBytes, indexAt, List.range, List.range.loop,
        eliteLoop, eliteCopies, Genomes.Genotype, sixteenBytes, nilSlice]
    · unfold selectBreedingPool
      split
      · rfl
      · rfl

/-! ## Reading back what `locus.write` stored -/

theorem and_lowMask (x w : Nat) (hw : w ≤ 64) : x &&& not64 (shl64 mask w) = x % 2 ^ w := by
  apply Nat.eq_of_testBit_eq
  intro j
  rw [Nat.testBit_and, testBit_lowMask, Nat.testBit_mod_two_pow]
  by_cases h : j < w
  · have h2 : j < 64 := by omega
    simp [h, h2]
  · simp [h]

theorem from_zero (buf : ByteSlice) : buf.from 0 = some buf := by
  unfold ByteSlice.from
  simp

theorem locus_write_fields (l : locus) (buf buf2 : ByteSlice) (v : Nat)
    (h : l.write buf v = some buf2) : buf2.off = buf.off ∧ buf2.len = buf.len := by
  unfold locus.write at h
  split at h
  · exact absurd h (by simp)
  · simp only at h
    split at h
    · exact absurd h (by simp)
    · split at h
      · exact absurd h (by simp)
      · split at h
        · exact absurd h (by simp)
        · split at h
          · exact absurd h (by simp)
          · simp only [Option.some.injEq] at h
            subst h
            exact ⟨rfl, rfl⟩

theorem locus_write_mod (l : locus) (buf : ByteSlice) (v : Nat) (h0 : 0 ≤ l.bitWidth)
    (h1 : l.bitWidth ≤ 64) :
    l.write buf v = l.write buf (v % 2 ^ l.bitWidth.toNat) := by
  have hw : l.bitWidth.toNat ≤ 64 := by omega
  unfold locus.write
  simp only [and_lowMask _ _ hw, Nat.mod_mod]

theorem locusOk_zero (l : locus) (buf : ByteSlice) (hin : buf.off + buf.len ≤ buf.mem.length)
    (hi : 0 ≤ l.byteIndex) (ho : 0 ≤ l.bitOffset) (hw : 0 ≤ l.bitWidth)
    (hfit : l.bitOffset + l.bitWidth ≤ 64) (hlen : l.byteIndex + 8 ≤ buf.len) :
    locusOk l 0 buf := by
  refine ⟨le_refl _, by omega, hi, by omega, ?_, ho, hw, hfit⟩
  simp only [Int.toNat_zero, Nat.add_zero]
  omega

theorem bitAt_bytes (buf : ByteSlice) (k : Nat) (hk : k < 8 * buf.len) :
    bitAt buf.bytes k = bitAt buf.mem (8 * buf.off + k) := by
  unfold bitAt ByteSlice.bytes
  have h1 : k / 8 < buf.len := by omega
  have e1 : (8 * buf.off + k) / 8 = buf.off + k / 8 := by omega
  have e2 : (8 * buf.off + k) % 8 = k % 8 := by omega
  simp only [List.getD_eq_getElem?_getD, List.getElem?_take, List.getElem?_drop, h1, if_true,
    e1, e2]

theorem bitAt_bytes_beyond (buf : ByteSlice) (k : Nat) (hk : 8 * buf.len ≤ k) :
    bitAt buf.bytes k = false := by
  apply bitAt_beyond
  unfold ByteSlice.bytes
  simp only [List.length_take]
  omega

theorem bitAt_drop (mem : List Nat) (n k : Nat) :
    bitAt (mem.drop n) k = bitAt mem (8 * n + k) := by
  unfold bitAt
  have e1 : (8 * n + k) / 8 = n + k / 8 := by omega
  have e2 : (8 * n + k) % 8 = k % 8 := by omega
  simp only [List.getD_eq_getElem?_getD, List.getElem?_drop, e1, e2]

theorem bitAt_take (mem : List Nat) (n k : Nat) (hk : k < 8 * n) :
    bitAt (mem.take n) k = bitAt mem k := by
  unfold bitAt
  have h1 : k / 8 < n := by omega
  simp only [List.getD_eq_getElem?_getD, List.getElem?_take, h1, if_true]

/-- What `locus.write` and `locus.read` do on a buffer, with the bits counted from the first
bit of the buffer. -/
theorem locus_codec_spec (l : locus) (buf : ByteSlice) (v : Nat)
    (hbuf : bytesOk buf.mem) (hin : buf.off + buf.len ≤ buf.mem.length)
    (hi : 0 ≤ l.byteIndex) (ho : 0 ≤ l.bitOffset) (hw : 0 ≤ l.bitWidth)
    (hfit : l.bitOffset + l.bitWidth ≤ 64) (hlen : l.byteIndex + 8 ≤ buf.len) :
    (∃ r, l.read buf = some r ∧
      ∀ j, r.testBit j = (decide ((j : Int) < l.bitWidth) &&
        bitAt buf.mem (8 * buf.off + (l.start.toNat + j)))) ∧
    ∃ buf2, l.write buf v = some buf2 ∧ buf2.off = buf.off ∧ buf2.len = buf.len ∧
      buf2.mem.length = buf.mem.length ∧ bytesOk buf2.mem ∧
      (∀ k, k < 8 * buf.off → bitAt buf2.mem k = bitAt buf.mem k) ∧
      ∀ k, bitAt buf2.mem (8 * buf.off + k)
        = if l.start ≤ k ∧ (k : Int) < l.stop then v.testBit (k - l.start.toNat)
          else bitAt buf.mem (8 * buf.off + k) := by
  have hok := locusOk_zero l buf hin hi ho hw hfit hlen
  have hA : absStart l 0 buf = 8 * buf.off + l.start.toNat := by
    unfold absStart locus.start
    simp only [Int.toNat_zero, Nat.add_zero]
    omega
  refine ⟨?_, ?_⟩
  · obtain ⟨r, hr, hbits⟩ := locus_read_spec l 0 buf buf hbuf hok (from_zero buf)
    refine ⟨r, hr, ?_⟩
    intro j
    rw [hbits j, hA, Nat.add_assoc]
  · obtain ⟨buf2, hwr, hl2, hok2, hbits⟩ := locus_write_spec l 0 buf buf v hbuf hok (from_zero buf)
    obtain ⟨e1, e2⟩ := locus_write_fields l buf buf2 v hwr
    refine ⟨buf2, hwr, e1, e2, hl2, hok2, ?_, ?_⟩
    · intro k hk
      rw [hbits, hA]
      have hc : ¬ (8 * buf.off + l.start.toNat ≤ k ∧
          (k : Int) < ((8 * buf.off + l.start.toNat : Nat) : Int) + l.bitWidth) := by omega
      simp only [hc, if_false]
    intro k
    rw [hbits, hA]
    unfold locus.stop locus.start
    by_cases hc : l.byteIndex * 8 + l.bitOffset ≤ (k : Int) ∧
        (k : Int) < l.byteIndex * 8 + l.bitOffset + l.bitWidth
    · have hc2 : 8 * buf.off + (l.byteIndex * 8 + l.bitOffset).toNat ≤ 8 * buf.off + k ∧
          ((8 * buf.off + k : Nat) : Int)
            < ((8 * buf.off + (l.byteIndex * 8 + l.bitOffset).toNat : Nat) : Int) + l.bitWidth := by
        omega
      have e3 : 8 * buf.off + k - (8 * buf.off + (l.byteIndex * 8 + l.bitOffset).toNat)
          = k - (l.byteIndex * 8 + l.bitOffset).toNat := by omega
      simp only [locus.start, hc, hc2, and_self, if_true, e3]
    · have hc2 : ¬ (8 * buf.off + (l.byteIndex * 8 + l.bitOffset).toNat ≤ 8 * buf.off + k ∧
          ((8 * buf.off + k : Nat) : Int)
            < ((8 * buf.off + (l.byteIndex * 8 + l.bitOffset).toNat : Nat) : Int) + l.bitWidth) := by
        omega
      simp only [locus.start, hc, hc2, if_false]

/-- C31: for every locus with `0 ≤ byte_index`, `0 ≤ bit_offset`, `1 ≤ bit_width ≤ 64`,
`bit_offset + bit_width ≤ 64` and `byte_index + 8 ≤ len(buf)`, on a buffer of bytes:
`locus.read` returns the little-endian 64-bit number of the 8 bytes at `byte_index`,
shifted right by `bit_offset` and reduced modulo `2 ^ bit_width` (for a width of 64 nothing
is cut off), and for every value `v`, `locus.write(buf, v)` returns and `locus.read` on the
buffer it leaves returns `v mod 2 ^ bit_width`. -/
theorem locus_read_after_write (l : locus) (buf : ByteSlice) (v : Nat)
    (hbuf : bytesOk buf.mem) (hin : buf.off + buf.len ≤ buf.mem.length)
    (hi : 0 ≤ l.byteIndex) (ho : 0 ≤ l.bitOffset)
    (hw : 1 ≤ l.bitWidth ∧ l.bitWidth ≤ 64) (hfit : l.bitOffset + l.bitWidth ≤ 64)
    (hlen : l.byteIndex + 8 ≤ buf.len) :
    l.read buf
      = some ((leValue ((buf.mem.drop (buf.off + l.byteIndex.toNat)).take 8)
          >>> l.bitOffset.toNat) % 2 ^ l.bitWidth.toNat) ∧
    (l.bitWidth = 64 → l.bitOffset = 0 ∧
      l.read buf = some (leValue ((buf.mem.drop (buf.off + l.byteIndex.toNat)).take 8))) ∧
    ∃ buf2, l.write buf v = some buf2 ∧ l.read buf2 = some (v % 2 ^ l.bitWidth.toNat) := by
  have hw0 : 0 ≤ l.bitWidth := by omega
  have hwn : l.bitWidth.toNat ≤ 64 := by omega
  have hread : l.read buf
      = some ((leValue ((buf.mem.drop (buf.off + l.byteIndex.toNat)).take 8)
          >>> l.bitOffset.toNat) % 2 ^ l.bitWidth.toNat) := by
    unfold locus.read Genetta.read
    have h1 : ¬ (l.byteIndex < 0 ∨ (buf.len : Int) ≤ l.byteIndex) := by omega
    have h2 : buf.off + l.byteIndex.toNat + 8 ≤ buf.mem.length := by omega
    have h3 : ¬ l.bitOffset < 0 := by omega
    have h4 : ¬ l.bitWidth < 0 := by omega
    simp only [h1, h2, h3, h4, if_true, if_false, and_lowMask _ _ hwn]
  refine ⟨hread, ?_, ?_⟩
  · intro h64
    have hb0 : l.bitOffset = 0 := by omega
    refine ⟨hb0, ?_⟩
    rw [hread, hb0, h64]
    have hlt : leValue ((buf.mem.drop (buf.off + l.byteIndex.toNat)).take 8) < 2 ^ 64 := by
      have hok2 : bytesOk ((buf.mem.drop (buf.off + l.byteIndex.toNat)).take 8) := fun b hb =>
        hbuf b (List.mem_of_mem_drop (List.mem_of_mem_take hb))
      have hl := leValue_lt _ hok2
      have hlen8 : ((buf.mem.drop (buf.off + l.byteIndex.toNat)).take 8).length ≤ 8 := by
        simp only [List.length_take]
        omega
      exact lt_of_lt_of_le hl (Nat.pow_le_pow_right (by norm_num) (by omega))
    have e64 : Int.toNat 64 = 64 := rfl
    simp only [Int.toNat_zero, Nat.shiftRight_zero, e64]
    rw [Nat.mod_eq_of_lt hlt]
  · obtain ⟨_, buf2, hwr, e1, e2, hl2, hok2, _, hbits⟩ :=
      locus_codec_spec l buf v hbuf hin hi ho hw0 hfit hlen
    obtain ⟨⟨r, hr, hrbits⟩, _⟩ := locus_codec_spec l buf2 v hok2 (by rw [e1, e2, hl2]; exact hin)
      hi ho hw0 hfit (by rw [e2]; exact hlen)
    refine ⟨buf2, hwr, ?_⟩
    rw [hr]
    congr 1
    apply Nat.eq_of_testBit_eq
    intro j
    rw [hrbits j, e1, hbits, Nat.testBit_mod_two_pow]
    have hs : 0 ≤ l.start := by unfold locus.start; omega
    by_cases hj : (j : Int) < l.bitWidth
    · have hc : l.start ≤ ((l.start.toNat + j : Nat) : Int) ∧
          ((l.start.toNat + j : Nat) : Int) < l.stop := by
        unfold locus.stop
        omega
      have hj2 : j < l.bitWidth.toNat := by omega
      simp only [hj, hc, and_self, if_true, hj2, decide_True, Bool.true_and,
        Nat.add_sub_cancel_left]
    · have hj2 : ¬ j < l.bitWidth.toNat := by omega
      simp only [hj, hj2, decide_False, Bool.false_and]

theorem locus_read_after_write_witness :
    ∃ buf2, ({ byteIndex := 1, bitOffset := 3, bitWidth := 5 } : locus).write
        { mem := List.replicate 9 255, len := 9 } 200 = some buf2 ∧
      ({ byteIndex := 1, bitOffset := 3, bitWidth := 5 } : locus).read buf2
        = some (200 % 2 ^ 5) :=
  (locus_read_after_write { byteIndex := 1, bitOffset := 3, bitWidth := 5 }
    { mem := List.replicate 9 255, len := 9 } 200 (by decide) (by decide) (by decide)
    (by decide) (by decide) (by decide) (by decide)).2.2

/-- C32: for every locus with `0 ≤ byte_index`, `0 ≤ bit_offset`, `0 ≤ bit_width`,
`bit_offset + bit_width ≤ 64` and `byte_index + 8 ≤ len(buf)`, on a buffer of bytes,
`locus.write(buf, v)` returns and leaves a buffer of the same place and length in which
bit `k` of the buffer holds bit `k - start` of `v` when `k` is in the window
`[byte_index*8 + bit_offset, + bit_width)` and is as before otherwise; the memory around
the buffer is as before; a value that agrees with `v` modulo `2 ^ bit_width` leaves the
same buffer; and `locus.read` at any locus whose window is disjoint from this one returns
what it returned before the write. -/
theorem locus_write_frame (l : locus) (buf : ByteSlice) (v : Nat)
    (hbuf : bytesOk buf.mem) (hin : buf.off + buf.len ≤ buf.mem.length)
    (hi : 0 ≤ l.byteIndex) (ho : 0 ≤ l.bitOffset) (hw : 0 ≤ l.bitWidth)
    (hfit : l.bitOffset + l.bitWidth ≤ 64) (hlen : l.byteIndex + 8 ≤ buf.len) :
    ∃ buf2, l.write buf v = some buf2 ∧ buf2.off = buf.off ∧ buf2.len = buf.len ∧
      buf2.mem.length = buf.mem.length ∧
      (∀ k : Nat, bitAt buf2.bytes k
        = if l.start ≤ k ∧ (k : Int) < l.stop then v.testBit (k - l.start.toNat)
          else bitAt buf.bytes k) ∧
      buf2.mem.take buf.off = buf.mem.take buf.off ∧
      buf2.mem.drop (buf.off + buf.len) = buf.mem.drop (buf.off + buf.len) ∧
      (∀ v2 : Nat, v2 % 2 ^ l.bitWidth.toNat = v % 2 ^ l.bitWidth.toNat →
        l.write buf v2 = some buf2) ∧
      (∀ l2 : locus, 0 ≤ l2.byteIndex → 0 ≤ l2.bitOffset → 0 ≤ l2.bitWidth →
        l2.bitOffset + l2.bitWidth ≤ 64 → l2.byteIndex + 8 ≤ buf.len → l.disjoint l2 →
        l2.read buf2 = l2.read buf) := by
  obtain ⟨_, buf2, hwr, e1, e2, hl2, hok2, hlow, hbits⟩ :=
    locus_codec_spec l buf v hbuf hin hi ho hw hfit hlen
  have hs0 : 0 ≤ l.start := by unfold locus.start; omega
  have hstop : l.stop ≤ 8 * (buf.len : Int) := by unfold locus.stop locus.start; omega
  have hin2 : buf2.off + buf2.len ≤ buf2.mem.length := by rw [e1, e2, hl2]; exact hin
  refine ⟨buf2, hwr, e1, e2, hl2, ?_, ?_, ?_, ?_, ?_⟩
  · intro k
    by_cases hk : k < 8 * buf.len
    · rw [bitAt_bytes buf2 k (by rw [e2]; exact hk), bitAt_bytes buf k hk, e1, hbits]
    · have hc : ¬ (l.start ≤ (k : Int) ∧ (k : Int) < l.stop) := by omega
      rw [bitAt_bytes_beyond buf2 k (by rw [e2]; omega), bitAt_bytes_beyond buf k (by omega)]
      simp only [hc, if_false]
  · apply eq_of_bitAt_eq
    · simp only [List.length_take, hl2]
    · exact bytesOk_take _ hok2
    · exact bytesOk_take _ hbuf
    · intro k
      by_cases hk : k < 8 * buf.off
      · rw [bitAt_take _ _ _ hk, bitAt_take _ _ _ hk]
        exact hlow k hk
      · rw [bitAt_beyond _ k (by simp only [List.length_take]; omega),
          bitAt_beyond _ k (by simp only [List.length_take]; omega)]
  · apply eq_of_bitAt_eq
    · simp only [List.length_drop, hl2]
    · exact bytesOk_drop _ hok2
    · exact bytesOk_drop _ hbuf
    · intro k
      rw [bitAt_drop, bitAt_drop]
      have e : 8 * (buf.off + buf.len) + k = 8 * buf.off + (8 * buf.len + k) := by omega
      rw [e, hbits]
      have hc : ¬ (l.start ≤ ((8 * buf.len + k : Nat) : Int) ∧
          ((8 * buf.len + k : Nat) : Int) < l.stop) := by omega
      simp only [hc, if_false]
  · intro v2 hv2
    rw [locus_write_mod l buf v2 hw (by omega), hv2, ← locus_write_mod l buf v hw (by omega)]
    exact hwr
  · intro l2 i2 o2 w2 f2 len2 hd
    obtain ⟨⟨r1, hr1, hb1⟩, _⟩ := locus_codec_spec l2 buf v hbuf hin i2 o2 w2 f2 len2
    obtain ⟨⟨r2, hr2, hb2⟩, _⟩ := locus_codec_spec l2 buf2 v hok2 hin2 i2 o2 w2 f2
      (by rw [e2]; exact len2)
    rw [hr1, hr2]
    congr 1
    apply Nat.eq_of_testBit_eq
    intro j
    rw [hb1 j, hb2 j, e1, hbits]
    have hs2 : 0 ≤ l2.start := by unfold locus.start; omega
    by_cases hj : (j : Int) < l2.bitWidth
    · have hc : ¬ (l.start ≤ ((l2.start.toNat + j : Nat) : Int) ∧
          ((l2.start.toNat + j : Nat) : Int) < l.stop) := by
        unfold locus.disjoint locus.stop at hd
        unfold locus.stop
        omega
      simp only [hc, if_false]
    · simp only [hj, decide_False, Bool.false_and]

theorem locus_write_frame_witness :
    ∃ buf2, ({ byteIndex := 1, bitOffset := 3, bitWidth := 5 } : locus).write
        { mem := List.replicate 9 255, len := 9 } 200 = some buf2 ∧ buf2.len = 9 ∧
      ({ byteIndex := 0, bitOffset := 0, bitWidth := 11 } : locus).read buf2
        = ({ byteIndex := 0, bitOffset := 0, bitWidth := 11 } : locus).read
            { mem := List.replicate 9 255, len := 9 } := by
  obtain ⟨buf2, h1, _, h3, _, _, _, _, _, h9⟩ :=
    locus_write_frame { byteIndex := 1, bitOffset := 3, bitWidth := 5 }
      { mem := List.replicate 9 255, len := 9 } 200 (by decide) (by decide) (by decide)
      (by decide) (by decide) (by decide) (by decide)
  exact ⟨buf2, h1, h3, h9 { byteIndex := 0, bitOffset := 0, bitWidth := 11 } (by decide)
    (by decide) (by decide) (by decide) (by decide) (by decide)⟩

/-! ## One call of `offer` -/

/-- The scan of `offer` stops at the first cell with the least room that is enough. -/
theorem bestFitScan_pick (w : Int) : ∀ (cells : List Int) (i : Int) (acc : Int × Int) (k : Nat),
    k < cells.length → w ≤ cells.getD k 0 → cells.getD k 0 - w < acc.2 →
    (∀ j, j < cells.length → w ≤ cells.getD j 0 → cells.getD k 0 ≤ cells.getD j 0) →
    (∀ j, j < k → w ≤ cells.getD j 0 → cells.getD j 0 ≠ cells.getD k 0) →
    bestFitScan w cells i acc = (i + k, cells.getD k 0 - w) := by
  intro cells
  induction cells with
  | nil => intro i acc k hk; simp at hk
  | cons c rest ih =>
    intro i acc k hk hfit hacc hmin hfirst
    unfold bestFitScan
    cases k with
    | zero =>
      simp only [List.getD_cons_zero] at hfit hacc hmin ⊢
      have hc : c - w ≥ 0 ∧ c - w < acc.2 := ⟨by omega, hacc⟩
      simp only [hc, and_self, if_true]
      rcases bestFitScan_spec w rest (i + 1) (i, c - w) with ⟨h, _⟩ | ⟨j, hj, _, h2, h3⟩
      · rw [h]
        simp
      · have := hmin (j + 1) (by simpa using hj) (by simpa using (by omega : w ≤ rest.getD j 0))
        simp only [List.getD_cons_succ] at this
        simp only at h3
        omega
    | succ k =>
      simp only [List.getD_cons_succ] at hfit hacc hmin hfirst ⊢
      have hk2 : k < rest.length := by simpa using hk
      have hmin2 : ∀ j, j < rest.length → w ≤ rest.getD j 0 → rest.getD k 0 ≤ rest.getD j 0 := by
        intro j hj hw
        have := hmin (j + 1) (by simpa using hj) (by simpa using hw)
        simpa using this
      have hfirst2 : ∀ j, j < k → w ≤ rest.getD j 0 → rest.getD j 0 ≠ rest.getD k 0 := by
        intro j hj hw
        have := hfirst (j + 1) (by omega) (by simpa using hw)
        simpa using this
      have e : i + ((k + 1 : Nat) : Int) = i + 1 + (k : Int) := by push_cast; ring
      by_cases hc : c - w ≥ 0 ∧ c - w < acc.2
      · simp only [hc, and_self, if_true]
        have h0 := hmin 0 (by simp) (by simpa using (by omega : w ≤ c))
        have h1 := hfirst 0 (by omega) (by simpa using (by omega : w ≤ c))
        simp only [List.getD_cons_zero] at h0 h1
        rw [ih (i + 1) (i, c - w) k hk2 hfit (by simp only; omega) hmin2 hfirst2, e]
      · simp only [hc, if_false]
        rw [ih (i + 1) acc k hk2 hfit hacc hmin2 hfirst2, e]

/-- The scan of `offer` finds nothing when no cell has room. -/
theorem bestFitScan_none (w : Int) : ∀ (cells : List Int) (i : Int) (acc : Int × Int),
    (∀ s ∈ cells, s < w) → bestFitScan w cells i acc = acc := by
  intro cells
  induction cells with
  | nil => intro i acc _; rfl
  | cons c rest ih =>
    intro i acc h
    unfold bestFitScan
    have hc : ¬ (c - w ≥ 0 ∧ c - w < acc.2) := by
      have := h c (List.mem_cons_self _ _)
      omega
    simp only [hc, if_false]
    exact ih _ _ (fun s hs => h s (List.mem_cons_of_mem _ hs))

/-- One call of `offer` on an allocator whose cells have at most 64 bits free. -/
theorem offer_pick (bf : bestFitDecreasingAllocator) (b : Int)
    (hbf : ∀ k, k < bf.cellsFree.length → bf.cellsFree.getD k 0 ≤ 64) (hb : 1 ≤ b) :
    (∀ k : Nat, k < bf.cellsFree.length → b ≤ bf.cellsFree.getD k 0 →
      (∀ j, j < bf.cellsFree.length → b ≤ bf.cellsFree.getD j 0 →
        bf.cellsFree.getD k 0 ≤ bf.cellsFree.getD j 0) →
      (∀ j, j < k → bf.cellsFree.getD j 0 ≠ bf.cellsFree.getD k 0) →
      bf.offer { bitWidth := b }
        = ({ cellsFree := bf.cellsFree.set k (bf.cellsFree.getD k 0 - b) },
           { byteIndex := (k : Int) * 8 + (64 - bf.cellsFree.getD k 0) / 8,
             bitOffset := (64 - bf.cellsFree.getD k 0) % 8, bitWidth := b })) ∧
    ((∀ s ∈ bf.cellsFree, s < b) →
      bf.offer { bitWidth := b }
        = ({ cellsFree := bf.cellsFree ++ [64 - b] },
           { byteIndex := 8 * (bf.cellsFree.length : Int), bitOffset := 0, bitWidth := b })) := by
  refine ⟨?_, ?_⟩
  · intro k hk hfit hmin hfirst
    have h64 := hbf k hk
    have hscan := bestFitScan_pick b bf.cellsFree 0 (-1, cellSize + 1) k hk hfit
      (by simp only [cellSize]; omega) hmin (fun j hj _ => hfirst j hj)
    simp only [cellSize] at hscan
    unfold bestFitDecreasingAllocator.offer
    simp only [cellSize, hscan, bytesPerCell_eq, byteSize]
    have hpos : (k : Int) > -1 := by omega
    have hnn : (0 : Int) ≤ 64 - bf.cellsFree.getD k 0 := by omega
    simp only [zero_add, hpos, if_true, Int.toNat_ofNat,
      Int.tdiv_eq_ediv hnn (by norm_num : (0 : Int) ≤ 8),
      Int.tmod_eq_emod hnn (by norm_num : (0 : Int) ≤ 8)]
  · intro hno
    have hscan := bestFitScan_none b bf.cellsFree 0 (-1, cellSize + 1) hno
    simp only [cellSize] at hscan
    unfold bestFitDecreasingAllocator.offer
    simp only [cellSize, hscan, bytesPerCell_eq, gt_iff_lt, lt_self_iff_false, if_false]
    rw [mul_comm]

/-- C33: on an allocator reached from a new one by offers of widths in 1..64, `offer(b)`
with `1 ≤ b ≤ 64` does this.  When cell `k` exists, has room `s ≥ b`, no existing cell with
room for `b` has less than `s`, and no cell before `k` has exactly `s`, the gene is placed
at `byte_index = k*8 + (64-s)/8`, `bit_offset = (64-s) mod 8`, and the free space of cell
`k` becomes `s - b` while every other cell keeps its free space.  When no existing cell
has room for `b`, a new cell with `64 - b` bits free is appended, the gene is placed at
`byte_index = 8 * (index of the new cell)`, `bit_offset = 0`, and the existing cells keep
their free space. -/
theorem offer_best_fit (ws : List Int) (hws : validWidths ws) (b : Int)
    (hb : 1 ≤ b ∧ b ≤ 64) :
    (∀ k : Nat, k < (offerAll ws).1.cellsFree.length →
      b ≤ (offerAll ws).1.cellsFree.getD k 0 →
      (∀ j, j < (offerAll ws).1.cellsFree.length → b ≤ (offerAll ws).1.cellsFree.getD j 0 →
        (offerAll ws).1.cellsFree.getD k 0 ≤ (offerAll ws).1.cellsFree.getD j 0) →
      (∀ j, j < k →
        (offerAll ws).1.cellsFree.getD j 0 ≠ (offerAll ws).1.cellsFree.getD k 0) →
      (offerAll ws).1.offer { bitWidth := b }
        = ({ cellsFree := (offerAll ws).1.cellsFree.set k
              ((offerAll ws).1.cellsFree.getD k 0 - b) },
           { byteIndex := (k : Int) * 8 + (64 - (offerAll ws).1.cellsFree.getD k 0) / 8,
             bitOffset := (64 - (offerAll ws).1.cellsFree.getD k 0) % 8, bitWidth := b })) ∧
    ((∀ s ∈ (offerAll ws).1.cellsFree, s < b) →
      (offerAll ws).1.offer { bitWidth := b }
        = ({ cellsFree := (offerAll ws).1.cellsFree ++ [64 - b] },
           { byteIndex := 8 * ((offerAll ws).1.cellsFree.length : Int), bitOffset := 0,
             bitWidth := b })) := by
  have hinv := (offerAll_spec ws hws).1
  exact offer_pick (offerAll ws).1 b
    (fun k hk => by
      have := (hinv k).2
      rwa [freeAt_lt hk] at this) hb.1

theorem offer_best_fit_witness :
    (offerAll [40, 60, 20]).1.cellsFree = [4, 4] ∧
    (offerAll [40, 60, 20]).1.offer { bitWidth := 3 }
      = ({ cellsFree := [1, 4] }, { byteIndex := 7, bitOffset := 4, bitWidth := 3 }) ∧
    (offerAll [40, 60, 20]).1.offer { bitWidth := 5 }
      = ({ cellsFree := [4, 4, 59] }, { byteIndex := 16, bitOffset := 0, bitWidth := 5 }) :=
  ⟨by decide,
   (offer_best_fit [40, 60, 20] (by decide) 3 (by decide)).1 0 (by decide) (by decide)
     (by decide) (by decide),
   (offer_best_fit [40, 60, 20] (by decide) 5 (by decide)).2 (by decide)⟩

/-- C34: the claim fails on the code when the parents get shorter and then longer again.
`randomXPoints` refills the buffer only when its length differs from `tot_bits - 2`; a call
on shorter parents refills and shuffles the front of the longer buffer, and the next call
on parents of the first length finds the length it expects and takes the buffer as it is.
The operator `KPoints(2)` after a call on parents of 2 bytes and a call on parents of 1
byte holds a buffer of 14 entries in which 1 stands twice and 7 is missing; the next call
on parents of 2 bytes can then draw the points 1 and 1, and its children are copies of the
parents.  A new operator draws the distinct points 6 and 14 under the same random
outcome. -/
theorem stale_buffer_repeats_points :
    reusedKPoints
      = some { k := 2, xps := [2, 3],
               buffer := [2, 3, 4, 5, 6, 1, 8, 9, 10, 11, 12, 13, 14, 1] } ∧
    (∀ op, reusedKPoints = some op →
      op.buffer.length = 14 ∧ 7 ∉ op.buffer.take 14 ∧ ¬ (op.buffer.take 14).Nodup ∧
      ¬ (op.buffer.take 14).Perm (List.range' 1 14) ∧
      op.Crossover pickOnes [0, 0] [255, 255] [0, 0] [0, 0]
        = .done { k := 2, xps := [1, 1],
                  buffer := [1, 1, 4, 5, 6, 2, 8, 9, 10, 11, 12, 13, 14, 3] }
            [0, 0] [255, 255]) ∧
    ((KPoints 2).map fun op =>
        (op.Crossover pickOnes [0, 0] [255, 255] [0, 0] [0, 0]).points)
      = some (some [6, 14]) := by
  have h : reusedKPoints
      = some { k := 2, xps := [2, 3],
               buffer := [2, 3, 4, 5, 6, 1, 8, 9, 10, 11, 12, 13, 14, 1] } := by decide
  refine ⟨h, ?_, by decide⟩
  intro op hop
  rw [h] at hop
  simp only [Option.some.injEq] at hop
  subst hop
  refine ⟨by decide, by decide, by decide, ?_, by decide⟩
  intro hp
  have := hp.nodup_iff.2 (List.nodup_range' 1 14)
  exact absurd this (by decide)

/-! ## The cached extremes across a sort -/

theorem positiveGenomes_sorted :
    positiveGenomes.SortByFitnessDesc
      = some { size := 2, chromosomeLen := 1, genotype := [2, 1], fitness := [3, 1],
               totalFitness := 4, isSorted := true, fittest := 1, worst := 0 } := by
  simp [positiveGenomes, Genomes.SortByFitnessDesc, sortStable, GenomesSortDesc.Len,
    insertionSort, insertDown, GenomesSortDesc.Less, GenomesSortDesc.Swap, swapAt, swapBytes,
    indexAt, List.range, List.range.loop]

/-- C36: the claim fails on the code.  `Swap` exchanges the fitness values and the genomes
of two individuals and leaves the indices `fittest` and `worst` as they are, and
`SortByFitnessDesc` does not set them either: after the sort they are the indices they
were before, whatever the sort moved there.  The population of two individuals with the
fitness values 1 and 3 has `worst = 0` and `fittest = 1`, and `Worst` and `Fittest` return
the minimum and the maximum; after `SortByFitnessDesc` the fitness values are 3 and 1,
`Fittest` returns the index 1 with the fitness 1, the minimum, and `Worst` returns the
index 0 with the fitness 3, the maximum. -/
theorem extremes_stale_after_sort (K : Type) [LinearOrderedField K] :
    (∀ (g : Genomes K) (n L : Nat), g.shaped n L →
      ∃ g2, g.SortByFitnessDesc = some g2 ∧ g2.fittest = g.fittest ∧ g2.worst = g.worst ∧
        (g.isSorted = false →
          ∀ p q, p < q → q < n → g2.fitness.getD q 0 ≤ g2.fitness.getD p 0)) ∧
    positiveGenomes.shaped 2 1 ∧ positiveGenomes.extremesOk ∧
    positiveGenomes.Fittest = some (1, 3) ∧ positiveGenomes.Worst = some (0, 1) ∧
    ∃ g2, positiveGenomes.SortByFitnessDesc = some g2 ∧ g2.fitness = [3, 1] ∧
      g2.Fittest = some (1, 1) ∧ g2.Worst = some (0, 3) ∧ ¬ g2.extremesOk := by
  refine ⟨?_, ⟨rfl, rfl, rfl, rfl⟩, ?_, rfl, rfl, _, positiveGenomes_sorted, rfl, rfl, rfl, ?_⟩
  · intro g n L hw
    obtain ⟨g2, _, h, _, hs, _, _, _, _, hsorted⟩ := SortByFitnessDesc_spec g n L hw
    exact ⟨g2, h, hs.2.2.2.1, hs.2.2.2.2, hsorted⟩
  · refine ⟨1, 3, rfl, rfl, ?_⟩
    intro x hx
    simp only [positiveGenomes, List.mem_cons, List.mem_singleton, List.not_mem_nil,
      or_false] at hx
    rcases hx with h | h <;> rw [h] <;> norm_num
  · rintro ⟨fw, fm, h1, h2, h3⟩
    have e1 : fw = 3 := by
      have : (some ((0 : Int), (3 : ℚ))) = some ((0 : Int), fw) := h1
      simp only [Option.some.injEq, Prod.mk.injEq, true_and] at this
      exact this.symm
    have h4 := (h3 1 (by simp)).1
    rw [e1] at h4
    norm_num at h4

/-! ## A schema from chromosomes -/

theorem newLoop_spec : ∀ (cs : List Chromosome) (s : Schema),
    newLoop cs s
      = { s with sizeInBytes := s.sizeInBytes + (cs.map Chromosome.bytesLength).sum } := by
  intro cs
  induction cs with
  | nil => intro s; simp [newLoop]
  | cons c rest ih =>
    intro s
    simp only [newLoop, ih, List.map_cons, List.sum_cons, add_assoc]

theorem twoRegions_Mutate (S : Schema) (b : Int)
    (hS : S.chromosomes = [builtChromosome, { builtChromosome with bytesIndex := b }])
    (w : Slab) (hw : Slab.slice { off := 0, len := 16, cap := 16 } b (b + 8) = some w)
    (hb : (w.bytes [254, 253, 252, 251, 250, 249, 248, 247, 9, 10, 11, 12, 13, 14, 15, 16]).length
      = 8) :
    S.Mutate (fun _ _ _ => (1 / 2 : ℚ)) sixteenBytes [{ off := 0, len := 16, cap := 16 }]
      = .done ([254, 253, 252, 251, 250, 249, 248, 247, 9, 10, 11, 12, 13, 14, 15, 16].take w.off
          ++ ((w.bytes [254, 253, 252, 251, 250, 249, 248, 247, 9, 10, 11, 12, 13, 14, 15, 16]).map
                (fun x => x ^^^ 255)
          ++ [254, 253, 252, 251, 250, 249, 248, 247, 9, 10, 11, 12, 13, 14, 15, 16].drop
                (w.off + w.len))) := by
  have s1 : Slab.slice { off := 0, len := 16, cap := 16 } 0 (0 + 8)
      = some { off := 0, len := 8, cap := 16 } := by decide
  have m1 := Mutate_flip_all sixteenBytes { off := 0, len := 8, cap := 16 } (by decide)
  have r1 : List.take 0 sixteenBytes ++ (List.map (fun b => b ^^^ 255)
      (Slab.bytes { off := 0, len := 8, cap := 16 } sixteenBytes) ++ List.drop (0 + 8) sixteenBytes)
      = [254, 253, 252, 251, 250, 249, 248, 247, 9, 10, 11, 12, 13, 14, 15, 16] := by decide
  simp only [r1] at m1
  have m2 := Mutate_flip_all
    [254, 253, 252, 251, 250, 249, 248, 247, 9, 10, 11, 12, 13, 14, 15, 16] w hb
  simp only [Schema.Mutate, mutateGenotypes, mutateChromosomes, hS, builtChromosome, s1, hw, m1,
    m2]

/-- C37: the claim fails on the code.  The loop of `New` assigns `c.bytesIndex` in the loop
variable, a copy of the chromosome, so the chromosomes of the schema are the arguments as
they came, each with the `bytesIndex` it had, and only `sizeInBytes` is the sum of the
lengths; the regions follow one another from byte 0 exactly when those of the arguments
already did.  For the chromosome `c` that `Build` compiles for one `int` of 64 bits
(`bytesLength = 8`, `bytesIndex = 0`), `New(c, c)` has size 16 and both chromosomes at byte
0: the regions do not follow one another, and `Mutate` with `BitString(64)` on a genome of
16 bytes flips the bits of bytes 0..7 twice and never reaches bytes 8..15, where the schema
with the second chromosome at byte 8 flips every bit once. -/
theorem New_keeps_bytesIndex :
    (∀ cs : List Chromosome, (genotype.New cs).chromosomes = cs ∧
      (genotype.New cs).Size = (cs.map Chromosome.bytesLength).sum ∧
      (regionsFrom 0 (genotype.New cs).chromosomes ↔ regionsFrom 0 cs)) ∧
    (oneIntSchema SinglePoint 64).chromosomes = [builtChromosome] ∧
    (genotype.New [builtChromosome, builtChromosome]).Size = 16 ∧
    (genotype.New [builtChromosome, builtChromosome]).chromosomes.map Chromosome.bytesIndex
      = [0, 0] ∧
    ¬ regionsFrom 0 (genotype.New [builtChromosome, builtChromosome]).chromosomes ∧
    (genotype.New [builtChromosome, builtChromosome]).Mutate (fun _ _ _ => (1 / 2 : ℚ))
        sixteenBytes [{ off := 0, len := 16, cap := 16 }]
      = .done sixteenBytes ∧
    regionsFrom 0 [builtChromosome, builtChromosomeAt8] ∧
    Schema.Mutate { chromosomes := [builtChromosome, builtChromosomeAt8], sizeInBytes := 16 }
        (fun _ _ _ => (1 / 2 : ℚ)) sixteenBytes [{ off := 0, len := 16, cap := 16 }]
      = .done (sixteenBytes.map fun x => x ^^^ 255) := by
  have hnew : ∀ cs : List Chromosome, genotype.New cs
      = { chromosomes := cs, sizeInBytes := 0 + (cs.map Chromosome.bytesLength).sum } := by
    intro cs
    unfold genotype.New
    rw [newLoop_spec]
  refine ⟨?_, ?_, ?_, ?_, ?_, ?_, ?_, ?_⟩
  · intro cs
    rw [hnew cs]
    exact ⟨rfl, by simp [Schema.Size], Iff.rfl⟩
  · rw [oneIntSchema_eq]
    rfl
  · rw [hnew]
    decide
  · rw [hnew]
    decide
  · rw [hnew]
    simp [regionsFrom, builtChromosome]
  · have h := twoRegions_Mutate (genotype.New [builtChromosome, builtChromosome]) 0
      (by rw [hnew]; rfl) { off := 0, len := 8, cap := 16 } (by decide) (by decide)
    rw [h]
    decide
  · simp [regionsFrom, builtChromosome, builtChromosomeAt8]
  · have h := twoRegions_Mutate
      { chromosomes := [builtChromosome, builtChromosomeAt8], sizeInBytes := 16 } 8
      rfl { off := 8, len := 8, cap := 8 } (by decide) (by decide)
    rw [h]
    decide

/-! ## Parents that are stored in the slots of their children -/

theorem oneInt_select_swapped (S : Schema) (ga : gaSolver ℚ) (h : ga.isOneInt S)
    (h10 : ga.opts.selectionOp = some .random) (h11 : ga.opts.elite.len = 0) :
    ∃ ga1, selectBreedingPool ga swapDraws = some ga1 ∧ ga1.isOneInt S ∧
      ga1.generation = ga.generation ∧ ga1.opts = ga.opts ∧
      ga1.breedingPool = [{ mem := sixteenBytes, off := 8, len := 8 },
                          { mem := sixteenBytes, off := 0, len := 8 }] := by
  obtain ⟨h1, h2, h3, h4, h5, h6, h7, h8, h9⟩ := h
  obtain ⟨schema, ph, ⟨⟨size, cl, geno, fit, tot, srt, ft, wt⟩, pschema⟩, pool, gen, ff, opts⟩ := ga
  simp only at h1 h2 h3 h4 h5 h6 h7 h8 h9 h10 h11
  subst h1 h2 h3 h4 h5 h6 h7
  obtain ⟨x, y, rfl⟩ : ∃ x y, pool = [x, y] := by
    match pool, h9 with
    | [x, y], _ => exact ⟨x, y, rfl⟩
  have hl : sixteenBytes.length = 16 := rfl
  simp [selectBreedingPool, elitePart, h10, h11, SelectionOp.SelectInto,
    random.SelectInto, randomLoop, List.range, List.range.loop, Genomes.NIndividuals,
    Genomes.Genotype, hl, swapDraws, Genomes.afterCall]
  exact ⟨rfl, rfl, rfl, rfl, rfl, rfl, rfl, h8, rfl⟩

theorem oneInt_breedPairs_swapped (S : Schema) (d : EpochDraws ℚ) (p : Population ℚ)
    (h5 : p.size = 2) (h6 : p.chromosomeLen = 8) (h7 : p.genotype = sixteenBytes)
    (m1 m2 : List Nat)
    (hx : S.Crossover (d.crossover 0) sixteenBytes
        { off := 8, len := 8, cap := 8 } { off := 0, len := 8, cap := 16 }
        { off := 0, len := 8, cap := 16 } { off := 8, len := 8, cap := 8 } = .done m1)
    (hm : S.Mutate (d.mutate 0) m1
        [{ off := 0, len := 8, cap := 16 }, { off := 8, len := 8, cap := 8 }] = .done m2) :
    breedPairs S [{ mem := sixteenBytes, off := 8, len := 8 },
                  { mem := sixteenBytes, off := 0, len := 8 }] d [0] p
      = some { p with genotype := m2 } := by
  obtain ⟨⟨size, cl, geno, fit, tot, srt, ft, wt⟩, pschema⟩ := p
  simp only at h5 h6 h7
  subst h5 h6 h7
  have g0 : Genomes.Genotype
      ({ size := 2, chromosomeLen := 8, genotype := sixteenBytes, fitness := fit,
         totalFitness := tot, isSorted := srt, fittest := ft, worst := wt } : Genomes ℚ)
      (0 : Int) = some { mem := sixteenBytes, off := 0, len := 8 } := by
    simp [Genomes.Genotype, Genomes.NIndividuals, sixteenBytes]
  have g1 : Genomes.Genotype
      ({ size := 2, chromosomeLen := 8, genotype := sixteenBytes, fitness := fit,
         totalFitness := tot, isSorted := srt, fittest := ft, worst := wt } : Genomes ℚ)
      (1 : Int) = some { mem := sixteenBytes, off := 8, len := 8 } := by
    simp [Genomes.Genotype, Genomes.NIndividuals, sixteenBytes]
  have b0 : ByteSlice.slab { mem := sixteenBytes, off := 0, len := 8 }
      = { off := 0, len := 8, cap := 16 } := by decide
  have b1 : ByteSlice.slab { mem := sixteenBytes, off := 8, len := 8 }
      = { off := 8, len := 8, cap := 8 } := by decide
  simp [breedPairs, g0, g1, b0, b1, hx, hm]

/-- The no-crossover path of `Probability(3/4, SinglePoint())` and `BitString(0)` on four
slices of one array: the two calls of `copy`, one after the other. -/
theorem copyPath_run (S : Schema) (gs : List Gene)
    (hS : S.chromosomes = [{ type_ := .int, bytesIndex := 0, bytesLength := 8,
                             crossover := some (.probability ⟨3, 4⟩ SinglePoint),
                             mutate := some (.bitString ⟨0, 1⟩), genes := gs }])
    (mem : List Nat) (mom dad child1 child2 m f c1 c2 : Slab)
    (s1 : mom.slice 0 8 = some m) (s2 : dad.slice 0 8 = some f)
    (s3 : child1.slice 0 8 = some c1) (s4 : child2.slice 0 8 = some c2) :
    S.Crossover (swapDraws.crossover 0) mem mom dad child1 child2
      = .done (Slab.copy (Slab.copy mem c1 m) c2 f) := by
  have hq1 : (3 / 4 : ℚ) ≤ 7 / 8 := by norm_num
  have hv : Fraction.val ℚ ⟨3, 4⟩ = 3 / 4 := by
    unfold Fraction.val
    norm_num
  simp [Schema.Crossover, hS, crossoverChromosomes, s1, s2, s3, s4, CrossoverOp.Crossover,
    swapDraws, hv, hq1]

theorem take_bytes_drop (mem : List Nat) (w : Slab) :
    mem.take w.off ++ (w.bytes mem ++ mem.drop (w.off + w.len)) = mem := by
  unfold Slab.bytes
  rw [← List.drop_drop, List.take_append_drop, List.take_append_drop]

theorem Mutate_zero (mem : List Nat) (w : Slab) :
    MutationOp.Mutate (.bitString ⟨0, 1⟩) (fun _ => (7 / 8 : ℚ)) mem w = .done mem := by
  have hq2 : ¬ ((7 / 8 : ℚ) < 0) := by norm_num
  have hv : Fraction.val ℚ ⟨0, 1⟩ = 0 := by
    unfold Fraction.val
    norm_num
  simp only [MutationOp.Mutate, bitString.Mutate, mutateLoop_const, bitString.p, hv,
    zero_div, hq2, if_false, take_bytes_drop]

theorem copyPath_Mutate (S : Schema) (gs : List Gene)
    (hS : S.chromosomes = [{ type_ := .int, bytesIndex := 0, bytesLength := 8,
                             crossover := some (.probability ⟨3, 4⟩ SinglePoint),
                             mutate := some (.bitString ⟨0, 1⟩), genes := gs }])
    (mem : List Nat) (g1 g2 w1 w2 : Slab)
    (s1 : g1.slice 0 (0 + 8) = some w1) (s2 : g2.slice 0 (0 + 8) = some w2) :
    S.Mutate (swapDraws.mutate 0) mem [g1, g2] = .done mem := by
  simp only [Schema.Mutate, mutateGenotypes, mutateChromosomes, hS, s1, s2, swapDraws,
    Mutate_zero]

theorem oneInt_swapped_breed (S : Schema) (gs : List Gene)
    (hS : S.chromosomes = [{ type_ := .int, bytesIndex := 0, bytesLength := 8,
                             crossover := some (.probability ⟨3, 4⟩ SinglePoint),
                             mutate := some (.bitString ⟨0, 1⟩), genes := gs }])
    (ga : gaSolver ℚ) (h : ga.isOneInt S) (h10 : ga.opts.selectionOp = some .random)
    (h11 : ga.opts.elite.len = 0) :
    ∃ ga1 ga2, selectBreedingPool ga swapDraws = some ga1 ∧
      ga1.population.genotype = sixteenBytes ∧
      ga1.breedingPool = [{ mem := sixteenBytes, off := 8, len := 8 },
                          { mem := sixteenBytes, off := 0, len := 8 }] ∧
      ga1.population.Genotype 0 = some { mem := sixteenBytes, off := 0, len := 8 } ∧
      ga1.population.Genotype 1 = some { mem := sixteenBytes, off := 8, len := 8 } ∧
      nextGeneration ga swapDraws = some ga2 ∧ ga2.population.chromosomeLen = 8 ∧
      ga2.population.genotype
        = [9, 10, 11, 12, 13, 14, 15, 16, 9, 10, 11, 12, 13, 14, 15, 16] := by
  obtain ⟨ga1, hs, hi, hg, ho, hp⟩ := oneInt_select_swapped S ga h h10 h11
  obtain ⟨i1, i2, i3, i4, i5, i6, i7, i8, i9⟩ := hi
  have hx := copyPath_run S gs hS sixteenBytes
    { off := 8, len := 8, cap := 8 } { off := 0, len := 8, cap := 16 }
    { off := 0, len := 8, cap := 16 } { off := 8, len := 8, cap := 8 }
    { off := 8, len := 8, cap := 8 } { off := 0, len := 8, cap := 16 }
    { off := 0, len := 8, cap := 16 } { off := 8, len := 8, cap := 8 }
    (by decide) (by decide) (by decide) (by decide)
  have hc : Slab.copy (Slab.copy sixteenBytes { off := 0, len := 8, cap := 16 }
      { off := 8, len := 8, cap := 8 }) { off := 8, len := 8, cap := 8 }
      { off := 0, len := 8, cap := 16 }
      = [9, 10, 11, 12, 13, 14, 15, 16, 9, 10, 11, 12, 13, 14, 15, 16] := by decide
  rw [hc] at hx
  have hm := copyPath_Mutate S gs hS
    [9, 10, 11, 12, 13, 14, 15, 16, 9, 10, 11, 12, 13, 14, 15, 16]
    { off := 0, len := 8, cap := 16 } { off := 8, len := 8, cap := 8 }
    { off := 0, len := 8, cap := 16 } { off := 8, len := 8, cap := 8 } (by decide) (by decide)
  have hb := oneInt_breedPairs_swapped S swapDraws ga1.population i5 i6 i7 _ _ hx hm
  have hn : ga1.population.NIndividuals = 2 := i5
  have hlist : (List.range ((ga1.population.NIndividuals.toNat + 1) / 2)).map (fun i => 2 * i)
      = [0] := by
    rw [hn]
    decide
  have hn2 : nextGeneration ga swapDraws
      = some { ga1 with population := { ga1.population with
                          genotype := [9, 10, 11, 12, 13, 14, 15, 16, 9, 10, 11, 12, 13, 14, 15, 16] },
                        generation := ga1.generation + 1 } := by
    unfold nextGeneration
    simp only [hs, hlist, i1, hp, hb, Option.map_some']
  have g0 : ga1.population.Genotype 0 = some { mem := sixteenBytes, off := 0, len := 8 } := by
    simp [Genomes.Genotype, i6, i7, sixteenBytes]
  have g1 : ga1.population.Genotype 1 = some { mem := sixteenBytes, off := 8, len := 8 } := by
    simp [Genomes.Genotype, i6, i7, sixteenBytes]
  exact ⟨ga1, _, hs, i7, hp, g0, g1, hn2, i6, rfl⟩

/-- C35: the claim fails on the code when a parent is stored in the slot of a child.  The
entries of the breeding pool are slices of the genotype array, the children are written
into the same array, and `Crossover` starts with `copy(child1, mom)`, `copy(child2, dad)`.
For a solver of two genomes of 8 bytes, `[1..8]` and `[9..16]`, with
`Probability(3/4, SinglePoint())`, `BitString(0)` and random selection: the selection picks
individual 1 for pool entry 0 and individual 0 for pool entry 1, so the parents hold
`[9..16]` and `[1..8]` at the end of the selection and are the slots 1 and 0 of the
children; no crossover is drawn and no bit is flipped, so on children that are apart from
the parents the operators leave the copies `[9..16]` and `[1..8]`; `nextGeneration` leaves
`[9..16]` in slot 0 and `[9..16]` in slot 1: the first copy has overwritten the genome of
the second parent before it was read. -/
theorem children_overwrite_parents :
    ∃ ga0 ga1 r gs ga2,
      oneIntSolver (.probability ⟨3, 4⟩ SinglePoint) 0 [WithSelection .random] = .ok ga0 ∧
      calculateFitnessScores ga0 = some (ga1, r, false) ∧
      selectBreedingPool ga1 swapDraws = some gs ∧
      gs.breedingPool.map ByteSlice.bytes
        = [[9, 10, 11, 12, 13, 14, 15, 16], [1, 2, 3, 4, 5, 6, 7, 8]] ∧
      gs.population.Genotype 0 = gs.breedingPool[1]? ∧
      gs.population.Genotype 1 = gs.breedingPool[0]? ∧
      ga1.schema.Crossover (swapDraws.crossover 0) parentsAndChildren
          { off := 8, len := 8, cap := 24 } { off := 0, len := 8, cap := 32 }
          { off := 16, len := 8, cap := 16 } { off := 24, len := 8, cap := 8 }
        = .done (sixteenBytes ++ [9, 10, 11, 12, 13, 14, 15, 16, 1, 2, 3, 4, 5, 6, 7, 8]) ∧
      ga1.schema.Mutate (swapDraws.mutate 0)
          (sixteenBytes ++ [9, 10, 11, 12, 13, 14, 15, 16, 1, 2, 3, 4, 5, 6, 7, 8])
          [{ off := 16, len := 8, cap := 16 }, { off := 24, len := 8, cap := 8 }]
        = .done (sixteenBytes ++ [9, 10, 11, 12, 13, 14, 15, 16, 1, 2, 3, 4, 5, 6, 7, 8]) ∧
      nextGeneration ga1 swapDraws = some ga2 ∧
      (ga2.population.Genotype 0).map ByteSlice.bytes
        = some [9, 10, 11, 12, 13, 14, 15, 16] ∧
      (ga2.population.Genotype 1).map ByteSlice.bytes
        = some [9, 10, 11, 12, 13, 14, 15, 16] := by
  have hS := congrArg Schema.chromosomes (oneIntSchema_eq (.probability ⟨3, 4⟩ SinglePoint) 0)
  simp only at hS
  have e0 : (oneIntSchema (.probability ⟨3, 4⟩ SinglePoint) 0).Init intType
      = some { root := [0, 0, 0, 0, 0, 0, 0, 0] } := by
    unfold Schema.Init
    rfl
  obtain ⟨ga0, hok, hone, hgen, htar, hsel, hel⟩ :=
    oneIntSolver_isOneInt (.probability ⟨3, 4⟩ SinglePoint) 0
  obtain ⟨ga1, r1, hc1, hi1, hg1, ho1, _⟩ := oneInt_evaluation _ e0 (oneInt_Decode0 _ _)
    (oneInt_Decode1 _ _) ga0 hone
  have d1 : decide ((none : Option ℚ) = some 9) = false := by simp
  rw [htar, d1] at hc1
  obtain ⟨gs, ga2, hs, hgeno, hpool, hg0, hg1', hn, hq1, hq2⟩ := oneInt_swapped_breed _ _ hS ga1 hi1
    (by rw [ho1, hsel]) (by rw [ho1, hel])
  have hx := copyPath_run _ _ hS parentsAndChildren
    { off := 8, len := 8, cap := 24 } { off := 0, len := 8, cap := 32 }
    { off := 16, len := 8, cap := 16 } { off := 24, len := 8, cap := 8 }
    { off := 8, len := 8, cap := 24 } { off := 0, len := 8, cap := 32 }
    { off := 16, len := 8, cap := 16 } { off := 24, len := 8, cap := 8 }
    (by decide) (by decide) (by decide) (by decide)
  have hc : Slab.copy (Slab.copy parentsAndChildren { off := 16, len := 8, cap := 16 }
      { off := 8, len := 8, cap := 24 }) { off := 24, len := 8, cap := 8 }
      { off := 0, len := 8, cap := 32 }
      = sixteenBytes ++ [9, 10, 11, 12, 13, 14, 15, 16, 1, 2, 3, 4, 5, 6, 7, 8] := by decide
  rw [hc] at hx
  have hm := copyPath_Mutate _ _ hS
    (sixteenBytes ++ [9, 10, 11, 12, 13, 14, 15, 16, 1, 2, 3, 4, 5, 6, 7, 8])
    { off := 16, len := 8, cap := 16 } { off := 24, len := 8, cap := 8 }
    { off := 16, len := 8, cap := 16 } { off := 24, len := 8, cap := 8 } (by decide) (by decide)
  have hsch : ga1.schema = oneIntSchema (.probability ⟨3, 4⟩ SinglePoint) 0 := hi1.1
  refine ⟨ga0, ga1, r1, gs, ga2, hok, hc1, hs, ?_, ?_, ?_, ?_, ?_, hn, ?_, ?_⟩
  · rw [hpool]
    decide
  · rw [hpool, hg0]
    rfl
  · rw [hpool, hg1']
    rfl
  · rw [hsch]
    exact hx
  · rw [hsch]
    exact hm
  · simp [Genomes.Genotype, hq1, hq2, ByteSlice.bytes]
  · simp [Genomes.Genotype, hq1, hq2, ByteSlice.bytes]

end Genetta
